import Mathlib

/-! The PromQL mini-parser and the SigNoz query builder of grafana2signoz.

A shallow embedding of `internal/mapper/mapper.go`.

Modelling conventions.

* A Go `string` is a `Str`, a list of Unicode code points.  The program only
  receives strings decoded from JSON, which are valid UTF-8, and every byte it
  inspects on its own (`(`, `)`, `*`, `"`, `,`, ...) is ASCII, so indexing by byte and
  indexing by code point see the same delimiters.
* A Go loop whose bound is not syntactically evident, and the recursion of
  `parsePromQL`, take a fuel argument and return `none` when it runs out.  An
  out-of-range slice or index (a Go panic) is `none` as well.
* `regexp` is modelled by a backtracking matcher that lists every way a pattern
  can match, in the order a backtracking search meets them; the first entry is the
  leftmost-first match that Go reports.
-/

namespace Grafana2Signoz

/-- A Go string, as its sequence of code points. -/
abbrev Str := List Char

/-! ## Character classes -/

/-- The regexp class `\s`, which is `[\t\n\f\r ]`. -/
def isReSpace (c : Char) : Bool :=
  c == '\t' || c == '\n' || c == '\x0c' || c == '\r' || c == ' '

/-- Go `unicode.IsSpace`, the predicate behind `strings.TrimSpace`. -/
def isUnicodeSpace (c : Char) : Bool :=
  c == '\t' || c == '\n' || c == '\x0b' || c == '\x0c' || c == '\r' || c == ' ' ||
  c.toNat == 0x85 || c.toNat == 0xA0 || c.toNat == 0x1680 ||
  (0x2000 ≤ c.toNat && c.toNat ≤ 0x200A) ||
  c.toNat == 0x2028 || c.toNat == 0x2029 || c.toNat == 0x202F ||
  c.toNat == 0x205F || c.toNat == 0x3000

/-- The class `[0-9]`. -/
def isDigit (c : Char) : Bool := 48 ≤ c.toNat && c.toNat ≤ 57

/-- The class `[a-zA-Z]`. -/
def isLetter (c : Char) : Bool :=
  (97 ≤ c.toNat && c.toNat ≤ 122) || (65 ≤ c.toNat && c.toNat ≤ 90)

/-- The class `[a-zA-Z_:]`, first character of a metric name. -/
def isMetricStart (c : Char) : Bool := isLetter c || c == '_' || c == ':'

/-- The class `[a-zA-Z0-9_:]`, later characters of a metric name. -/
def isMetricChar (c : Char) : Bool := isLetter c || isDigit c || c == '_' || c == ':'

/-- The class `[a-zA-Z_]`, first character of a label name. -/
def isLabelStart (c : Char) : Bool := isLetter c || c == '_'

/-- The class `[a-zA-Z0-9_\.:]`, later characters of a label name. -/
def isLabelChar (c : Char) : Bool :=
  isLetter c || isDigit c || c == '_' || c == '.' || c == ':'

/-- The class `[a-zA-Z0-9_\.]` of template variable names. -/
def isTmplChar (c : Char) : Bool := isLetter c || isDigit c || c == '_' || c == '.'

/-- The regexp atom `.`, every character but the newline. -/
def isDot (c : Char) : Bool := c != '\n'

/-! ## The `strings` package -/

/-- Go `strings.TrimSpace`. -/
def trimSpace (s : Str) : Str :=
  ((s.dropWhile isUnicodeSpace).reverse.dropWhile isUnicodeSpace).reverse

/-- Go `strings.HasPrefix`. -/
def hasPrefix (s pre : Str) : Bool := pre.isPrefixOf s

/-- Go `strings.HasSuffix`. -/
def hasSuffix (s suf : Str) : Bool := suf.reverse.isPrefixOf s.reverse

/-- Go `strings.Contains`. -/
def containsStr : Str → Str → Bool
  | [], sub => sub.isEmpty
  | c :: t, sub => sub.isPrefixOf (c :: t) || containsStr t sub

/-- Go `strings.LastIndex`: the index of the last occurrence of `sub`, or `-1`. -/
def lastIndex : Str → Str → Int
  | [], sub => if sub.isEmpty then 0 else -1
  | c :: t, sub =>
    let r := lastIndex t sub
    if 0 ≤ r then r + 1
    else if sub.isPrefixOf (c :: t) then 0 else -1

/-- The Go slice expression `s[lo:hi]`, which panics unless `lo ≤ hi ≤ len(s)`. -/
def slice? (s : Str) (lo hi : Nat) : Option Str :=
  if lo ≤ hi ∧ hi ≤ s.length then some ((s.take hi).drop lo) else none

/-! ## The `regexp` package -/

/-- The regular expressions the program uses.  Every repetition in its patterns
applies to a single-character atom, so `star` and `plus` take a character class. -/
inductive Re where
  | lit (w : Str)
  | cls (p : Char → Bool)
  | seq (a b : Re)
  | alt (a b : Re)
  | opt (a : Re)
  | star (p : Char → Bool)
  | plus (p : Char → Bool)
  | group (i : Nat) (a : Re)
  | eot

/-- One way a pattern matches at a position: the submatches recorded so far, the
text consumed and the text left. -/
structure MatchRes where
  caps : List Str
  matched : Str
  rest : Str
deriving DecidableEq, Repr

/-- All prefixes of the input made of characters of the class, longest first (a
greedy repetition tries the longest first), each with the text left. -/
def starRun (p : Char → Bool) : Str → List (Str × Str)
  | [] => [([], [])]
  | c :: t =>
    if p c then (starRun p t).map (fun r => (c :: r.1, r.2)) ++ [([], c :: t)]
    else [([], c :: t)]

/-- Removes a literal prefix. -/
def stripLit : Str → Str → Option Str
  | [], s => some s
  | _ :: _, [] => none
  | a :: w, c :: s => if a = c then stripLit w s else none

/-- Every match of the pattern at the head of `s`, in backtracking order. -/
def Re.run : Re → List Str → Str → List MatchRes
  | .lit w, c, s =>
    match stripLit w s with
    | some t => [⟨c, w, t⟩]
    | none => []
  | .cls p, c, s =>
    match s with
    | x :: t => if p x then [⟨c, [x], t⟩] else []
    | [] => []
  | .seq a b, c, s =>
    (a.run c s).flatMap fun r =>
      (b.run r.caps r.rest).map fun r2 => ⟨r2.caps, r.matched ++ r2.matched, r2.rest⟩
  | .alt a b, c, s => a.run c s ++ b.run c s
  | .opt a, c, s => a.run c s ++ [⟨c, [], s⟩]
  | .star p, c, s => (starRun p s).map fun r => ⟨c, r.1, r.2⟩
  | .plus p, c, s =>
    match s with
    | x :: t => if p x then (starRun p t).map fun r => ⟨c, x :: r.1, r.2⟩ else []
    | [] => []
  | .group i a, c, s => (a.run c s).map fun r => ⟨r.caps.set i r.matched, r.matched, r.rest⟩
  | .eot, c, s =>
    match s with
    | [] => [⟨c, [], []⟩]
    | _ :: _ => []

/-- A compiled pattern: whether it starts with `^`, its number of groups, its body. -/
structure Regexp where
  anchored : Bool
  groups : Nat
  body : Re

/-- The leftmost-first match starting exactly at the head of `s`, as the list of
submatches (entry 0 is the whole match, an unmatched group is empty) and the text
left after it. -/
def Regexp.matchAt (re : Regexp) (s : Str) : Option (List Str × Str) :=
  ((re.body.run (List.replicate (re.groups + 1) []) s).head?).map
    fun r => (r.caps.set 0 r.matched, r.rest)

/-- The leftmost match in `s`, tried at each start position from the left; a
pattern starting with `^` is tried at the beginning only.  The result holds the
text skipped before the match, the submatches and the text left after the match. -/
def Regexp.search (re : Regexp) : Str → Option (Str × List Str × Str)
  | [] => (re.matchAt []).map fun r => ([], r.1, r.2)
  | c :: t =>
    match re.matchAt (c :: t) with
    | some r => some ([], r.1, r.2)
    | none =>
      if re.anchored then none
      else (re.search t).map fun r => (c :: r.1, r.2.1, r.2.2)

/-- Go `FindStringSubmatch`: the submatches of the leftmost match, or the nil
slice (the empty list) when there is none. -/
def Regexp.findStringSubmatch (re : Regexp) (s : Str) : List Str :=
  match re.search s with
  | some r => r.2.1
  | none => []

/-- The scan shared by `FindAllStringSubmatch` and `ReplaceAllString` for a pattern
without `^`: the successive non-overlapping leftmost matches, each with the text
skipped before it, and the text after the last match.  `skip` counts the characters
of the current match still to pass over, `afterMatch` tells that a match ended
right here (an empty match is not accepted there). -/
def Regexp.scan (re : Regexp) : Str → Nat → Bool → Str → List (Str × List Str) × Str
  | [], _, afterMatch, pending =>
    match re.matchAt [] with
    | some r => if afterMatch then ([], pending) else ([(pending, r.1)], [])
    | none => ([], pending)
  | _ :: t, skip + 1, _, pending => re.scan t skip (skip == 0) pending
  | c :: t, 0, afterMatch, pending =>
    match re.matchAt (c :: t) with
    | some r =>
      let n := (r.1.headD []).length
      if n = 0 then
        if afterMatch then
          let out := re.scan t 0 false (pending ++ [c])
          out
        else
          let out := re.scan t 0 false [c]
          ((pending, r.1) :: out.1, out.2)
      else
        let out := re.scan t (n - 1) (n == 1) []
        ((pending, r.1) :: out.1, out.2)
    | none => re.scan t 0 false (pending ++ [c])

/-- Go `FindAllStringSubmatch(s, -1)`. -/
def Regexp.findAllStringSubmatch (re : Regexp) (s : Str) : List (List Str) :=
  (re.scan s 0 false []).1.map fun r => r.2

/-- Go `ReplaceAllString`, the replacement template given as its expansion on the
submatches. -/
def Regexp.replaceAllString (re : Regexp) (s : Str) (expand : List Str → Str) : Str :=
  let out := re.scan s 0 false []
  (out.1.flatMap fun r => r.1 ++ expand r.2) ++ out.2

/-- A sequence of patterns. -/
def Re.seqs : List Re → Re
  | [] => .lit []
  | [a] => a
  | a :: b :: l => .seq a (Re.seqs (b :: l))

/-- An alternation of literals, in order. -/
def Re.alts : List Str → Re
  | [] => .cls fun _ => false
  | [a] => .lit a
  | a :: b :: l => .alt (.lit a) (Re.alts (b :: l))

/-- The pattern `\s*`. -/
def ws : Re := .star isReSpace

/-! ## The parsed expression -/

/-- The Go struct `labelMatcher`. -/
structure labelMatcher where
  Key : Str
  Op : Str
  Value : Str
deriving DecidableEq, Repr

/-- The Go struct `promQL`; every field starts at its zero value. -/
structure promQL where
  Metric : Str := []
  Labels : List labelMatcher := []
  Func : Str := []
  InnerFunc : Str := []
  Range : Str := []
  Agg : Str := []
  By : List Str := []
  Quantile : Str := []
  Offset : Str := []
  CmpOp : Str := []
  CmpRight : Str := []
  CmpIsBool : Bool := false
deriving DecidableEq, Repr

/-! ## Helpers of the parser -/

/-- Go `nonEmpty`: the default when `s` is blank. -/
def nonEmpty (s defaultVal : Str) : Str :=
  if trimSpace s = [] then defaultVal else s

/-- Go `contains` on a slice of strings. -/
def contains (ss : List Str) (s : Str) : Bool :=
  match ss with
  | [] => false
  | x :: rest => if x = s then true else contains rest s

/-- Go `isNumber`: non-empty, digits and dots only. -/
def isNumber (s : Str) : Bool :=
  if s = [] then false else s.all fun c => !((c.toNat < 48 || c.toNat > 57) && c != '.')

/-- The balance scan of `stripOuterParens`: the final depth, and whether the depth
stayed non-negative. -/
def parenScan : Str → Int → Bool → Int × Bool
  | [], depth, balanced => (depth, balanced)
  | c :: t, depth, balanced =>
    if c = '(' then parenScan t (depth + 1) balanced
    else if c = ')' then parenScan t (depth - 1) (if depth - 1 < 0 then false else balanced)
    else parenScan t depth balanced

/-- The loop of `stripOuterParens`, one iteration per unit of fuel. -/
def stripOuterParensFuel : Nat → Str → Option Str
  | 0, _ => none
  | fuel + 1, s =>
    if s.length < 2 || s.head? != some '(' || s.getLast? != some ')' then some s
    else
      let r := parenScan s 0 true
      if !r.2 || r.1 != 0 then some s
      else
        match slice? s 1 (s.length - 1) with
        | none => none
        | some inner => stripOuterParensFuel fuel (trimSpace inner)

/-- Go `stripOuterParens`. -/
def stripOuterParens (s : Str) : Option Str := stripOuterParensFuel (s.length + 1) s

/-- The loop of `stripArithmetic` at index `pre.length`: `pre` is `s[:i]`, the
second list is `s[i:]`. -/
def stripArithLoop (s : Str) : Str → Str → Nat → Option Str
  | _, [], _ => some s
  | pre, c :: t, depth =>
    if c = '(' then stripArithLoop s (pre ++ [c]) t (depth + 1)
    else if c = ')' then stripArithLoop s (pre ++ [c]) t (if depth > 0 then depth - 1 else depth)
    else if c = '*' ∨ c = '/' ∨ c = '+' ∨ c = '-' then
      if depth = 0 then
        let left := trimSpace pre
        let right := trimSpace t
        if isNumber right then stripOuterParens left
        else if isNumber left then stripOuterParens right
        else stripArithLoop s (pre ++ [c]) t depth
      else stripArithLoop s (pre ++ [c]) t depth
    else stripArithLoop s (pre ++ [c]) t depth

/-- Go `stripArithmetic`. -/
def stripArithmetic (s : Str) : Option Str := stripArithLoop s [] s 0

/-- The loop of `splitCSV`: the parts so far, the current part, the quote flag. -/
def splitCSVLoop : Str → List Str → Str → Bool → List Str
  | [], out, cur, _ => if cur.length > 0 then out ++ [trimSpace cur] else out
  | c :: t, out, cur, inQuote =>
    if c = '"' then splitCSVLoop t out (cur ++ [c]) (!inQuote)
    else if c = ',' ∧ !inQuote then splitCSVLoop t (out ++ [trimSpace cur]) [] inQuote
    else splitCSVLoop t out (cur ++ [c]) inQuote

/-- Go `splitCSV`. -/
def splitCSV (s : Str) : List Str := splitCSVLoop s [] [] false

/-! ## The patterns of the program -/

/-- The part `\s*(?:bool\s+)?([0-9]+(?:\.[0-9]+)?)$` of the comparison pattern. -/
def reCmpNumber : Re :=
  Re.seqs [
    ws,
    .opt (.seq (.lit "bool".toList) (.plus isReSpace)),
    .group 3 (.seq (.plus isDigit) (.opt (.seq (.lit ".".toList) (.plus isDigit)))),
    .eot]

/-- The part `\s*(>=|<=|==|!=|>|<)\s*(?:bool\s+)?([0-9]+(?:\.[0-9]+)?)$` of the
comparison pattern. -/
def reCmpTail : Re :=
  Re.seqs [
    ws,
    .group 2 (Re.alts [">=".toList, "<=".toList, "==".toList, "!=".toList, ">".toList, "<".toList]),
    reCmpNumber]

/-- The pattern `^(.*)\s*(>=|<=|==|!=|>|<)\s*(?:bool\s+)?([0-9]+(?:\.[0-9]+)?)$`. -/
def reCmp : Regexp where
  anchored := true
  groups := 3
  body := .seq (.group 1 (.star isDot)) reCmpTail

/-- The part `(.+)\)$` of the `histogram_quantile` pattern. -/
def reHistTail : Re :=
  Re.seqs [.group 2 (.plus isDot), .lit ")".toList, .eot]

/-- The pattern `^histogram_quantile\s*\(\s*([0-9]*\.?[0-9]+)\s*,\s*(.+)\)$`. -/
def reHist : Regexp where
  anchored := true
  groups := 2
  body := Re.seqs [
    .lit "histogram_quantile".toList, ws, .lit "(".toList, ws,
    .group 1 (Re.seqs [.star isDigit, .opt (.lit ".".toList), .plus isDigit]),
    ws, .lit ",".toList, ws,
    reHistTail]

/-- The alternation `sum|avg|min|max|count`. -/
def reAggName : Re :=
  Re.alts ["sum".toList, "avg".toList, "min".toList, "max".toList, "count".toList]

/-- The part `(.+)\s*\)$` of the first aggregation pattern. -/
def reAggATail : Re :=
  Re.seqs [.group 3 (.plus isDot), ws, .lit ")".toList, .eot]

/-- The pattern
`^(sum|avg|min|max|count)\s*(?:by\s*\(\s*([^\)]*)\s*\))?\s*\(\s*(.+)\s*\)$`. -/
def reAggA : Regexp where
  anchored := true
  groups := 3
  body := Re.seqs [
    .group 1 reAggName, ws,
    .opt (Re.seqs [.lit "by".toList, ws, .lit "(".toList, ws,
      .group 2 (.star fun c => c != ')'), ws, .lit ")".toList]),
    ws, .lit "(".toList, ws,
    reAggATail]

/-- The pattern
`^(sum|avg|min|max|count)\s*\(\s*(.+)\s*\)\s*by\s*\(\s*([^\)]*)\s*\)\s*$`. -/
def reAggB : Regexp where
  anchored := true
  groups := 3
  body := Re.seqs [
    .group 1 reAggName, ws, .lit "(".toList, ws,
    .group 2 (.plus isDot), ws,
    .lit ")".toList, ws, .lit "by".toList, ws, .lit "(".toList, ws,
    .group 3 (.star fun c => c != ')'), ws,
    .lit ")".toList, ws, .eot]

/-- The sub-pattern `(\{[^}]*\})?`, as group `i`. -/
def reSelector (i : Nat) : Re :=
  .opt (.group i (Re.seqs [.lit ['{'], .star fun c => c != '}', .lit ['}']]))

/-- The sub-pattern `(\[[^\]]+\])?`, as group `i`. -/
def reRange (i : Nat) : Re :=
  .opt (.group i (Re.seqs [.lit "[".toList, .plus fun c => c != ']', .lit "]".toList]))

/-- The part `([a-zA-Z_:][a-zA-Z0-9_:]*)\s*(\{[^}]*\})?\s*(\[[^\]]+\])?\s*\)\s*$` of
the rate-family pattern. -/
def reFnArgs : Re :=
  Re.seqs [
    .group 2 (.seq (.cls isMetricStart) (.star isMetricChar)), ws,
    reSelector 3, ws, reRange 4, ws,
    .lit ")".toList, ws, .eot]

/-- The pattern
`^(rate|irate|increase)\s*\(\s*([a-zA-Z_:][a-zA-Z0-9_:]*)\s*(\{[^}]*\})?\s*(\[[^\]]+\])?\s*\)\s*$`. -/
def reFn : Regexp where
  anchored := true
  groups := 4
  body := Re.seqs [
    .group 1 (Re.alts ["rate".toList, "irate".toList, "increase".toList]),
    ws, .lit "(".toList, ws,
    reFnArgs]

/-- The pattern `^([a-zA-Z_:][a-zA-Z0-9_:]*)\s*(\{[^}]*\})?\s*(\[[^\]]+\])?\s*$`. -/
def reSimple : Regexp where
  anchored := true
  groups := 3
  body := Re.seqs [
    .group 1 (.seq (.cls isMetricStart) (.star isMetricChar)), ws,
    reSelector 2, ws, reRange 3, ws, .eot]

/-- The pattern `^\s*([a-zA-Z_][a-zA-Z0-9_\.:]*)\s*(=~|!~|=|!=)\s*"(.*)"\s*$` of
`parseLabelSet`. -/
def reLabel : Regexp where
  anchored := true
  groups := 3
  body := Re.seqs [
    ws, .group 1 (.seq (.cls isLabelStart) (.star isLabelChar)), ws,
    .group 2 (Re.alts ["=~".toList, "!~".toList, "=".toList, "!=".toList]), ws,
    .lit ['"'], .group 3 (.star isDot), .lit ['"'], ws, .eot]

/-! ## The parser -/

/-- The loop of `parseLabelSet` over the comma-separated parts. -/
def parseLabelParts : List Str → List labelMatcher → Option (List labelMatcher)
  | [], out => some out
  | p :: rest, out =>
    let p1 := trimSpace p
    if p1 = [] then parseLabelParts rest out
    else
      let m := reLabel.findStringSubmatch p1
      if m.length = 4 then do
        let k ← m[1]?
        let o ← m[2]?
        let v ← m[3]?
        parseLabelParts rest (out ++ [⟨k, o, v⟩])
      else parseLabelParts rest out

/-- Go `parseLabelSet`. -/
def parseLabelSet (s0 : Str) : Option (List labelMatcher) :=
  let s := trimSpace s0
  if s = [] then some []
  else
    if hasPrefix s ['{'] && hasSuffix s ['}'] then do
      let s1 ← slice? s 1 (s.length - 1)
      parseLabelParts (splitCSV s1) []
    else parseLabelParts (splitCSV s) []

/-- Go `parsePromQL`, with one unit of fuel per level of recursion. -/
def parsePromQLFuel : Nat → Str → Option promQL
  | 0, _ => none
  | fuel + 1, expr => do
    let e0 := trimSpace expr
    let e1 ← stripOuterParens e0
    let e ← stripArithmetic e1
    let mc := reCmp.findStringSubmatch e
    if mc.length = 4 then
      let left := trimSpace (← mc[1]?)
      let inner ← parsePromQLFuel fuel left
      some { inner with CmpOp := ← mc[2]?, CmpRight := ← mc[3]?,
                        CmpIsBool := containsStr e " bool ".toList }
    else
    let i := lastIndex e " offset ".toList
    if i > 0 then
      let off := trimSpace (← slice? e (i.toNat + 8) e.length)
      let base := trimSpace (← slice? e 0 i.toNat)
      let inner ← parsePromQLFuel fuel base
      some { inner with Offset := off }
    else
    let mh := reHist.findStringSubmatch e
    if mh.length = 3 then
      let inner ← parsePromQLFuel fuel (← mh[2]?)
      let inner1 := { inner with InnerFunc := inner.Func, Func := "histogram_quantile".toList,
                                 Quantile := ← mh[1]? }
      if !contains inner1.By "le".toList then
        some { inner1 with By := inner1.By ++ ["le".toList] }
      else some inner1
    else
    let ma := reAggA.findStringSubmatch e
    if ma.length = 4 then
      let inner ← parsePromQLFuel fuel (← ma[3]?)
      let inner1 := { inner with Agg := ← ma[1]? }
      if (← ma[2]?) ≠ [] then some { inner1 with By := splitCSV (← ma[2]?) }
      else some inner1
    else
    let mb := reAggB.findStringSubmatch e
    if mb.length = 4 then
      let inner ← parsePromQLFuel fuel (← mb[2]?)
      let inner1 := { inner with Agg := ← mb[1]? }
      if (← mb[3]?) ≠ [] then some { inner1 with By := splitCSV (← mb[3]?) }
      else some inner1
    else
    let mf := reFn.findStringSubmatch e
    if mf.length = 5 then
      some { Metric := nonEmpty (← mf[2]?) [], Labels := ← parseLabelSet (← mf[3]?),
             Func := ← mf[1]?, Range := trimSpace (← mf[4]?) }
    else
    let ms := reSimple.findStringSubmatch e
    if ms.length ≥ 2 then
      some { Metric := ← ms[1]?, Labels := ← parseLabelSet (← ms[2]?),
             Range := trimSpace (← ms[3]?) }
    else
    some { Metric := e }

/-- Go `parsePromQL`: the fuel is the length of the input plus one, which the
recursion never exhausts since each call is on a shorter string. -/
def parsePromQL (expr : Str) : Option promQL := parsePromQLFuel (expr.length + 1) expr

/-! ## The query builder -/

/-- The pattern `\{\{\s*([a-zA-Z_][a-zA-Z0-9_\.:]*)\s*\}\}` of `legendPlaceholders`. -/
def reLegend : Regexp where
  anchored := false
  groups := 1
  body := Re.seqs [
    .lit ['{', '{'], ws,
    .group 1 (.seq (.cls isLabelStart) (.star isLabelChar)), ws,
    .lit ['}', '}']]

/-- The pattern `\$\{?([a-zA-Z0-9_\.]+)\}?` of `toSigNozTmpl`. -/
def reTmpl : Regexp where
  anchored := false
  groups := 1
  body := Re.seqs [
    .lit ['$'], .opt (.lit ['{']),
    .group 1 (.plus isTmplChar),
    .opt (.lit ['}'])]

/-- Go `legendPlaceholders`. -/
def legendPlaceholders (legend : Str) : List Str :=
  (reLegend.findAllStringSubmatch legend).map fun m => m.getD 1 []

/-- Go `looksLikeTemplate`. -/
def looksLikeTemplate (v : Str) : Bool :=
  containsStr v ['$'] || containsStr v ['{', '{']

/-- Go `toSigNozTmpl`; the replacement template expands to the first submatch
between `{{.` and `}}`. -/
def toSigNozTmpl (v : Str) : Str :=
  reTmpl.replaceAllString v fun m => ['{', '{', '.'] ++ m.getD 1 [] ++ ['}', '}']

/-- Go `pickAggOperator`. -/
def pickAggOperator (p : promQL) : Str :=
  if p.Agg ≠ [] then p.Agg else "avg".toList

/-- Go `innerFuncForHist`. -/
def innerFuncForHist (p : promQL) : Str :=
  if p.Func = "histogram_quantile".toList then "rate".toList else p.Func

/-- Go `pickTimeAggregation`, with one unit of fuel per level of recursion. -/
def pickTimeAggregationFuel : Nat → promQL → Option Str
  | 0, _ => none
  | fuel + 1, p =>
    if p.Func = "rate".toList ∨ p.Func = "irate".toList ∨ p.Func = "increase".toList then
      some "rate".toList
    else if p.Func = "histogram_quantile".toList then
      pickTimeAggregationFuel fuel { Func := innerFuncForHist p }
    else some "avg".toList

/-- Go `pickTimeAggregation`: the recursive call is on a record whose `Func` is the
result of `innerFuncForHist`, so two levels are enough. -/
def pickTimeAggregation (p : promQL) : Option Str := pickTimeAggregationFuel 2 p

/-- Go `guessMetricType`. -/
def guessMetricType (p : promQL) : Str :=
  if p.Func = "rate".toList ∨ p.Func = "irate".toList ∨ p.Func = "increase".toList then
    "Counter".toList
  else if p.Func = "histogram_quantile".toList ∧
      (p.InnerFunc = "rate".toList ∨ p.InnerFunc = "irate".toList ∨
        p.InnerFunc = "increase".toList) then
    "Counter".toList
  else "Gauge".toList

/-- The map that describes a tag key, in `filters.items[].key` and `groupBy[]`. -/
structure TagKey where
  dataType : Str
  id : Str
  isColumn : Bool
  isJSON : Bool
  key : Str
  type : Str
deriving DecidableEq, Repr

/-- An entry of `filters.items`. -/
structure FilterItem where
  id : Str
  key : TagKey
  op : Str
  value : Str
deriving DecidableEq, Repr

/-- An entry of `functions`: its name and its named arguments. -/
structure FunctionItem where
  name : Str
  args : List (Str × Str)
deriving DecidableEq, Repr

/-- An entry of `having`. -/
structure HavingItem where
  columnName : Str
  op : Str
  value : Str
deriving DecidableEq, Repr

/-- The tag key built for label `k`. -/
def tagKey (k : Str) : TagKey :=
  { dataType := "string".toList, id := k ++ "--string--tag--true".toList,
    isColumn := true, isJSON := false, key := k, type := "tag".toList }

/-- Go `buildFilterItems`. -/
def buildFilterItems (ms : List labelMatcher) : List FilterItem :=
  ms.map fun m =>
    let op := if m.Op = "=~".toList then "regex".toList
              else if m.Op = "!~".toList then "nregex".toList
              else m.Op
    { id := "f_".toList ++ m.Key, key := tagKey m.Key, op := op, value := toSigNozTmpl m.Value }

/-- Go `buildFunctions`. -/
def buildFunctions (p : promQL) : List FunctionItem :=
  let funcs : List FunctionItem := []
  let funcs :=
    if p.Func = "histogram_quantile".toList then
      funcs ++ [{ name := "histogram_quantile".toList,
                  args := [("q".toList, p.Quantile), ("leLabel".toList, "le".toList)] }]
    else funcs
  if p.Offset ≠ [] then
    funcs ++ [{ name := "offset".toList, args := [("duration".toList, p.Offset)] }]
  else funcs

/-- The Go statement `labels[k] = true` on the key list of a map: a new key is
added, a key already present leaves the key set as it is. -/
def mapInsert (keys : List Str) (k : Str) : List Str :=
  if k ∈ keys then keys else keys ++ [k]

/-- The key set of the Go map `labels` of `buildGroupBy`, in order of insertion. -/
def groupByLabels (p : promQL) (legend : Str) : List Str :=
  let labels := p.By.foldl mapInsert []
  let labels := (legendPlaceholders legend).foldl mapInsert labels
  if labels.length = 0 then
    (p.Labels.filter fun m => looksLikeTemplate m.Value).foldl (fun ks m => mapInsert ks m.Key) labels
  else labels

/-- Go `buildGroupBy`.  Go ranges over the keys of a map in an unspecified order,
here the enumeration `mapOrder` of the key set. -/
def buildGroupBy (mapOrder : List Str → List Str) (p : promQL) (legend : Str) : List TagKey :=
  (mapOrder (groupByLabels p legend)).map tagKey

/-! ## Targets, rules and the widget query -/

/-- The Go struct `parser.GrafanaTarget`, the fields the mapper reads. -/
structure GrafanaTarget where
  RefID : Str := []
  Expr : Str := []
  LegendFormat : Str := []
deriving DecidableEq, Repr

/-- The Go struct `Replacement`. -/
structure Replacement where
  Match : Str
  Replacement : Str
deriving DecidableEq, Repr

/-- The Go struct `Rules`; the panel type map is a list of pairs. -/
structure Rules where
  PanelTypeMap : List (Str × Str)
  DefaultPanel : Str
  QueryReplacements : List Replacement
  DefaultWidth : Int
  DefaultHeight : Int
deriving DecidableEq, Repr

/-- Go `DefaultRules`. -/
def DefaultRules : Rules where
  PanelTypeMap := [
    ("graph".toList, "graph".toList), ("timeseries".toList, "graph".toList),
    ("barchart".toList, "bar".toList), ("bar-gauge".toList, "bar".toList),
    ("gauge".toList, "value".toList), ("stat".toList, "value".toList),
    ("singlestat".toList, "value".toList), ("table".toList, "table".toList),
    ("piechart".toList, "pie".toList), ("pie-chart".toList, "pie".toList),
    ("heatmap".toList, "histogram".toList), ("histogram".toList, "histogram".toList),
    ("text".toList, "value".toList), ("logs".toList, "list".toList)]
  DefaultPanel := "graph".toList
  QueryReplacements := []
  DefaultWidth := 6
  DefaultHeight := 6

/-- What the mapper takes from outside the program: the identifier drawn by
`newUUID`, the library call `regexp.Compile(pattern)` followed by
`ReplaceAllString(in, repl)` behind `regexReplace` (given as `in`, `pattern`,
`repl`), and the order in which Go ranges over the keys of a map. -/
structure Env where
  uuid : Str
  regexReplace : Str → Str → Str → Str
  mapOrder : List Str → List Str

/-- The loop of `collectExprs` over the replacements, for one expression. -/
def applyReplacements (env : Env) (expr : Str) : List Replacement → Str
  | [] => expr
  | r :: rest =>
    if r.Match = [] then applyReplacements env expr rest
    else applyReplacements env (env.regexReplace expr r.Match r.Replacement) rest

/-- Go `collectExprs`. -/
def collectExprs (env : Env) (ts : List GrafanaTarget) (reps : List Replacement) : List Str :=
  match ts with
  | [] => []
  | t :: rest =>
    if t.Expr = [] then collectExprs env rest reps
    else applyReplacements env t.Expr reps :: collectExprs env rest reps

/-- The map under `filters` of a query item. -/
structure Filters where
  items : List FilterItem
  op : Str
deriving DecidableEq, Repr

/-- A builder query item, the map `qitem` of `makeSigNozQueryFromTargets`. -/
structure BuilderQueryItem where
  aggregateAttribute : TagKey
  aggregateOperator : Str
  dataSource : Str
  disabled : Bool
  expression : Str
  filters : Filters
  functions : List FunctionItem
  groupBy : List TagKey
  having : List HavingItem
  legend : Str
  limit : Option Int
  orderBy : List Str
  queryName : Str
  reduceTo : Str
  spaceAggregation : Str
  stepInterval : Int
  timeAggregation : Str
deriving DecidableEq, Repr

/-- An entry of `promql` or `clickhouse_sql`. -/
structure RawQuery where
  disabled : Bool
  legend : Str
  name : Str
  query : Str
deriving DecidableEq, Repr

/-- The map returned by `makeSigNozQueryFromTargets`; `queryData` and
`queryFormulas` are the entries of its `builder` map, `grafanaExprs` is its
`_grafanaExprs` entry. -/
structure SigNozQuery where
  queryType : Str
  queryData : List BuilderQueryItem
  queryFormulas : List Str
  promql : List RawQuery
  clickhouse_sql : List RawQuery
  id : Str
  grafanaExprs : List Str
deriving DecidableEq, Repr

/-- The body of the loop of `makeSigNozQueryFromTargets` for a target whose
trimmed expression `expr` is not empty: the query item and the `promql` entry. -/
def makeQueryItem (env : Env) (t : GrafanaTarget) (expr : Str) :
    Option (BuilderQueryItem × RawQuery) := do
  let p ← parsePromQL expr
  let qitem : BuilderQueryItem := {
    aggregateAttribute := {
      dataType := "float64".toList,
      id := p.Metric ++ "--float64--".toList ++ guessMetricType p ++ "--true".toList,
      isColumn := true,
      isJSON := false,
      key := p.Metric,
      type := guessMetricType p },
    aggregateOperator := pickAggOperator p,
    dataSource := "metrics".toList,
    disabled := false,
    expression := nonEmpty t.RefID "A".toList,
    filters := { items := buildFilterItems p.Labels, op := "AND".toList },
    functions := buildFunctions p,
    groupBy := buildGroupBy env.mapOrder p t.LegendFormat,
    having := [],
    legend := nonEmpty t.LegendFormat [],
    limit := none,
    orderBy := [],
    queryName := nonEmpty t.RefID "A".toList,
    reduceTo := "avg".toList,
    spaceAggregation := "sum".toList,
    stepInterval := 60,
    timeAggregation := ← pickTimeAggregation p }
  let qitem :=
    if p.CmpOp ≠ [] ∧ p.CmpRight ≠ [] then
      { qitem with having := [{ columnName := "#SIGNOZ_VALUE".toList, op := p.CmpOp,
                                value := p.CmpRight }] }
    else qitem
  some (qitem, { disabled := false, legend := nonEmpty t.LegendFormat [],
                 name := nonEmpty t.RefID "A".toList, query := expr })

/-- The loop of `makeSigNozQueryFromTargets`: the lists `qd` and `promql`. -/
def makeQueryLoop (env : Env) : List GrafanaTarget → Option (List BuilderQueryItem × List RawQuery)
  | [] => some ([], [])
  | t :: rest =>
    let expr := trimSpace t.Expr
    if expr = [] then makeQueryLoop env rest
    else do
      let item ← makeQueryItem env t expr
      let out ← makeQueryLoop env rest
      some (item.1 :: out.1, item.2 :: out.2)

/-- Go `makeSigNozQueryFromTargets`. -/
def makeSigNozQueryFromTargets (env : Env) (ts : List GrafanaTarget) (rules : Rules) :
    Option SigNozQuery := do
  let out ← makeQueryLoop env ts
  some {
    queryType := "builder".toList,
    queryData := out.1,
    queryFormulas := [],
    promql := out.2,
    clickhouse_sql := [{ disabled := false, legend := [], name := "A".toList, query := [] }],
    id := env.uuid,
    grafanaExprs := collectExprs env ts rules.QueryReplacements }

/-! ## Definitions used by the statements and their proofs -/

/-- Letters, digits, `_`, `:` and `.`: the characters of every name, duration and
number that the statements below quantify over. -/
def isWordChar (c : Char) : Bool :=
  isLetter c || isDigit c || c == '_' || c == ':' || c == '.'

/-- The splits of `xs ++ rest` at the proper prefixes of `xs`, longest first. -/
def properSplits : Str → Str → List (Str × Str)
  | [], _ => []
  | x :: xs, rest =>
    (properSplits xs rest).map (fun r => (x :: r.1, r.2)) ++ [([], x :: (xs ++ rest))]

/-- A sufficient test that every match of the pattern consumes a character
satisfying `q`. -/
def Re.needs (q : Char → Bool) : Re → Bool
  | .lit w => w.any q
  | .cls _ => false
  | .seq a b => a.needs q || b.needs q
  | .alt a b => a.needs q && b.needs q
  | .opt _ => false
  | .star _ => false
  | .plus _ => false
  | .group _ a => a.needs q
  | .eot => false

/-- The input is left as it is by the three normalisation steps of `parsePromQL`:
trimming, `stripOuterParens` and `stripArithmetic`. -/
def Clean (e : Str) : Prop :=
  trimSpace e = e ∧ stripOuterParens e = some e ∧ stripArithmetic e = some e

/-- A metric name, `[a-zA-Z_:][a-zA-Z0-9_:]*`. -/
def isMetricName : Str → Bool
  | [] => false
  | c :: cs => isMetricStart c && cs.all isMetricChar

/-- The depth reached by the scan of `stripArithmetic` over `seg` started at depth
`d`, or `none` when the scan meets one of `* / + -` at depth 0. -/
def arithScan : Str → Nat → Option Nat
  | [], d => some d
  | c :: t, d =>
    if c = '(' then arithScan t (d + 1)
    else if c = ')' then arithScan t (if d > 0 then d - 1 else d)
    else if c = '*' ∨ c = '/' ∨ c = '+' ∨ c = '-' then
      if d = 0 then none else arithScan t d
    else arithScan t d

/-- The matches of a pattern after the first one. -/
def laterMatches (R : Re) (c : List Str) (s : Str) : List MatchRes := (R.run c s).tail

/-- The characters allowed between the braces of the selectors considered below:
anything but `}`, the parentheses, the space and the newline. -/
def isSelChar (c : Char) : Bool :=
  c != '}' && c != '(' && c != ')' && c != ' ' && c != '\n'

/-- One of the function names `rate`, `irate`, `increase`. -/
def isRateFn (f : Str) : Bool :=
  f == "rate".toList || f == "irate".toList || f == "increase".toList

/-- An alphanumeric duration: a non-empty string of letters and digits. -/
def isDuration : Str → Bool
  | [] => false
  | c :: t => (c :: t).all fun x => isLetter x || isDigit x

/-- A selector as the statements below take it: absent, or braces around
characters of `isSelChar`. -/
def isSelector : Str → Bool
  | [] => true
  | c :: t => c == '{' && t.getLast? == some '}' && t.dropLast.all isSelChar

/-- The expression `f(m sel [d])`. -/
def leafExpr (f m sel d : Str) : Str :=
  f ++ "(".toList ++ m ++ sel ++ "[".toList ++ d ++ "])".toList

/-- One of the aggregation operators `sum`, `avg`, `min`, `max`, `count`. -/
def isAggName (a : Str) : Bool :=
  a == "sum".toList || a == "avg".toList || a == "min".toList || a == "max".toList ||
    a == "count".toList

/-- A label name, `[a-zA-Z_][a-zA-Z0-9_\.:]*`. -/
def isLabelName : Str → Bool
  | [] => false
  | c :: cs => isLabelStart c && cs.all isLabelChar

/-- The names of `L` separated by commas. -/
def joinComma : List Str → Str
  | [] => []
  | [a] => a
  | a :: b :: l => a ++ [','] ++ joinComma (b :: l)

/-- The expression `agg by (L) (X)`. -/
def aggByExpr (agg L X : Str) : Str :=
  agg ++ " by (".toList ++ L ++ ") (".toList ++ X ++ ")".toList

/-- The expression `agg(X) by (L)`. -/
def aggAfterExpr (agg X L : Str) : Str :=
  agg ++ "(".toList ++ X ++ ") by (".toList ++ L ++ ")".toList

/-- The expression `histogram_quantile(q, X)`. -/
def histExpr (q X : Str) : Str :=
  "histogram_quantile(".toList ++ q ++ ", ".toList ++ X ++ ")".toList

/-- What the wrapper patterns need of the expression `X` they enclose: it starts
with a character that is neither a space nor `o`, holds no newline, keeps the
parenthesis depth of `stripArithmetic` with none of `* / + -` at depth 0, and does
not contain the word ` offset `. -/
def Inner (X : Str) : Prop :=
  (∃ x t, X = x :: t ∧ isReSpace x = false ∧ x ≠ 'o') ∧ (∀ c ∈ X, isDot c = true) ∧
  (∀ k, arithScan X k = some k) ∧ containsStr X " offset ".toList = false

/-- The characters of a comma-separated list of names. -/
def isByChar (c : Char) : Bool := isWordChar c || c == ','

/-- A quantile literal: digits, or digits (possibly none) followed by a point and
at least one digit. -/
def isQuantileLit (q : Str) : Bool :=
  match q.dropWhile isDigit with
  | [] => !q.isEmpty
  | c :: t => c == '.' && !t.isEmpty && t.all isDigit

/-- One of the comparison operators `>=`, `<=`, `==`, `!=`, `>`, `<`. -/
def isCmpOp (op : Str) : Bool :=
  op == ">=".toList || op == "<=".toList || op == "==".toList || op == "!=".toList ||
    op == ">".toList || op == "<".toList

/-- A character of a comparison operator. -/
def isCmpChar (c : Char) : Bool := c == '>' || c == '<' || c == '=' || c == '!'

/-- An unsigned decimal literal: digits, optionally followed by a point and digits. -/
def isDecimalLit (n : Str) : Bool :=
  !(n.takeWhile isDigit).isEmpty &&
  match n.dropWhile isDigit with
  | [] => true
  | c :: t => c == '.' && !t.isEmpty && t.all isDigit

/-- The text between the operator and the number of a comparison: a space, with
the modifier `bool` and another space when `withBool` is set. -/
def cmpSep (withBool : Bool) : Str :=
  if withBool then " bool ".toList else " ".toList

/-- The expression `base offset d`. -/
def offsetExpr (base d : Str) : Str := base ++ " offset ".toList ++ d

/-- The expression `X op n`, or `X op bool n` when `withBool` is set. -/
def cmpExpr (X op : Str) (withBool : Bool) (n : Str) : Str :=
  (X ++ [' ']) ++ (op ++ (cmpSep withBool ++ n))

/-- One of the arithmetic operators `*`, `/`, `+`, `-`. -/
def isArithOp (o : Char) : Bool := o == '*' || o == '/' || o == '+' || o == '-'

/-- A lower bound on the length of the text a pattern consumes. -/
def Re.minLen : Re → Nat
  | .lit w => w.length
  | .cls _ => 1
  | .seq a b => a.minLen + b.minLen
  | .alt a b => min a.minLen b.minLen
  | .opt _ => 0
  | .star _ => 0
  | .plus _ => 1
  | .group _ a => a.minLen
  | .eot => 0

/-- Whether the pattern holds a group numbered `i`. -/
def Re.hasGroup (i : Nat) : Re → Bool
  | .lit _ => false
  | .cls _ => false
  | .seq a b => a.hasGroup i || b.hasGroup i
  | .alt a b => a.hasGroup i || b.hasGroup i
  | .opt a => a.hasGroup i
  | .star _ => false
  | .plus _ => false
  | .group j a => j == i || a.hasGroup i
  | .eot => false

/-- A lower bound on the number of characters a match consumes outside the text
recorded for group `i`, when the match records that group. -/
def Re.slack (i : Nat) : Re → Nat
  | .lit _ => 0
  | .cls _ => 0
  | .seq a b =>
    if b.hasGroup i then
      if a.hasGroup i then min (b.slack i + a.minLen) (a.slack i + b.minLen)
      else b.slack i + a.minLen
    else a.slack i + b.minLen
  | .alt a b =>
    if b.hasGroup i then
      if a.hasGroup i then min (a.slack i) (b.slack i) else b.slack i
    else a.slack i
  | .opt a => a.slack i
  | .star _ => 0
  | .plus _ => 0
  | .group j a => if j = i then 0 else a.slack i
  | .eot => 0

/-- The body of `parsePromQL` after the three normalisation steps, the recursive
call given as `rec`. -/
def parseBody (rec : Str → Option promQL) (e : Str) : Option promQL := do
  let mc := reCmp.findStringSubmatch e
  if mc.length = 4 then
    let left := trimSpace (← mc[1]?)
    let inner ← rec left
    some { inner with CmpOp := ← mc[2]?, CmpRight := ← mc[3]?,
                      CmpIsBool := containsStr e " bool ".toList }
  else
  let i := lastIndex e " offset ".toList
  if i > 0 then
    let off := trimSpace (← slice? e (i.toNat + 8) e.length)
    let base := trimSpace (← slice? e 0 i.toNat)
    let inner ← rec base
    some { inner with Offset := off }
  else
  let mh := reHist.findStringSubmatch e
  if mh.length = 3 then
    let inner ← rec (← mh[2]?)
    let inner1 := { inner with InnerFunc := inner.Func, Func := "histogram_quantile".toList,
                               Quantile := ← mh[1]? }
    if !contains inner1.By "le".toList then
      some { inner1 with By := inner1.By ++ ["le".toList] }
    else some inner1
  else
  let ma := reAggA.findStringSubmatch e
  if ma.length = 4 then
    let inner ← rec (← ma[3]?)
    let inner1 := { inner with Agg := ← ma[1]? }
    if (← ma[2]?) ≠ [] then some { inner1 with By := splitCSV (← ma[2]?) }
    else some inner1
  else
  let mb := reAggB.findStringSubmatch e
  if mb.length = 4 then
    let inner ← rec (← mb[2]?)
    let inner1 := { inner with Agg := ← mb[1]? }
    if (← mb[3]?) ≠ [] then some { inner1 with By := splitCSV (← mb[3]?) }
    else some inner1
  else
  let mf := reFn.findStringSubmatch e
  if mf.length = 5 then
    some { Metric := nonEmpty (← mf[2]?) [], Labels := ← parseLabelSet (← mf[3]?),
           Func := ← mf[1]?, Range := trimSpace (← mf[4]?) }
  else
  let ms := reSimple.findStringSubmatch e
  if ms.length ≥ 2 then
    some { Metric := ← ms[1]?, Labels := ← parseLabelSet (← ms[2]?),
           Range := trimSpace (← ms[3]?) }
  else
  some { Metric := e }
/-- An environment for concrete runs: a fixed identifier, a `regexReplace` that
leaves its input as it is, and map keys ranged over in order of insertion. -/
def plainEnv : Env where
  uuid := "00000000-0000-0000-0000-000000000000".toList
  regexReplace := fun s _ _ => s
  mapOrder := fun ks => ks

/-- The class `[a-zA-Z0-9_]` of the names of template variables. -/
def isNameChar (c : Char) : Bool := isLetter c || isDigit c || c == '_'

/-! ## The dashboard: `GrafanaToSigNoz` and `ValidateSigNozDashboard` -/

/-- The tables of Go package `unicode` on the code points above the ASCII range:
the case mappings and the classes that `strings.ToLower`, `strings.ToUpper` and
`strings.Title` consult.  On ASCII the functions below compute the result
themselves. -/
structure Unicode where
  toLower : Char → Char
  toUpper : Char → Char
  toTitle : Char → Char
  isLetter : Char → Bool
  isDigit : Char → Bool
  isSpace : Char → Bool

/-- Go `unicode.ToLower` on one code point. -/
def lowerRune (u : Unicode) (c : Char) : Char :=
  if c.toNat < 128 then c.toLower else u.toLower c

/-- Go `unicode.ToUpper` on one code point. -/
def upperRune (u : Unicode) (c : Char) : Char :=
  if c.toNat < 128 then c.toUpper else u.toUpper c

/-- Go `unicode.ToTitle` on one code point; on ASCII it is the upper case. -/
def titleRune (u : Unicode) (c : Char) : Char :=
  if c.toNat < 128 then c.toUpper else u.toTitle c

/-- Go `strings.ToLower`. -/
def toLower (u : Unicode) (s : Str) : Str := s.map (lowerRune u)

/-- Go `strings.ToUpper`. -/
def toUpper (u : Unicode) (s : Str) : Str := s.map (upperRune u)

/-- Go `isSeparator` of package `strings`: ASCII letters, digits and `_` are not
separators, other ASCII characters are; above ASCII, letters and digits are not
separators and spaces are. -/
def isSeparator (u : Unicode) (c : Char) : Bool :=
  if c.toNat ≤ 0x7F then !(isDigit c || isLetter c || c == '_')
  else if u.isLetter c || u.isDigit c then false
  else u.isSpace c

/-- The mapping of `strings.Title` along the string, `prev` the previous code
point. -/
def titleLoop (u : Unicode) : Char → Str → Str
  | _, [] => []
  | prev, r :: t => (if isSeparator u prev then titleRune u r else r) :: titleLoop u r t

/-- Go `strings.Title`. -/
def title (u : Unicode) (s : Str) : Str := titleLoop u ' ' s

/-- The decimal digits of `n`, most significant first, with one unit of fuel per
digit. -/
def digitsFuel : Nat → Nat → Str
  | 0, _ => []
  | fuel + 1, n =>
    if n < 10 then [Char.ofNat (48 + n)]
    else digitsFuel fuel (n / 10) ++ [Char.ofNat (48 + n % 10)]

/-- The verb `%d` of `fmt.Sprintf` on a natural number. -/
def formatNat (n : Nat) : Str := digitsFuel (n + 1) n

/-- The verb `%d` of `fmt.Sprintf` on an integer. -/
def formatInt : Int → Str
  | .ofNat n => formatNat n
  | .negSucc n => '-' :: formatNat (n + 1)

/-- The Go struct `parser.GrafanaGridPos`. -/
structure GrafanaGridPos where
  H : Int
  W : Int
  X : Int
  Y : Int
deriving DecidableEq, Repr

/-- The Go struct `parser.GrafanaPanel`, the fields the mapper reads; a nil
`GridPos` is `none`, the field `Type` is `Typ` here. -/
structure GrafanaPanel where
  ID : Int
  Typ : Str := []
  Title : Str := []
  Targets : List GrafanaTarget := []
  GridPos : Option GrafanaGridPos := none
deriving DecidableEq, Repr

/-- The Go struct `parser.GrafanaVariable`, the fields the mapper reads; the JSON
value `Query` is kept as text, the field `Type` is `Typ` here. -/
structure GrafanaVariable where
  Name : Str := []
  Typ : Str := []
  Query : Str := []
  Label : Str := []
  IncludeAll : Bool := false
  Multi : Bool := false
deriving DecidableEq, Repr

/-- The Go struct `parser.GrafanaDashboard`; `Templating` is its list. -/
structure GrafanaDashboard where
  Title : Str := []
  UID : Str := []
  Templating : List GrafanaVariable := []
  Panels : List GrafanaPanel := []
deriving DecidableEq, Repr

/-- The Go struct `SigNozLayout`. -/
structure SigNozLayout where
  H : Int
  W : Int
  X : Int
  Y : Int
  I : Str
  Moved : Bool
  Static : Bool
deriving DecidableEq, Repr

/-- The Go struct `SigNozWidget`; `Query` is the map built by
`makeSigNozQueryFromTargets`. -/
structure SigNozWidget where
  ID : Str
  Title : Str
  PanelType : Str
  TimePreference : Str
  Description : Str
  Query : SigNozQuery
deriving DecidableEq, Repr

/-- An entry of the map built by `buildVariables`. -/
structure VariableItem where
  id : Str
  name : Str
  type : Str
  modificationUUID : Str
  queryValue : Str
  multiSelect : Bool
  showALLOption : Bool
  order : Nat
  description : Str
  sort : Str
  customValue : Str
  textboxValue : Str
  allSelected : Bool
deriving DecidableEq, Repr

/-- The Go struct `SigNozDashboard`; the maps `Variables` and `PanelMap` are lists
of pairs. -/
structure SigNozDashboard where
  Title : Str
  UUID : Str
  Version : Str
  Tags : List Str
  Layout : List SigNozLayout
  Widgets : List SigNozWidget
  Variables : List (Str × VariableItem)
  PanelMap : List (Str × Str)
  UploadedGrafana : Bool
  Description : Str
deriving DecidableEq, Repr

/-- The Go statement `out[id] = v` on a map kept as a list of pairs: the value of
a key already present is replaced, a new key is added. -/
def mapSet (m : List (Str × VariableItem)) (k : Str) (v : VariableItem) :
    List (Str × VariableItem) :=
  if m.any (fun e => e.1 == k) then m.map (fun e => if e.1 = k then (k, v) else e)
  else m ++ [(k, v)]

/-- The loop of `buildVariables` from index `i`; `ids n` is the identifier that the
`n`-th call of `newUUID` draws, `k` counts the calls made so far. -/
def buildVariablesLoop (u : Unicode) (ids : Nat → Str) :
    List GrafanaVariable → Nat → Nat → List (Str × VariableItem) → List (Str × VariableItem)
  | [], _, _, out => out
  | v :: rest, i, k, out =>
    let id := ids k
    let typ := toUpper u v.Typ
    let typ := if typ = [] then "TEXT".toList else typ
    let name := v.Name
    let name := if name = [] then "var_".toList ++ formatNat i else name
    let item : VariableItem := {
      id := id, name := name, type := typ, modificationUUID := ids (k + 1),
      queryValue := v.Query, multiSelect := v.Multi, showALLOption := v.IncludeAll,
      order := i, description := v.Label, sort := "DISABLED".toList, customValue := [],
      textboxValue := [], allSelected := false }
    buildVariablesLoop u ids rest (i + 1) (k + 2) (mapSet out id item)

/-- Go `buildVariables`. -/
def buildVariables (u : Unicode) (ids : Nat → Str) (g : GrafanaDashboard) :
    List (Str × VariableItem) :=
  buildVariablesLoop u ids g.Templating 0 0 []

/-- The comparison given to `sort.SliceStable` in `GrafanaToSigNoz`: panels with a
grid position come first, by `Y` then `X`; panels without one follow, by `ID`. -/
def panelLess (a b : GrafanaPanel) : Bool :=
  match a.GridPos, b.GridPos with
  | none, none => a.ID < b.ID
  | none, some _ => false
  | some _, none => true
  | some pi, some pj => if pi.Y = pj.Y then pi.X < pj.X else pi.Y < pj.Y

/-- Inserts `x` into a sorted list after the elements that are less than `x` and
before the others. -/
def insertStable {α : Type} (less : α → α → Bool) (x : α) : List α → List α
  | [] => [x]
  | y :: l => if less y x then y :: insertStable less x l else x :: y :: l

/-- Go `sort.SliceStable`: the elements in the order of `less`, equal elements in
their original order.  The comparison of `GrafanaToSigNoz` is a strict weak
order, for which this result is the only one a stable sort can give. -/
def sortStable {α : Type} (less : α → α → Bool) : List α → List α
  | [] => []
  | x :: l => insertStable less x (sortStable less l)

/-- The panel type of the widget: the entry of the rule map for the lower-cased
panel type, or the default panel when the entry is missing or empty. -/
def mapPanelType (u : Unicode) (rules : Rules) (p : GrafanaPanel) : Str :=
  let pt := toLower u p.Typ
  match rules.PanelTypeMap.lookup pt with
  | some mapped => if mapped = [] then rules.DefaultPanel else mapped
  | none => rules.DefaultPanel

/-- The width and height of the layout entry of a panel. -/
def panelSize (rules : Rules) (p : GrafanaPanel) : Int × Int :=
  let w := rules.DefaultWidth
  let h := rules.DefaultHeight
  match p.GridPos with
  | some gp => (if gp.W > 0 then gp.W else w, if gp.H > 0 then gp.H else h)
  | none => (w, h)

/-- A sum of Go `int` values on a 64-bit platform: the exact sum `x` wrapped into the
range from `-2^63` to `2^63 - 1`. -/
def wrapInt (x : Int) : Int :=
  (x + 9223372036854775808) % 18446744073709551616 - 9223372036854775808

/-- The loop of `GrafanaToSigNoz` over the sorted panels: the widgets and the
layout entries appended so far, the packing cursor `curX`, `curY`, `rowH`, and
the number `k` of identifiers drawn so far.  The sums `curX + w` and `curY + rowH` are
sums of Go `int` values and wrap. -/
def widgetLoop (env : Env) (u : Unicode) (ids : Nat → Str) (rules : Rules) :
    List GrafanaPanel → Nat → Int → Int → Int → List SigNozWidget → List SigNozLayout →
      Option (List SigNozWidget × List SigNozLayout)
  | [], _, _, _, _, widgets, layout => some (widgets, layout)
  | p :: rest, k, curX, curY, rowH, widgets, layout => do
    let pt := toLower u p.Typ
    let mapped := mapPanelType u rules p
    let q ← makeSigNozQueryFromTargets { env with uuid := ids k } p.Targets rules
    let id := "w_".toList ++ formatInt p.ID
    let widget : SigNozWidget := {
      ID := id,
      Title := nonEmpty p.Title (title u mapped),
      PanelType := mapped,
      TimePreference := "GLOBAL_TIME".toList,
      Description := "Migrated from Grafana (type: ".toList ++ pt ++
        "); original queries preserved in _grafanaExprs.".toList,
      Query := q }
    let wh := panelSize rules p
    let w := wh.1
    let h := wh.2
    let wrap : Bool := wrapInt (curX + w) > 24
    let curX := if wrap then 0 else curX
    let curY := if wrap then wrapInt (curY + rowH) else curY
    let rowH := if wrap then 0 else rowH
    let entry : SigNozLayout :=
      { H := h, W := w, X := curX, Y := curY, I := id, Moved := false, Static := false }
    widgetLoop env u ids rules rest (k + 1) (wrapInt (curX + w)) curY
      (if h > rowH then h else rowH)
      (widgets ++ [widget]) (layout ++ [entry])

/-- Go `GrafanaToSigNoz`; nil rules are `none`.  `ids n` is the identifier that the
`n`-th call of `newUUID` draws: two calls for each variable, then one for each
panel. -/
def GrafanaToSigNoz (env : Env) (u : Unicode) (ids : Nat → Str) (g : GrafanaDashboard)
    (rules0 : Option Rules) : Option SigNozDashboard := do
  let rules := match rules0 with
    | some r => r
    | none => DefaultRules
  let vars := buildVariables u ids g
  let panels := sortStable panelLess g.Panels
  let out ← widgetLoop env u ids rules panels (2 * g.Templating.length) 0 0 0 [] []
  some {
    Title := nonEmpty g.Title "Migrated Grafana Dashboard".toList,
    UUID := [],
    Version := "v4".toList,
    Tags := ["migrated".toList, "grafana".toList],
    Layout := out.2,
    Widgets := out.1,
    Variables := vars,
    PanelMap := [],
    UploadedGrafana := false,
    Description := "Converted from Grafana dashboard JSON".toList }

/-- Go `isSupportedPanel`. -/
def isSupportedPanel (p : Str) : Bool :=
  p = "graph".toList ∨ p = "timeseries".toList ∨ p = "bar".toList ∨ p = "histogram".toList ∨
  p = "pie".toList ∨ p = "table".toList ∨ p = "value".toList ∨ p = "list".toList ∨
  p = "row".toList

/-- The first loop of `ValidateSigNozDashboard`, from index `i`: the key set of the
map `ids` and the errors so far. -/
def validateWidgets : List SigNozWidget → Nat → List Str → List Str → List Str × List Str
  | [], _, ids, errs => (ids, errs)
  | w :: rest, i, ids, errs =>
    let errs := if w.ID = [] then
        errs ++ ["widgets[".toList ++ formatNat i ++ "]: id is required".toList]
      else errs
    let errs := if w.Title = [] then
        errs ++ ["widgets[".toList ++ formatNat i ++ "]: title is required".toList]
      else errs
    let errs := if !isSupportedPanel w.PanelType then
        errs ++ ["widgets[".toList ++ formatNat i ++ "]: unsupported panelTypes '".toList ++
          w.PanelType ++ "'".toList]
      else errs
    let errs := if w.TimePreference = [] then
        errs ++ ["widgets[".toList ++ formatNat i ++ "]: timePreferance is required".toList]
      else errs
    let errs := if w.ID ∈ ids then
        errs ++ ["duplicate widget id '".toList ++ w.ID ++ "'".toList]
      else errs
    validateWidgets rest (i + 1) (mapInsert ids w.ID) errs

/-- The second loop of `ValidateSigNozDashboard`, from index `i`. -/
def validateLayout (ids : List Str) : List SigNozLayout → Nat → List Str → List Str
  | [], _, errs => errs
  | l :: rest, i, errs =>
    let errs := if l.I = [] then
        errs ++ ["layout[".toList ++ formatNat i ++ "]: i (id) is required".toList]
      else errs
    let errs := if !(l.I ∈ ids) then
        errs ++ ["layout[".toList ++ formatNat i ++ "]: references unknown widget id '".toList ++
          l.I ++ "'".toList]
      else errs
    let errs := if l.W ≤ 0 ∨ l.H ≤ 0 then
        errs ++ ["layout[".toList ++ formatNat i ++ "]: width/height must be > 0".toList]
      else errs
    validateLayout ids rest (i + 1) errs

/-- Go `ValidateSigNozDashboard`; an error is its message. -/
def ValidateSigNozDashboard (d : SigNozDashboard) : List Str :=
  let errs : List Str := []
  let errs := if d.Title = [] then errs ++ ["title is required".toList] else errs
  let errs := if d.Widgets.length = 0 then
      errs ++ ["at least one widget is required".toList]
    else errs
  let out := validateWidgets d.Widgets 0 [] errs
  validateLayout out.1 d.Layout 0 out.2


/-! ## Definitions for the statements about stripping, packing, record shapes and label sets -/

/-- One step of the depth counter of `stripArithmetic`: `(` adds one, `)` takes one
off unless the depth is zero. -/
def stepDepth (d : Nat) (c : Char) : Nat :=
  if c = '(' then d + 1 else if c = ')' then (if d > 0 then d - 1 else d) else d

/-- The depth that the scan of `stripArithmetic` has reached after the prefix `pre`. -/
def depthAfter (pre : Str) : Nat := pre.foldl stepDepth 0

/-- Whether index `i` of `s` holds one of `* / + -` at depth 0 with a numeric literal
on one side: the text after it, trimmed, or the text before it, trimmed. -/
def governs (s : Str) (i : Nat) : Bool :=
  match s[i]? with
  | some o =>
    isArithOp o && depthAfter (s.take i) == 0 &&
      (isNumber (trimSpace (s.drop (i + 1))) || isNumber (trimSpace (s.take i)))
  | none => false

/-- Whether index `i` of `s` holds one of `* / + -` at depth 0. -/
def topLevelOp (s : Str) (i : Nat) : Bool :=
  match s[i]? with
  | some o => isArithOp o && depthAfter (s.take i) == 0
  | none => false

/-- The widget that `GrafanaToSigNoz` builds for the panel `p` with the query `q`. -/
def panelWidget (u : Unicode) (rules : Rules) (p : GrafanaPanel) (q : SigNozQuery) :
    SigNozWidget :=
  { ID := "w_".toList ++ formatInt p.ID,
    Title := nonEmpty p.Title (title u (mapPanelType u rules p)),
    PanelType := mapPanelType u rules p,
    TimePreference := "GLOBAL_TIME".toList,
    Description := "Migrated from Grafana (type: ".toList ++ toLower u p.Typ ++
      "); original queries preserved in _grafanaExprs.".toList,
    Query := q }

/-- The layout entry that `GrafanaToSigNoz` builds for the panel `p` when the packing
cursor is at `curX`, `curY` with the row height `rowH`. -/
def panelEntry (rules : Rules) (p : GrafanaPanel) (curX curY rowH : Int) : SigNozLayout :=
  { H := (panelSize rules p).2, W := (panelSize rules p).1,
    X := if wrapInt (curX + (panelSize rules p).1) > 24 then 0 else curX,
    Y := if wrapInt (curX + (panelSize rules p).1) > 24 then wrapInt (curY + rowH) else curY,
    I := "w_".toList ++ formatInt p.ID, Moved := false, Static := false }

/-- Two layout rectangles `[X, X+W) x [Y, Y+H)` have no point in common. -/
def noOverlap (a b : SigNozLayout) : Prop :=
  ∀ x y : Int, ¬ ((a.X ≤ x ∧ x < a.X + a.W ∧ a.Y ≤ y ∧ y < a.Y + a.H) ∧
    (b.X ≤ x ∧ x < b.X + b.W ∧ b.Y ≤ y ∧ y < b.Y + b.H))

/-- The state of the packing loop of `GrafanaToSigNoz` is sound: the cursor is not
negative, every entry placed so far has a position that is not negative and a
positive size, stays within the 24 columns when its width allows, and lies either
above the current row or in it, left of the cursor and no higher than the row. -/
def Packed (ls : List SigNozLayout) (curX curY rowH : Int) : Prop :=
  0 ≤ curX ∧ 0 ≤ curY ∧ 0 ≤ rowH ∧
  ∀ l ∈ ls, 0 ≤ l.X ∧ 0 ≤ l.Y ∧ 0 < l.W ∧ 0 < l.H ∧ (l.W ≤ 24 → l.X + l.W ≤ 24) ∧
    (l.Y + l.H ≤ curY ∨ (l.Y = curY ∧ l.X + l.W ≤ curX ∧ l.H ≤ rowH))

/-- The widths and heights of the layout entries of the panels, added up. -/
def sizeSum (rules : Rules) (ps : List GrafanaPanel) : Int :=
  (ps.map fun p => (panelSize rules p).1 + (panelSize rules p).2).sum

/-- The patterns enclosed by the groups numbered `i` of a pattern. -/
def Re.groupBodies (i : Nat) : Re → List Re
  | .lit _ => []
  | .cls _ => []
  | .seq a b => a.groupBodies i ++ b.groupBodies i
  | .alt a b => a.groupBodies i ++ b.groupBodies i
  | .opt a => a.groupBodies i
  | .star _ => []
  | .plus _ => []
  | .group j a => (if j = i then [a] else []) ++ a.groupBodies i
  | .eot => []

/-- A sufficient test that every match of the pattern records group `i`. -/
def Re.mustGroup (i : Nat) : Re → Bool
  | .lit _ => false
  | .cls _ => false
  | .seq a b => a.mustGroup i || b.mustGroup i
  | .alt a b => a.mustGroup i && b.mustGroup i
  | .opt _ => false
  | .star _ => false
  | .plus _ => false
  | .group j a => j == i || a.mustGroup i
  | .eot => false

/-- The ways `parsePromQL` changes the record of a wrapped expression: a comparison
sets the three comparison fields, an offset sets `Offset`, `histogram_quantile` moves
`Func` to `InnerFunc`, sets `Func` and `Quantile` and completes `By` with `le`, an
aggregation sets `Agg` and, when its `by` clause is not empty, `By`. -/
inductive Wrap : (promQL → promQL) → Prop
  | cmp (op n : Str) (b : Bool)
      (hop : op ∈ [">=".toList, "<=".toList, "==".toList, "!=".toList, ">".toList, "<".toList])
      (hn : n ≠ []) :
      Wrap fun p => { p with CmpOp := op, CmpRight := n, CmpIsBool := b }
  | offset (off : Str) : Wrap fun p => { p with Offset := off }
  | hist (q : Str) (hq : q ≠ []) :
      Wrap fun p =>
        if contains p.By "le".toList = true then
          { p with InnerFunc := p.Func, Func := "histogram_quantile".toList, Quantile := q }
        else { p with InnerFunc := p.Func, Func := "histogram_quantile".toList, Quantile := q,
                      By := p.By ++ ["le".toList] }
  | agg (a by1 : Str)
      (ha : a ∈ ["sum".toList, "avg".toList, "min".toList, "max".toList, "count".toList]) :
      Wrap fun p =>
        if by1 ≠ [] then { p with Agg := a, By := splitCSV by1 } else { p with Agg := a }

/-- The records that `parsePromQL` returns for a normalised expression `e` without
recursion: a rate-family call, a plain selector, or the fallback. -/
inductive Leaf : Str → promQL → Prop
  | fn (e f m : Str) (ls : List labelMatcher) (rng : Str) (he : e ≠ [])
      (hf : f ∈ ["rate".toList, "irate".toList, "increase".toList])
      (hm : ∃ c t, m = c :: t ∧ isMetricStart c = true)
      (hls : ∀ l ∈ ls, l.Op ∈ ["=~".toList, "!~".toList, "=".toList, "!=".toList]) :
      Leaf e { Metric := nonEmpty m [], Labels := ls, Func := f, Range := rng }
  | simple (e m : Str) (ls : List labelMatcher) (rng : Str) (he : e ≠ [])
      (hm : ∃ c t, m = c :: t ∧ isMetricStart c = true)
      (hls : ∀ l ∈ ls, l.Op ∈ ["=~".toList, "!~".toList, "=".toList, "!=".toList]) :
      Leaf e { Metric := m, Labels := ls, Range := rng }
  | fallback (e : Str) : Leaf e { Metric := e }

/-- The normalised expression `e` has none of the wrapper shapes: it is no
comparison, has no trailing offset, and is no `histogram_quantile` call and no
aggregation. -/
def NoWrapper (e : Str) : Prop :=
  (reCmp.findStringSubmatch e).length ≠ 4 ∧ ¬ 0 < lastIndex e " offset ".toList ∧
  (reHist.findStringSubmatch e).length ≠ 3 ∧ (reAggA.findStringSubmatch e).length ≠ 4 ∧
  (reAggB.findStringSubmatch e).length ≠ 4

/-- The expression that `parsePromQL` hands to its recursive call for the normalised
expression `e`: the trimmed left side of a comparison, the trimmed text before the last
` offset `, the second argument of `histogram_quantile`, the argument of an aggregation;
none when `e` has none of these shapes and is parsed without recursion. -/
def wrappedExpr (e : Str) : Option Str :=
  let mc := reCmp.findStringSubmatch e
  if mc.length = 4 then (mc[1]?).map trimSpace
  else
  let i := lastIndex e " offset ".toList
  if i > 0 then (slice? e 0 i.toNat).map trimSpace
  else
  let mh := reHist.findStringSubmatch e
  if mh.length = 3 then mh[2]?
  else
  let ma := reAggA.findStringSubmatch e
  if ma.length = 4 then ma[3]?
  else
  let mb := reAggB.findStringSubmatch e
  if mb.length = 4 then mb[2]?
  else none

/-- The state of the flag `inQuote` of `splitCSV` after the text `e`, started with the
flag at `q`; none when `e` holds a comma outside double quotes, where `splitCSV`
splits. -/
def quoteState : Str → Bool → Option Bool
  | [], q => some q
  | c :: t, q =>
    if c = '"' then quoteState t (!q)
    else if c = ',' ∧ !q then none
    else quoteState t q

/-- The text `e` is of the form `key op "value"`: a label name, one of the four operators
and a value without newline between double quotes, with optional blanks before and after
each of the three. -/
def EntryForm (e : Str) : Prop :=
  ∃ w0 k w1 op w2 v w3 : Str,
    e = w0 ++ k ++ w1 ++ op ++ w2 ++ ['"'] ++ v ++ ['"'] ++ w3 ∧
    (∀ c ∈ w0, isReSpace c = true) ∧ isLabelName k = true ∧
    (∀ c ∈ w1, isReSpace c = true) ∧
    op ∈ ["=".toList, "!=".toList, "=~".toList, "!~".toList] ∧
    (∀ c ∈ w2, isReSpace c = true) ∧ (∀ c ∈ v, c ≠ '\n') ∧
    (∀ c ∈ w3, isReSpace c = true)

/-- An entry of a label set as it is written: a matcher `k op "v"` with optional blanks `s1`,
`s2` around the operator, or a text `e` that is not a matcher. -/
inductive LabelItem where
  | good (k s1 op s2 v : Str)
  | bad (e : Str)

/-- The text of an entry. -/
def LabelItem.text : LabelItem → Str
  | .good k s1 op s2 v => k ++ s1 ++ op ++ s2 ++ ['"'] ++ v ++ ['"']
  | .bad e => e

/-- The matcher an entry stands for, none for a text that is not a matcher. -/
def LabelItem.matcher : LabelItem → Option labelMatcher
  | .good k _ op _ v => some ⟨k, op, v⟩
  | .bad _ => none

/-- The entries the statement about `parseLabelSet` covers: a label name, blanks, one of the four
operators, blanks and a value without double quote and newline; or a text whose double
quotes are paired, with no comma outside them, and which, trimmed, is not of the form
`key op "value"`. -/
def LabelItem.ok : LabelItem → Prop
  | .good k s1 op s2 v => isLabelName k = true ∧ (∀ c ∈ s1, isReSpace c = true) ∧
      op ∈ ["=".toList, "!=".toList, "=~".toList, "!~".toList] ∧
      (∀ c ∈ s2, isReSpace c = true) ∧ ∀ c ∈ v, c ≠ '"' ∧ c ≠ '\n'
  | .bad e => quoteState e false = some false ∧ ¬ EntryForm (trimSpace e)

/-- The matcher `parseLabelParts` appends for one part, none when the part is skipped. -/
def labelOf (p : Str) : Option labelMatcher :=
  let p1 := trimSpace p
  if p1 = [] then none
  else
    let m := reLabel.findStringSubmatch p1
    if m.length = 4 then do
      let k ← m[1]?
      let o ← m[2]?
      let v ← m[3]?
      some ⟨k, o, v⟩
    else none

/-- The parts `splitCSV` makes of texts joined by commas when no comma of a text splits. -/
def csvParts : List Str → List Str
  | [] => []
  | [t] => if t.length > 0 then [trimSpace t] else []
  | t :: b :: l => trimSpace t :: csvParts (b :: l)

/-! ## Facts about characters -/

theorem isWordChar_of_isMetricChar {c : Char} (h : isMetricChar c = true) : isWordChar c = true := by
  simp only [isMetricChar, isWordChar, Bool.or_eq_true] at h ⊢
  tauto

theorem isMetricChar_of_isMetricStart {c : Char} (h : isMetricStart c = true) :
    isMetricChar c = true := by
  simp only [isMetricChar, isMetricStart, Bool.or_eq_true] at h ⊢
  tauto

theorem isWordChar_of_isDigit {c : Char} (h : isDigit c = true) : isWordChar c = true := by
  simp only [isWordChar, Bool.or_eq_true] at h ⊢
  tauto

theorem isWordChar_of_isLetter {c : Char} (h : isLetter c = true) : isWordChar c = true := by
  simp only [isWordChar, Bool.or_eq_true] at h ⊢
  tauto

theorem isWordChar_ne {c : Char} (h : isWordChar c = true) (d : Char) (hd : isWordChar d = false) :
    c ≠ d := by
  rintro rfl
  rw [h] at hd
  exact Bool.noConfusion hd

theorem isWordChar_not_reSpace {c : Char} (h : isWordChar c = true) : isReSpace c = false := by
  have h1 := isWordChar_ne h '\t' (by decide)
  have h2 := isWordChar_ne h '\n' (by decide)
  have h3 := isWordChar_ne h '\x0c' (by decide)
  have h4 := isWordChar_ne h '\r' (by decide)
  have h5 := isWordChar_ne h ' ' (by decide)
  simp [isReSpace, h1, h2, h3, h4, h5]

theorem isWordChar_not_unicodeSpace {c : Char} (h : isWordChar c = true) :
    isUnicodeSpace c = false := by
  have hn : c.toNat ≤ 122 := by
    simp only [isWordChar, isLetter, isDigit, Bool.or_eq_true, Bool.and_eq_true, decide_eq_true_eq,
      beq_iff_eq] at h
    rcases h with (((h | h) | h) | h) | h
    · omega
    · omega
    · subst h; decide
    · subst h; decide
    · subst h; decide
  have h1 := isWordChar_ne h '\t' (by decide)
  have h2 := isWordChar_ne h '\n' (by decide)
  have h3 := isWordChar_ne h '\x0b' (by decide)
  have h4 := isWordChar_ne h '\x0c' (by decide)
  have h5 := isWordChar_ne h '\r' (by decide)
  have h6 := isWordChar_ne h ' ' (by decide)
  simp only [isUnicodeSpace, Bool.or_eq_false_iff, beq_eq_false_iff_ne, ne_eq, Bool.and_eq_false_imp,
    decide_eq_true_eq, decide_eq_false_iff_not]
  refine ⟨⟨⟨⟨⟨⟨⟨⟨⟨⟨⟨⟨⟨⟨h1, h2⟩, h3⟩, h4⟩, h5⟩, h6⟩, ?_⟩, ?_⟩, ?_⟩, ?_⟩, ?_⟩, ?_⟩, ?_⟩, ?_⟩, ?_⟩ <;> omega

/-! ## Facts about the `strings` helpers -/

theorem dropWhile_eq_self {p : Char → Bool} {l : Str}
    (h : ∀ c, l.head? = some c → p c = false) : l.dropWhile p = l := by
  cases l with
  | nil => rfl
  | cons a t => simp [List.dropWhile, h a rfl]

theorem trimSpace_eq_self {s : Str} (h1 : ∀ c, s.head? = some c → isUnicodeSpace c = false)
    (h2 : ∀ c, s.getLast? = some c → isUnicodeSpace c = false) : trimSpace s = s := by
  unfold trimSpace
  rw [dropWhile_eq_self h1, dropWhile_eq_self (by simpa using h2), List.reverse_reverse]

theorem trimSpace_nil : trimSpace [] = [] := rfl

theorem trimSpace_length_le (s : Str) : (trimSpace s).length ≤ s.length := by
  unfold trimSpace
  rw [List.length_reverse]
  refine le_trans (List.IsSuffix.length_le (List.dropWhile_suffix _)) ?_
  rw [List.length_reverse]
  exact List.IsSuffix.length_le (List.dropWhile_suffix _)

theorem stripOuterParens_eq_self {s : Str} (h : s.head? ≠ some '(') :
    stripOuterParens s = some s := by
  simp [stripOuterParens, stripOuterParensFuel, h]

theorem stripArithLoop_skip (s : Str) (seg rest : Str) (depth : Nat) :
    ∀ pre : Str, (∀ c ∈ seg, c ≠ '(' ∧ c ≠ ')' ∧
        (depth = 0 → c ≠ '*' ∧ c ≠ '/' ∧ c ≠ '+' ∧ c ≠ '-')) →
      stripArithLoop s pre (seg ++ rest) depth = stripArithLoop s (pre ++ seg) rest depth := by
  induction seg with
  | nil => intro pre _; simp
  | cons a t ih =>
    intro pre h
    have ha := h a (List.mem_cons_self _ _)
    have ht : ∀ c ∈ t, c ≠ '(' ∧ c ≠ ')' ∧ (depth = 0 → c ≠ '*' ∧ c ≠ '/' ∧ c ≠ '+' ∧ c ≠ '-') :=
      fun c hc => h c (List.mem_cons_of_mem _ hc)
    rw [List.cons_append, stripArithLoop]
    rw [if_neg ha.1, if_neg ha.2.1]
    by_cases hd : depth = 0
    · have := ha.2.2 hd
      rw [if_neg (by tauto), ih _ ht]
      simp
    · by_cases hop : a = '*' ∨ a = '/' ∨ a = '+' ∨ a = '-'
      · rw [if_pos hop, if_neg hd, ih _ ht]; simp
      · rw [if_neg hop, ih _ ht]; simp

theorem isWordChar_arith {c : Char} (h : isWordChar c = true) :
    c ≠ '(' ∧ c ≠ ')' ∧ (0 = 0 → c ≠ '*' ∧ c ≠ '/' ∧ c ≠ '+' ∧ c ≠ '-') :=
  ⟨isWordChar_ne h _ (by decide), isWordChar_ne h _ (by decide), fun _ =>
    ⟨isWordChar_ne h _ (by decide), isWordChar_ne h _ (by decide),
     isWordChar_ne h _ (by decide), isWordChar_ne h _ (by decide)⟩⟩

theorem isPrefixOf_mem {sub t : Str} (h : sub.isPrefixOf t = true) : ∀ c ∈ sub, c ∈ t := by
  intro c hc
  have := List.isPrefixOf_iff_prefix.mp h
  exact this.subset hc

theorem lastIndex_neg_of_forall {sub : Str} (a : Char) (sub1 : Str) (hsub : sub = a :: sub1) :
    ∀ seg rest : Str, (∀ c ∈ seg, c ≠ a) → lastIndex rest sub = -1 →
      lastIndex (seg ++ rest) sub = -1 := by
  intro seg rest h hr
  induction seg with
  | nil => simpa using hr
  | cons x t ih =>
    have hx : x ≠ a := h x (List.mem_cons_self _ _)
    have := ih (fun c hc => h c (List.mem_cons_of_mem _ hc))
    rw [List.cons_append, lastIndex, this]
    subst hsub
    simp [hx, Ne.symm hx]

theorem lastIndex_nil_cons (a : Char) (sub1 : Str) : lastIndex [] (a :: sub1) = -1 := by
  simp [lastIndex]

/-! ## Facts about the matcher -/

theorem starRun_append (p : Char → Bool) (xs ys : Str) (h : ∀ x ∈ xs, p x = true) :
    starRun p (xs ++ ys) =
      (starRun p ys).map (fun r => (xs ++ r.1, r.2)) ++ properSplits xs ys := by
  induction xs with
  | nil => simp [properSplits]
  | cons x xs ih =>
    have hx : p x = true := h x (List.mem_cons_self _ _)
    have hxs : ∀ y ∈ xs, p y = true := fun y hy => h y (List.mem_cons_of_mem _ hy)
    simp [starRun, hx, ih hxs, properSplits, List.map_append]

theorem starRun_all (p : Char → Bool) (xs : Str) (h : ∀ x ∈ xs, p x = true) :
    starRun p xs = (xs, []) :: properSplits xs [] := by
  have := starRun_append p xs [] h
  simpa [starRun] using this

theorem starRun_stop (p : Char → Bool) (xs : Str) (y : Char) (ys : Str)
    (h : ∀ x ∈ xs, p x = true) (hy : p y = false) :
    starRun p (xs ++ y :: ys) = (xs, y :: ys) :: properSplits xs (y :: ys) := by
  have := starRun_append p xs (y :: ys) h
  simpa [starRun, hy] using this

theorem mem_starRun {p : Char → Bool} {s : Str} {r : Str × Str} (h : r ∈ starRun p s) :
    s = r.1 ++ r.2 ∧ ∀ x ∈ r.1, p x = true := by
  induction s generalizing r with
  | nil =>
    simp only [starRun, List.mem_singleton] at h
    subst h
    simp
  | cons a t ih =>
    rw [starRun] at h
    by_cases hp : p a = true
    · rw [if_pos hp] at h
      rcases List.mem_append.mp h with h | h
      · obtain ⟨r0, hr0, rfl⟩ := List.mem_map.mp h
        obtain ⟨h1, h2⟩ := ih hr0
        refine ⟨by simp [← h1], ?_⟩
        intro x hx
        rcases List.mem_cons.mp hx with rfl | hx
        · exact hp
        · exact h2 x hx
      · simp only [List.mem_singleton] at h
        subst h
        simp
    · rw [if_neg hp] at h
      simp only [List.mem_singleton] at h
      subst h
      simp

theorem stripLit_eq_some {w s t : Str} : stripLit w s = some t ↔ s = w ++ t := by
  induction w generalizing s with
  | nil => simp [stripLit, eq_comm]
  | cons a w ih =>
    cases s with
    | nil => simp [stripLit]
    | cons c s =>
      by_cases hac : a = c
      · subst hac
        simp [stripLit, ih]
      · simp [stripLit, hac, Ne.symm hac]

theorem stripLit_append (w t : Str) : stripLit w (w ++ t) = some t :=
  stripLit_eq_some.mpr rfl

theorem mem_run_seq {a b : Re} {c : List Str} {s : Str} {r : MatchRes} :
    r ∈ (Re.seq a b).run c s ↔
      ∃ r1 ∈ a.run c s, ∃ r2 ∈ b.run r1.caps r1.rest,
        r = ⟨r2.caps, r1.matched ++ r2.matched, r2.rest⟩ := by
  simp only [Re.run, List.mem_flatMap, List.mem_map]
  constructor
  · rintro ⟨r1, h1, r2, h2, rfl⟩
    exact ⟨r1, h1, r2, h2, rfl⟩
  · rintro ⟨r1, h1, r2, h2, rfl⟩
    exact ⟨r1, h1, r2, h2, rfl⟩

theorem run_sound {R : Re} {c : List Str} {s : Str} {r : MatchRes} (h : r ∈ R.run c s) :
    s = r.matched ++ r.rest := by
  induction R generalizing c s r with
  | lit w =>
    simp only [Re.run] at h
    cases hw : stripLit w s with
    | none => simp [hw] at h
    | some t =>
      simp only [hw, List.mem_singleton] at h
      subst h
      exact stripLit_eq_some.mp hw
  | cls p =>
    cases s with
    | nil => simp [Re.run] at h
    | cons x t =>
      simp only [Re.run] at h
      by_cases hp : p x = true
      · simp only [hp, if_true, List.mem_singleton] at h
        subst h; rfl
      · simp [hp] at h
  | seq a b iha ihb =>
    obtain ⟨r1, h1, r2, h2, rfl⟩ := mem_run_seq.mp h
    have e1 := iha h1
    have e2 := ihb h2
    simp only [List.append_assoc]
    rw [← e2, ← e1]
  | alt a b iha ihb =>
    simp only [Re.run, List.mem_append] at h
    rcases h with h | h
    · exact iha h
    · exact ihb h
  | opt a iha =>
    simp only [Re.run, List.mem_append, List.mem_singleton] at h
    rcases h with h | h
    · exact iha h
    · subst h; rfl
  | star p =>
    simp only [Re.run, List.mem_map] at h
    obtain ⟨r0, h0, rfl⟩ := h
    exact (mem_starRun h0).1
  | plus p =>
    cases s with
    | nil => simp [Re.run] at h
    | cons x t =>
      simp only [Re.run] at h
      by_cases hp : p x = true
      · simp only [hp, if_true, List.mem_map] at h
        obtain ⟨r0, h0, rfl⟩ := h
        simp [(mem_starRun h0).1]
      · simp [hp] at h
  | group i a iha =>
    simp only [Re.run, List.mem_map] at h
    obtain ⟨r0, h0, rfl⟩ := h
    exact iha (r := r0) h0
  | eot =>
    cases s with
    | nil =>
      simp only [Re.run, List.mem_singleton] at h
      subst h; rfl
    | cons x t => simp [Re.run] at h

theorem needs_sound {q : Char → Bool} {R : Re} {c : List Str} {s : Str} {r : MatchRes}
    (hq : R.needs q = true) (h : r ∈ R.run c s) : ∃ x ∈ r.matched, q x = true := by
  induction R generalizing c s r with
  | lit w =>
    simp only [Re.run] at h
    cases hw : stripLit w s with
    | none => simp [hw] at h
    | some t =>
      simp only [hw, List.mem_singleton] at h
      subst h
      simpa [Re.needs] using hq
  | cls p => simp [Re.needs] at hq
  | seq a b iha ihb =>
    obtain ⟨r1, h1, r2, h2, rfl⟩ := mem_run_seq.mp h
    simp only [Re.needs, Bool.or_eq_true] at hq
    rcases hq with hq | hq
    · obtain ⟨x, hx, hqx⟩ := iha hq h1
      exact ⟨x, List.mem_append_left _ hx, hqx⟩
    · obtain ⟨x, hx, hqx⟩ := ihb hq h2
      exact ⟨x, List.mem_append_right _ hx, hqx⟩
  | alt a b iha ihb =>
    simp only [Re.needs, Bool.and_eq_true] at hq
    simp only [Re.run, List.mem_append] at h
    rcases h with h | h
    · exact iha hq.1 h
    · exact ihb hq.2 h
  | opt a _ => simp [Re.needs] at hq
  | star p => simp [Re.needs] at hq
  | plus p => simp [Re.needs] at hq
  | group i a iha =>
    simp only [Re.run, List.mem_map] at h
    obtain ⟨r0, h0, rfl⟩ := h
    exact iha (r := r0) (by simpa [Re.needs] using hq) h0
  | eot => simp [Re.needs] at hq

theorem search_anchored (re : Regexp) (h : re.anchored = true) (s : Str) :
    re.search s = (re.matchAt s).map fun r => ([], r.1, r.2) := by
  cases s with
  | nil => rfl
  | cons c t =>
    rw [Regexp.search]
    cases hm : re.matchAt (c :: t) with
    | none => simp [h]
    | some r => simp

theorem findStringSubmatch_of_run_nil (re : Regexp) (h : re.anchored = true) (s : Str)
    (hr : re.body.run (List.replicate (re.groups + 1) []) s = []) :
    re.findStringSubmatch s = [] := by
  simp [Regexp.findStringSubmatch, search_anchored re h, Regexp.matchAt, hr]

theorem findStringSubmatch_of_head (re : Regexp) (h : re.anchored = true) (s : Str) (r : MatchRes)
    (hr : (re.body.run (List.replicate (re.groups + 1) []) s).head? = some r) :
    re.findStringSubmatch s = r.caps.set 0 r.matched := by
  simp [Regexp.findStringSubmatch, search_anchored re h, Regexp.matchAt, hr]

theorem findStringSubmatch_of_needs (re : Regexp) (h : re.anchored = true) (q : Char → Bool)
    (hq : re.body.needs q = true) (s : Str) (hs : ∀ x ∈ s, q x = false) :
    re.findStringSubmatch s = [] := by
  apply findStringSubmatch_of_run_nil re h
  apply List.eq_nil_iff_forall_not_mem.mpr
  intro r hr
  obtain ⟨x, hx, hqx⟩ := needs_sound hq hr
  have hs' := run_sound hr
  have : x ∈ s := by rw [hs']; exact List.mem_append_left _ hx
  rw [hs x this] at hqx
  exact Bool.noConfusion hqx

@[simp] theorem run_lit (w : Str) (c : List Str) (s : Str) :
    (Re.lit w).run c s = match stripLit w s with
      | some t => [⟨c, w, t⟩]
      | none => [] := rfl

@[simp] theorem run_seq (a b : Re) (c : List Str) (s : Str) :
    (Re.seq a b).run c s = (a.run c s).flatMap fun r =>
      (b.run r.caps r.rest).map fun r2 => ⟨r2.caps, r.matched ++ r2.matched, r2.rest⟩ := rfl

@[simp] theorem run_alt (a b : Re) (c : List Str) (s : Str) :
    (Re.alt a b).run c s = a.run c s ++ b.run c s := rfl

@[simp] theorem run_opt (a : Re) (c : List Str) (s : Str) :
    (Re.opt a).run c s = a.run c s ++ [⟨c, [], s⟩] := rfl

@[simp] theorem run_star (p : Char → Bool) (c : List Str) (s : Str) :
    (Re.star p).run c s = (starRun p s).map fun r => ⟨c, r.1, r.2⟩ := rfl

@[simp] theorem run_group (i : Nat) (a : Re) (c : List Str) (s : Str) :
    (Re.group i a).run c s =
      (a.run c s).map fun r => ⟨r.caps.set i r.matched, r.matched, r.rest⟩ := rfl

@[simp] theorem run_eot_nil (c : List Str) : Re.eot.run c [] = [⟨c, [], []⟩] := rfl

@[simp] theorem run_eot_cons (c : List Str) (x : Char) (t : Str) : Re.eot.run c (x :: t) = [] := rfl

@[simp] theorem run_cls_nil (p : Char → Bool) (c : List Str) : (Re.cls p).run c [] = [] := rfl

@[simp] theorem run_cls_pos (p : Char → Bool) (c : List Str) (x : Char) (t : Str) (h : p x = true) :
    (Re.cls p).run c (x :: t) = [⟨c, [x], t⟩] := by simp [Re.run, h]

@[simp] theorem run_cls_neg (p : Char → Bool) (c : List Str) (x : Char) (t : Str) (h : p x = false) :
    (Re.cls p).run c (x :: t) = [] := by simp [Re.run, h]

@[simp] theorem run_plus_nil (p : Char → Bool) (c : List Str) : (Re.plus p).run c [] = [] := rfl

@[simp] theorem run_plus_pos (p : Char → Bool) (c : List Str) (x : Char) (t : Str) (h : p x = true) :
    (Re.plus p).run c (x :: t) = (starRun p t).map fun r => ⟨c, x :: r.1, r.2⟩ := by
  simp [Re.run, h]

@[simp] theorem run_plus_neg (p : Char → Bool) (c : List Str) (x : Char) (t : Str) (h : p x = false) :
    (Re.plus p).run c (x :: t) = [] := by simp [Re.run, h]

@[simp] theorem starRun_nil (p : Char → Bool) : starRun p [] = [([], [])] := rfl

@[simp] theorem starRun_cons_pos (p : Char → Bool) (x : Char) (t : Str) (h : p x = true) :
    starRun p (x :: t) = (starRun p t).map (fun r => (x :: r.1, r.2)) ++ [([], x :: t)] := by
  simp [starRun, h]

@[simp] theorem starRun_cons_neg (p : Char → Bool) (x : Char) (t : Str) (h : p x = false) :
    starRun p (x :: t) = [([], x :: t)] := by
  simp [starRun, h]


/-! ## The branches of `parsePromQL` -/

theorem parse_simple_step (n : Nat) (e : Str) (hcl : Clean e)
    (hc : reCmp.findStringSubmatch e = []) (ho : lastIndex e " offset ".toList ≤ 0)
    (hh : reHist.findStringSubmatch e = []) (ha : reAggA.findStringSubmatch e = [])
    (hb : reAggB.findStringSubmatch e = []) (hf : reFn.findStringSubmatch e = [])
    (w m sel rng : Str) (hs : reSimple.findStringSubmatch e = [w, m, sel, rng])
    (ls : List labelMatcher) (hl : parseLabelSet sel = some ls) :
    parsePromQLFuel (n + 1) e = some { Metric := m, Labels := ls, Range := trimSpace rng } := by
  obtain ⟨h1, h2, h3⟩ := hcl
  have ho' : ¬ 0 < lastIndex e [' ', 'o', 'f', 'f', 's', 'e', 't', ' '] := by simpa using ho
  simp [parsePromQLFuel, h1, h2, h3, hc, ho', hh, ha, hb, hf, hs, hl]

theorem parse_fn_step (n : Nat) (e : Str) (hcl : Clean e)
    (hc : reCmp.findStringSubmatch e = []) (ho : lastIndex e " offset ".toList ≤ 0)
    (hh : reHist.findStringSubmatch e = []) (ha : reAggA.findStringSubmatch e = [])
    (hb : reAggB.findStringSubmatch e = [])
    (w f m sel rng : Str) (hf : reFn.findStringSubmatch e = [w, f, m, sel, rng])
    (ls : List labelMatcher) (hl : parseLabelSet sel = some ls) :
    parsePromQLFuel (n + 1) e =
      some { Metric := nonEmpty m [], Labels := ls, Func := f, Range := trimSpace rng } := by
  obtain ⟨h1, h2, h3⟩ := hcl
  have ho' : ¬ 0 < lastIndex e [' ', 'o', 'f', 'f', 's', 'e', 't', ' '] := by simpa using ho
  simp [parsePromQLFuel, h1, h2, h3, hc, ho', hh, ha, hb, hf, hl]

theorem parse_aggA_step (n : Nat) (e : Str) (hcl : Clean e)
    (hc : reCmp.findStringSubmatch e = []) (ho : lastIndex e " offset ".toList ≤ 0)
    (hh : reHist.findStringSubmatch e = [])
    (w agg by1 inner : Str) (ha : reAggA.findStringSubmatch e = [w, agg, by1, inner])
    (p : promQL) (hp : parsePromQLFuel n inner = some p) :
    parsePromQLFuel (n + 1) e =
      some (if by1 ≠ [] then { p with Agg := agg, By := splitCSV by1 } else { p with Agg := agg }) := by
  obtain ⟨h1, h2, h3⟩ := hcl
  have ho' : ¬ 0 < lastIndex e [' ', 'o', 'f', 'f', 's', 'e', 't', ' '] := by simpa using ho
  by_cases hby : by1 = [] <;>
    simp [parsePromQLFuel, h1, h2, h3, hc, ho', hh, ha, hp, hby]

theorem parse_hist_step (n : Nat) (e : Str) (hcl : Clean e)
    (hc : reCmp.findStringSubmatch e = []) (ho : lastIndex e " offset ".toList ≤ 0)
    (w q inner : Str) (hh : reHist.findStringSubmatch e = [w, q, inner])
    (p : promQL) (hp : parsePromQLFuel n inner = some p) :
    parsePromQLFuel (n + 1) e =
      some (if contains p.By "le".toList = true then
          { p with InnerFunc := p.Func, Func := "histogram_quantile".toList, Quantile := q }
        else { p with InnerFunc := p.Func, Func := "histogram_quantile".toList, Quantile := q,
                      By := p.By ++ ["le".toList] }) := by
  obtain ⟨h1, h2, h3⟩ := hcl
  have ho' : ¬ 0 < lastIndex e [' ', 'o', 'f', 'f', 's', 'e', 't', ' '] := by simpa using ho
  cases hle : contains p.By ['l', 'e'] <;>
    simp [parsePromQLFuel, h1, h2, h3, hc, ho', hh, hp, hle]

theorem parse_offset_step (n : Nat) (e : Str) (hcl : Clean e)
    (hc : reCmp.findStringSubmatch e = []) (base off : Str)
    (ho : lastIndex e " offset ".toList = (base.length : Int)) (hpos : 0 < base.length)
    (he : e = base ++ " offset ".toList ++ off)
    (p : promQL) (hp : parsePromQLFuel n (trimSpace base) = some p) :
    parsePromQLFuel (n + 1) e = some { p with Offset := trimSpace off } := by
  obtain ⟨h1, h2, h3⟩ := hcl
  have ho1 : lastIndex e [' ', 'o', 'f', 'f', 's', 'e', 't', ' '] = (base.length : Int) := by
    simpa using ho
  have ho' : 0 < lastIndex e [' ', 'o', 'f', 'f', 's', 'e', 't', ' '] := by
    rw [ho1]; exact_mod_cast hpos
  have hne : base ≠ [] := List.length_pos.mp hpos
  have hlen : (base ++ " offset ".toList).length = base.length + 8 := by simp
  have hs1 : slice? e (base.length + 8) e.length = some off := by
    subst he
    unfold slice?
    rw [if_pos ⟨by simp, le_refl _⟩, List.take_length, ← hlen, List.drop_left]
  have hs2 : slice? e 0 base.length = some base := by
    subst he
    unfold slice?
    rw [if_pos ⟨Nat.zero_le _, by simp⟩, List.append_assoc, List.take_left, List.drop_zero]
  simp [parsePromQLFuel, h1, h2, h3, hc, ho1, hs1, hs2, hp, hne]

theorem parse_cmp_step (n : Nat) (e : Str) (hcl : Clean e)
    (w left op right : Str) (hc : reCmp.findStringSubmatch e = [w, left, op, right])
    (p : promQL) (hp : parsePromQLFuel n (trimSpace left) = some p) :
    parsePromQLFuel (n + 1) e =
      some { p with CmpOp := op, CmpRight := right,
                    CmpIsBool := containsStr e " bool ".toList } := by
  obtain ⟨h1, h2, h3⟩ := hcl
  simp [parsePromQLFuel, h1, h2, h3, hc, hp]

theorem parse_fallback_step (n : Nat) (e : Str) (hcl : Clean e)
    (hc : reCmp.findStringSubmatch e = []) (ho : lastIndex e " offset ".toList ≤ 0)
    (hh : reHist.findStringSubmatch e = []) (ha : reAggA.findStringSubmatch e = [])
    (hb : reAggB.findStringSubmatch e = []) (hf : reFn.findStringSubmatch e = [])
    (hs : reSimple.findStringSubmatch e = []) :
    parsePromQLFuel (n + 1) e = some { Metric := e } := by
  obtain ⟨h1, h2, h3⟩ := hcl
  have ho' : ¬ 0 < lastIndex e [' ', 'o', 'f', 'f', 's', 'e', 't', ' '] := by simpa using ho
  simp [parsePromQLFuel, h1, h2, h3, hc, ho', hh, ha, hb, hf, hs]

theorem parsePromQL_of_fuel (k : Nat) (e : Str) (r : Option promQL) (hk : k ≤ e.length + 1)
    (h : ∀ n, parsePromQLFuel (n + k) e = r) : parsePromQL e = r := by
  have := h (e.length + 1 - k)
  rw [Nat.sub_add_cancel hk] at this
  exact this


/-! ## Inputs made of word characters -/

theorem clean_of_word {s : Str} (h : ∀ c ∈ s, isWordChar c = true) : Clean s := by
  refine ⟨?_, ?_, ?_⟩
  · apply trimSpace_eq_self
    · intro c hc
      exact isWordChar_not_unicodeSpace (h c (List.mem_of_mem_head? hc))
    · intro c hc
      exact isWordChar_not_unicodeSpace (h c (List.mem_of_mem_getLast? hc))
  · apply stripOuterParens_eq_self
    intro hc
    exact isWordChar_ne (h _ (List.mem_of_mem_head? hc)) '(' (by decide) rfl
  · have := stripArithLoop_skip s s [] 0 [] (fun c hc => isWordChar_arith (h c hc))
    rw [List.append_nil] at this
    rw [stripArithmetic, this]
    rfl

theorem word_no_cmp {s : Str} (h : ∀ c ∈ s, isWordChar c = true) :
    reCmp.findStringSubmatch s = [] := by
  apply findStringSubmatch_of_needs reCmp rfl
    (fun c => c == '>' || c == '<' || c == '=' || c == '!') (by decide)
  intro x hx
  have h1 := isWordChar_ne (h x hx) '>' (by decide)
  have h2 := isWordChar_ne (h x hx) '<' (by decide)
  have h3 := isWordChar_ne (h x hx) '=' (by decide)
  have h4 := isWordChar_ne (h x hx) '!' (by decide)
  simp [h1, h2, h3, h4]

theorem no_paren_no_match (re : Regexp) (ha : re.anchored = true)
    (hn : re.body.needs (fun c => c == '(') = true) {s : Str}
    (h : ∀ c ∈ s, c ≠ '(') : re.findStringSubmatch s = [] := by
  apply findStringSubmatch_of_needs re ha (fun c => c == '(') hn
  intro x hx
  simp [h x hx]

theorem word_no_offset {s : Str} (h : ∀ c ∈ s, isWordChar c = true) :
    lastIndex s " offset ".toList ≤ 0 := by
  have := @lastIndex_neg_of_forall " offset ".toList ' ' "offset ".toList rfl s []
    (fun c hc => isWordChar_ne (h c hc) ' ' (by decide)) (lastIndex_nil_cons _ _)
  rw [List.append_nil] at this
  rw [this]
  decide

theorem reSimple_metricName (c : Char) (cs : Str) (hc : isMetricStart c = true)
    (hcs : ∀ x ∈ cs, isMetricChar x = true) :
    reSimple.findStringSubmatch (c :: cs) = [c :: cs, c :: cs, [], []] := by
  simp [Regexp.findStringSubmatch, Regexp.search, Regexp.matchAt, reSimple, Re.seqs, reSelector,
    reRange, ws, Re.run, hc, starRun_all _ _ hcs, starRun, stripLit, List.replicate]

theorem parseLabelSet_nil : parseLabelSet [] = some [] := by
  simp [parseLabelSet, trimSpace_nil]

theorem parse_metricName (n : Nat) (m : Str) (h : isMetricName m = true) :
    parsePromQLFuel (n + 1) m = some { Metric := m } := by
  cases m with
  | nil => simp [isMetricName] at h
  | cons c cs =>
    simp only [isMetricName, Bool.and_eq_true, List.all_eq_true] at h
    obtain ⟨hc, hcs⟩ := h
    have hw : ∀ x ∈ c :: cs, isWordChar x = true := by
      intro x hx
      rcases List.mem_cons.mp hx with rfl | hx
      · exact isWordChar_of_isMetricChar (isMetricChar_of_isMetricStart hc)
      · exact isWordChar_of_isMetricChar (hcs x hx)
    have hp : ∀ x ∈ c :: cs, x ≠ '(' := fun x hx => isWordChar_ne (hw x hx) '(' (by decide)
    have := parse_simple_step n (c :: cs) (clean_of_word hw) (word_no_cmp hw) (word_no_offset hw)
      (no_paren_no_match reHist rfl (by decide) hp) (no_paren_no_match reAggA rfl (by decide) hp)
      (no_paren_no_match reAggB rfl (by decide) hp) (no_paren_no_match reFn rfl (by decide) hp)
      _ _ _ _ (reSimple_metricName c cs hc hcs) [] parseLabelSet_nil
    simpa [trimSpace_nil] using this

/-! ## Evaluating the helpers on structured inputs -/

theorem stripArithLoop_of_scan (s : Str) (seg rest : Str) :
    ∀ (pre : Str) (d d' : Nat), arithScan seg d = some d' →
      stripArithLoop s pre (seg ++ rest) d = stripArithLoop s (pre ++ seg) rest d' := by
  induction seg with
  | nil =>
    intro pre d d' h
    simp only [arithScan, Option.some.injEq] at h
    subst h
    simp
  | cons a t ih =>
    intro pre d d' h
    rw [arithScan] at h
    rw [List.cons_append, stripArithLoop]
    by_cases h1 : a = '('
    · rw [if_pos h1] at h ⊢
      rw [ih _ _ _ h]; simp
    · rw [if_neg h1] at h ⊢
      by_cases h2 : a = ')'
      · rw [if_pos h2] at h ⊢
        rw [ih _ _ _ h]; simp
      · rw [if_neg h2] at h ⊢
        by_cases h3 : a = '*' ∨ a = '/' ∨ a = '+' ∨ a = '-'
        · rw [if_pos h3] at h ⊢
          by_cases h4 : d = 0
          · rw [if_pos h4] at h
            exact absurd h (by simp)
          · rw [if_neg h4] at h ⊢
            rw [ih _ _ _ h]; simp
        · rw [if_neg h3] at h ⊢
          rw [ih _ _ _ h]; simp

theorem stripArithmetic_of_scan {s : Str} {d : Nat} (h : arithScan s 0 = some d) :
    stripArithmetic s = some s := by
  have := stripArithLoop_of_scan s s [] [] 0 d h
  rw [List.append_nil] at this
  rw [stripArithmetic, this]
  rfl

@[simp] theorem arithScan_nil (d : Nat) : arithScan [] d = some d := rfl

theorem arithScan_append (a b : Str) : ∀ d, arithScan (a ++ b) d = (arithScan a d).bind (arithScan b) := by
  induction a with
  | nil => intro d; simp
  | cons x t ih =>
    intro d
    simp only [List.cons_append, arithScan]
    split_ifs <;> simp [ih]

theorem arithScan_word {seg : Str} (h : ∀ c ∈ seg, isWordChar c = true) (d : Nat) :
    arithScan seg d = some d := by
  induction seg with
  | nil => rfl
  | cons x t ih =>
    have hx := isWordChar_arith (h x (List.mem_cons_self _ _))
    have ht := ih (fun c hc => h c (List.mem_cons_of_mem _ hc))
    rw [arithScan, if_neg hx.1, if_neg hx.2.1, if_neg (by have := hx.2.2 rfl; tauto), ht]

theorem arithScan_inner {seg : Str} (h : ∀ c ∈ seg, c ≠ '(' ∧ c ≠ ')') (d : Nat) :
    arithScan seg (d + 1) = some (d + 1) := by
  induction seg with
  | nil => rfl
  | cons x t ih =>
    have hx := h x (List.mem_cons_self _ _)
    have ht := ih (fun c hc => h c (List.mem_cons_of_mem _ hc))
    rw [arithScan, if_neg hx.1, if_neg hx.2]
    by_cases h3 : x = '*' ∨ x = '/' ∨ x = '+' ∨ x = '-'
    · rw [if_pos h3, if_neg (Nat.succ_ne_zero d), ht]
    · rw [if_neg h3, ht]

theorem containsStr_append_of_ne (a : Char) (sub seg rest : Str) (h : ∀ c ∈ seg, c ≠ a) :
    containsStr (seg ++ rest) (a :: sub) = containsStr rest (a :: sub) := by
  induction seg with
  | nil => rfl
  | cons x t ih =>
    have hx : x ≠ a := h x (List.mem_cons_self _ _)
    rw [List.cons_append, containsStr, ih (fun c hc => h c (List.mem_cons_of_mem _ hc))]
    simp [hx, Ne.symm hx]

theorem containsStr_cons (c : Char) (t sub : Str) :
    containsStr (c :: t) sub = (sub.isPrefixOf (c :: t) || containsStr t sub) := rfl

@[simp] theorem containsStr_nil_cons (a : Char) (sub : Str) : containsStr [] (a :: sub) = false := rfl

theorem lastIndex_of_not_contains (a : Char) (sub : Str) :
    ∀ s : Str, containsStr s (a :: sub) = false → lastIndex s (a :: sub) = -1 := by
  intro s
  induction s with
  | nil => intro _; simp [lastIndex]
  | cons x t ih =>
    intro h
    rw [containsStr, Bool.or_eq_false_iff] at h
    rw [lastIndex, ih h.2, h.1]
    simp

theorem no_offset_of_not_contains {s : Str} (h : containsStr s " offset ".toList = false) :
    lastIndex s " offset ".toList ≤ 0 := by
  have := lastIndex_of_not_contains ' ' "offset ".toList s h
  have e : lastIndex s " offset ".toList = -1 := this
  rw [e]
  decide

theorem run_eq_cons_of_head {R : Re} {c : List Str} {s : Str} {r : MatchRes}
    (h : (R.run c s).head? = some r) : R.run c s = r :: laterMatches R c s := by
  unfold laterMatches
  cases hl : R.run c s with
  | nil => simp [hl] at h
  | cons a t =>
    rw [hl] at h
    simp only [List.head?_cons, Option.some.injEq] at h
    subst h
    rfl

theorem starRun_all_snoc (p : Char → Bool) (xs : Str) (y : Char) (h : ∀ x ∈ xs, p x = true)
    (hy : p y = true) :
    starRun p (xs ++ [y]) = (xs ++ [y], []) :: (xs, [y]) :: properSplits xs [y] := by
  have h1 := starRun_append p xs [y] h
  rw [h1]
  simp [starRun, hy]

theorem mem_run_plus {p : Char → Bool} {c : List Str} {s : Str} {r : MatchRes}
    (h : r ∈ (Re.plus p).run c s) :
    r.caps = c ∧ r.matched ≠ [] ∧ ∀ x ∈ r.matched, p x = true := by
  cases s with
  | nil => simp at h
  | cons x t =>
    by_cases hp : p x = true
    · rw [run_plus_pos _ _ _ _ hp] at h
      obtain ⟨r0, h0, rfl⟩ := List.mem_map.mp h
      refine ⟨rfl, by simp, ?_⟩
      intro z hz
      rcases List.mem_cons.mp hz with rfl | hz
      · exact hp
      · exact (mem_starRun h0).2 z hz
    · rw [run_plus_neg _ _ _ _ (by simpa using hp)] at h
      simp at h

theorem getLast?_all {p : Char → Bool} {l : Str} (hne : l ≠ []) (h : ∀ x ∈ l, p x = true) :
    ∃ d, l.getLast? = some d ∧ p d = true := by
  refine ⟨l.getLast hne, List.getLast?_eq_getLast _ hne, h _ (List.getLast_mem hne)⟩

theorem reCmp_match_last {c : List Str} {s : Str} {r : MatchRes} (h : r ∈ reCmp.body.run c s) :
    ∃ d, s.getLast? = some d ∧ isDigit d = true := by
  have hs := run_sound h
  simp only [reCmp, reCmpTail, reCmpNumber, Re.seqs] at h
  obtain ⟨r1, -, r2, h2, rfl⟩ := mem_run_seq.mp h
  obtain ⟨r3, -, r4, h4, rfl⟩ := mem_run_seq.mp h2
  obtain ⟨r5, -, r6, h6, rfl⟩ := mem_run_seq.mp h4
  obtain ⟨r7, -, r8, h8, rfl⟩ := mem_run_seq.mp h6
  obtain ⟨r9, -, r10, h10, rfl⟩ := mem_run_seq.mp h8
  obtain ⟨r11, h11, r12, h12, rfl⟩ := mem_run_seq.mp h10
  -- the text matched by the number group ends in a digit
  have hnum : ∃ d, r11.matched.getLast? = some d ∧ isDigit d = true := by
    simp only [run_group, List.mem_map] at h11
    obtain ⟨q, hq, rfl⟩ := h11
    obtain ⟨q1, hq1, q2, hq2, rfl⟩ := mem_run_seq.mp hq
    obtain ⟨-, hne1, hall1⟩ := mem_run_plus hq1
    simp only [run_opt, List.mem_append, List.mem_singleton] at hq2
    rcases hq2 with hq2 | hq2
    · obtain ⟨q3, -, q4, hq4, rfl⟩ := mem_run_seq.mp hq2
      obtain ⟨-, hne4, hall4⟩ := mem_run_plus hq4
      obtain ⟨d, hd, hdd⟩ := getLast?_all hne4 hall4
      refine ⟨d, ?_, hdd⟩
      simp only
      rw [List.getLast?_append, List.getLast?_append, hd]
      rfl
    · subst hq2
      obtain ⟨d, hd, hdd⟩ := getLast?_all hne1 hall1
      exact ⟨d, by simpa using hd, hdd⟩
  -- the end-of-text test leaves nothing after it
  have hend : r12.matched = [] ∧ r12.rest = [] := by
    cases hr : r11.rest with
    | nil =>
      rw [hr] at h12
      simp only [run_eot_nil, List.mem_singleton] at h12
      subst h12
      exact ⟨rfl, rfl⟩
    | cons x t =>
      rw [hr] at h12
      simp at h12
  obtain ⟨d, hd, hdd⟩ := hnum
  refine ⟨d, ?_, hdd⟩
  rw [hs]
  simp only [hend.1, hend.2, List.append_nil]
  rw [List.getLast?_append, List.getLast?_append, List.getLast?_append, List.getLast?_append,
    List.getLast?_append, hd]
  rfl

theorem no_cmp_of_last {s : Str} (h : ∀ d, s.getLast? = some d → isDigit d = false) :
    reCmp.findStringSubmatch s = [] := by
  apply findStringSubmatch_of_run_nil reCmp rfl
  apply List.eq_nil_iff_forall_not_mem.mpr
  intro r hr
  obtain ⟨d, hd, hdd⟩ := reCmp_match_last hr
  rw [h d hd] at hdd
  exact Bool.noConfusion hdd

/-! ## The rate-family leaf `f(m sel [d])` -/

theorem isRateFn_cases {f : Str} (h : isRateFn f = true) :
    f = "rate".toList ∨ f = "irate".toList ∨ f = "increase".toList := by
  have := h
  simp only [isRateFn, Bool.or_eq_true, beq_iff_eq] at this
  tauto

theorem isDuration_word {d : Str} (h : isDuration d = true) :
    d ≠ [] ∧ ∀ c ∈ d, isWordChar c = true := by
  cases d with
  | nil => simp [isDuration] at h
  | cons x t =>
    refine ⟨by simp, ?_⟩
    simp only [isDuration, List.all_eq_true, Bool.or_eq_true] at h
    intro c hc
    rcases h c hc with h | h
    · exact isWordChar_of_isLetter h
    · exact isWordChar_of_isDigit h

theorem isSelector_cases {sel : Str} (h : isSelector sel = true) :
    sel = [] ∨ ∃ body, sel = '{' :: (body ++ ['}']) ∧ ∀ c ∈ body, isSelChar c = true := by
  cases sel with
  | nil => exact Or.inl rfl
  | cons x t =>
    right
    simp only [isSelector, Bool.and_eq_true, beq_iff_eq, List.all_eq_true] at h
    obtain ⟨⟨rfl, h2⟩, h3⟩ := h
    refine ⟨t.dropLast, ?_, h3⟩
    have hne : t ≠ [] := by
      rintro rfl
      simp at h2
    have := List.dropLast_append_getLast hne
    rw [List.getLast?_eq_getLast _ hne] at h2
    simp only [Option.some.injEq] at h2
    rw [h2] at this
    rw [this]

theorem isSelChar_facts {c : Char} (h : isSelChar c = true) :
    c ≠ '}' ∧ c ≠ '(' ∧ c ≠ ')' ∧ c ≠ ' ' ∧ c ≠ '\n' := by
  have := h
  simp only [isSelChar, Bool.and_eq_true, bne_iff_ne, ne_eq] at this
  tauto

theorem leaf_clean (f m sel d : Str) (hf : isRateFn f = true) (hm : ∀ c ∈ m, isWordChar c = true)
    (hsel : isSelector sel = true) (hd : ∀ c ∈ d, isWordChar c = true) :
    Clean (leafExpr f m sel d) := by
  have hsc : arithScan sel 1 = some 1 := by
    rcases isSelector_cases hsel with rfl | ⟨body, rfl, hb⟩
    · rfl
    · have := @arithScan_inner body (fun c hc => ⟨(isSelChar_facts (hb c hc)).2.1, (isSelChar_facts (hb c hc)).2.2.1⟩) 0
      simp [arithScan, arithScan_append, this]
  have hlast : (leafExpr f m sel d).getLast? = some ')' := by
    have : leafExpr f m sel d = (f ++ "(".toList ++ m ++ sel ++ "[".toList ++ d ++ "]".toList) ++ [')'] := by
      simp [leafExpr]
    rw [this, List.getLast?_append]
    rfl
  refine ⟨?_, ?_, ?_⟩
  · apply trimSpace_eq_self
    · rcases isRateFn_cases hf with rfl | rfl | rfl <;>
        simp [leafExpr] <;> decide
    · rw [hlast]
      intro c hc
      simp only [Option.some.injEq] at hc
      subst hc
      decide
  · apply stripOuterParens_eq_self
    rcases isRateFn_cases hf with rfl | rfl | rfl <;> simp [leafExpr]
  · apply stripArithmetic_of_scan (d := 0)
    rcases isRateFn_cases hf with rfl | rfl | rfl <;>
      simp [leafExpr, arithScan, arithScan_append, arithScan_word hm, arithScan_word hd, hsc]

theorem leaf_last (f m sel d : Str) : (leafExpr f m sel d).getLast? = some ')' := by
  have : leafExpr f m sel d =
      (f ++ "(".toList ++ m ++ sel ++ "[".toList ++ d ++ "]".toList) ++ [')'] := by
    simp [leafExpr]
  rw [this, List.getLast?_append]
  rfl

theorem leaf_no_cmp (f m sel d : Str) : reCmp.findStringSubmatch (leafExpr f m sel d) = [] := by
  apply no_cmp_of_last
  intro c hc
  rw [leaf_last] at hc
  simp only [Option.some.injEq] at hc
  subst hc
  decide

theorem containsStr_cons_ne (c a : Char) (t sub : Str) (h : c ≠ a) :
    containsStr (c :: t) (a :: sub) = containsStr t (a :: sub) := by
  rw [containsStr]
  simp [h, Ne.symm h]

theorem isPrefixOf_cons_cons (a b : Char) (l1 l2 : Str) :
    (a :: l1).isPrefixOf (b :: l2) = (a == b && l1.isPrefixOf l2) := rfl

theorem contains_sel {sel : Str} (hsel : isSelector sel = true) (rest : Str) (sub : Str) :
    containsStr (sel ++ rest) (' ' :: sub) = containsStr rest (' ' :: sub) := by
  apply containsStr_append_of_ne
  intro c hc
  rcases isSelector_cases hsel with rfl | ⟨body, rfl, hb⟩
  · simp at hc
  · simp only [List.mem_cons, List.mem_append, List.mem_singleton] at hc
    rcases hc with rfl | hc | rfl | hc
    · decide
    · exact (isSelChar_facts (hb c hc)).2.2.2.1
    · decide
    · simp at hc

theorem contains_word {seg : Str} (h : ∀ c ∈ seg, isWordChar c = true) (rest : Str) (sub : Str) :
    containsStr (seg ++ rest) (' ' :: sub) = containsStr rest (' ' :: sub) :=
  containsStr_append_of_ne _ _ _ _ fun c hc => isWordChar_ne (h c hc) ' ' (by decide)

theorem leaf_no_offset (f m sel d : Str) (hf : isRateFn f = true)
    (hm : ∀ c ∈ m, isWordChar c = true) (hsel : isSelector sel = true)
    (hd : ∀ c ∈ d, isWordChar c = true) :
    lastIndex (leafExpr f m sel d) " offset ".toList ≤ 0 := by
  apply no_offset_of_not_contains
  rcases isRateFn_cases hf with rfl | rfl | rfl <;>
    simp (disch := decide) [leafExpr, containsStr_cons_ne, contains_word hm, contains_word hd,
      contains_sel hsel]

theorem leaf_no_hist (f m sel d : Str) (hf : isRateFn f = true) :
    reHist.findStringSubmatch (leafExpr f m sel d) = [] := by
  apply findStringSubmatch_of_run_nil reHist rfl
  rcases isRateFn_cases hf with rfl | rfl | rfl <;>
    simp [leafExpr, reHist, Re.seqs, stripLit]

theorem leaf_no_aggA (f m sel d : Str) (hf : isRateFn f = true) :
    reAggA.findStringSubmatch (leafExpr f m sel d) = [] := by
  apply findStringSubmatch_of_run_nil reAggA rfl
  rcases isRateFn_cases hf with rfl | rfl | rfl <;>
    simp [leafExpr, reAggA, reAggName, Re.alts, Re.seqs, stripLit]

theorem leaf_no_aggB (f m sel d : Str) (hf : isRateFn f = true) :
    reAggB.findStringSubmatch (leafExpr f m sel d) = [] := by
  apply findStringSubmatch_of_run_nil reAggB rfl
  rcases isRateFn_cases hf with rfl | rfl | rfl <;>
    simp [leafExpr, reAggB, reAggName, Re.alts, Re.seqs, stripLit]
theorem reFnArgs_head (f m sel d : Str) (hm : isMetricName m = true)
    (hsel : isSelector sel = true) (hd : isDuration d = true) :
    (reFnArgs.run [[], f, [], [], []] (m ++ sel ++ "[".toList ++ d ++ "])".toList)).head? =
      some ⟨[[], f, m, sel, "[".toList ++ d ++ "]".toList],
            m ++ sel ++ "[".toList ++ d ++ "])".toList, []⟩ := by
  obtain ⟨hd0, hdw⟩ := isDuration_word hd
  obtain ⟨d0, ds, rfl⟩ := List.exists_cons_of_ne_nil hd0
  cases m with
  | nil => simp [isMetricName] at hm
  | cons c cs =>
    simp only [isMetricName, Bool.and_eq_true, List.all_eq_true] at hm
    obtain ⟨hc, hcs⟩ := hm
    have hd1 : (fun c => c != ']') d0 = true := by
      have := isWordChar_ne (hdw d0 (List.mem_cons_self _ _)) ']' (by decide)
      simpa using this
    have hd2 : ∀ x ∈ ds, (fun c => c != ']') x = true := by
      intro x hx
      have := isWordChar_ne (hdw x (List.mem_cons_of_mem _ hx)) ']' (by decide)
      simpa using this
    rcases isSelector_cases hsel with rfl | ⟨body, rfl, hb⟩
    · simp (disch := first | assumption | decide) [reFnArgs, Re.seqs, reSelector, reRange, ws,
        starRun_stop _ _ _ _ hcs, starRun_stop _ _ _ _ hd2, stripLit]
    · have hb1 : ∀ x ∈ body, (fun c => c != '}') x = true := by
        intro x hx
        have := (isSelChar_facts (hb x hx)).1
        simpa using this
      simp (disch := first | assumption | decide) [reFnArgs, Re.seqs, reSelector, reRange, ws,
        starRun_stop _ _ _ _ hcs, starRun_stop _ _ _ _ hd2, starRun_stop _ _ _ _ hb1, stripLit]

theorem starRun_of_head_neg (p : Char → Bool) (x : Char) (t rest : Str) (h : p x = false) :
    starRun p ((x :: t) ++ rest) = [([], (x :: t) ++ rest)] := by
  simp [starRun, h]

theorem ws_metricName {m : Str} (hm : isMetricName m = true) (rest : Str) :
    starRun isReSpace (m ++ rest) = [([], m ++ rest)] := by
  cases m with
  | nil => simp [isMetricName] at hm
  | cons c cs =>
    simp only [isMetricName, Bool.and_eq_true] at hm
    exact starRun_of_head_neg _ _ _ _
      (isWordChar_not_reSpace (isWordChar_of_isMetricChar (isMetricChar_of_isMetricStart hm.1)))

theorem reFn_leaf (f m sel d : Str) (hf : isRateFn f = true) (hm : isMetricName m = true)
    (hsel : isSelector sel = true) (hd : isDuration d = true) :
    reFn.findStringSubmatch (leafExpr f m sel d) =
      [leafExpr f m sel d, f, m, sel, "[".toList ++ d ++ "]".toList] := by
  have key := fun f => run_eq_cons_of_head (reFnArgs_head f m sel d hm hsel hd)
  simp only [List.append_assoc, String.toList, List.cons_append, List.nil_append,
    List.singleton_append] at key
  have hh : (reFn.body.run (List.replicate (reFn.groups + 1) []) (leafExpr f m sel d)).head? =
      some ⟨[[], f, m, sel, "[".toList ++ d ++ "]".toList], leafExpr f m sel d, []⟩ := by
    rcases isRateFn_cases hf with rfl | rfl | rfl <;>
      simp (disch := first | assumption | decide) [leafExpr, reFn, Re.seqs, Re.alts, ws, stripLit,
        key, List.replicate, ws_metricName hm]
  rw [findStringSubmatch_of_head reFn rfl _ _ hh]
  simp

theorem nonEmpty_metricName {m : Str} (hm : isMetricName m = true) (dflt : Str) :
    nonEmpty m dflt = m := by
  cases m with
  | nil => simp [isMetricName] at hm
  | cons c cs =>
    simp only [isMetricName, Bool.and_eq_true, List.all_eq_true] at hm
    have hw : ∀ x ∈ c :: cs, isWordChar x = true := by
      intro x hx
      rcases List.mem_cons.mp hx with rfl | hx
      · exact isWordChar_of_isMetricChar (isMetricChar_of_isMetricStart hm.1)
      · exact isWordChar_of_isMetricChar (hm.2 x hx)
    have := (clean_of_word hw).1
    simp [nonEmpty, this]

theorem isMetricName_word {m : Str} (hm : isMetricName m = true) :
    ∀ x ∈ m, isWordChar x = true := by
  cases m with
  | nil => simp [isMetricName] at hm
  | cons c cs =>
    simp only [isMetricName, Bool.and_eq_true, List.all_eq_true] at hm
    intro x hx
    rcases List.mem_cons.mp hx with rfl | hx
    · exact isWordChar_of_isMetricChar (isMetricChar_of_isMetricStart hm.1)
    · exact isWordChar_of_isMetricChar (hm.2 x hx)

theorem parse_leaf (n : Nat) (f m sel d : Str) (ls : List labelMatcher)
    (hf : isRateFn f = true) (hm : isMetricName m = true) (hsel : isSelector sel = true)
    (hd : isDuration d = true) (hl : parseLabelSet sel = some ls) :
    parsePromQLFuel (n + 1) (leafExpr f m sel d) =
      some { Metric := m, Labels := ls, Func := f, Range := "[".toList ++ d ++ "]".toList } := by
  have hmw := isMetricName_word hm
  have hdw := (isDuration_word hd).2
  have := parse_fn_step n _ (leaf_clean f m sel d hf hmw hsel hdw) (leaf_no_cmp f m sel d)
    (leaf_no_offset f m sel d hf hmw hsel hdw) (leaf_no_hist f m sel d hf)
    (leaf_no_aggA f m sel d hf) (leaf_no_aggB f m sel d hf) _ _ _ _ _
    (reFn_leaf f m sel d hf hm hsel hd) ls hl
  rw [this, nonEmpty_metricName hm]
  have ht : trimSpace ("[".toList ++ d ++ "]".toList) = "[".toList ++ d ++ "]".toList := by
    apply trimSpace_eq_self
    · simp
      decide
    · rw [List.getLast?_append]
      intro c hc
      simp only [String.toList, List.getLast?_singleton, Option.or_some, Option.some.injEq] at hc
      subst hc
      decide
  rw [ht]

/-! ## The aggregation wrapper `agg by (L) (X)` -/

theorem isAggName_cases {a : Str} (h : isAggName a = true) :
    a = "sum".toList ∨ a = "avg".toList ∨ a = "min".toList ∨ a = "max".toList ∨
      a = "count".toList := by
  have := h
  simp only [isAggName, Bool.or_eq_true, beq_iff_eq] at this
  tauto

theorem isWordChar_isDot {c : Char} (h : isWordChar c = true) : isDot c = true := by
  have := isWordChar_ne h '\n' (by decide)
  simpa [isDot] using this

theorem isSelChar_isDot {c : Char} (h : isSelChar c = true) : isDot c = true := by
  have := (isSelChar_facts h).2.2.2.2
  simpa [isDot] using this

theorem isPrefixOf_append_right (kw : Str) (a : Char) (hk : kw.getLast? = some a) :
    ∀ s t : Str, (∀ c ∈ t, c ≠ a) → kw.isPrefixOf (s ++ t) = kw.isPrefixOf s := by
  induction kw with
  | nil => simp at hk
  | cons k kw ih =>
    intro s t ht
    cases s with
    | nil =>
      cases t with
      | nil => rfl
      | cons y t =>
        simp only [List.nil_append, List.isPrefixOf]
        cases kw with
        | nil =>
          simp only [List.getLast?_singleton, Option.some.injEq] at hk
          subst hk
          have := ht y (List.mem_cons_self _ _)
          simp [Ne.symm this]
        | cons k2 kw2 =>
          have hk2 : (k2 :: kw2).getLast? = some a := by
            rw [← hk, List.getLast?_cons_cons]
          have := ih hk2 [] t (fun c hc => ht c (List.mem_cons_of_mem _ hc))
          simp only [List.nil_append] at this
          rw [this]
          simp [List.isPrefixOf]
    | cons x s =>
      simp only [List.cons_append, List.isPrefixOf]
      cases kw with
      | nil => simp [List.isPrefixOf]
      | cons k2 kw2 =>
        have hk2 : (k2 :: kw2).getLast? = some a := by
          rw [← hk, List.getLast?_cons_cons]
        have := ih hk2 s t ht
        show (k == x && (k2 :: kw2).isPrefixOf (s ++ t)) = _
        rw [this]

theorem containsStr_append_right (kw : Str) (a : Char) (hk : kw.getLast? = some a) :
    ∀ s t : Str, (∀ c ∈ t, c ≠ a) → containsStr (s ++ t) kw = containsStr s kw := by
  intro s
  induction s with
  | nil =>
    intro t ht
    induction t with
    | nil => rfl
    | cons y t iht =>
      have h1 := isPrefixOf_append_right kw a hk [] (y :: t) ht
      have h2 := iht (fun c hc => ht c (List.mem_cons_of_mem _ hc))
      simp only [List.nil_append] at h1 h2 ⊢
      cases kw with
      | nil => simp at hk
      | cons k kw =>
        show ((k :: kw).isPrefixOf (y :: t) || containsStr t (k :: kw)) = _
        rw [h1, h2]
        simp [containsStr, List.isPrefixOf]
  | cons x s ih =>
    intro t ht
    rw [List.cons_append, containsStr, containsStr, ih t ht]
    have := isPrefixOf_append_right kw a hk (x :: s) t ht
    rw [List.cons_append] at this
    rw [this]

theorem leaf_inner (f m sel d : Str) (hf : isRateFn f = true) (hm : isMetricName m = true)
    (hsel : isSelector sel = true) (hd : isDuration d = true) :
    Inner (leafExpr f m sel d) := by
  have hmw := isMetricName_word hm
  have hdw := (isDuration_word hd).2
  refine ⟨?_, ?_, ?_, ?_⟩
  · rcases isRateFn_cases hf with rfl | rfl | rfl
    · exact ⟨'r', _, rfl, by decide, by decide⟩
    · exact ⟨'i', _, rfl, by decide, by decide⟩
    · exact ⟨'i', _, rfl, by decide, by decide⟩
  · intro c hc
    simp only [leafExpr, List.mem_append] at hc
    rcases hc with (((((hc | hc) | hc) | hc) | hc) | hc) | hc
    · rcases isRateFn_cases hf with rfl | rfl | rfl <;> revert c <;> decide
    · revert c; decide
    · exact isWordChar_isDot (hmw c hc)
    · rcases isSelector_cases hsel with rfl | ⟨body, rfl, hb⟩
      · simp at hc
      · simp only [List.mem_cons, List.mem_append, List.mem_singleton] at hc
        rcases hc with rfl | hc | rfl | hc
        · decide
        · exact isSelChar_isDot (hb c hc)
        · decide
        · simp at hc
    · revert c; decide
    · exact isWordChar_isDot (hdw c hc)
    · revert c; decide
  · intro k
    have hsc : ∀ j, arithScan sel (j + 1) = some (j + 1) := by
      intro j
      rcases isSelector_cases hsel with rfl | ⟨body, rfl, hb⟩
      · rfl
      · have := @arithScan_inner body (fun c hc =>
          ⟨(isSelChar_facts (hb c hc)).2.1, (isSelChar_facts (hb c hc)).2.2.1⟩) j
        simp [arithScan, arithScan_append, this]
    rcases isRateFn_cases hf with rfl | rfl | rfl <;>
      simp [leafExpr, arithScan, arithScan_append, arithScan_word hmw, arithScan_word hdw, hsc]
  · rcases isRateFn_cases hf with rfl | rfl | rfl <;>
      simp (disch := decide) [leafExpr, containsStr_cons_ne, contains_word hmw, contains_word hdw,
        contains_sel hsel]

theorem isByChar_facts {c : Char} (h : isByChar c = true) :
    c ≠ '(' ∧ c ≠ ')' ∧ c ≠ ' ' ∧ isReSpace c = false ∧ isDot c = true := by
  simp only [isByChar, Bool.or_eq_true, beq_iff_eq] at h
  rcases h with h | rfl
  · exact ⟨isWordChar_ne h _ (by decide), isWordChar_ne h _ (by decide),
      isWordChar_ne h _ (by decide), isWordChar_not_reSpace h, isWordChar_isDot h⟩
  · decide

theorem reAggATail_head (c : List Str) (x : Char) (t : Str) (hx : isDot x = true)
    (ht : ∀ y ∈ t, isDot y = true) :
    (reAggATail.run c (x :: (t ++ [')']))).head? =
      some ⟨c.set 3 (x :: t), x :: (t ++ [')']), []⟩ := by
  simp (disch := first | assumption | decide) [reAggATail, Re.seqs, ws,
    starRun_all_snoc _ _ _ ht, stripLit]

theorem reAggA_aggBy (agg L X : Str) (hagg : isAggName agg = true)
    (hL : ∀ c ∈ L, isByChar c = true) (hL0 : L ≠ [])
    (hX0 : ∃ x t, X = x :: t ∧ isReSpace x = false ∧ x ≠ 'o') (hX : ∀ c ∈ X, isDot c = true) :
    reAggA.findStringSubmatch (aggByExpr agg L X) = [aggByExpr agg L X, agg, L, X] := by
  obtain ⟨x, t, rfl, hx, -⟩ := hX0
  obtain ⟨l0, lt, rfl⟩ := List.exists_cons_of_ne_nil hL0
  have hxd : isDot x = true := hX x (List.mem_cons_self _ _)
  have htd : ∀ y ∈ t, isDot y = true := fun y hy => hX y (List.mem_cons_of_mem _ hy)
  have key := fun c => run_eq_cons_of_head (reAggATail_head c x t hxd htd)
  have hl0 : isReSpace l0 = false := (isByChar_facts (hL l0 (List.mem_cons_self _ _))).2.2.2.1
  have hl1 : (fun c => c != ')') l0 = true := by
    have := (isByChar_facts (hL l0 (List.mem_cons_self _ _))).2.1
    simpa using this
  have hl2 : ∀ y ∈ lt, (fun c => c != ')') y = true := by
    intro y hy
    have := (isByChar_facts (hL y (List.mem_cons_of_mem _ hy))).2.1
    simpa using this
  have hh : (reAggA.body.run (List.replicate (reAggA.groups + 1) [])
      (aggByExpr agg (l0 :: lt) (x :: t))).head? =
      some ⟨[[], agg, l0 :: lt, x :: t], aggByExpr agg (l0 :: lt) (x :: t), []⟩ := by
    rcases isAggName_cases hagg with rfl | rfl | rfl | rfl | rfl <;>
      simp (disch := first | assumption | decide) [aggByExpr, reAggA, reAggName, Re.seqs, Re.alts,
        ws, stripLit, key, List.replicate, starRun_stop _ _ _ _ hl2]
  rw [findStringSubmatch_of_head reAggA rfl _ _ hh]
  simp

theorem aggBy_last (agg L X : Str) : (aggByExpr agg L X).getLast? = some ')' := by
  have : aggByExpr agg L X = (agg ++ " by (".toList ++ L ++ ") (".toList ++ X) ++ [')'] := by
    simp [aggByExpr]
  rw [this, List.getLast?_append]
  rfl

theorem no_cmp_of_last_paren {s : Str} (h : s.getLast? = some ')') :
    reCmp.findStringSubmatch s = [] := by
  apply no_cmp_of_last
  intro c hc
  rw [h] at hc
  simp only [Option.some.injEq] at hc
  subst hc
  decide

theorem contains_by {L : Str} (hL : ∀ c ∈ L, isByChar c = true) (rest : Str) (sub : Str) :
    containsStr (L ++ rest) (' ' :: sub) = containsStr rest (' ' :: sub) :=
  containsStr_append_of_ne _ _ _ _ fun c hc => (isByChar_facts (hL c hc)).2.2.1

theorem contains_offset_close {X : Str} (h : containsStr X " offset ".toList = false) :
    containsStr (X ++ [')']) (' ' :: "offset ".toList) = false := by
  have := containsStr_append_right " offset ".toList ' ' rfl X [')'] (by decide)
  rw [← h, ← this]
  rfl

theorem aggBy_scan (agg L X : Str) (hagg : isAggName agg = true)
    (hL : ∀ c ∈ L, isByChar c = true) (hX : ∀ k, arithScan X k = some k) (k : Nat) :
    arithScan (aggByExpr agg L X) k = some k := by
  have hLs : ∀ j, arithScan L (j + 1) = some (j + 1) := fun j =>
    arithScan_inner (fun c hc => ⟨(isByChar_facts (hL c hc)).1, (isByChar_facts (hL c hc)).2.1⟩) j
  rcases isAggName_cases hagg with rfl | rfl | rfl | rfl | rfl <;>
    simp [aggByExpr, arithScan, arithScan_append, hLs, hX]

theorem aggBy_contains (agg L X : Str) (hagg : isAggName agg = true)
    (hL : ∀ c ∈ L, isByChar c = true) (hX : containsStr X " offset ".toList = false) :
    containsStr (aggByExpr agg L X) " offset ".toList = false := by
  have h1 := contains_offset_close hX
  simp only [String.toList] at h1
  rcases isAggName_cases hagg with rfl | rfl | rfl | rfl | rfl <;>
    simp (disch := decide) [aggByExpr, containsStr_cons_ne, containsStr_cons, isPrefixOf_cons_cons,
      contains_by hL, h1]

theorem aggBy_clean (agg L X : Str) (hagg : isAggName agg = true)
    (hL : ∀ c ∈ L, isByChar c = true) (hX : ∀ k, arithScan X k = some k) :
    Clean (aggByExpr agg L X) := by
  refine ⟨?_, ?_, stripArithmetic_of_scan (aggBy_scan agg L X hagg hL hX 0)⟩
  · apply trimSpace_eq_self
    · rcases isAggName_cases hagg with rfl | rfl | rfl | rfl | rfl <;>
        simp [aggByExpr] <;> decide
    · rw [aggBy_last]
      intro c hc
      simp only [Option.some.injEq] at hc
      subst hc
      decide
  · apply stripOuterParens_eq_self
    rcases isAggName_cases hagg with rfl | rfl | rfl | rfl | rfl <;> simp [aggByExpr]

theorem aggBy_no_hist (agg L X : Str) (hagg : isAggName agg = true) :
    reHist.findStringSubmatch (aggByExpr agg L X) = [] := by
  apply findStringSubmatch_of_run_nil reHist rfl
  rcases isAggName_cases hagg with rfl | rfl | rfl | rfl | rfl <;>
    simp [aggByExpr, reHist, Re.seqs, stripLit]

theorem aggBy_inner (agg L X : Str) (hagg : isAggName agg = true)
    (hL : ∀ c ∈ L, isByChar c = true) (hX : Inner X) : Inner (aggByExpr agg L X) := by
  obtain ⟨-, hXd, hXs, hXo⟩ := hX
  refine ⟨?_, ?_, aggBy_scan agg L X hagg hL hXs, aggBy_contains agg L X hagg hL hXo⟩
  · rcases isAggName_cases hagg with rfl | rfl | rfl | rfl | rfl
    · exact ⟨'s', _, rfl, by decide, by decide⟩
    · exact ⟨'a', _, rfl, by decide, by decide⟩
    · exact ⟨'m', _, rfl, by decide, by decide⟩
    · exact ⟨'m', _, rfl, by decide, by decide⟩
    · exact ⟨'c', _, rfl, by decide, by decide⟩
  · intro c hc
    simp only [aggByExpr, List.mem_append] at hc
    rcases hc with ((((hc | hc) | hc) | hc) | hc) | hc
    · rcases isAggName_cases hagg with rfl | rfl | rfl | rfl | rfl <;> revert c <;> decide
    · revert c; decide
    · exact (isByChar_facts (hL c hc)).2.2.2.2
    · revert c; decide
    · exact hXd c hc
    · revert c; decide

theorem parse_aggBy (n : Nat) (agg L X : Str) (p : promQL) (hagg : isAggName agg = true)
    (hL : ∀ c ∈ L, isByChar c = true) (hL0 : L ≠ []) (hX : Inner X)
    (hp : parsePromQLFuel n X = some p) :
    parsePromQLFuel (n + 1) (aggByExpr agg L X) =
      some { p with Agg := agg, By := splitCSV L } := by
  obtain ⟨hX0, hXd, hXs, hXo⟩ := hX
  have := parse_aggA_step n _ (aggBy_clean agg L X hagg hL hXs)
    (no_cmp_of_last_paren (aggBy_last agg L X))
    (no_offset_of_not_contains (aggBy_contains agg L X hagg hL hXo))
    (aggBy_no_hist agg L X hagg) _ _ _ _ (reAggA_aggBy agg L X hagg hL hL0 hX0 hXd) p hp
  rw [this, if_pos hL0]
theorem isLabelName_word {l : Str} (h : isLabelName l = true) :
    l ≠ [] ∧ ∀ c ∈ l, isWordChar c = true := by
  cases l with
  | nil => simp [isLabelName] at h
  | cons x t =>
    refine ⟨by simp, ?_⟩
    simp only [isLabelName, Bool.and_eq_true, List.all_eq_true] at h
    intro c hc
    rcases List.mem_cons.mp hc with rfl | hc
    · have := h.1
      simp only [isLabelStart, isWordChar, Bool.or_eq_true] at this ⊢
      tauto
    · have := h.2 c hc
      simp only [isLabelChar, isWordChar, Bool.or_eq_true] at this ⊢
      tauto

theorem splitCSVLoop_word {seg : Str} (h : ∀ c ∈ seg, isWordChar c = true) (rest : Str)
    (out : List Str) (q : Bool) :
    ∀ cur, splitCSVLoop (seg ++ rest) out cur q = splitCSVLoop rest out (cur ++ seg) q := by
  induction seg with
  | nil => intro cur; simp
  | cons x t ih =>
    intro cur
    have hx := h x (List.mem_cons_self _ _)
    have h1 : x ≠ '"' := isWordChar_ne hx _ (by decide)
    have h2 : x ≠ ',' := isWordChar_ne hx _ (by decide)
    rw [List.cons_append, splitCSVLoop, if_neg h1, if_neg (by simp [h2]),
      ih (fun c hc => h c (List.mem_cons_of_mem _ hc))]
    simp

theorem trimSpace_word {s : Str} (h : ∀ c ∈ s, isWordChar c = true) : trimSpace s = s :=
  (clean_of_word h).1

theorem splitCSVLoop_joinComma (l : List Str) :
    ∀ (a : Str) (out : List Str), (∀ x ∈ a :: l, isLabelName x = true) →
      splitCSVLoop (joinComma (a :: l)) out [] false = out ++ (a :: l) := by
  induction l with
  | nil =>
    intro a out h
    obtain ⟨hne, hw⟩ := isLabelName_word (h a (List.mem_cons_self _ _))
    have := splitCSVLoop_word hw [] out false []
    simp only [List.append_nil, List.nil_append] at this
    rw [joinComma, this, splitCSVLoop, if_pos (List.length_pos.mpr hne), trimSpace_word hw]
  | cons b l ih =>
    intro a out h
    obtain ⟨hne, hw⟩ := isLabelName_word (h a (List.mem_cons_self _ _))
    have hrest : ∀ x ∈ b :: l, isLabelName x = true := fun x hx => h x (List.mem_cons_of_mem _ hx)
    have := splitCSVLoop_word hw (',' :: joinComma (b :: l)) out false []
    simp only [List.nil_append] at this
    rw [joinComma, List.append_assoc, List.singleton_append, this, splitCSVLoop]
    rw [if_neg (by decide), if_pos (by simp), trimSpace_word hw, ih b _ hrest]
    simp

theorem splitCSV_joinComma (L : List Str) (hL : L ≠ []) (h : ∀ x ∈ L, isLabelName x = true) :
    splitCSV (joinComma L) = L := by
  obtain ⟨a, l, rfl⟩ := List.exists_cons_of_ne_nil hL
  have := splitCSVLoop_joinComma l a [] h
  simpa [splitCSV] using this

theorem joinComma_byChar (L : List Str) (h : ∀ x ∈ L, isLabelName x = true) :
    ∀ c ∈ joinComma L, isByChar c = true := by
  induction L with
  | nil => intro c hc; simp [joinComma] at hc
  | cons a l ih =>
    have ha := (isLabelName_word (h a (List.mem_cons_self _ _))).2
    have hl := ih (fun x hx => h x (List.mem_cons_of_mem _ hx))
    cases l with
    | nil =>
      intro c hc
      simp only [joinComma] at hc
      simp [isByChar, ha c hc]
    | cons b l =>
      intro c hc
      simp only [joinComma, List.mem_append, List.mem_singleton] at hc
      rcases hc with (hc | rfl) | hc
      · simp [isByChar, ha c hc]
      · decide
      · exact hl c hc

theorem joinComma_ne_nil (L : List Str) (hL : L ≠ []) (h : ∀ x ∈ L, isLabelName x = true) :
    joinComma L ≠ [] := by
  obtain ⟨a, l, rfl⟩ := List.exists_cons_of_ne_nil hL
  have hne := (isLabelName_word (h a (List.mem_cons_self _ _))).1
  cases l with
  | nil => simpa [joinComma] using hne
  | cons b l => simp [joinComma, hne]

theorem parseLabelSet_service :
    parseLabelSet "\x7bservice=~\"$s\"\x7d".toList =
      some [⟨"service".toList, "=~".toList, "$s".toList⟩] := by
  decide!

theorem parse_aggBy_leaf (n : Nat) (agg : Str) (L : List Str) (f m sel d : Str)
    (ls : List labelMatcher) (hagg : isAggName agg = true) (hL : L ≠ [])
    (hLn : ∀ x ∈ L, isLabelName x = true) (hf : isRateFn f = true)
    (hm : isMetricName m = true) (hsel : isSelector sel = true) (hd : isDuration d = true)
    (hl : parseLabelSet sel = some ls) :
    parsePromQLFuel (n + 2) (aggByExpr agg (joinComma L) (leafExpr f m sel d)) =
      some { Metric := m, Labels := ls, Func := f, Range := "[".toList ++ d ++ "]".toList,
             Agg := agg, By := L } := by
  have h1 := parse_leaf n f m sel d ls hf hm hsel hd hl
  have h2 := parse_aggBy (n + 1) agg (joinComma L) _ _ hagg (joinComma_byChar L hLn)
    (joinComma_ne_nil L hL hLn) (leaf_inner f m sel d hf hm hsel hd) h1
  rw [h2, splitCSV_joinComma L hL hLn]

/-! ## The wrapper `histogram_quantile(q, X)` -/

theorem isQuantileLit_cases {q : Str} (h : isQuantileLit q = true) :
    (∃ init last, q = init ++ [last] ∧ (∀ c ∈ init, isDigit c = true) ∧ isDigit last = true) ∨
    (∃ a y t, q = a ++ '.' :: y :: t ∧ (∀ c ∈ a, isDigit c = true) ∧ isDigit y = true ∧
      ∀ c ∈ t, isDigit c = true) := by
  have hsplit : q = q.takeWhile isDigit ++ q.dropWhile isDigit := (List.takeWhile_append_dropWhile _ _).symm
  have htake : ∀ c ∈ q.takeWhile isDigit, isDigit c = true := fun c hc => List.mem_takeWhile_imp hc
  unfold isQuantileLit at h
  cases hd : q.dropWhile isDigit with
  | nil =>
    left
    rw [hd] at h hsplit
    simp only [List.append_nil] at hsplit
    have hne : q ≠ [] := by
      rintro rfl
      simp at h
    have hall : ∀ c ∈ q, isDigit c = true := by
      intro c hc
      rw [hsplit] at hc
      exact htake c hc
    exact ⟨q.dropLast, q.getLast hne, (List.dropLast_append_getLast hne).symm,
      fun c hc => hall c (List.mem_of_mem_dropLast hc), hall _ (List.getLast_mem hne)⟩
  | cons c t =>
    right
    rw [hd] at h hsplit
    simp only [Bool.and_eq_true, beq_iff_eq, Bool.not_eq_true', List.isEmpty_eq_false,
      List.all_eq_true] at h
    obtain ⟨⟨rfl, hne⟩, hall⟩ := h
    obtain ⟨y, t', rfl⟩ := List.exists_cons_of_ne_nil hne
    exact ⟨_, y, t', hsplit, htake, hall y (List.mem_cons_self _ _),
      fun c hc => hall c (List.mem_cons_of_mem _ hc)⟩

theorem starRun_stop2 (p : Char → Bool) (xs : Str) (l y : Char) (ys : Str)
    (h : ∀ x ∈ xs, p x = true) (hl : p l = true) (hy : p y = false) :
    starRun p (xs ++ l :: y :: ys) =
      (xs ++ [l], y :: ys) :: (xs, l :: y :: ys) :: properSplits xs (l :: y :: ys) := by
  rw [starRun_append p xs _ h]
  simp [starRun, hl, hy]

theorem starRun_of_forall_neg (p : Char → Bool) (xs : Str) (y : Char) (ys : Str)
    (h : ∀ x ∈ xs, p x = false) (hy : p y = false) :
    starRun p (xs ++ y :: ys) = [([], xs ++ y :: ys)] := by
  cases xs with
  | nil => simp [starRun, hy]
  | cons x t => simp [starRun, h x (List.mem_cons_self _ _)]

theorem reHistTail_head (c : List Str) (x : Char) (t : Str) (hx : isDot x = true)
    (ht : ∀ y ∈ t, isDot y = true) :
    (reHistTail.run c (x :: (t ++ [')']))).head? =
      some ⟨c.set 2 (x :: t), x :: (t ++ [')']), []⟩ := by
  simp (disch := first | assumption | decide) [reHistTail, Re.seqs,
    starRun_all_snoc _ _ _ ht, stripLit]

theorem isDigit_facts {c : Char} (h : isDigit c = true) :
    isReSpace c = false ∧ c ≠ '.' ∧ c ≠ ',' :=
  ⟨isWordChar_not_reSpace (isWordChar_of_isDigit h), by rintro rfl; revert h; decide,
   by rintro rfl; revert h; decide⟩

theorem reHist_hist (q X : Str) (hq : isQuantileLit q = true)
    (hX0 : ∃ x t, X = x :: t ∧ isReSpace x = false ∧ x ≠ 'o') (hX : ∀ c ∈ X, isDot c = true) :
    reHist.findStringSubmatch (histExpr q X) = [histExpr q X, q, X] := by
  obtain ⟨x, t, rfl, hx, -⟩ := hX0
  have hxd : isDot x = true := hX x (List.mem_cons_self _ _)
  have htd : ∀ y ∈ t, isDot y = true := fun y hy => hX y (List.mem_cons_of_mem _ hy)
  have key := fun c => run_eq_cons_of_head (reHistTail_head c x t hxd htd)
  have hh : (reHist.body.run (List.replicate (reHist.groups + 1) [])
      (histExpr q (x :: t))).head? = some ⟨[[], q, x :: t], histExpr q (x :: t), []⟩ := by
    rcases isQuantileLit_cases hq with ⟨init, last, rfl, hi, hl⟩ | ⟨a, y, ys, rfl, ha, hy, hys⟩
    · have hws : ∀ z ∈ init, isReSpace z = false := fun z hz => (isDigit_facts (hi z hz)).1
      have hl1 : isReSpace last = false := (isDigit_facts hl).1
      have hl2 : ('.' = last) = False := by
        have := (isDigit_facts hl).2.1
        simp [eq_comm, this]
      simp (disch := first | assumption | decide) [histExpr, reHist, Re.seqs, ws, stripLit, key,
        List.replicate, starRun_of_forall_neg _ _ _ _ hws, starRun_stop2 _ _ _ _ _ hi, hl2]
    · have hws : ∀ z ∈ a, isReSpace z = false := fun z hz => (isDigit_facts (ha z hz)).1
      simp (disch := first | assumption | decide) [histExpr, reHist, Re.seqs, ws, stripLit, key,
        List.replicate, starRun_of_forall_neg _ _ _ _ hws, starRun_stop _ _ _ _ ha,
        starRun_stop _ _ _ _ hys]
  rw [findStringSubmatch_of_head reHist rfl _ _ hh]
  simp

theorem isQuantileLit_word {q : Str} (hq : isQuantileLit q = true) :
    ∀ c ∈ q, isWordChar c = true := by
  rcases isQuantileLit_cases hq with ⟨init, last, rfl, hi, hl⟩ | ⟨a, y, ys, rfl, ha, hy, hys⟩
  · intro c hc
    simp only [List.mem_append, List.mem_singleton] at hc
    rcases hc with hc | rfl
    · exact isWordChar_of_isDigit (hi c hc)
    · exact isWordChar_of_isDigit hl
  · intro c hc
    simp only [List.mem_append, List.mem_cons] at hc
    rcases hc with hc | rfl | rfl | hc
    · exact isWordChar_of_isDigit (ha c hc)
    · decide
    · exact isWordChar_of_isDigit hy
    · exact isWordChar_of_isDigit (hys c hc)

theorem hist_last (q X : Str) : (histExpr q X).getLast? = some ')' := by
  have : histExpr q X = ("histogram_quantile(".toList ++ q ++ ", ".toList ++ X) ++ [')'] := by
    simp [histExpr]
  rw [this, List.getLast?_append]
  rfl

theorem hist_scan (q X : Str) (hq : ∀ c ∈ q, isWordChar c = true)
    (hX : ∀ k, arithScan X k = some k) (k : Nat) :
    arithScan (histExpr q X) k = some k := by
  simp [histExpr, arithScan, arithScan_append, arithScan_word hq, hX]

theorem isPrefixOf_of_head_ne (a x : Char) (sub t : Str) (h : x ≠ a) :
    (a :: sub).isPrefixOf (x :: t) = false := by
  simp [List.isPrefixOf, Ne.symm h]

theorem hist_contains (q X : Str) (hq : ∀ c ∈ q, isWordChar c = true)
    (hX0 : ∃ x t, X = x :: t ∧ isReSpace x = false ∧ x ≠ 'o')
    (hX : containsStr X " offset ".toList = false) :
    containsStr (histExpr q X) " offset ".toList = false := by
  have h1 := contains_offset_close hX
  simp only [String.toList] at h1
  obtain ⟨x, t, rfl, -, hxo⟩ := hX0
  have h2 : ∀ sub rest, ('o' :: sub).isPrefixOf (x :: rest) = false :=
    fun sub rest => isPrefixOf_of_head_ne 'o' x sub rest hxo
  simp only [List.cons_append] at h1
  simp (disch := decide) [histExpr, containsStr_cons_ne, contains_word hq]
  rw [containsStr_cons]
  simp [isPrefixOf_cons_cons, h2, h1]

theorem hist_clean (q X : Str) (hq : ∀ c ∈ q, isWordChar c = true)
    (hX : ∀ k, arithScan X k = some k) : Clean (histExpr q X) := by
  refine ⟨?_, ?_, stripArithmetic_of_scan (hist_scan q X hq hX 0)⟩
  · apply trimSpace_eq_self
    · simp [histExpr]; decide
    · rw [hist_last]
      intro c hc
      simp only [Option.some.injEq] at hc
      subst hc
      decide
  · apply stripOuterParens_eq_self
    simp [histExpr]

theorem parse_hist (n : Nat) (q X : Str) (p : promQL) (hq : isQuantileLit q = true)
    (hX : Inner X) (hp : parsePromQLFuel n X = some p) :
    parsePromQLFuel (n + 1) (histExpr q X) =
      some (if contains p.By "le".toList = true then
          { p with InnerFunc := p.Func, Func := "histogram_quantile".toList, Quantile := q }
        else { p with InnerFunc := p.Func, Func := "histogram_quantile".toList, Quantile := q,
                      By := p.By ++ ["le".toList] }) := by
  obtain ⟨hX0, hXd, hXs, hXo⟩ := hX
  have hqw := isQuantileLit_word hq
  exact parse_hist_step n _ (hist_clean q X hqw hXs) (no_cmp_of_last_paren (hist_last q X))
    (no_offset_of_not_contains (hist_contains q X hqw hX0 hXo)) _ _ _
    (reHist_hist q X hq hX0 hXd) p hp

theorem parse_hist_sum_le_rate (n : Nat) (q m d : Str) (hq : isQuantileLit q = true)
    (hm : isMetricName m = true) (hd : isDuration d = true) :
    parsePromQLFuel (n + 3)
        (histExpr q (aggByExpr "sum".toList "le".toList (leafExpr "rate".toList m [] d))) =
      some { Metric := m, Func := "histogram_quantile".toList, InnerFunc := "rate".toList,
             Range := "[".toList ++ d ++ "]".toList, Agg := "sum".toList, By := ["le".toList],
             Quantile := q } := by
  have h1 := parse_aggBy_leaf n "sum".toList ["le".toList] "rate".toList m [] d []
    (by decide) (by decide) (by decide) (by decide) hm (by decide) hd parseLabelSet_nil
  have hin : Inner (aggByExpr "sum".toList "le".toList (leafExpr "rate".toList m [] d)) :=
    aggBy_inner _ _ _ (by decide) (by decide)
      (leaf_inner "rate".toList m [] d (by decide) hm (by decide) hd)
  have h2 := parse_hist (n + 2) q _ _ hq hin h1
  rw [h2]
  rfl


/-! ## The trailing comparison and the trailing offset -/

theorem head_seq {a K : Re} {c : List Str} {s : Str} {r1 r2 : MatchRes}
    (h1 : (a.run c s).head? = some r1) (h2 : (K.run r1.caps r1.rest).head? = some r2) :
    ((Re.seq a K).run c s).head? = some ⟨r2.caps, r1.matched ++ r2.matched, r2.rest⟩ := by
  cases ha : a.run c s with
  | nil => simp [ha] at h1
  | cons x tl =>
    rw [ha] at h1
    simp only [List.head?_cons, Option.some.injEq] at h1
    subst h1
    cases hk : K.run x.caps x.rest with
    | nil => simp [hk] at h2
    | cons y tl2 =>
      rw [hk] at h2
      simp only [List.head?_cons, Option.some.injEq] at h2
      subst h2
      simp [ha, hk]

theorem starRun_decomp (p : Char → Bool) (ys : Str) :
    ∃ L, starRun p ys = L ++ [([], ys)] ∧ ∀ r ∈ L, r.1 ≠ [] ∧ ys = r.1 ++ r.2 := by
  cases ys with
  | nil => exact ⟨[], rfl, by simp⟩
  | cons y t =>
    by_cases hp : p y = true
    · refine ⟨(starRun p t).map (fun r => (y :: r.1, r.2)), by simp [starRun, hp], ?_⟩
      intro r hr
      obtain ⟨r0, hr0, rfl⟩ := List.mem_map.mp hr
      exact ⟨by simp, by simp [← (mem_starRun hr0).1]⟩
    · exact ⟨[], by simp [starRun, hp], by simp⟩

theorem run_star_group_seq_head (p : Char → Bool) (i : Nat) (K : Re) (c : List Str)
    (xs ys : Str) (r2 : MatchRes) (hxs : ∀ x ∈ xs, p x = true)
    (hfail : ∀ (a b : Str) (c' : List Str), a ≠ [] → ys = a ++ b → K.run c' b = [])
    (hK : (K.run (c.set i xs) ys).head? = some r2) :
    ((Re.seq (Re.group i (Re.star p)) K).run c (xs ++ ys)).head? =
      some ⟨r2.caps, xs ++ r2.matched, r2.rest⟩ := by
  obtain ⟨L, hL, hLp⟩ := starRun_decomp p ys
  have hnil : (L.flatMap fun r =>
      (K.run (c.set i (xs ++ r.1)) r.2).map fun r2 =>
        (⟨r2.caps, (xs ++ r.1) ++ r2.matched, r2.rest⟩ : MatchRes)) = [] := by
    apply List.flatMap_eq_nil_iff.mpr
    intro r hr
    obtain ⟨h1, h2⟩ := hLp r hr
    rw [hfail r.1 r.2 _ h1 h2]
    rfl
  cases hk : K.run (c.set i xs) ys with
  | nil => simp [hk] at hK
  | cons y tl =>
    rw [hk] at hK
    simp only [List.head?_cons, Option.some.injEq] at hK
    subst hK
    simp only [run_seq, run_group, run_star, starRun_append p xs ys hxs, hL, List.map_append,
      List.map_map, List.flatMap_append, List.flatMap_map]
    simp only [Function.comp_def, List.map_cons, List.map_nil, List.append_nil,
      List.flatMap_cons, List.flatMap_nil, hk]
    rw [hnil]
    simp
theorem isCmpOp_cases {op : Str} (h : isCmpOp op = true) :
    op = ">=".toList ∨ op = "<=".toList ∨ op = "==".toList ∨ op = "!=".toList ∨
      op = ">".toList ∨ op = "<".toList := by
  have := h
  simp only [isCmpOp, Bool.or_eq_true, beq_iff_eq] at this
  tauto

theorem isDecimalLit_cases {n : Str} (h : isDecimalLit n = true) :
    (∃ x xs, n = x :: xs ∧ isDigit x = true ∧ ∀ c ∈ xs, isDigit c = true) ∨
    (∃ x xs y ys, n = x :: (xs ++ '.' :: y :: ys) ∧ isDigit x = true ∧
      (∀ c ∈ xs, isDigit c = true) ∧ isDigit y = true ∧ ∀ c ∈ ys, isDigit c = true) := by
  have hsplit : n = n.takeWhile isDigit ++ n.dropWhile isDigit :=
    (List.takeWhile_append_dropWhile _ _).symm
  have htake : ∀ c ∈ n.takeWhile isDigit, isDigit c = true := fun c hc => List.mem_takeWhile_imp hc
  unfold isDecimalLit at h
  simp only [Bool.and_eq_true, Bool.not_eq_true', List.isEmpty_eq_false] at h
  obtain ⟨hne, h⟩ := h
  obtain ⟨x, xs, hx⟩ := List.exists_cons_of_ne_nil hne
  rw [hx] at hsplit htake
  cases hd : n.dropWhile isDigit with
  | nil =>
    left
    rw [hd] at hsplit
    simp only [List.append_nil] at hsplit
    exact ⟨x, xs, hsplit, htake x (List.mem_cons_self _ _),
      fun c hc => htake c (List.mem_cons_of_mem _ hc)⟩
  | cons c t =>
    right
    rw [hd] at h hsplit
    simp only [Bool.and_eq_true, beq_iff_eq, Bool.not_eq_true', List.isEmpty_eq_false,
      List.all_eq_true] at h
    obtain ⟨⟨rfl, hne2⟩, hall⟩ := h
    obtain ⟨y, ys, rfl⟩ := List.exists_cons_of_ne_nil hne2
    exact ⟨x, xs, y, ys, hsplit, htake x (List.mem_cons_self _ _),
      fun c hc => htake c (List.mem_cons_of_mem _ hc), hall y (List.mem_cons_self _ _),
      fun c hc => hall c (List.mem_cons_of_mem _ hc)⟩

theorem isDecimalLit_word {n : Str} (h : isDecimalLit n = true) :
    n ≠ [] ∧ ∀ c ∈ n, isWordChar c = true := by
  rcases isDecimalLit_cases h with ⟨x, xs, rfl, hx, hxs⟩ | ⟨x, xs, y, ys, rfl, hx, hxs, hy, hys⟩
  · refine ⟨by simp, ?_⟩
    intro c hc
    rcases List.mem_cons.mp hc with rfl | hc
    · exact isWordChar_of_isDigit hx
    · exact isWordChar_of_isDigit (hxs c hc)
  · refine ⟨by simp, ?_⟩
    intro c hc
    simp only [List.mem_cons, List.mem_append] at hc
    rcases hc with rfl | hc | rfl | rfl | hc
    · exact isWordChar_of_isDigit hx
    · exact isWordChar_of_isDigit (hxs c hc)
    · decide
    · exact isWordChar_of_isDigit hy
    · exact isWordChar_of_isDigit (hys c hc)

theorem isDecimalLit_last {n : Str} (h : isDecimalLit n = true) :
    ∃ d, n.getLast? = some d ∧ isDigit d = true := by
  rcases isDecimalLit_cases h with ⟨x, xs, rfl, hx, hxs⟩ | ⟨x, xs, y, ys, rfl, hx, hxs, hy, hys⟩
  · apply getLast?_all (by simp)
    intro c hc
    rcases List.mem_cons.mp hc with rfl | hc
    · exact hx
    · exact hxs c hc
  · have : x :: (xs ++ '.' :: y :: ys) = (x :: (xs ++ ['.'])) ++ (y :: ys) := by simp
    rw [this, List.getLast?_append]
    obtain ⟨d, hd, hdd⟩ := getLast?_all (l := y :: ys) (p := isDigit) (by simp) (by
      intro c hc
      rcases List.mem_cons.mp hc with rfl | hc
      · exact hy
      · exact hys c hc)
    exact ⟨d, by rw [hd]; rfl, hdd⟩

theorem reCmpTail_no_cmpChar (c : List Str) (b : Str) (h : ∀ x ∈ b, isCmpChar x = false) :
    reCmpTail.run c b = [] := by
  apply List.eq_nil_iff_forall_not_mem.mpr
  intro r hr
  obtain ⟨x, hx, hqx⟩ := needs_sound (q := isCmpChar) (by decide) hr
  have hs := run_sound hr
  have : x ∈ b := by rw [hs]; exact List.mem_append_left _ hx
  rw [h x this] at hqx
  exact Bool.noConfusion hqx

theorem isWordChar_not_cmpChar {c : Char} (h : isWordChar c = true) : isCmpChar c = false := by
  have h1 := isWordChar_ne h '>' (by decide)
  have h2 := isWordChar_ne h '<' (by decide)
  have h3 := isWordChar_ne h '=' (by decide)
  have h4 := isWordChar_ne h '!' (by decide)
  simp [isCmpChar, h1, h2, h3, h4]

theorem cmpSep_number_no_cmpChar (wb : Bool) {n : Str} (hn : ∀ c ∈ n, isWordChar c = true) :
    ∀ x ∈ cmpSep wb ++ n, isCmpChar x = false := by
  intro x hx
  rcases List.mem_append.mp hx with hx | hx
  · clear hn
    have : ∀ y ∈ cmpSep wb, isCmpChar y = false := by cases wb <;> decide
    exact this x hx
  · exact isWordChar_not_cmpChar (hn x hx)

theorem no_cmpChar_of_suffix {l a b : Str} (h : ∀ x ∈ l, isCmpChar x = false) (e : l = a ++ b) :
    ∀ x ∈ b, isCmpChar x = false := by
  intro x hx
  exact h x (by rw [e]; exact List.mem_append_right _ hx)
theorem cmpNumber_head (c : List Str) (wb : Bool) (n : Str) (hn : isDecimalLit n = true) :
    (reCmpNumber.run c (cmpSep wb ++ n)).head? = some ⟨c.set 3 n, cmpSep wb ++ n, []⟩ := by
  rcases isDecimalLit_cases hn with ⟨x, xs, rfl, hx, hxs⟩ | ⟨x, xs, y, ys, rfl, hx, hxs, hy, hys⟩
  · have hx1 : isReSpace x = false := (isDigit_facts hx).1
    have hx2 : ('b' = x) = False := by
      have : x ≠ 'b' := by rintro rfl; revert hx; decide
      simp [eq_comm, this]
    cases wb <;>
      simp (disch := first | assumption | decide) [cmpSep, reCmpNumber, Re.seqs, ws, stripLit,
        starRun_all _ _ hxs, hx2]
  · have hx1 : isReSpace x = false := (isDigit_facts hx).1
    have hx2 : ('b' = x) = False := by
      have : x ≠ 'b' := by rintro rfl; revert hx; decide
      simp [eq_comm, this]
    cases wb <;>
      simp (disch := first | assumption | decide) [cmpSep, reCmpNumber, Re.seqs, ws, stripLit,
        starRun_all _ _ hys, starRun_stop _ _ _ _ hxs, hx2]

theorem cmpSep_cons (wb : Bool) : ∃ t, cmpSep wb = ' ' :: t := by
  cases wb
  · exact ⟨_, rfl⟩
  · exact ⟨_, rfl⟩

theorem cmpOp_head (c : List Str) (op rest : Str) (hop : isCmpOp op = true) :
    ((Re.group 2 (Re.alts [">=".toList, "<=".toList, "==".toList, "!=".toList, ">".toList,
        "<".toList])).run c (op ++ ' ' :: rest)).head? =
      some ⟨c.set 2 op, op, ' ' :: rest⟩ := by
  rcases isCmpOp_cases hop with rfl | rfl | rfl | rfl | rfl | rfl <;>
    simp [Re.alts, stripLit]

theorem ws_cmpOp_head (c : List Str) (op rest : Str) (hop : isCmpOp op = true) :
    (ws.run c (op ++ rest)).head? = some ⟨c, [], op ++ rest⟩ := by
  rcases isCmpOp_cases hop with rfl | rfl | rfl | rfl | rfl | rfl <;>
    simp (disch := decide) [ws]

theorem cmpTail_head (c : List Str) (op : Str) (wb : Bool) (n : Str) (hop : isCmpOp op = true)
    (hn : isDecimalLit n = true) :
    (reCmpTail.run c (op ++ (cmpSep wb ++ n))).head? =
      some ⟨(c.set 2 op).set 3 n, op ++ (cmpSep wb ++ n), []⟩ := by
  have h3 := cmpNumber_head (c.set 2 op) wb n hn
  obtain ⟨t, ht⟩ := cmpSep_cons wb
  rw [ht] at h3 ⊢
  have h2 := cmpOp_head c op (t ++ n) hop
  have h1 := ws_cmpOp_head c op (' ' :: t ++ n) hop
  have := head_seq h1 (head_seq h2 h3)
  simpa [reCmpTail, Re.seqs] using this

theorem cmpTail_fail (op : Str) (wb : Bool) (n : Str) (hop : isCmpOp op = true)
    (hn : isDecimalLit n = true) :
    ∀ (a b : Str) (c' : List Str), a ≠ [] → op ++ (cmpSep wb ++ n) = a ++ b →
      reCmpTail.run c' b = [] := by
  intro a b c' ha e
  have hnc := cmpSep_number_no_cmpChar wb (isDecimalLit_word hn).2
  have hsingle : ∀ (o : Char), o :: (cmpSep wb ++ n) = a ++ b → reCmpTail.run c' b = [] := by
    intro o e1
    rcases List.cons_eq_append_iff.mp e1 with ⟨rfl, -⟩ | ⟨a', rfl, e2⟩
    · exact absurd rfl ha
    · exact reCmpTail_no_cmpChar c' b (no_cmpChar_of_suffix hnc e2)
  have hdouble : ∀ (o : Char), o :: '=' :: (cmpSep wb ++ n) = a ++ b →
      reCmpTail.run c' b = [] := by
    intro o e1
    rcases List.cons_eq_append_iff.mp e1 with ⟨rfl, -⟩ | ⟨a', rfl, e2⟩
    · exact absurd rfl ha
    · rcases List.cons_eq_append_iff.mp e2 with ⟨rfl, rfl⟩ | ⟨a'', rfl, e3⟩
      · obtain ⟨t, ht⟩ := cmpSep_cons wb
        rw [ht]
        simp (disch := first | assumption | decide) [reCmpTail, Re.seqs, Re.alts, ws, stripLit]
      · exact reCmpTail_no_cmpChar c' b (no_cmpChar_of_suffix hnc e3)
  rcases isCmpOp_cases hop with rfl | rfl | rfl | rfl | rfl | rfl
  · exact hdouble _ e
  · exact hdouble _ e
  · exact hdouble _ e
  · exact hdouble _ e
  · exact hsingle _ e
  · exact hsingle _ e

theorem reCmp_match (X op : Str) (wb : Bool) (n : Str) (hX : ∀ c ∈ X, isDot c = true)
    (hop : isCmpOp op = true) (hn : isDecimalLit n = true) :
    reCmp.findStringSubmatch ((X ++ [' ']) ++ (op ++ (cmpSep wb ++ n))) =
      [(X ++ [' ']) ++ (op ++ (cmpSep wb ++ n)), X ++ [' '], op, n] := by
  have hxs : ∀ c ∈ X ++ [' '], isDot c = true := by
    intro c hc
    rcases List.mem_append.mp hc with hc | hc
    · exact hX c hc
    · simp only [List.mem_singleton] at hc
      subst hc
      decide
  have hh := run_star_group_seq_head isDot 1 reCmpTail (List.replicate (reCmp.groups + 1) [])
    (X ++ [' ']) (op ++ (cmpSep wb ++ n)) _ hxs (cmpTail_fail op wb n hop hn)
    (cmpTail_head _ op wb n hop hn)
  rw [findStringSubmatch_of_head reCmp rfl _ _ hh]
  simp [reCmp, List.replicate]
theorem arithScan_neutral {seg : Str}
    (h : ∀ c ∈ seg, c ≠ '(' ∧ c ≠ ')' ∧ c ≠ '*' ∧ c ≠ '/' ∧ c ≠ '+' ∧ c ≠ '-') (d : Nat) :
    arithScan seg d = some d := by
  induction seg with
  | nil => rfl
  | cons x t ih =>
    have hx := h x (List.mem_cons_self _ _)
    have ht := ih (fun c hc => h c (List.mem_cons_of_mem _ hc))
    rw [arithScan, if_neg hx.1, if_neg hx.2.1, if_neg (by tauto), ht]

theorem trimSpace_snoc_space {X : Str} (h1 : ∀ c, X.head? = some c → isUnicodeSpace c = false)
    (h2 : ∀ c, X.getLast? = some c → isUnicodeSpace c = false) :
    trimSpace (X ++ [' ']) = X := by
  cases X with
  | nil => decide
  | cons x t =>
    have e1 : (x :: t ++ [' ']).dropWhile isUnicodeSpace = x :: t ++ [' '] :=
      dropWhile_eq_self (by simpa using h1)
    have e2 : (x :: t ++ [' ']).reverse = ' ' :: (x :: t).reverse := by simp
    have e3 : (' ' :: (x :: t).reverse).dropWhile isUnicodeSpace = (x :: t).reverse := by
      rw [List.dropWhile_cons_of_pos (by decide)]
      apply dropWhile_eq_self
      intro c hc
      rw [List.head?_reverse] at hc
      exact h2 c hc
    unfold trimSpace
    rw [e1, e2, e3, List.reverse_reverse]

theorem offsetLeaf_last (f m r d : Str) (hd : isDuration d = true) :
    ∃ c, (offsetExpr (leafExpr f m [] r) d).getLast? = some c ∧ isWordChar c = true := by
  obtain ⟨hne, hw⟩ := isDuration_word hd
  obtain ⟨c, hc, hcw⟩ := getLast?_all hne hw
  refine ⟨c, ?_, hcw⟩
  rw [offsetExpr, List.getLast?_append, hc]
  rfl

theorem offsetLeaf_scan (f m r d : Str) (hf : isRateFn f = true) (hm : isMetricName m = true)
    (hr : isDuration r = true) (hd : isDuration d = true) (k : Nat) :
    arithScan (offsetExpr (leafExpr f m [] r) d) k = some k := by
  have h1 := (leaf_inner f m [] r hf hm (by decide) hr).2.2.1 k
  have h2 : arithScan " offset ".toList k = some k := arithScan_neutral (by decide) k
  rw [offsetExpr, arithScan_append, arithScan_append, h1, Option.some_bind, h2, Option.some_bind,
    arithScan_word (isDuration_word hd).2]

theorem offsetLeaf_clean (f m r d : Str) (hf : isRateFn f = true) (hm : isMetricName m = true)
    (hr : isDuration r = true) (hd : isDuration d = true) :
    Clean (offsetExpr (leafExpr f m [] r) d) := by
  refine ⟨?_, ?_, stripArithmetic_of_scan (offsetLeaf_scan f m r d hf hm hr hd 0)⟩
  · apply trimSpace_eq_self
    · rcases isRateFn_cases hf with rfl | rfl | rfl <;>
        simp [offsetExpr, leafExpr] <;> decide
    · obtain ⟨c, hc, hcw⟩ := offsetLeaf_last f m r d hd
      rw [hc]
      intro c' hc'
      simp only [Option.some.injEq] at hc'
      subst hc'
      exact isWordChar_not_unicodeSpace hcw
  · apply stripOuterParens_eq_self
    rcases isRateFn_cases hf with rfl | rfl | rfl <;> simp [offsetExpr, leafExpr]

theorem offsetLeaf_no_cmpChar (f m r d : Str) (hf : isRateFn f = true)
    (hm : isMetricName m = true) (hr : isDuration r = true) (hd : isDuration d = true) :
    ∀ c ∈ offsetExpr (leafExpr f m [] r) d, isCmpChar c = false := by
  have hmw := isMetricName_word hm
  have hrw := (isDuration_word hr).2
  have hdw := (isDuration_word hd).2
  intro c hc
  simp only [offsetExpr, leafExpr, List.mem_append, List.append_nil] at hc
  rcases hc with (((((((hc | hc) | hc) | hc) | hc) | hc) | hc) | hc)
  · rcases isRateFn_cases hf with rfl | rfl | rfl <;> revert c <;> decide
  · revert c; decide
  · exact isWordChar_not_cmpChar (hmw c hc)
  · revert c; decide
  · exact isWordChar_not_cmpChar (hrw c hc)
  · revert c; decide
  · revert c; decide
  · exact isWordChar_not_cmpChar (hdw c hc)

theorem lastIndex_append_of_nonneg (sub : Str) :
    ∀ (xs ys : Str), 0 ≤ lastIndex ys sub →
      lastIndex (xs ++ ys) sub = (xs.length : Int) + lastIndex ys sub := by
  intro xs ys h
  induction xs with
  | nil => simp
  | cons x t ih =>
    rw [List.cons_append, lastIndex, ih]
    have : 0 ≤ (t.length : Int) + lastIndex ys sub := by omega
    simp only [this, if_true, List.length_cons]
    push_cast
    ring

theorem not_isPrefixOf_of_mem {sub t : Str} (c : Char) (h1 : c ∈ sub) (h2 : c ∉ t) :
    sub.isPrefixOf t = false := by
  cases h : sub.isPrefixOf t with
  | false => rfl
  | true => exact absurd (isPrefixOf_mem h c h1) h2

theorem lastIndex_offset_word {d : Str} (hd : ∀ c ∈ d, isWordChar c = true) :
    lastIndex (" offset ".toList ++ d) " offset ".toList = 0 := by
  have hsp : ' ' ∉ d := fun h => isWordChar_ne (hd _ h) ' ' (by decide) rfl
  have h0 : "offset ".toList.isPrefixOf d = false :=
    not_isPrefixOf_of_mem ' ' (by decide) hsp
  have h1 : containsStr ("offset ".toList ++ d) " offset ".toList = false := by
    have h2 : containsStr d " offset ".toList = false := by
      have := contains_word hd [] "offset ".toList
      simpa using this
    simp only [String.toList] at h0 h2
    simp (disch := decide) [containsStr_cons_ne, containsStr_cons, isPrefixOf_cons_cons, h0, h2]
  have h3 := lastIndex_of_not_contains ' ' "offset ".toList _ h1
  show lastIndex (' ' :: ("offset ".toList ++ d)) (' ' :: "offset ".toList) = 0
  rw [lastIndex, h3]
  simp [List.isPrefixOf]
theorem parse_offsetLeaf (n : Nat) (f m r d : Str) (hf : isRateFn f = true)
    (hm : isMetricName m = true) (hr : isDuration r = true) (hd : isDuration d = true) :
    parsePromQLFuel (n + 2) (offsetExpr (leafExpr f m [] r) d) =
      some { Metric := m, Func := f, Range := "[".toList ++ r ++ "]".toList, Offset := d } := by
  have hdw := (isDuration_word hd).2
  have hleaf := parse_leaf n f m [] r [] hf hm (by decide) hr parseLabelSet_nil
  have hbase : trimSpace (leafExpr f m [] r) = leafExpr f m [] r :=
    (leaf_clean f m [] r hf (isMetricName_word hm) (by decide) (isDuration_word hr).2).1
  have hpos : 0 < (leafExpr f m [] r).length := by simp [leafExpr]
  have ho : lastIndex (offsetExpr (leafExpr f m [] r) d) " offset ".toList =
      ((leafExpr f m [] r).length : Int) := by
    rw [offsetExpr, List.append_assoc,
      lastIndex_append_of_nonneg _ _ _ (by rw [lastIndex_offset_word hdw]),
      lastIndex_offset_word hdw]
    simp
  have hnc : reCmp.findStringSubmatch (offsetExpr (leafExpr f m [] r) d) = [] :=
    findStringSubmatch_of_needs reCmp rfl isCmpChar (by decide) _
      (offsetLeaf_no_cmpChar f m r d hf hm hr hd)
  have := parse_offset_step (n + 1) _ (offsetLeaf_clean f m r d hf hm hr hd) hnc
    (leafExpr f m [] r) d ho hpos rfl _ (by rw [hbase]; exact hleaf)
  rw [this, trimSpace_word hdw]

theorem containsStr_infix (kw : Str) (hk : kw ≠ []) (post : Str) :
    ∀ pre : Str, containsStr (pre ++ (kw ++ post)) kw = true := by
  intro pre
  induction pre with
  | nil =>
    obtain ⟨k, t, rfl⟩ := List.exists_cons_of_ne_nil hk
    simp only [List.nil_append, List.cons_append, containsStr, Bool.or_eq_true]
    left
    have : (k :: t) <+: (k :: t) ++ post := List.prefix_append _ _
    exact List.isPrefixOf_iff_prefix.mpr this
  | cons x t ih =>
    rw [List.cons_append, containsStr, ih]
    simp

theorem eq_of_isPrefixOf_space (w : Str) :
    ∀ (d rest : Str), (∀ c ∈ d, c ≠ ' ') → (∀ c ∈ w, c ≠ ' ') →
      (w ++ [' ']).isPrefixOf (d ++ ' ' :: rest) = true → d = w := by
  induction w with
  | nil =>
    intro d rest hd _ h
    cases d with
    | nil => rfl
    | cons c t =>
      simp only [List.nil_append, List.cons_append, List.isPrefixOf, Bool.and_true,
        beq_iff_eq] at h
      exact absurd h.symm (hd c (List.mem_cons_self _ _))
  | cons a w ih =>
    intro d rest hd hw h
    cases d with
    | nil =>
      simp only [List.nil_append, List.cons_append, List.isPrefixOf, Bool.and_eq_true,
        beq_iff_eq] at h
      exact absurd h.1 (hw a (List.mem_cons_self _ _))
    | cons c t =>
      simp only [List.cons_append, List.isPrefixOf, Bool.and_eq_true, beq_iff_eq] at h
      obtain ⟨rfl, h2⟩ := h
      rw [ih t rest (fun c hc => hd c (List.mem_cons_of_mem _ hc))
        (fun c hc => hw c (List.mem_cons_of_mem _ hc)) h2]

theorem not_isPrefixOf_bool {d : Str} (hd : ∀ c ∈ d, isWordChar c = true)
    (hne : d ≠ "bool".toList) (rest : Str) :
    "bool ".toList.isPrefixOf (d ++ ' ' :: rest) = false := by
  cases h : "bool ".toList.isPrefixOf (d ++ ' ' :: rest) with
  | false => rfl
  | true =>
    exact absurd (eq_of_isPrefixOf_space "bool".toList d rest
      (fun c hc => isWordChar_ne (hd c hc) ' ' (by decide)) (by decide) h) hne

theorem cmp_contains_bool_true (X op n : Str) :
    containsStr (cmpExpr X op true n) " bool ".toList = true := by
  have : cmpExpr X op true n = (X ++ [' '] ++ op) ++ (" bool ".toList ++ n) := by
    simp [cmpExpr, cmpSep]
  rw [this]
  exact containsStr_infix _ (by decide) _ _

theorem leaf_no_space (f m r : Str) (hf : isRateFn f = true) (hm : isMetricName m = true)
    (hr : isDuration r = true) : ∀ c ∈ leafExpr f m [] r, c ≠ ' ' := by
  have hmw := isMetricName_word hm
  have hrw := (isDuration_word hr).2
  intro c hc
  simp only [leafExpr, List.mem_append, List.append_nil] at hc
  rcases hc with ((((hc | hc) | hc) | hc) | hc) | hc
  · rcases isRateFn_cases hf with rfl | rfl | rfl <;> revert c <;> decide
  · revert c; decide
  · exact isWordChar_ne (hmw c hc) ' ' (by decide)
  · revert c; decide
  · exact isWordChar_ne (hrw c hc) ' ' (by decide)
  · revert c; decide

theorem cmp_contains_bool_false (f m r d op n : Str) (hf : isRateFn f = true)
    (hm : isMetricName m = true) (hr : isDuration r = true) (hd : isDuration d = true)
    (hdb : d ≠ "bool".toList) (hop : isCmpOp op = true) (hn : isDecimalLit n = true) :
    containsStr (cmpExpr (offsetExpr (leafExpr f m [] r) d) op false n) " bool ".toList =
      false := by
  have hdw := (isDuration_word hd).2
  have hnw := (isDecimalLit_word hn).2
  have h1 := fun rest => not_isPrefixOf_bool hdw hdb rest
  simp only [String.toList] at h1
  have h2 : ∀ sub, ('b' :: sub).isPrefixOf n = false := by
    intro sub
    rcases isDecimalLit_cases hn with ⟨x, xs, rfl, hx, -⟩ | ⟨x, xs, y, ys, rfl, hx, -⟩ <;>
      exact isPrefixOf_of_head_ne 'b' x sub _ (by rintro rfl; revert hx; decide)
  have h3 := fun rest => containsStr_append_of_ne ' ' "bool ".toList (leafExpr f m [] r) rest
    (leaf_no_space f m r hf hm hr)
  have h4 : containsStr n (' ' :: "bool ".toList) = false := by
    have := contains_word hnw [] "bool ".toList
    simpa using this
  have e : cmpExpr (offsetExpr (leafExpr f m [] r) d) op false n =
      leafExpr f m [] r ++ (" offset ".toList ++ (d ++ (' ' :: (op ++ (' ' :: n))))) := by
    simp [cmpExpr, cmpSep, offsetExpr]
  rw [e]
  show containsStr _ (' ' :: "bool ".toList) = false
  rw [h3]
  simp only [String.toList] at h4
  rcases isCmpOp_cases hop with rfl | rfl | rfl | rfl | rfl | rfl <;>
    simp (disch := decide) [containsStr_cons_ne, containsStr_cons, isPrefixOf_cons_cons,
      contains_word hdw, h1, h2, h4]
theorem offsetLeaf_isDot (f m r d : Str) (hf : isRateFn f = true) (hm : isMetricName m = true)
    (hr : isDuration r = true) (hd : isDuration d = true) :
    ∀ c ∈ offsetExpr (leafExpr f m [] r) d, isDot c = true := by
  intro c hc
  simp only [offsetExpr, List.mem_append] at hc
  rcases hc with (hc | hc) | hc
  · exact (leaf_inner f m [] r hf hm (by decide) hr).2.1 c hc
  · revert c; decide
  · exact isWordChar_isDot ((isDuration_word hd).2 c hc)

theorem cmp_offsetLeaf_clean (f m r d op : Str) (wb : Bool) (n : Str) (hf : isRateFn f = true)
    (hm : isMetricName m = true) (hr : isDuration r = true) (hd : isDuration d = true)
    (hop : isCmpOp op = true) (hn : isDecimalLit n = true) :
    Clean (cmpExpr (offsetExpr (leafExpr f m [] r) d) op wb n) := by
  have hscan : arithScan (cmpExpr (offsetExpr (leafExpr f m [] r) d) op wb n) 0 = some 0 := by
    have h1 := offsetLeaf_scan f m r d hf hm hr hd 0
    have h2 : arithScan [' '] 0 = some 0 := rfl
    have h3 : arithScan op 0 = some 0 := by
      rcases isCmpOp_cases hop with rfl | rfl | rfl | rfl | rfl | rfl <;> rfl
    have h4 : arithScan (cmpSep wb) 0 = some 0 := by cases wb <;> rfl
    rw [cmpExpr, arithScan_append, arithScan_append, h1, Option.some_bind, h2, Option.some_bind,
      arithScan_append, h3, Option.some_bind, arithScan_append, h4, Option.some_bind,
      arithScan_word (isDecimalLit_word hn).2]
  refine ⟨?_, ?_, stripArithmetic_of_scan hscan⟩
  · apply trimSpace_eq_self
    · rcases isRateFn_cases hf with rfl | rfl | rfl <;>
        simp [cmpExpr, offsetExpr, leafExpr] <;> decide
    · obtain ⟨c, hc, hcd⟩ := isDecimalLit_last hn
      have : (cmpExpr (offsetExpr (leafExpr f m [] r) d) op wb n).getLast? = some c := by
        rw [cmpExpr, List.getLast?_append, List.getLast?_append, List.getLast?_append, hc]
        rfl
      rw [this]
      intro c' hc'
      simp only [Option.some.injEq] at hc'
      subst hc'
      exact isWordChar_not_unicodeSpace (isWordChar_of_isDigit hcd)
  · apply stripOuterParens_eq_self
    rcases isRateFn_cases hf with rfl | rfl | rfl <;> simp [cmpExpr, offsetExpr, leafExpr]

theorem parse_cmp_offsetLeaf (k : Nat) (f m r d op : Str) (wb : Bool) (n : Str)
    (hf : isRateFn f = true) (hm : isMetricName m = true) (hr : isDuration r = true)
    (hd : isDuration d = true) (hop : isCmpOp op = true) (hn : isDecimalLit n = true) :
    parsePromQLFuel (k + 3) (cmpExpr (offsetExpr (leafExpr f m [] r) d) op wb n) =
      some { Metric := m, Func := f, Range := "[".toList ++ r ++ "]".toList, Offset := d,
             CmpOp := op, CmpRight := n,
             CmpIsBool := containsStr (cmpExpr (offsetExpr (leafExpr f m [] r) d) op wb n)
               " bool ".toList } := by
  have hin := parse_offsetLeaf k f m r d hf hm hr hd
  have htrim : trimSpace (offsetExpr (leafExpr f m [] r) d ++ [' ']) =
      offsetExpr (leafExpr f m [] r) d := by
    apply trimSpace_snoc_space
    · intro c hc
      rcases isRateFn_cases hf with rfl | rfl | rfl <;>
        (simp [offsetExpr, leafExpr] at hc; subst hc; decide)
    · obtain ⟨c, hc, hcw⟩ := offsetLeaf_last f m r d hd
      rw [hc]
      intro c' hc'
      simp only [Option.some.injEq] at hc'
      subst hc'
      exact isWordChar_not_unicodeSpace hcw
  have hm4 := reCmp_match (offsetExpr (leafExpr f m [] r) d) op wb n
    (offsetLeaf_isDot f m r d hf hm hr hd) hop hn
  have := parse_cmp_step (k + 2) _ (cmp_offsetLeaf_clean f m r d op wb n hf hm hr hd hop hn)
    _ _ _ _ hm4 _ (by rw [htrim]; exact hin)
  rw [cmpExpr] at this ⊢
  rw [this]

/-! ## Parentheses and scalar arithmetic around a metric name -/

theorem parse_normalise (k : Nat) (e e1 e2 : Str) (h1 : stripOuterParens (trimSpace e) = some e1)
    (h2 : stripArithmetic e1 = some e2) (hc : Clean e2) :
    parsePromQLFuel (k + 1) e = parsePromQLFuel (k + 1) e2 := by
  obtain ⟨c1, c2, c3⟩ := hc
  rw [parsePromQLFuel, parsePromQLFuel]
  simp only [h1, h2, c1, c2, c3, Option.bind_eq_bind, Option.some_bind, bind, Option.bind]

theorem parenScan_word {seg : Str} (h : ∀ c ∈ seg, isWordChar c = true) (rest : Str) (d : Int)
    (b : Bool) : parenScan (seg ++ rest) d b = parenScan rest d b := by
  induction seg with
  | nil => rfl
  | cons x t ih =>
    have hx := h x (List.mem_cons_self _ _)
    rw [List.cons_append, parenScan, if_neg (isWordChar_ne hx _ (by decide)),
      if_neg (isWordChar_ne hx _ (by decide)), ih (fun c hc => h c (List.mem_cons_of_mem _ hc))]

theorem slice_inner (a b : Char) (mid : Str) :
    slice? (a :: (mid ++ [b])) 1 ((a :: (mid ++ [b])).length - 1) = some mid := by
  unfold slice?
  rw [if_pos (by simp)]
  have h1 : (a :: (mid ++ [b])).length - 1 = mid.length + 1 := by simp
  rw [h1, List.take_succ_cons, List.take_left, List.drop_one, List.tail_cons]

theorem stripOuterParens_wrapped (mid : Str)
    (hscan : parenScan (mid ++ [')']) 1 true = (0, true))
    (ht : trimSpace mid = mid) (k : Nat) :
    stripOuterParensFuel (k + 1) ('(' :: (mid ++ [')'])) = stripOuterParensFuel k mid := by
  have l1 : ('(' :: (mid ++ [')'])).getLast? = some ')' := by
    have : '(' :: (mid ++ [')']) = ('(' :: mid) ++ [')'] := rfl
    rw [this, List.getLast?_append]
    rfl
  have hs := slice_inner '(' ')' mid
  have hlen : ¬ ((mid.length + 1 + 1) < 2) := by omega
  rw [stripOuterParensFuel]
  simp only [List.length_cons, List.length_append, List.length_singleton, List.length_nil,
    Nat.add_sub_cancel] at hs
  simp [l1, parenScan, hscan, hs, ht, hlen]

theorem stripOuterParens_double {x : Str} (hx : isMetricName x = true) :
    stripOuterParens ('(' :: '(' :: (x ++ [')', ')'])) = some x := by
  have hw := isMetricName_word hx
  have hhead : x.head? ≠ some '(' := fun hc =>
    isWordChar_ne (hw _ (List.mem_of_mem_head? hc)) '(' (by decide) rfl
  have t1 : trimSpace ('(' :: (x ++ [')'])) = '(' :: (x ++ [')']) := by
    apply trimSpace_eq_self
    · simp; decide
    · have : '(' :: (x ++ [')']) = ('(' :: x) ++ [')'] := rfl
      rw [this, List.getLast?_append]
      intro c hc
      simp only [List.getLast?_singleton, Option.or_some, Option.some.injEq] at hc
      subst hc
      decide
  have p1 : parenScan (('(' :: (x ++ [')'])) ++ [')']) 1 true = (0, true) := by
    have := parenScan_word hw [')', ')'] 2 true
    simp [parenScan, this]
  have p2 : parenScan (x ++ [')']) 1 true = (0, true) := by
    have := parenScan_word hw [')'] 1 true
    simp [parenScan, this]
  have e : '(' :: '(' :: (x ++ [')', ')']) = '(' :: (('(' :: (x ++ [')'])) ++ [')']) := by simp
  have hlen : ('(' :: '(' :: (x ++ [')', ')'])).length + 1 = x.length + 2 + 1 + 1 + 1 := by
    simp
  rw [stripOuterParens, hlen, e, stripOuterParens_wrapped _ p1 t1,
    stripOuterParens_wrapped _ p2 (trimSpace_word hw)]
  simp [stripOuterParensFuel, hhead]
theorem isNumber_word {n : Str} (h : isNumber n = true) :
    n ≠ [] ∧ ∀ c ∈ n, isWordChar c = true := by
  unfold isNumber at h
  by_cases hn : n = []
  · simp [hn] at h
  · refine ⟨hn, ?_⟩
    rw [if_neg hn] at h
    simp only [List.all_eq_true, Bool.not_eq_true', Bool.and_eq_false_imp, Bool.or_eq_true,
      decide_eq_true_eq, bne_eq_false_iff_eq] at h
    intro c hc
    by_cases hd : isDigit c = true
    · exact isWordChar_of_isDigit hd
    · have : c = '.' := by
        apply h c hc
        simp only [isDigit, Bool.and_eq_true, decide_eq_true_eq, not_and, not_le] at hd
        by_cases h48 : c.toNat < 48
        · exact Or.inl h48
        · exact Or.inr (by omega)
      subst this
      decide

theorem isNumber_metricName {x : Str} (hx : isMetricName x = true) : isNumber x = false := by
  cases x with
  | nil => rfl
  | cons c cs =>
    simp only [isMetricName, Bool.and_eq_true] at hx
    have hc := hx.1
    have h1 : isDigit c = false := by
      simp only [isMetricStart, isLetter, Bool.or_eq_true, Bool.and_eq_true, decide_eq_true_eq,
        beq_iff_eq] at hc
      simp only [isDigit, Bool.and_eq_false_imp, decide_eq_true_eq, decide_eq_false_iff_not,
        not_le]
      intro h48
      rcases hc with ((hc | hc) | hc) | hc
      · omega
      · omega
      · subst hc; revert h48; decide
      · subst hc; revert h48; decide
    have h2 : c ≠ '.' := by
      rintro rfl
      revert hc
      decide
    simp only [isDigit, Bool.and_eq_false_imp, decide_eq_true_eq, decide_eq_false_iff_not,
      not_le] at h1
    unfold isNumber
    rw [if_neg (by simp)]
    simp only [List.all_cons, Bool.and_eq_false_imp, Bool.not_eq_true', Bool.and_eq_false_imp,
      Bool.or_eq_true, decide_eq_true_eq]
    intro h
    exfalso
    simp only [Bool.and_eq_false_imp, Bool.or_eq_true, decide_eq_true_eq, bne_eq_false_iff_eq] at h
    apply h2
    apply h
    by_cases h48 : c.toNat < 48
    · exact Or.inl h48
    · exact Or.inr (h1 (by omega))

theorem trimSpace_cons_space {X : Str} (h1 : ∀ c, X.head? = some c → isUnicodeSpace c = false)
    (h2 : ∀ c, X.getLast? = some c → isUnicodeSpace c = false) :
    trimSpace (' ' :: X) = X := by
  unfold trimSpace
  rw [List.dropWhile_cons_of_pos (by decide), dropWhile_eq_self h1,
    dropWhile_eq_self (by intro c hc; rw [List.head?_reverse] at hc; exact h2 c hc),
    List.reverse_reverse]

theorem word_head {X : Str} (h : ∀ c ∈ X, isWordChar c = true) :
    ∀ c, X.head? = some c → isUnicodeSpace c = false :=
  fun c hc => isWordChar_not_unicodeSpace (h c (List.mem_of_mem_head? hc))

theorem word_last {X : Str} (h : ∀ c ∈ X, isWordChar c = true) :
    ∀ c, X.getLast? = some c → isUnicodeSpace c = false :=
  fun c hc => isWordChar_not_unicodeSpace (h c (List.mem_of_mem_getLast? hc))

theorem stripArithmetic_op (a b : Str) (o : Char) (ha : ∀ c ∈ a, isWordChar c = true)
    (hb : ∀ c ∈ b, isWordChar c = true) (ho : isArithOp o = true) :
    stripArithmetic (a ++ ' ' :: o :: ' ' :: b) =
      if isNumber b then stripOuterParens a
      else if isNumber a then stripOuterParens b
      else some (a ++ ' ' :: o :: ' ' :: b) := by
  have ho' : o = '*' ∨ o = '/' ∨ o = '+' ∨ o = '-' := by
    have := ho
    simp only [isArithOp, Bool.or_eq_true, beq_iff_eq] at this
    tauto
  have h1 : o ≠ '(' := by rintro rfl; revert ho; decide
  have h2 : o ≠ ')' := by rintro rfl; revert ho; decide
  have hskip := stripArithLoop_skip (a ++ ' ' :: o :: ' ' :: b) a (' ' :: o :: ' ' :: b) 0 []
    (fun c hc => isWordChar_arith (ha c hc))
  have hb' : ∀ pre, stripArithLoop (a ++ ' ' :: o :: ' ' :: b) pre (' ' :: b) 0 =
      some (a ++ ' ' :: o :: ' ' :: b) := by
    intro pre
    have := stripArithLoop_skip (a ++ ' ' :: o :: ' ' :: b) b [] 0 (pre ++ [' '])
      (fun c hc => isWordChar_arith (hb c hc))
    rw [List.append_nil] at this
    rw [stripArithLoop, if_neg (by decide), if_neg (by decide), if_neg (by decide), this]
    rfl
  rw [stripArithmetic, hskip, List.nil_append, stripArithLoop, if_neg (by decide),
    if_neg (by decide), if_neg (by decide), stripArithLoop, if_neg h1, if_neg h2, if_pos ho',
    if_pos rfl]
  simp only [trimSpace_snoc_space (word_head ha) (word_last ha),
    trimSpace_cons_space (word_head hb) (word_last hb), hb']

theorem parse_via_normalise (e e1 x : Str) (hx : isMetricName x = true)
    (h1 : stripOuterParens (trimSpace e) = some e1) (h2 : stripArithmetic e1 = some x) :
    parsePromQL e = some { Metric := x } := by
  rw [parsePromQL, parse_normalise _ e e1 x h1 h2 (clean_of_word (isMetricName_word hx))]
  exact parse_metricName _ x hx

theorem head_append_word {a : Str} (ha : a ≠ []) (haw : ∀ c ∈ a, isWordChar c = true) (rest : Str) :
    ∀ c, (a ++ rest).head? = some c → isWordChar c = true := by
  obtain ⟨x, t, rfl⟩ := List.exists_cons_of_ne_nil ha
  intro c hc
  simp only [List.cons_append, List.head?_cons, Option.some.injEq] at hc
  subst hc
  exact haw _ (List.mem_cons_self _ _)

theorem last_append_word {b : Str} (hb : b ≠ []) (hbw : ∀ c ∈ b, isWordChar c = true) (pre : Str) :
    ∀ c, (pre ++ b).getLast? = some c → isWordChar c = true := by
  intro c hc
  obtain ⟨d, hd, hdw⟩ := getLast?_all hb hbw
  rw [List.getLast?_append, hd] at hc
  have hc' : some d = some c := hc
  simp only [Option.some.injEq] at hc'
  subst hc'
  exact hdw

theorem binop_clean_front (a b : Str) (o : Char) (ha : a ≠ []) (haw : ∀ c ∈ a, isWordChar c = true)
    (hb : b ≠ []) (hbw : ∀ c ∈ b, isWordChar c = true) :
    stripOuterParens (trimSpace (a ++ ' ' :: o :: ' ' :: b)) = some (a ++ ' ' :: o :: ' ' :: b) := by
  have ht : trimSpace (a ++ ' ' :: o :: ' ' :: b) = a ++ ' ' :: o :: ' ' :: b := by
    apply trimSpace_eq_self
    · exact fun c hc => isWordChar_not_unicodeSpace (head_append_word ha haw _ c hc)
    · intro c hc
      have e : a ++ ' ' :: o :: ' ' :: b = (a ++ [' ', o, ' ']) ++ b := by simp
      rw [e] at hc
      exact isWordChar_not_unicodeSpace (last_append_word hb hbw _ c hc)
  rw [ht]
  apply stripOuterParens_eq_self
  intro hc
  exact isWordChar_ne (head_append_word ha haw _ _ hc) '(' (by decide) rfl


/-! ## Totality of the parser -/

theorem parsePromQLFuel_succ (k : Nat) (expr : Str) :
    parsePromQLFuel (k + 1) expr =
      (stripOuterParens (trimSpace expr)).bind fun e1 =>
        (stripArithmetic e1).bind fun e => parseBody (parsePromQLFuel k) e := by
  rfl

theorem run_caps_length {R : Re} {c : List Str} {s : Str} {r : MatchRes} (h : r ∈ R.run c s) :
    r.caps.length = c.length := by
  induction R generalizing c s r with
  | lit w =>
    simp only [run_lit] at h
    cases hw : stripLit w s with
    | none => simp [hw] at h
    | some t =>
      simp only [hw, List.mem_singleton] at h
      subst h; rfl
  | cls p =>
    cases s with
    | nil => simp at h
    | cons x t =>
      by_cases hp : p x = true
      · rw [run_cls_pos _ _ _ _ hp] at h
        simp only [List.mem_singleton] at h
        subst h; rfl
      · rw [run_cls_neg _ _ _ _ (by simpa using hp)] at h
        simp at h
  | seq a b iha ihb =>
    obtain ⟨r1, h1, r2, h2, rfl⟩ := mem_run_seq.mp h
    rw [ihb h2, iha h1]
  | alt a b iha ihb =>
    simp only [run_alt, List.mem_append] at h
    rcases h with h | h
    · exact iha h
    · exact ihb h
  | opt a iha =>
    simp only [run_opt, List.mem_append, List.mem_singleton] at h
    rcases h with h | h
    · exact iha h
    · subst h; rfl
  | star p =>
    simp only [run_star, List.mem_map] at h
    obtain ⟨r0, -, rfl⟩ := h
    rfl
  | plus p => exact congrArg List.length (mem_run_plus h).1
  | group i a iha =>
    simp only [run_group, List.mem_map] at h
    obtain ⟨r0, h0, rfl⟩ := h
    simp [iha (r := r0) h0]
  | eot =>
    cases s with
    | nil =>
      simp only [run_eot_nil, List.mem_singleton] at h
      subst h; rfl
    | cons x t => simp at h

theorem run_minLen {R : Re} {c : List Str} {s : Str} {r : MatchRes} (h : r ∈ R.run c s) :
    R.minLen ≤ r.matched.length := by
  induction R generalizing c s r with
  | lit w =>
    simp only [run_lit] at h
    cases hw : stripLit w s with
    | none => simp [hw] at h
    | some t =>
      simp only [hw, List.mem_singleton] at h
      subst h
      exact le_refl _
  | cls p =>
    cases s with
    | nil => simp at h
    | cons x t =>
      by_cases hp : p x = true
      · rw [run_cls_pos _ _ _ _ hp] at h
        simp only [List.mem_singleton] at h
        subst h
        exact le_refl _
      · rw [run_cls_neg _ _ _ _ (by simpa using hp)] at h
        simp at h
  | seq a b iha ihb =>
    obtain ⟨r1, h1, r2, h2, rfl⟩ := mem_run_seq.mp h
    have := iha h1
    have := ihb h2
    simp only [Re.minLen, List.length_append]
    omega
  | alt a b iha ihb =>
    simp only [run_alt, List.mem_append] at h
    simp only [Re.minLen]
    rcases h with h | h
    · exact le_trans (min_le_left _ _) (iha h)
    · exact le_trans (min_le_right _ _) (ihb h)
  | opt a _ => exact Nat.zero_le _
  | star p => exact Nat.zero_le _
  | plus p =>
    have := (mem_run_plus h).2.1
    exact List.length_pos.mpr this
  | group i a iha =>
    simp only [run_group, List.mem_map] at h
    obtain ⟨r0, h0, rfl⟩ := h
    exact iha (r := r0) h0
  | eot => exact Nat.zero_le _

theorem run_caps_of_not_hasGroup {R : Re} {i : Nat} {cs : List Str} {s : Str} {r : MatchRes}
    (hg : R.hasGroup i = false) (h : r ∈ R.run cs s) : r.caps[i]? = cs[i]? := by
  induction R generalizing cs s r with
  | lit w =>
    simp only [run_lit] at h
    cases hw : stripLit w s with
    | none => simp [hw] at h
    | some t =>
      simp only [hw, List.mem_singleton] at h
      subst h; rfl
  | cls p =>
    cases s with
    | nil => simp at h
    | cons x t =>
      by_cases hp : p x = true
      · rw [run_cls_pos _ _ _ _ hp] at h
        simp only [List.mem_singleton] at h
        subst h; rfl
      · rw [run_cls_neg _ _ _ _ (by simpa using hp)] at h
        simp at h
  | seq a b iha ihb =>
    obtain ⟨r1, h1, r2, h2, rfl⟩ := mem_run_seq.mp h
    simp only [Re.hasGroup, Bool.or_eq_false_iff] at hg
    rw [ihb hg.2 h2, iha hg.1 h1]
  | alt a b iha ihb =>
    simp only [Re.hasGroup, Bool.or_eq_false_iff] at hg
    simp only [run_alt, List.mem_append] at h
    rcases h with h | h
    · exact iha hg.1 h
    · exact ihb hg.2 h
  | opt a iha =>
    simp only [Re.hasGroup] at hg
    simp only [run_opt, List.mem_append, List.mem_singleton] at h
    rcases h with h | h
    · exact iha hg h
    · subst h; rfl
  | star p =>
    simp only [run_star, List.mem_map] at h
    obtain ⟨r0, -, rfl⟩ := h
    rfl
  | plus p => rw [(mem_run_plus h).1]
  | group j a iha =>
    simp only [Re.hasGroup, Bool.or_eq_false_iff, beq_eq_false_iff_ne, ne_eq] at hg
    simp only [run_group, List.mem_map] at h
    obtain ⟨r0, h0, rfl⟩ := h
    simp only
    rw [List.getElem?_set_ne hg.1, iha (r := r0) hg.2 h0]
  | eot =>
    cases s with
    | nil =>
      simp only [run_eot_nil, List.mem_singleton] at h
      subst h; rfl
    | cons x t => simp at h

theorem run_slack_of_hasGroup {R : Re} {i : Nat} {cs : List Str} {s : Str} {r : MatchRes}
    (h : r ∈ R.run cs s) (hg : R.hasGroup i = true) :
    r.caps[i]? = cs[i]? ∨ ∃ x, r.caps[i]? = some x ∧ x.length + R.slack i ≤ r.matched.length := by
  induction R generalizing cs s r with
  | lit w => simp [Re.hasGroup] at hg
  | cls p => simp [Re.hasGroup] at hg
  | star p => simp [Re.hasGroup] at hg
  | plus p => simp [Re.hasGroup] at hg
  | eot => simp [Re.hasGroup] at hg
  | seq a b iha ihb =>
    obtain ⟨r1, h1, r2, h2, rfl⟩ := mem_run_seq.mp h
    have hm1 := run_minLen h1
    have hm2 := run_minLen h2
    have key1 : r1.caps[i]? = cs[i]? ∨
        ∃ x, r1.caps[i]? = some x ∧ a.hasGroup i = true ∧ x.length + a.slack i ≤ r1.matched.length := by
      cases hga : a.hasGroup i with
      | false => exact Or.inl (run_caps_of_not_hasGroup hga h1)
      | true =>
        rcases iha h1 hga with h | ⟨x, hx, hl⟩
        · exact Or.inl h
        · exact Or.inr ⟨x, hx, rfl, hl⟩
    have key2 : r2.caps[i]? = r1.caps[i]? ∨
        ∃ x, r2.caps[i]? = some x ∧ b.hasGroup i = true ∧ x.length + b.slack i ≤ r2.matched.length := by
      cases hgb : b.hasGroup i with
      | false => exact Or.inl (run_caps_of_not_hasGroup hgb h2)
      | true =>
        rcases ihb h2 hgb with h | ⟨x, hx, hl⟩
        · exact Or.inl h
        · exact Or.inr ⟨x, hx, rfl, hl⟩
    simp only [List.length_append]
    rcases key2 with e2 | ⟨x, hx, hgb, hl⟩
    · rcases key1 with e1 | ⟨x, hx, hga, hl⟩
      · exact Or.inl (e2.trans e1)
      · refine Or.inr ⟨x, e2.trans hx, ?_⟩
        simp only [Re.slack, hga, if_true]
        split_ifs
        · have := min_le_right (b.slack i + a.minLen) (a.slack i + b.minLen)
          omega
        · omega
    · refine Or.inr ⟨x, hx, ?_⟩
      simp only [Re.slack, hgb, if_true]
      split_ifs
      · have := min_le_left (b.slack i + a.minLen) (a.slack i + b.minLen)
        omega
      · omega
  | alt a b iha ihb =>
    simp only [run_alt, List.mem_append] at h
    rcases h with h | h
    · cases hga : a.hasGroup i with
      | false => exact Or.inl (run_caps_of_not_hasGroup hga h)
      | true =>
        rcases iha h hga with h | ⟨x, hx, hl⟩
        · exact Or.inl h
        · refine Or.inr ⟨x, hx, ?_⟩
          simp only [Re.slack, hga, if_true]
          split_ifs
          · have := min_le_left (a.slack i) (b.slack i)
            omega
          · omega
    · cases hgb : b.hasGroup i with
      | false => exact Or.inl (run_caps_of_not_hasGroup hgb h)
      | true =>
        rcases ihb h hgb with h | ⟨x, hx, hl⟩
        · exact Or.inl h
        · refine Or.inr ⟨x, hx, ?_⟩
          simp only [Re.slack, hgb, if_true]
          split_ifs
          · have := min_le_right (a.slack i) (b.slack i)
            omega
          · omega
  | opt a iha =>
    simp only [run_opt, List.mem_append, List.mem_singleton] at h
    rcases h with h | h
    · exact iha h (by simpa [Re.hasGroup] using hg)
    · subst h; exact Or.inl rfl
  | group j a iha =>
    simp only [run_group, List.mem_map] at h
    obtain ⟨r0, h0, rfl⟩ := h
    by_cases hj : j = i
    · subst hj
      by_cases hlt : j < r0.caps.length
      · refine Or.inr ⟨r0.matched, ?_, ?_⟩
        · simp [List.getElem?_set_self, hlt]
        · simp [Re.slack]
      · left
        have hlen := run_caps_length h0
        simp only [not_lt] at hlt
        rw [List.getElem?_eq_none (by simpa using hlt), List.getElem?_eq_none (by omega)]
    · simp only
      rw [List.getElem?_set_ne hj]
      cases hga : a.hasGroup i with
      | false => exact Or.inl (run_caps_of_not_hasGroup hga h0)
      | true =>
        rcases iha (r := r0) h0 hga with h | ⟨x, hx, hl⟩
        · exact Or.inl h
        · exact Or.inr ⟨x, hx, by simpa [Re.slack, hj] using hl⟩

theorem run_slack {R : Re} {i : Nat} {cs : List Str} {s : Str} {r : MatchRes}
    (h : r ∈ R.run cs s) :
    r.caps[i]? = cs[i]? ∨ ∃ x, r.caps[i]? = some x ∧ x.length + R.slack i ≤ r.matched.length := by
  cases hg : R.hasGroup i with
  | false => exact Or.inl (run_caps_of_not_hasGroup hg h)
  | true => exact run_slack_of_hasGroup h hg

theorem findStringSubmatch_cases (re : Regexp) (h : re.anchored = true) (s : Str) :
    re.findStringSubmatch s = [] ∨
      ∃ r ∈ re.body.run (List.replicate (re.groups + 1) []) s,
        re.findStringSubmatch s = r.caps.set 0 r.matched := by
  cases hr : (re.body.run (List.replicate (re.groups + 1) []) s) with
  | nil => exact Or.inl (findStringSubmatch_of_run_nil re h s hr)
  | cons r l =>
    refine Or.inr ⟨r, List.mem_cons_self _ _, ?_⟩
    exact findStringSubmatch_of_head re h s r (by rw [hr]; rfl)

theorem findStringSubmatch_length (re : Regexp) (h : re.anchored = true) (s : Str) :
    re.findStringSubmatch s = [] ∨ (re.findStringSubmatch s).length = re.groups + 1 := by
  rcases findStringSubmatch_cases re h s with h0 | ⟨r, hr, he⟩
  · exact Or.inl h0
  · right
    rw [he, List.length_set, run_caps_length hr, List.length_replicate]

theorem findStringSubmatch_capture_lt (re : Regexp) (h : re.anchored = true)
    (hmin : 1 ≤ re.body.minLen) (i : Nat) (hi : 1 ≤ i) (hsl : 1 ≤ re.body.slack i)
    (s x : Str) (hx : (re.findStringSubmatch s)[i]? = some x) : x.length < s.length := by
  rcases findStringSubmatch_cases re h s with h0 | ⟨r, hr, he⟩
  · rw [h0] at hx; simp at hx
  · rw [he, List.getElem?_set_ne (by omega)] at hx
    have hs := run_sound hr
    have hm := run_minLen hr
    have hlen : s.length = r.matched.length + r.rest.length := by
      rw [hs]; simp
    rcases @run_slack _ i _ _ _ hr with h1 | ⟨y, hy, hl⟩
    · rw [h1] at hx
      have : x = [] := by
        rw [List.getElem?_replicate] at hx
        split_ifs at hx
        · simpa using hx.symm
      subst this
      simp only [List.length_nil]
      omega
    · rw [hy] at hx
      cases hx
      omega

theorem lastIndex_bound (s sub : Str) (h : 0 ≤ lastIndex s sub) :
    (lastIndex s sub).toNat + sub.length ≤ s.length := by
  induction s with
  | nil =>
    simp only [lastIndex] at h ⊢
    split_ifs at h ⊢ with he
    · simp [List.isEmpty_iff.mp he]
    · omega
  | cons c t ih =>
    simp only [lastIndex] at h ⊢
    split_ifs at h ⊢ with h1 h2
    · have := ih h1
      simp only [List.length_cons]
      omega
    · have := (List.IsPrefix.length_le (List.isPrefixOf_iff_prefix.mp h2))
      simpa using this
    · omega

theorem slice_some (s : Str) (lo hi : Nat) (h1 : lo ≤ hi) (h2 : hi ≤ s.length) :
    slice? s lo hi = some ((s.take hi).drop lo) := by
  unfold slice?
  rw [if_pos ⟨h1, h2⟩]

theorem stripOuterParensFuel_total (fuel : Nat) (s : Str) (h : s.length < fuel) :
    ∃ r, stripOuterParensFuel fuel s = some r ∧ r.length ≤ s.length := by
  induction fuel generalizing s with
  | zero => omega
  | succ n ih =>
    unfold stripOuterParensFuel
    dsimp only
    split_ifs with h1 h2
    · exact ⟨s, rfl, le_refl _⟩
    · exact ⟨s, rfl, le_refl _⟩
    · have hlen : 2 ≤ s.length := by
        simp only [Bool.or_eq_true, decide_eq_true_eq, not_or, not_lt] at h1
        exact h1.1.1
      rw [slice_some s 1 (s.length - 1) (by omega) (by omega)]
      have hl : (trimSpace (List.drop 1 (List.take (s.length - 1) s))).length < n := by
        have := trimSpace_length_le (List.drop 1 (List.take (s.length - 1) s))
        simp only [List.length_drop, List.length_take] at this
        omega
      obtain ⟨r, hr, hrl⟩ := ih _ hl
      refine ⟨r, hr, ?_⟩
      have := trimSpace_length_le (List.drop 1 (List.take (s.length - 1) s))
      simp only [List.length_drop, List.length_take] at this
      omega

theorem stripOuterParens_total (s : Str) :
    ∃ r, stripOuterParens s = some r ∧ r.length ≤ s.length :=
  stripOuterParensFuel_total _ s (Nat.lt_succ_self _)

theorem stripArithLoop_total (s pre t : Str) (depth : Nat)
    (h : pre.length + t.length ≤ s.length) :
    ∃ r, stripArithLoop s pre t depth = some r ∧ r.length ≤ s.length := by
  induction t generalizing pre depth with
  | nil => exact ⟨s, rfl, le_refl _⟩
  | cons c t ih =>
    have hstep : (pre ++ [c]).length + t.length ≤ s.length := by
      simp only [List.length_append, List.length_cons, List.length_nil] at h ⊢
      omega
    simp only [List.length_cons] at h
    unfold stripArithLoop
    dsimp only
    split_ifs
    · exact ih _ _ hstep
    · exact ih _ _ hstep
    · exact ih _ _ hstep
    · obtain ⟨r, hr, hl⟩ := stripOuterParens_total (trimSpace pre)
      have := trimSpace_length_le pre
      exact ⟨r, hr, by omega⟩
    · obtain ⟨r, hr, hl⟩ := stripOuterParens_total (trimSpace t)
      have := trimSpace_length_le t
      exact ⟨r, hr, by omega⟩
    · exact ih _ _ hstep
    · exact ih _ _ hstep
    · exact ih _ _ hstep

theorem stripArithmetic_total (s : Str) :
    ∃ r, stripArithmetic s = some r ∧ r.length ≤ s.length :=
  stripArithLoop_total s [] s 0 (by simp)

theorem normalise_total (expr : Str) :
    ∃ e, (stripOuterParens (trimSpace expr)).bind stripArithmetic = some e ∧
      e.length ≤ expr.length := by
  obtain ⟨e1, h1, l1⟩ := stripOuterParens_total (trimSpace expr)
  obtain ⟨e, h2, l2⟩ := stripArithmetic_total e1
  have := trimSpace_length_le expr
  exact ⟨e, by rw [h1]; exact h2, by omega⟩

theorem list_length_four {α : Type} (l : List α) (h : l.length = 4) :
    ∃ a b c d, l = [a, b, c, d] := by
  match l, h with
  | [a, b, c, d], _ => exact ⟨a, b, c, d, rfl⟩

theorem list_length_three {α : Type} (l : List α) (h : l.length = 3) :
    ∃ a b c, l = [a, b, c] := by
  match l, h with
  | [a, b, c], _ => exact ⟨a, b, c, rfl⟩

theorem list_length_five {α : Type} (l : List α) (h : l.length = 5) :
    ∃ a b c d e, l = [a, b, c, d, e] := by
  match l, h with
  | [a, b, c, d, e], _ => exact ⟨a, b, c, d, e, rfl⟩

theorem parseLabelParts_total (ps : List Str) (out : List labelMatcher) :
    ∃ ls, parseLabelParts ps out = some ls := by
  induction ps generalizing out with
  | nil => exact ⟨out, rfl⟩
  | cons p rest ih =>
    unfold parseLabelParts
    simp only
    split_ifs with h1 h2
    · exact ih out
    · obtain ⟨w, k, o, v, hm⟩ := list_length_four _ h2
      rw [hm]
      simpa using ih _
    · exact ih out

theorem parseLabelSet_total (s : Str) : ∃ ls, parseLabelSet s = some ls := by
  unfold parseLabelSet
  simp only
  split_ifs with h1 h2
  · exact ⟨[], rfl⟩
  · have hlen : 2 ≤ (trimSpace s).length := by
      generalize trimSpace s = u at h1 h2
      match u, h1, h2 with
      | [c], _, h2 =>
        simp [hasPrefix, hasSuffix] at h2
        obtain ⟨ha, hb⟩ := h2
        rw [← ha] at hb
        exact absurd hb (by decide)
      | _ :: _ :: _, _, _ => simp
    rw [slice_some _ 1 _ (by omega) (by omega)]
    exact parseLabelParts_total _ _
  · exact parseLabelParts_total _ _

theorem reCmp_bounds : 1 ≤ reCmp.body.minLen ∧ 1 ≤ reCmp.body.slack 1 := by decide

theorem reHist_bounds : 1 ≤ reHist.body.minLen ∧ 1 ≤ reHist.body.slack 2 := by decide

theorem reAggA_bounds : 1 ≤ reAggA.body.minLen ∧ 1 ≤ reAggA.body.slack 3 := by decide

theorem reAggB_bounds : 1 ≤ reAggB.body.minLen ∧ 1 ≤ reAggB.body.slack 2 := by decide

theorem parseBody_cmp (rec : Str → Option promQL) (e w left op right : Str)
    (hc : reCmp.findStringSubmatch e = [w, left, op, right]) :
    parseBody rec e = (rec (trimSpace left)).bind fun p =>
      some { p with CmpOp := op, CmpRight := right,
                    CmpIsBool := containsStr e " bool ".toList } := by
  simp [parseBody, hc]

theorem parseBody_offset (rec : Str → Option promQL) (e : Str)
    (hc : (reCmp.findStringSubmatch e).length ≠ 4)
    (ho : 0 < lastIndex e " offset ".toList) :
    parseBody rec e =
      (rec (trimSpace (e.take (lastIndex e " offset ".toList).toNat))).bind fun p =>
        some { p with Offset := trimSpace (e.drop ((lastIndex e " offset ".toList).toNat + 8)) } := by
  have hb := lastIndex_bound e " offset ".toList (le_of_lt ho)
  have hlen : " offset ".toList.length = 8 := rfl
  rw [hlen] at hb
  have hs1 := slice_some e ((lastIndex e " offset ".toList).toNat + 8) e.length hb (le_refl _)
  have hs2 := slice_some e 0 (lastIndex e " offset ".toList).toNat (Nat.zero_le _) (by omega)
  rw [List.take_length] at hs1
  rw [List.drop_zero] at hs2
  simp only [String.toList] at hs1 hs2 ho
  simp [parseBody, hc, ho, hs1, hs2]

theorem parseBody_hist (rec : Str → Option promQL) (e w q inner : Str)
    (hc : (reCmp.findStringSubmatch e).length ≠ 4)
    (ho : ¬ 0 < lastIndex e " offset ".toList)
    (hh : reHist.findStringSubmatch e = [w, q, inner]) :
    parseBody rec e = (rec inner).bind fun p =>
      some (if contains p.By "le".toList = true then
          { p with InnerFunc := p.Func, Func := "histogram_quantile".toList, Quantile := q }
        else { p with InnerFunc := p.Func, Func := "histogram_quantile".toList, Quantile := q,
                      By := p.By ++ ["le".toList] }) := by
  simp only [String.toList] at ho
  cases hr : rec inner with
  | none => simp [parseBody, hc, ho, hh, hr]
  | some p =>
    cases hle : contains p.By ['l', 'e'] <;>
      simp [parseBody, hc, ho, hh, hr, hle]

theorem parseBody_aggA (rec : Str → Option promQL) (e w agg by1 inner : Str)
    (hc : (reCmp.findStringSubmatch e).length ≠ 4)
    (ho : ¬ 0 < lastIndex e " offset ".toList)
    (hh : (reHist.findStringSubmatch e).length ≠ 3)
    (ha : reAggA.findStringSubmatch e = [w, agg, by1, inner]) :
    parseBody rec e = (rec inner).bind fun p =>
      some (if by1 ≠ [] then { p with Agg := agg, By := splitCSV by1 }
        else { p with Agg := agg }) := by
  simp only [String.toList] at ho
  cases hr : rec inner with
  | none => simp [parseBody, hc, ho, hh, ha, hr]
  | some p =>
    by_cases hby : by1 = [] <;>
      simp [parseBody, hc, ho, hh, ha, hr, hby]

theorem parseBody_aggB (rec : Str → Option promQL) (e w agg inner by1 : Str)
    (hc : (reCmp.findStringSubmatch e).length ≠ 4)
    (ho : ¬ 0 < lastIndex e " offset ".toList)
    (hh : (reHist.findStringSubmatch e).length ≠ 3)
    (ha : (reAggA.findStringSubmatch e).length ≠ 4)
    (hb : reAggB.findStringSubmatch e = [w, agg, inner, by1]) :
    parseBody rec e = (rec inner).bind fun p =>
      some (if by1 ≠ [] then { p with Agg := agg, By := splitCSV by1 }
        else { p with Agg := agg }) := by
  simp only [String.toList] at ho
  cases hr : rec inner with
  | none => simp [parseBody, hc, ho, hh, ha, hb, hr]
  | some p =>
    by_cases hby : by1 = [] <;>
      simp [parseBody, hc, ho, hh, ha, hb, hr, hby]

theorem parseBody_fn (rec : Str → Option promQL) (e w f m sel rng : Str)
    (hc : (reCmp.findStringSubmatch e).length ≠ 4)
    (ho : ¬ 0 < lastIndex e " offset ".toList)
    (hh : (reHist.findStringSubmatch e).length ≠ 3)
    (ha : (reAggA.findStringSubmatch e).length ≠ 4)
    (hb : (reAggB.findStringSubmatch e).length ≠ 4)
    (hf : reFn.findStringSubmatch e = [w, f, m, sel, rng])
    (ls : List labelMatcher) (hl : parseLabelSet sel = some ls) :
    parseBody rec e =
      some { Metric := nonEmpty m [], Labels := ls, Func := f, Range := trimSpace rng } := by
  simp only [String.toList] at ho
  simp [parseBody, hc, ho, hh, ha, hb, hf, hl]

theorem parseBody_simple (rec : Str → Option promQL) (e w m sel rng : Str)
    (hc : (reCmp.findStringSubmatch e).length ≠ 4)
    (ho : ¬ 0 < lastIndex e " offset ".toList)
    (hh : (reHist.findStringSubmatch e).length ≠ 3)
    (ha : (reAggA.findStringSubmatch e).length ≠ 4)
    (hb : (reAggB.findStringSubmatch e).length ≠ 4)
    (hf : (reFn.findStringSubmatch e).length ≠ 5)
    (hs : reSimple.findStringSubmatch e = [w, m, sel, rng])
    (ls : List labelMatcher) (hl : parseLabelSet sel = some ls) :
    parseBody rec e = some { Metric := m, Labels := ls, Range := trimSpace rng } := by
  simp only [String.toList] at ho
  simp [parseBody, hc, ho, hh, ha, hb, hf, hs, hl]

theorem parseBody_fallback (rec : Str → Option promQL) (e : Str)
    (hc : (reCmp.findStringSubmatch e).length ≠ 4)
    (ho : ¬ 0 < lastIndex e " offset ".toList)
    (hh : (reHist.findStringSubmatch e).length ≠ 3)
    (ha : (reAggA.findStringSubmatch e).length ≠ 4)
    (hb : (reAggB.findStringSubmatch e).length ≠ 4)
    (hf : (reFn.findStringSubmatch e).length ≠ 5)
    (hs : ¬ (reSimple.findStringSubmatch e).length ≥ 2) :
    parseBody rec e = some { Metric := e } := by
  simp only [String.toList] at ho
  simp only [ge_iff_le, not_le] at hs
  simp [parseBody, hc, ho, hh, ha, hb, hf, hs]

theorem parseBody_shape (e : Str) :
    (∃ q, ∀ rec, parseBody rec e = some q) ∨
    (∃ (x : Str) (f : promQL → promQL), x.length < e.length ∧
      ∀ rec, parseBody rec e = (rec x).bind fun p => some (f p)) := by
  by_cases hc : (reCmp.findStringSubmatch e).length = 4
  · obtain ⟨w, l, o, n, hm⟩ := list_length_four _ hc
    have hlt := findStringSubmatch_capture_lt reCmp rfl reCmp_bounds.1 1 (le_refl _)
      reCmp_bounds.2 e l (by rw [hm]; rfl)
    have := trimSpace_length_le l
    exact Or.inr ⟨trimSpace l, _, by omega, fun rec => parseBody_cmp rec e w l o n hm⟩
  by_cases ho : 0 < lastIndex e " offset ".toList
  · have hb := lastIndex_bound e " offset ".toList (le_of_lt ho)
    have hlen : " offset ".toList.length = 8 := rfl
    rw [hlen] at hb
    have := trimSpace_length_le (e.take (lastIndex e " offset ".toList).toNat)
    rw [List.length_take] at this
    refine Or.inr ⟨_, _, ?_, fun rec => parseBody_offset rec e hc ho⟩
    omega
  by_cases hh : (reHist.findStringSubmatch e).length = 3
  · obtain ⟨w, q, x, hm⟩ := list_length_three _ hh
    have hlt := findStringSubmatch_capture_lt reHist rfl reHist_bounds.1 2 (by decide)
      reHist_bounds.2 e x (by rw [hm]; rfl)
    exact Or.inr ⟨x, _, hlt, fun rec => parseBody_hist rec e w q x hc ho hm⟩
  by_cases ha : (reAggA.findStringSubmatch e).length = 4
  · obtain ⟨w, agg, by1, x, hm⟩ := list_length_four _ ha
    have hlt := findStringSubmatch_capture_lt reAggA rfl reAggA_bounds.1 3 (by decide)
      reAggA_bounds.2 e x (by rw [hm]; rfl)
    exact Or.inr ⟨x, _, hlt, fun rec => parseBody_aggA rec e w agg by1 x hc ho hh hm⟩
  by_cases hb : (reAggB.findStringSubmatch e).length = 4
  · obtain ⟨w, agg, x, by1, hm⟩ := list_length_four _ hb
    have hlt := findStringSubmatch_capture_lt reAggB rfl reAggB_bounds.1 2 (by decide)
      reAggB_bounds.2 e x (by rw [hm]; rfl)
    exact Or.inr ⟨x, _, hlt, fun rec => parseBody_aggB rec e w agg x by1 hc ho hh ha hm⟩
  by_cases hf : (reFn.findStringSubmatch e).length = 5
  · obtain ⟨w, f, m, sel, rng, hm⟩ := list_length_five _ hf
    obtain ⟨ls, hl⟩ := parseLabelSet_total sel
    exact Or.inl ⟨_, fun rec => parseBody_fn rec e w f m sel rng hc ho hh ha hb hm ls hl⟩
  by_cases hs : (reSimple.findStringSubmatch e).length ≥ 2
  · have h4 : (reSimple.findStringSubmatch e).length = 4 := by
      rcases findStringSubmatch_length reSimple rfl e with h0 | h1
      · rw [h0] at hs; simp at hs
      · exact h1
    obtain ⟨w, m, sel, rng, hm⟩ := list_length_four _ h4
    obtain ⟨ls, hl⟩ := parseLabelSet_total sel
    exact Or.inl ⟨_, fun rec => parseBody_simple rec e w m sel rng hc ho hh ha hb hf hm ls hl⟩
  exact Or.inl ⟨_, fun rec => parseBody_fallback rec e hc ho hh ha hb hf hs⟩

theorem parseBody_congr (e : Str) (rec1 rec2 : Str → Option promQL)
    (h : ∀ x, x.length < e.length → rec1 x = rec2 x) :
    parseBody rec1 e = parseBody rec2 e := by
  rcases parseBody_shape e with ⟨q, hq⟩ | ⟨x, f, hx, hf⟩
  · rw [hq, hq]
  · rw [hf, hf, h x hx]

theorem parsePromQLFuel_stable (n : Nat) :
    ∀ expr : Str, expr.length ≤ n →
      ∃ p, ∀ k, expr.length < k → parsePromQLFuel k expr = some p := by
  induction n with
  | zero =>
    intro expr hle
    obtain ⟨e, he, hel⟩ := normalise_total expr
    rcases parseBody_shape e with ⟨q, hq⟩ | ⟨x, f, hx, hf⟩
    · refine ⟨q, fun k hk => ?_⟩
      obtain ⟨k, rfl⟩ := Nat.exists_eq_succ_of_ne_zero (by omega : k ≠ 0)
      rw [parsePromQLFuel_succ, ← Option.bind_assoc, he]
      exact hq _
    · omega
  | succ n ih =>
    intro expr hle
    obtain ⟨e, he, hel⟩ := normalise_total expr
    rcases parseBody_shape e with ⟨q, hq⟩ | ⟨x, f, hx, hf⟩
    · refine ⟨q, fun k hk => ?_⟩
      obtain ⟨k, rfl⟩ := Nat.exists_eq_succ_of_ne_zero (by omega : k ≠ 0)
      rw [parsePromQLFuel_succ, ← Option.bind_assoc, he]
      exact hq _
    · obtain ⟨px, hpx⟩ := ih x (by omega)
      refine ⟨f px, fun k hk => ?_⟩
      obtain ⟨k, rfl⟩ := Nat.exists_eq_succ_of_ne_zero (by omega : k ≠ 0)
      rw [parsePromQLFuel_succ, ← Option.bind_assoc, he]
      show parseBody (parsePromQLFuel k) e = some (f px)
      rw [hf, hpx k (by omega)]
      rfl

theorem parsePromQL_total (expr : Str) : ∃ p, parsePromQL expr = some p := by
  obtain ⟨p, hp⟩ := parsePromQLFuel_stable expr.length expr (le_refl _)
  exact ⟨p, hp _ (Nat.lt_succ_self _)⟩

theorem parsePromQLFuel_eq (expr : Str) (k : Nat) (hk : expr.length < k) :
    parsePromQLFuel k expr = parsePromQL expr := by
  obtain ⟨p, hp⟩ := parsePromQLFuel_stable expr.length expr (le_refl _)
  rw [hp k hk]
  exact (hp _ (Nat.lt_succ_self _)).symm

theorem parsePromQL_unfold (expr e : Str)
    (he : (stripOuterParens (trimSpace expr)).bind stripArithmetic = some e)
    (hel : e.length ≤ expr.length) :
    parsePromQL expr = parseBody parsePromQL e := by
  show parsePromQLFuel (expr.length + 1) expr = _
  rw [parsePromQLFuel_succ, ← Option.bind_assoc, he]
  show parseBody (parsePromQLFuel expr.length) e = _
  apply parseBody_congr
  intro x hx
  exact parsePromQLFuel_eq x _ (by omega)

/-! ## The widget query -/

theorem parsePromQL_up_job :
    parsePromQL "up\x7bjob=\"api\"\x7d".toList =
      some { Metric := "up".toList, Labels := [⟨"job".toList, "=".toList, "api".toList⟩] } := by
  decide!

theorem buildFilterItems_job :
    buildFilterItems [⟨"job".toList, "=".toList, "api".toList⟩] =
      [{ id := "f_job".toList, key := tagKey "job".toList, op := "=".toList,
         value := "api".toList }] := by
  decide!

theorem pickTimeAggregation_eq (p : promQL) :
    pickTimeAggregation p =
      some (if p.Func = "rate".toList ∨ p.Func = "irate".toList ∨ p.Func = "increase".toList ∨
          p.Func = "histogram_quantile".toList then "rate".toList else "avg".toList) := by
  unfold pickTimeAggregation pickTimeAggregationFuel
  by_cases h1 : p.Func = "rate".toList ∨ p.Func = "irate".toList ∨ p.Func = "increase".toList
  · rw [if_pos h1, if_pos (by tauto)]
  · rw [if_neg h1]
    by_cases h2 : p.Func = "histogram_quantile".toList
    · rw [if_pos h2, if_pos (by tauto)]
      simp [pickTimeAggregationFuel, innerFuncForHist, h2]
    · rw [if_neg h2, if_neg (by tauto)]

theorem makeQueryItem_total (env : Env) (t : GrafanaTarget) (expr : Str) :
    ∃ item, makeQueryItem env t expr = some item ∧
      item.1.queryName = nonEmpty t.RefID "A".toList ∧
      item.1.expression = nonEmpty t.RefID "A".toList ∧
      item.2.name = nonEmpty t.RefID "A".toList ∧
      item.2.query = expr := by
  obtain ⟨p, hp⟩ := parsePromQL_total expr
  simp only [makeQueryItem, hp, pickTimeAggregation_eq, Option.bind_eq_bind, Option.some_bind]
  split_ifs <;> exact ⟨_, rfl, rfl, rfl, rfl, rfl⟩

theorem makeQueryLoop_skip (env : Env) (t : GrafanaTarget) (rest : List GrafanaTarget)
    (h : trimSpace t.Expr = []) : makeQueryLoop env (t :: rest) = makeQueryLoop env rest := by
  simp [makeQueryLoop, h]

theorem makeQueryLoop_total (env : Env) (ts : List GrafanaTarget) :
    ∃ out, makeQueryLoop env ts = some out ∧
      out.1.map (fun i => (i.queryName, i.expression)) =
        (ts.filter fun t => decide (trimSpace t.Expr ≠ [])).map
          (fun t => (nonEmpty t.RefID "A".toList, nonEmpty t.RefID "A".toList)) ∧
      out.2.map (fun r => (r.name, r.query)) =
        (ts.filter fun t => decide (trimSpace t.Expr ≠ [])).map
          (fun t => (nonEmpty t.RefID "A".toList, trimSpace t.Expr)) := by
  induction ts with
  | nil => exact ⟨([], []), rfl, rfl, rfl⟩
  | cons t rest ih =>
    obtain ⟨out, ho, h1, h2⟩ := ih
    by_cases h : trimSpace t.Expr = []
    · refine ⟨out, by rw [makeQueryLoop_skip env t rest h, ho], ?_, ?_⟩
      · rw [List.filter_cons_of_neg (by simpa using h)]; exact h1
      · rw [List.filter_cons_of_neg (by simpa using h)]; exact h2
    · obtain ⟨item, hi, q1, q2, q3, q4⟩ := makeQueryItem_total env t (trimSpace t.Expr)
      refine ⟨(item.1 :: out.1, item.2 :: out.2), ?_, ?_, ?_⟩
      · simp [makeQueryLoop, h, hi, ho]
      · rw [List.filter_cons_of_pos (by simpa using h)]
        simp only [List.map_cons, q1, q2, h1]
      · rw [List.filter_cons_of_pos (by simpa using h)]
        simp only [List.map_cons, q3, q4, h2]

theorem makeQueryLoop_remove (env : Env) (ts1 ts2 : List GrafanaTarget) (t : GrafanaTarget)
    (h : trimSpace t.Expr = []) :
    makeQueryLoop env (ts1 ++ t :: ts2) = makeQueryLoop env (ts1 ++ ts2) := by
  induction ts1 with
  | nil => exact makeQueryLoop_skip env t ts2 h
  | cons a l ih =>
    show makeQueryLoop env (a :: (l ++ t :: ts2)) = makeQueryLoop env (a :: (l ++ ts2))
    simp only [makeQueryLoop, ih]

theorem collectExprs_eq_filter (env : Env) (ts : List GrafanaTarget) (reps : List Replacement) :
    collectExprs env ts reps =
      (ts.filter fun t => decide (t.Expr ≠ [])).map fun t => applyReplacements env t.Expr reps := by
  induction ts with
  | nil => rfl
  | cons t rest ih =>
    by_cases h : t.Expr = []
    · rw [List.filter_cons_of_neg (by simpa using h), collectExprs, if_pos h, ih]
    · rw [List.filter_cons_of_pos (by simpa using h), collectExprs, if_neg h, ih, List.map_cons]


/-! ## Templates, the having clause, the validator and the dashboard -/

theorem scan_skip_all (re : Regexp) (hnil : re.matchAt [] = none) (s : Str) (b : Bool)
    (pending : Str) : re.scan s s.length b pending = ([], pending) := by
  induction s generalizing b with
  | nil => simp [Regexp.scan, hnil]
  | cons c t ih =>
    simp only [List.length_cons, Regexp.scan]
    exact ih _

theorem scan_no_match (re : Regexp) (s : Str) (b : Bool) (pending : Str)
    (h : ∀ a t, s = a ++ t → re.matchAt t = none) :
    re.scan s 0 b pending = ([], pending ++ s) := by
  induction s generalizing b pending with
  | nil => simp [Regexp.scan, h [] [] rfl]
  | cons c t ih =>
    have h0 := h [] (c :: t) rfl
    simp only [Regexp.scan, h0]
    rw [ih false (pending ++ [c]) (fun a t2 e => h (c :: a) t2 (by rw [e]; rfl))]
    simp

theorem scan_whole_match (re : Regexp) (hnil : re.matchAt [] = none) (c : Char) (t : Str)
    (caps : List Str) (hm : re.matchAt (c :: t) = some ((c :: t) :: caps, [])) :
    re.scan (c :: t) 0 false [] = ([([], (c :: t) :: caps)], []) := by
  simp only [Regexp.scan, hm, List.headD_cons, List.length_cons, Nat.add_one_ne_zero, if_false,
    Nat.add_sub_cancel]
  rw [scan_skip_all re hnil]

theorem matchAt_of_head (re : Regexp) (s : Str) (r : MatchRes)
    (h : (re.body.run (List.replicate (re.groups + 1) []) s).head? = some r) :
    re.matchAt s = some (r.caps.set 0 r.matched, r.rest) := by
  simp [Regexp.matchAt, h]

theorem matchAt_none_of_needs (re : Regexp) (q : Char → Bool) (hq : re.body.needs q = true)
    (s : Str) (hs : ∀ x ∈ s, q x = false) : re.matchAt s = none := by
  have hr : re.body.run (List.replicate (re.groups + 1) []) s = [] := by
    apply List.eq_nil_iff_forall_not_mem.mpr
    intro r hr
    obtain ⟨x, hx, hqx⟩ := needs_sound hq hr
    have hsnd := run_sound hr
    have : x ∈ s := by rw [hsnd]; exact List.mem_append_left _ hx
    rw [hs x this] at hqx
    exact absurd hqx (by decide)
  simp [Regexp.matchAt, hr]

theorem isTmplChar_of_isNameChar {c : Char} (h : isNameChar c = true) : isTmplChar c = true := by
  simp only [isNameChar, isTmplChar, Bool.or_eq_true] at h ⊢
  tauto

theorem reTmpl_plain (x : Char) (t : Str) (hx : isNameChar x = true)
    (ht : ∀ c ∈ t, isNameChar c = true) :
    reTmpl.matchAt ('$' :: x :: t) = some (['$' :: x :: t, x :: t], []) := by
  have hx1 := isTmplChar_of_isNameChar hx
  have ht1 : ∀ c ∈ t, isTmplChar c = true := fun c hc => isTmplChar_of_isNameChar (ht c hc)
  have hxb : ('{' == x) = false := by
    rw [beq_eq_false_iff_ne]
    rintro rfl
    exact absurd hx (by decide)
  have hxb2 : ¬ '{' = x := by simpa using hxb
  have h1 : ((Re.lit ['$']).run [[], []] ('$' :: x :: t)).head? = some ⟨[[], []], ['$'], x :: t⟩ := by
    simp [stripLit]
  have h2 : ((Re.opt (Re.lit ['{'])).run [[], []] (x :: t)).head? =
      some ⟨[[], []], [], x :: t⟩ := by
    simp [stripLit, hxb2]
  have h3 : ((Re.group 1 (Re.plus isTmplChar)).run [[], []] (x :: t)).head? =
      some ⟨[[], x :: t], x :: t, []⟩ := by
    simp only [run_group, run_plus_pos _ _ _ _ hx1, starRun_all _ _ ht1]
    rfl
  have h4 : ((Re.opt (Re.lit ['}'])).run [[], x :: t] []).head? = some ⟨[[], x :: t], [], []⟩ := by
    simp [stripLit]
  have h := head_seq h1 (head_seq h2 (head_seq h3 h4))
  rw [matchAt_of_head reTmpl _ _ h]
  simp

theorem reTmpl_braced (x : Char) (t : Str) (hx : isNameChar x = true)
    (ht : ∀ c ∈ t, isNameChar c = true) :
    reTmpl.matchAt ('$' :: '{' :: (x :: t ++ ['}'])) =
      some (['$' :: '{' :: (x :: t ++ ['}']), x :: t], []) := by
  have hx1 := isTmplChar_of_isNameChar hx
  have ht1 : ∀ c ∈ t, isTmplChar c = true := fun c hc => isTmplChar_of_isNameChar (ht c hc)
  have h1 : ((Re.lit ['$']).run [[], []] ('$' :: '{' :: (x :: t ++ ['}']))).head? =
      some ⟨[[], []], ['$'], '{' :: (x :: t ++ ['}'])⟩ := by
    simp [stripLit]
  have h2 : ((Re.opt (Re.lit ['{'])).run [[], []] ('{' :: (x :: t ++ ['}']))).head? =
      some ⟨[[], []], ['{'], x :: t ++ ['}']⟩ := by
    simp [stripLit]
  have h3 : ((Re.group 1 (Re.plus isTmplChar)).run [[], []] (x :: t ++ ['}'])).head? =
      some ⟨[[], x :: t], x :: t, ['}']⟩ := by
    simp only [List.cons_append, run_group, run_plus_pos _ _ _ _ hx1,
      starRun_stop _ t '}' [] ht1 (by decide)]
    rfl
  have h4 : ((Re.opt (Re.lit ['}'])).run [[], x :: t] ['}']).head? =
      some ⟨[[], x :: t], ['}'], []⟩ := by
    simp [stripLit]
  have h := head_seq h1 (head_seq h2 (head_seq h3 h4))
  rw [matchAt_of_head reTmpl _ _ h]
  simp

theorem reTmpl_nil : reTmpl.matchAt [] = none := by decide

theorem toSigNozTmpl_of_whole (c : Char) (t name : Str)
    (hm : reTmpl.matchAt (c :: t) = some ([c :: t, name], [])) :
    toSigNozTmpl (c :: t) = ['{', '{', '.'] ++ name ++ ['}', '}'] := by
  unfold toSigNozTmpl Regexp.replaceAllString
  rw [scan_whole_match reTmpl reTmpl_nil c t [name] hm]
  simp

theorem toSigNozTmpl_no_dollar (v : Str) (h : ∀ c ∈ v, c ≠ '$') : toSigNozTmpl v = v := by
  unfold toSigNozTmpl Regexp.replaceAllString
  rw [scan_no_match reTmpl v false []]
  · simp
  · intro a t e
    apply matchAt_none_of_needs reTmpl (fun c => c == '$') (by decide)
    intro x hx
    have : x ∈ v := by rw [e]; exact List.mem_append_right _ hx
    simpa using h x this

theorem cmp_metric_clean (m op n : Str) (hm : isMetricName m = true) (hop : isCmpOp op = true)
    (hn : isDecimalLit n = true) : Clean (cmpExpr m op false n) := by
  have hmw := isMetricName_word hm
  obtain ⟨x, t, rfl⟩ : ∃ x t, m = x :: t := by
    cases m with
    | nil => simp [isMetricName] at hm
    | cons x t => exact ⟨x, t, rfl⟩
  have hx := hmw x (List.mem_cons_self _ _)
  have hscan : arithScan (cmpExpr (x :: t) op false n) 0 = some 0 := by
    have h2 : arithScan [' '] 0 = some 0 := rfl
    have h3 : arithScan op 0 = some 0 := by
      rcases isCmpOp_cases hop with rfl | rfl | rfl | rfl | rfl | rfl <;> rfl
    have h4 : arithScan (cmpSep false) 0 = some 0 := rfl
    rw [cmpExpr, arithScan_append, arithScan_append, arithScan_word hmw, Option.some_bind, h2,
      Option.some_bind, arithScan_append, h3, Option.some_bind, arithScan_append, h4,
      Option.some_bind, arithScan_word (isDecimalLit_word hn).2]
  refine ⟨?_, ?_, stripArithmetic_of_scan hscan⟩
  · apply trimSpace_eq_self
    · intro c hc
      simp only [cmpExpr, List.cons_append, List.head?_cons, Option.some.injEq] at hc
      subst hc
      exact isWordChar_not_unicodeSpace hx
    · obtain ⟨c, hc, hcd⟩ := isDecimalLit_last hn
      have : (cmpExpr (x :: t) op false n).getLast? = some c := by
        rw [cmpExpr, List.getLast?_append, List.getLast?_append, List.getLast?_append, hc]
        rfl
      rw [this]
      intro c' hc'
      simp only [Option.some.injEq] at hc'
      subst hc'
      exact isWordChar_not_unicodeSpace (isWordChar_of_isDigit hcd)
  · apply stripOuterParens_eq_self
    simp only [cmpExpr, List.cons_append, List.head?_cons, ne_eq, Option.some.injEq]
    rintro rfl
    exact absurd hx (by decide)

theorem parse_cmp_metric (k : Nat) (m op n : Str) (hm : isMetricName m = true)
    (hop : isCmpOp op = true) (hn : isDecimalLit n = true) :
    parsePromQLFuel (k + 2) (cmpExpr m op false n) =
      some { Metric := m, CmpOp := op, CmpRight := n,
             CmpIsBool := containsStr (cmpExpr m op false n) " bool ".toList } := by
  have hmw := isMetricName_word hm
  have htrim : trimSpace (m ++ [' ']) = m := trimSpace_snoc_space (word_head hmw) (word_last hmw)
  have hm4 := reCmp_match m op false n (fun c hc => isWordChar_isDot (hmw c hc)) hop hn
  have := parse_cmp_step (k + 1) _ (cmp_metric_clean m op n hm hop hn)
    _ _ _ _ hm4 _ (by rw [htrim]; exact parse_metricName k m hm)
  rw [cmpExpr] at this ⊢
  rw [this]

theorem isCmpOp_ne_nil {op : Str} (h : isCmpOp op = true) : op ≠ [] := by
  rintro rfl
  exact absurd h (by decide)

theorem makeQueryItem_having (env : Env) (t : GrafanaTarget) (expr : Str) (p : promQL)
    (hp : parsePromQL expr = some p) :
    ∃ item, makeQueryItem env t expr = some item ∧
      item.1.having =
        if p.CmpOp ≠ [] ∧ p.CmpRight ≠ [] then
          [{ columnName := "#SIGNOZ_VALUE".toList, op := p.CmpOp, value := p.CmpRight }]
        else [] := by
  simp only [makeQueryItem, hp, pickTimeAggregation_eq, Option.bind_eq_bind, Option.some_bind]
  split_ifs <;> exact ⟨_, rfl, rfl⟩


theorem ite_append_eq_nil {c : Prop} [Decidable c] (e : List Str) (m : Str) :
    (if c then e ++ [m] else e) = [] ↔ e = [] ∧ ¬ c := by
  by_cases h : c <;> simp [h]

theorem mem_mapInsert (keys : List Str) (k x : Str) :
    x ∈ mapInsert keys k ↔ x ∈ keys ∨ x = k := by
  unfold mapInsert
  split_ifs with h
  · constructor
    · exact Or.inl
    · rintro (h1 | rfl)
      · exact h1
      · exact h
  · simp

theorem validateWidgets_ids (ws : List SigNozWidget) (i : Nat) (ids errs : List Str) (x : Str) :
    x ∈ (validateWidgets ws i ids errs).1 ↔ x ∈ ids ∨ x ∈ ws.map (fun w => w.ID) := by
  induction ws generalizing i ids errs with
  | nil => simp [validateWidgets]
  | cons w rest ih =>
    simp only [validateWidgets, ih, mem_mapInsert, List.map_cons, List.mem_cons]
    tauto

theorem validateWidgets_nil_iff (ws : List SigNozWidget) (i : Nat) (ids errs : List Str) :
    (validateWidgets ws i ids errs).2 = [] ↔
      errs = [] ∧
      (∀ w ∈ ws, w.ID ≠ [] ∧ w.Title ≠ [] ∧ isSupportedPanel w.PanelType = true ∧
        w.TimePreference ≠ []) ∧
      (ws.map fun w => w.ID).Nodup ∧ ∀ w ∈ ws, w.ID ∉ ids := by
  induction ws generalizing i ids errs with
  | nil => simp [validateWidgets]
  | cons w rest ih =>
    simp only [validateWidgets, ih, ite_append_eq_nil, mem_mapInsert, List.map_cons,
      List.nodup_cons, List.mem_cons, List.mem_map, forall_eq_or_imp, Bool.not_eq_true,
      Bool.not_eq_true', Bool.not_eq_false, not_or, not_exists, not_and, ne_eq]
    constructor
    · rintro ⟨⟨⟨⟨⟨⟨h0, h1⟩, h2⟩, h3⟩, h4⟩, h5⟩, h6, h7, h8⟩
      refine ⟨h0, ⟨⟨h1, h2, h3, h4⟩, h6⟩, ⟨?_, h7⟩, h5, fun w' hw' => (h8 w' hw').1⟩
      intro w' hw' e
      exact (h8 w' hw').2 e
    · rintro ⟨h0, ⟨⟨h1, h2, h3, h4⟩, h6⟩, ⟨h9, h7⟩, h5, h8⟩
      refine ⟨⟨⟨⟨⟨⟨h0, h1⟩, h2⟩, h3⟩, h4⟩, h5⟩, h6, h7, fun w' hw' => ⟨h8 w' hw', ?_⟩⟩
      intro e
      exact h9 w' hw' e

theorem validateLayout_nil_iff (ids : List Str) (ls : List SigNozLayout) (i : Nat)
    (errs : List Str) :
    validateLayout ids ls i errs = [] ↔
      errs = [] ∧ ∀ l ∈ ls, l.I ≠ [] ∧ l.I ∈ ids ∧ 0 < l.W ∧ 0 < l.H := by
  induction ls generalizing i errs with
  | nil => simp [validateLayout]
  | cons l rest ih =>
    simp only [validateLayout, ih, ite_append_eq_nil, List.mem_cons, forall_eq_or_imp,
      Bool.not_eq_true', decide_eq_false_iff_not, not_not, not_or, not_le, ne_eq]
    tauto

theorem isSupportedPanel_iff (p : Str) :
    isSupportedPanel p = true ↔
      p ∈ ["graph".toList, "timeseries".toList, "bar".toList, "histogram".toList,
        "pie".toList, "table".toList, "value".toList, "list".toList, "row".toList] := by
  simp [isSupportedPanel]


theorem insertStable_perm {α : Type} (less : α → α → Bool) (x : α) (l : List α) :
    (insertStable less x l).Perm (x :: l) := by
  induction l with
  | nil => exact List.Perm.refl _
  | cons y l ih =>
    unfold insertStable
    split_ifs
    · exact ((List.Perm.cons y ih).trans (List.Perm.swap x y l))
    · exact List.Perm.refl _

theorem sortStable_perm {α : Type} (less : α → α → Bool) (l : List α) :
    (sortStable less l).Perm l := by
  induction l with
  | nil => exact List.Perm.refl _
  | cons x l ih =>
    exact (insertStable_perm less x _).trans (List.Perm.cons x ih)

theorem nonEmpty_ne_nil (s d : Str) (hd : d ≠ []) : nonEmpty s d ≠ [] := by
  unfold nonEmpty
  split_ifs with h
  · exact hd
  · rintro rfl
    exact h rfl

theorem makeSigNozQueryFromTargets_total (env : Env) (ts : List GrafanaTarget) (rules : Rules) :
    ∃ q, makeSigNozQueryFromTargets env ts rules = some q := by
  obtain ⟨out, ho, -, -⟩ := makeQueryLoop_total env ts
  simp only [makeSigNozQueryFromTargets, ho, Option.bind_eq_bind, Option.some_bind]
  exact ⟨_, rfl⟩

theorem widgetLoop_total (env : Env) (u : Unicode) (ids : Nat → Str) (rules : Rules)
    (ps : List GrafanaPanel) (k : Nat) (curX curY rowH : Int) (ws : List SigNozWidget)
    (ls : List SigNozLayout) :
    ∃ out, widgetLoop env u ids rules ps k curX curY rowH ws ls = some out ∧
      out.1.map (fun w => (w.ID, w.PanelType)) =
        ws.map (fun w => (w.ID, w.PanelType)) ++
          ps.map (fun p => ("w_".toList ++ formatInt p.ID, mapPanelType u rules p)) ∧
      out.2.map (fun l => l.I) =
        ls.map (fun l => l.I) ++ ps.map (fun p => "w_".toList ++ formatInt p.ID) := by
  induction ps generalizing k curX curY rowH ws ls with
  | nil => exact ⟨(ws, ls), rfl, by simp, by simp⟩
  | cons p rest ih =>
    obtain ⟨q, hq⟩ := makeSigNozQueryFromTargets_total { env with uuid := ids k } p.Targets rules
    simp only [widgetLoop, hq, Option.bind_eq_bind, Option.some_bind]
    obtain ⟨out, ho, h1, h2⟩ := ih (k + 1)
      (wrapInt ((if decide (wrapInt (curX + (panelSize rules p).1) > 24) = true then 0 else curX) +
        (panelSize rules p).1))
      (if decide (wrapInt (curX + (panelSize rules p).1) > 24) = true then wrapInt (curY + rowH)
        else curY)
      (if (panelSize rules p).2 >
          (if decide (wrapInt (curX + (panelSize rules p).1) > 24) = true then 0 else rowH) then
        (panelSize rules p).2
       else if decide (wrapInt (curX + (panelSize rules p).1) > 24) = true then 0 else rowH)
      (ws ++ [{ ID := "w_".toList ++ formatInt p.ID,
                Title := nonEmpty p.Title (title u (mapPanelType u rules p)),
                PanelType := mapPanelType u rules p,
                TimePreference := "GLOBAL_TIME".toList,
                Description := "Migrated from Grafana (type: ".toList ++ toLower u p.Typ ++
                  "); original queries preserved in _grafanaExprs.".toList,
                Query := q }])
      (ls ++ [{ H := (panelSize rules p).2, W := (panelSize rules p).1,
                X := if decide (wrapInt (curX + (panelSize rules p).1) > 24) = true then 0
                  else curX,
                Y := if decide (wrapInt (curX + (panelSize rules p).1) > 24) = true then
                  wrapInt (curY + rowH) else curY,
                I := "w_".toList ++ formatInt p.ID, Moved := false, Static := false }])
    refine ⟨out, ho, ?_, ?_⟩
    · rw [h1]; simp
    · rw [h2]; simp

/-! ## Group-by keys -/

theorem mem_foldl_mapInsert (l init : List Str) (x : Str) :
    x ∈ l.foldl mapInsert init ↔ x ∈ init ∨ x ∈ l := by
  induction l generalizing init with
  | nil => simp
  | cons a l ih =>
    simp only [List.foldl_cons, ih, mem_mapInsert, List.mem_cons]
    tauto

theorem nodup_mapInsert (keys : List Str) (k : Str) (h : keys.Nodup) :
    (mapInsert keys k).Nodup := by
  unfold mapInsert
  split_ifs with hk
  · exact h
  · exact List.Nodup.append h (List.nodup_singleton k) (by simpa using hk)

theorem nodup_foldl_mapInsert (l init : List Str) (h : init.Nodup) :
    (l.foldl mapInsert init).Nodup := by
  induction l generalizing init with
  | nil => exact h
  | cons a l ih => exact ih _ (nodup_mapInsert init a h)

theorem groupByLabels_nodup (p : promQL) (legend : Str) : (groupByLabels p legend).Nodup := by
  have h1 : ((legendPlaceholders legend).foldl mapInsert (p.By.foldl mapInsert [])).Nodup :=
    nodup_foldl_mapInsert _ _ (nodup_foldl_mapInsert _ _ List.nodup_nil)
  unfold groupByLabels
  simp only
  split_ifs
  · rw [← List.foldl_map]
    exact nodup_foldl_mapInsert _ _ h1
  · exact h1

theorem groupByLabels_of_ne (p : promQL) (legend : Str)
    (h : p.By ≠ [] ∨ legendPlaceholders legend ≠ []) :
    groupByLabels p legend = (p.By ++ legendPlaceholders legend).foldl mapInsert [] := by
  have hne : ((legendPlaceholders legend).foldl mapInsert (p.By.foldl mapInsert [])).length ≠ 0 := by
    intro h0
    have hnil := List.length_eq_zero.mp h0
    have hmem : ∀ x, ¬ (x ∈ p.By ∨ x ∈ legendPlaceholders legend) := by
      intro x hx
      have : x ∈ (legendPlaceholders legend).foldl mapInsert (p.By.foldl mapInsert []) := by
        rw [mem_foldl_mapInsert, mem_foldl_mapInsert]
        tauto
      rw [hnil] at this
      exact absurd this (List.not_mem_nil _)
    rcases h with h | h
    · obtain ⟨x, t, e⟩ := List.exists_cons_of_ne_nil h
      exact hmem x (Or.inl (by rw [e]; exact List.mem_cons_self _ _))
    · obtain ⟨x, t, e⟩ := List.exists_cons_of_ne_nil h
      exact hmem x (Or.inr (by rw [e]; exact List.mem_cons_self _ _))
  unfold groupByLabels
  simp only
  rw [if_neg hne, List.foldl_append]

theorem groupByLabels_of_nil (p : promQL) (legend : Str)
    (h1 : p.By = []) (h2 : legendPlaceholders legend = []) :
    groupByLabels p legend =
      ((p.Labels.filter fun m => looksLikeTemplate m.Value).map fun m => m.Key).foldl
        mapInsert [] := by
  unfold groupByLabels
  simp only [h1, h2, List.foldl_nil, List.length_nil, if_true]
  rw [← List.foldl_map]

theorem mem_groupByLabels (p : promQL) (legend : Str) (k : Str) :
    k ∈ groupByLabels p legend ↔
      if p.By ≠ [] ∨ legendPlaceholders legend ≠ [] then
        k ∈ p.By ∨ k ∈ legendPlaceholders legend
      else ∃ m ∈ p.Labels, looksLikeTemplate m.Value = true ∧ m.Key = k := by
  split_ifs with h
  · rw [groupByLabels_of_ne p legend h, mem_foldl_mapInsert, List.mem_append]
    simp
  · simp only [not_or, not_not] at h
    rw [groupByLabels_of_nil p legend h.1 h.2, mem_foldl_mapInsert]
    simp only [List.not_mem_nil, false_or, List.mem_map, List.mem_filter]
    constructor
    · rintro ⟨m, ⟨hm, ht⟩, rfl⟩
      exact ⟨m, hm, ht, rfl⟩
    · rintro ⟨m, hm, ht, rfl⟩
      exact ⟨m, ⟨hm, ht⟩, rfl⟩

theorem buildGroupBy_keys (mapOrder : List Str → List Str) (p : promQL) (legend : Str) :
    (buildGroupBy mapOrder p legend).map (fun t => t.key) = mapOrder (groupByLabels p legend) := by
  unfold buildGroupBy
  rw [List.map_map]
  exact List.map_id _

/-! ## The scan of stripArithmetic -/

theorem depthAfter_snoc (pre : Str) (c : Char) :
    depthAfter (pre ++ [c]) = stepDepth (depthAfter pre) c := by
  simp [depthAfter, List.foldl_append]

theorem governs_at (pre : Str) (c : Char) (t : Str) :
    governs (pre ++ c :: t) pre.length =
      (isArithOp c && depthAfter pre == 0 &&
        (isNumber (trimSpace t) || isNumber (trimSpace pre))) := by
  have h1 : (pre ++ c :: t)[pre.length]? = some c := by
    rw [List.getElem?_append_right (le_refl _)]
    simp
  have h2 : (pre ++ c :: t).take pre.length = pre := by simp
  have h3 : (pre ++ c :: t).drop (pre.length + 1) = t := by
    rw [← List.drop_drop, List.drop_left]
    rfl
  simp only [governs, h1, h2, h3]

theorem stripArithLoop_spec (s : Str) (t : Str) :
    ∀ pre : Str, s = pre ++ t →
      ((∀ j, pre.length ≤ j → governs s j = false) →
        stripArithLoop s pre t (depthAfter pre) = some s) ∧
      (∀ i, pre.length ≤ i → governs s i = true →
        (∀ j, pre.length ≤ j → j < i → governs s j = false) →
        stripArithLoop s pre t (depthAfter pre) =
          if isNumber (trimSpace (s.drop (i + 1))) = true then
            stripOuterParens (trimSpace (s.take i))
          else stripOuterParens (trimSpace (s.drop (i + 1)))) := by
  induction t with
  | nil =>
    intro pre hs
    refine ⟨fun _ => rfl, ?_⟩
    intro i hi hg _
    have : s[i]? = none := by
      rw [List.getElem?_eq_none]
      rw [hs]; simpa using hi
    simp [governs, this] at hg
  | cons c t ih =>
    intro pre hs
    have hnext : s = (pre ++ [c]) ++ t := by rw [hs]; simp
    obtain ⟨ihA, ihB⟩ := ih (pre ++ [c]) hnext
    have hgat : governs s pre.length =
        (isArithOp c && depthAfter pre == 0 &&
          (isNumber (trimSpace t) || isNumber (trimSpace pre))) := by
      rw [hs]; exact governs_at pre c t
    have hlen : (pre ++ [c]).length = pre.length + 1 := by simp
    have htake : s.take pre.length = pre := by rw [hs]; simp
    have hdrop : s.drop (pre.length + 1) = t := by
      rw [hs, ← List.drop_drop, List.drop_left]
      rfl
    -- the loop goes on to the next index whenever this index does not govern
    have hcont : governs s pre.length = false →
        stripArithLoop s pre (c :: t) (depthAfter pre) =
          stripArithLoop s (pre ++ [c]) t (depthAfter (pre ++ [c])) := by
      intro hg
      rw [hgat] at hg
      rw [depthAfter_snoc]
      rw [stripArithLoop]
      by_cases h1 : c = '('
      · simp [h1, stepDepth]
      by_cases h2 : c = ')'
      · simp [h2, stepDepth]
      by_cases h3 : c = '*' ∨ c = '/' ∨ c = '+' ∨ c = '-'
      · have hop : isArithOp c = true := by
          simp only [isArithOp, Bool.or_eq_true, beq_iff_eq]
          tauto
        by_cases h4 : depthAfter pre = 0
        · simp only [hop, h4, beq_self_eq_true, Bool.and_self, Bool.true_and,
            Bool.or_eq_false_iff] at hg
          simp only [h1, h2, h3, h4, if_true, if_false, hg.1, hg.2, stepDepth]
          simp
        · simp only [h1, h2, h3, h4, if_true, if_false, stepDepth]
      · simp only [h1, h2, h3, if_false, stepDepth]
    constructor
    · intro hno
      rw [hcont (hno _ (le_refl _))]
      exact ihA (fun j hj => hno j (by rw [hlen] at hj; omega))
    · intro i hi hg hfirst
      rcases Nat.eq_or_lt_of_le hi with heq | hlt
      · subst heq
        have hg' := hg
        rw [hgat] at hg'
        simp only [Bool.and_eq_true, Bool.or_eq_true, beq_iff_eq] at hg'
        obtain ⟨⟨hop, hd⟩, hnum⟩ := hg'
        have h3 : c = '*' ∨ c = '/' ∨ c = '+' ∨ c = '-' := by
          have := hop
          simp only [isArithOp, Bool.or_eq_true, beq_iff_eq] at this
          tauto
        have h1 : c ≠ '(' := by rintro rfl; exact absurd hop (by decide)
        have h2 : c ≠ ')' := by rintro rfl; exact absurd hop (by decide)
        rw [htake, hdrop, stripArithLoop]
        simp only [h1, h2, h3, hd, if_true, if_false]
        by_cases hr : isNumber (trimSpace t) = true
        · simp [hr]
        · have hl : isNumber (trimSpace pre) = true := by tauto
          simp [hr, hl]
      · rw [hcont (hfirst _ (le_refl _) hlt)]
        exact ihB i (by rw [hlen]; omega) hg
          (fun j hj hji => hfirst j (by rw [hlen] at hj; omega) hji)

theorem governs_of_length_le (s : Str) (j : Nat) (h : s.length ≤ j) : governs s j = false := by
  have : s[j]? = none := List.getElem?_eq_none h
  simp [governs, this]

/-! ## Number formatting, titles and the packing loop -/

theorem digitChar_toNat (d : Nat) (h : d < 10) : (Char.ofNat (48 + d)).toNat = 48 + d := by
  interval_cases d <;> rfl

theorem digitsFuel_chars (fuel n : Nat) :
    ∀ c ∈ digitsFuel fuel n, 48 ≤ c.toNat ∧ c.toNat ≤ 57 := by
  induction fuel generalizing n with
  | zero => simp [digitsFuel]
  | succ f ih =>
    intro c hc
    unfold digitsFuel at hc
    split_ifs at hc with h
    · simp only [List.mem_singleton] at hc
      subst hc
      rw [digitChar_toNat n h]
      omega
    · rcases List.mem_append.mp hc with h1 | h1
      · exact ih _ c h1
      · simp only [List.mem_singleton] at h1
        subst h1
        rw [digitChar_toNat _ (Nat.mod_lt _ (by decide))]
        have := Nat.mod_lt n (by decide : 10 > 0)
        omega

theorem digitsFuel_ne_nil (fuel n : Nat) : digitsFuel (fuel + 1) n ≠ [] := by
  unfold digitsFuel
  split_ifs <;> simp

theorem digitsFuel_value (fuel n : Nat) (h : n < fuel) :
    (digitsFuel fuel n).foldl (fun acc c => acc * 10 + (c.toNat - 48)) 0 = n := by
  induction fuel generalizing n with
  | zero => omega
  | succ f ih =>
    unfold digitsFuel
    split_ifs with h10
    · simp only [List.foldl_cons, List.foldl_nil, digitChar_toNat n h10]
      omega
    · have hlt : n / 10 < f := by omega
      rw [List.foldl_append, ih _ hlt]
      simp only [List.foldl_cons, List.foldl_nil,
        digitChar_toNat _ (Nat.mod_lt n (by decide : 10 > 0))]
      omega

theorem formatNat_injective {a b : Nat} (h : formatNat a = formatNat b) : a = b := by
  have ha := digitsFuel_value (a + 1) a (Nat.lt_succ_self _)
  have hb := digitsFuel_value (b + 1) b (Nat.lt_succ_self _)
  unfold formatNat at h
  rw [h] at ha
  exact ha.symm.trans hb

theorem formatNat_head (n : Nat) : ∃ c t, formatNat n = c :: t ∧ c ≠ '-' := by
  obtain ⟨c, t, e⟩ := List.exists_cons_of_ne_nil (digitsFuel_ne_nil n n)
  refine ⟨c, t, e, ?_⟩
  rintro rfl
  have := digitsFuel_chars (n + 1) n '-' (by rw [e]; exact List.mem_cons_self _ _)
  exact absurd this.1 (by decide)

theorem formatInt_injective {a b : Int} (h : formatInt a = formatInt b) : a = b := by
  cases a with
  | ofNat m =>
    cases b with
    | ofNat n => exact congrArg Int.ofNat (formatNat_injective h)
    | negSucc n =>
      obtain ⟨c, t, e, hc⟩ := formatNat_head m
      simp only [formatInt, e, List.cons.injEq] at h
      exact absurd h.1 hc
  | negSucc m =>
    cases b with
    | ofNat n =>
      obtain ⟨c, t, e, hc⟩ := formatNat_head n
      simp only [formatInt, e, List.cons.injEq] at h
      exact absurd h.1.symm hc
    | negSucc n =>
      simp only [formatInt, List.cons.injEq, true_and] at h
      have := formatNat_injective h
      have : m = n := by omega
      rw [this]

theorem titleLoop_length (u : Unicode) (prev : Char) (s : Str) :
    (titleLoop u prev s).length = s.length := by
  induction s generalizing prev with
  | nil => rfl
  | cons c t ih => simp [titleLoop, ih]

theorem title_ne_nil (u : Unicode) (s : Str) (h : s ≠ []) : title u s ≠ [] := by
  intro e
  have := titleLoop_length u ' ' s
  unfold title at e
  rw [e] at this
  exact h (List.length_eq_zero.mp this.symm)

theorem lookup_mem_values (l : List (Str × Str)) (k v : Str) (h : l.lookup k = some v) :
    v ∈ l.map Prod.snd := by
  induction l with
  | nil => simp [List.lookup] at h
  | cons a l ih =>
    obtain ⟨a1, a2⟩ := a
    rw [List.lookup_cons] at h
    cases hk : (k == a1) with
    | true =>
      simp only [hk] at h
      cases h
      simp
    | false =>
      simp only [hk] at h
      exact List.mem_cons_of_mem _ (ih h)

theorem mapPanelType_default (u : Unicode) (p : GrafanaPanel) :
    isSupportedPanel (mapPanelType u DefaultRules p) = true ∧
      mapPanelType u DefaultRules p ≠ [] := by
  have hv : ∀ v ∈ DefaultRules.PanelTypeMap.map Prod.snd,
      isSupportedPanel v = true ∧ v ≠ [] := by decide
  unfold mapPanelType
  simp only
  cases hl : DefaultRules.PanelTypeMap.lookup (toLower u p.Typ) with
  | none => exact ⟨by decide, by decide⟩
  | some m =>
    simp only
    split_ifs with hm
    · exact ⟨by decide, by decide⟩
    · exact hv m (lookup_mem_values _ _ _ hl)

theorem widgetLoop_cons (env : Env) (u : Unicode) (ids : Nat → Str) (rules : Rules)
    (p : GrafanaPanel) (rest : List GrafanaPanel) (k : Nat) (curX curY rowH : Int)
    (ws : List SigNozWidget) (ls : List SigNozLayout) :
    widgetLoop env u ids rules (p :: rest) k curX curY rowH ws ls =
      (makeSigNozQueryFromTargets { env with uuid := ids k } p.Targets rules).bind fun q =>
        widgetLoop env u ids rules rest (k + 1)
          (wrapInt ((if wrapInt (curX + (panelSize rules p).1) > 24 then 0 else curX) +
            (panelSize rules p).1))
          (if wrapInt (curX + (panelSize rules p).1) > 24 then wrapInt (curY + rowH) else curY)
          (if (panelSize rules p).2 >
              (if wrapInt (curX + (panelSize rules p).1) > 24 then 0 else rowH)
            then (panelSize rules p).2
            else (if wrapInt (curX + (panelSize rules p).1) > 24 then 0 else rowH))
          (ws ++ [panelWidget u rules p q]) (ls ++ [panelEntry rules p curX curY rowH]) := by
  simp only [widgetLoop, panelWidget, panelEntry, Option.bind_eq_bind, decide_eq_true_eq]

theorem widgetLoop_fields (env : Env) (u : Unicode) (ids : Nat → Str) (rules : Rules)
    (ps : List GrafanaPanel) (k : Nat) (curX curY rowH : Int) (ws : List SigNozWidget)
    (ls : List SigNozLayout) :
    ∃ out, widgetLoop env u ids rules ps k curX curY rowH ws ls = some out ∧
      out.1.map (fun w => (w.ID, w.Title, w.PanelType, w.TimePreference)) =
        ws.map (fun w => (w.ID, w.Title, w.PanelType, w.TimePreference)) ++
          ps.map (fun p => ("w_".toList ++ formatInt p.ID,
            nonEmpty p.Title (title u (mapPanelType u rules p)), mapPanelType u rules p,
            "GLOBAL_TIME".toList)) ∧
      out.2.map (fun l => (l.I, l.W, l.H)) =
        ls.map (fun l => (l.I, l.W, l.H)) ++
          ps.map (fun p => ("w_".toList ++ formatInt p.ID, (panelSize rules p).1,
            (panelSize rules p).2)) := by
  induction ps generalizing k curX curY rowH ws ls with
  | nil => exact ⟨(ws, ls), rfl, by simp, by simp⟩
  | cons p rest ih =>
    obtain ⟨q, hq⟩ := makeSigNozQueryFromTargets_total { env with uuid := ids k } p.Targets rules
    rw [widgetLoop_cons, hq, Option.some_bind]
    obtain ⟨out, ho, h1, h2⟩ := ih (k + 1) _ _ _
      (ws ++ [panelWidget u rules p q]) (ls ++ [panelEntry rules p curX curY rowH])
    refine ⟨out, ho, ?_, ?_⟩
    · rw [h1]; simp [panelWidget]
    · rw [h2]; simp [panelEntry]

theorem panelSize_pos (rules : Rules) (p : GrafanaPanel) (hw : 0 < rules.DefaultWidth)
    (hh : 0 < rules.DefaultHeight) : 0 < (panelSize rules p).1 ∧ 0 < (panelSize rules p).2 := by
  unfold panelSize
  cases p.GridPos with
  | none => exact ⟨hw, hh⟩
  | some gp =>
    simp only
    constructor
    · split_ifs with h
      · exact h
      · exact hw
    · split_ifs with h
      · exact h
      · exact hh

theorem noOverlap_of_sep (a b : SigNozLayout)
    (h : a.X + a.W ≤ b.X ∨ b.X + b.W ≤ a.X ∨ a.Y + a.H ≤ b.Y ∨ b.Y + b.H ≤ a.Y) :
    noOverlap a b := by
  intro x y hxy
  omega

theorem wrapInt_eq (x : Int) (h1 : 0 ≤ x) (h2 : x < 9223372036854775808) : wrapInt x = x := by
  unfold wrapInt
  omega

theorem sizeSum_cons (rules : Rules) (p : GrafanaPanel) (ps : List GrafanaPanel) :
    sizeSum rules (p :: ps) = (panelSize rules p).1 + (panelSize rules p).2 + sizeSum rules ps := by
  simp [sizeSum]

theorem sizeSum_nonneg (rules : Rules) (hw : 0 < rules.DefaultWidth)
    (hh : 0 < rules.DefaultHeight) (ps : List GrafanaPanel) : 0 ≤ sizeSum rules ps := by
  induction ps with
  | nil => simp [sizeSum]
  | cons p rest ih =>
    rw [sizeSum_cons]
    obtain ⟨h1, h2⟩ := panelSize_pos rules p hw hh
    omega

theorem sizeSum_perm (rules : Rules) {ps qs : List GrafanaPanel} (h : ps.Perm qs) :
    sizeSum rules ps = sizeSum rules qs := by
  unfold sizeSum
  exact (h.map _).sum_eq

theorem packed_step (rules : Rules) (p : GrafanaPanel) (hw : 0 < rules.DefaultWidth)
    (hh : 0 < rules.DefaultHeight) (ls : List SigNozLayout) (curX curY rowH R : Int)
    (hp : Packed ls curX curY rowH) (hd : ls.Pairwise noOverlap) (hR : 0 ≤ R)
    (hb : curX + curY + rowH + ((panelSize rules p).1 + (panelSize rules p).2 + R) <
      9223372036854775808) :
    Packed (ls ++ [panelEntry rules p curX curY rowH])
      (wrapInt ((if wrapInt (curX + (panelSize rules p).1) > 24 then 0 else curX) +
        (panelSize rules p).1))
      (if wrapInt (curX + (panelSize rules p).1) > 24 then wrapInt (curY + rowH) else curY)
      (if (panelSize rules p).2 >
          (if wrapInt (curX + (panelSize rules p).1) > 24 then 0 else rowH)
        then (panelSize rules p).2
        else (if wrapInt (curX + (panelSize rules p).1) > 24 then 0 else rowH)) ∧
    (ls ++ [panelEntry rules p curX curY rowH]).Pairwise noOverlap ∧
    (wrapInt ((if wrapInt (curX + (panelSize rules p).1) > 24 then 0 else curX) +
        (panelSize rules p).1)) +
      (if wrapInt (curX + (panelSize rules p).1) > 24 then wrapInt (curY + rowH) else curY) +
      (if (panelSize rules p).2 >
          (if wrapInt (curX + (panelSize rules p).1) > 24 then 0 else rowH)
        then (panelSize rules p).2
        else (if wrapInt (curX + (panelSize rules p).1) > 24 then 0 else rowH)) + R <
      9223372036854775808 := by
  obtain ⟨hx, hy, hr, hall⟩ := hp
  obtain ⟨hpw, hph⟩ := panelSize_pos rules p hw hh
  unfold panelEntry
  generalize (panelSize rules p).1 = w at *
  generalize (panelSize rules p).2 = h at *
  have e1 : wrapInt (curX + w) = curX + w := wrapInt_eq _ (by omega) (by omega)
  have e2 : wrapInt (curY + rowH) = curY + rowH := wrapInt_eq _ (by omega) (by omega)
  have e3 : wrapInt ((if curX + w > 24 then 0 else curX) + w) =
      (if curX + w > 24 then 0 else curX) + w := by
    apply wrapInt_eq <;> split_ifs <;> omega
  rw [e1, e2, e3]
  refine ⟨?_, ?_, ?_⟩
  · refine ⟨?_, ?_, ?_, ?_⟩
    · split_ifs <;> omega
    · split_ifs <;> omega
    · split_ifs <;> omega
    · intro l hl
      rcases List.mem_append.mp hl with hl | hl
      · obtain ⟨a1, a2, a3, a4, a5, a6⟩ := hall l hl
        refine ⟨a1, a2, a3, a4, a5, ?_⟩
        split_ifs <;> omega
      · simp only [List.mem_singleton] at hl
        subst hl
        simp only
        refine ⟨?_, ?_, hpw, hph, ?_, ?_⟩ <;> split_ifs <;>
          first
          | omega
          | exact Or.inr ⟨trivial, le_refl _, le_refl _⟩
          | exact Or.inr ⟨trivial, le_refl _, by omega⟩
  · rw [List.pairwise_append]
    refine ⟨hd, List.pairwise_singleton _ _, ?_⟩
    intro a ha b hb
    simp only [List.mem_singleton] at hb
    subst hb
    obtain ⟨a1, a2, a3, a4, a5, a6⟩ := hall a ha
    apply noOverlap_of_sep
    simp only
    split_ifs <;> omega
  · split_ifs <;> omega

theorem widgetLoop_packed (env : Env) (u : Unicode) (ids : Nat → Str) (rules : Rules)
    (hw : 0 < rules.DefaultWidth) (hh : 0 < rules.DefaultHeight)
    (ps : List GrafanaPanel) (k : Nat) (curX curY rowH : Int) (ws : List SigNozWidget)
    (ls : List SigNozLayout) (hp : Packed ls curX curY rowH) (hd : ls.Pairwise noOverlap)
    (hb : curX + curY + rowH + sizeSum rules ps < 9223372036854775808)
    (out : List SigNozWidget × List SigNozLayout)
    (ho : widgetLoop env u ids rules ps k curX curY rowH ws ls = some out) :
    (∃ x y r, Packed out.2 x y r) ∧ out.2.Pairwise noOverlap := by
  induction ps generalizing k curX curY rowH ws ls with
  | nil =>
    simp only [widgetLoop, Option.some.injEq] at ho
    subst ho
    exact ⟨⟨curX, curY, rowH, hp⟩, hd⟩
  | cons p rest ih =>
    obtain ⟨q, hq⟩ := makeSigNozQueryFromTargets_total { env with uuid := ids k } p.Targets rules
    rw [widgetLoop_cons, hq, Option.some_bind] at ho
    rw [sizeSum_cons] at hb
    obtain ⟨hp', hd', hb'⟩ := packed_step rules p hw hh ls curX curY rowH (sizeSum rules rest)
      hp hd (sizeSum_nonneg rules hw hh rest) hb
    exact ih _ _ _ _ _ _ hp' hd' hb' ho

theorem validate_accepts (d : SigNozDashboard) (ht : d.Title ≠ []) (hne : d.Widgets ≠ [])
    (hws : ∀ w ∈ d.Widgets, w.ID ≠ [] ∧ w.Title ≠ [] ∧ isSupportedPanel w.PanelType = true ∧
      w.TimePreference ≠ [])
    (hnd : (d.Widgets.map fun w => w.ID).Nodup)
    (hls : ∀ l ∈ d.Layout, l.I ≠ [] ∧ l.I ∈ d.Widgets.map (fun w => w.ID) ∧ 0 < l.W ∧ 0 < l.H) :
    ValidateSigNozDashboard d = [] := by
  unfold ValidateSigNozDashboard
  simp only [validateLayout_nil_iff, validateWidgets_nil_iff, validateWidgets_ids,
    List.length_eq_zero, ht, hne, if_false, List.not_mem_nil, false_or, not_false_eq_true,
    implies_true, and_true, true_and]
  exact ⟨⟨hws, hnd⟩, hls⟩

theorem nonEmpty_title_ne_nil (u : Unicode) (s m : Str) (hm : m ≠ []) :
    nonEmpty s (title u m) ≠ [] :=
  nonEmpty_ne_nil s _ (title_ne_nil u m hm)

theorem GrafanaToSigNoz_eq (env : Env) (u : Unicode) (ids : Nat → Str) (g : GrafanaDashboard)
    (rules0 : Option Rules) :
    ∃ out, widgetLoop env u ids (rules0.getD DefaultRules) (sortStable panelLess g.Panels)
        (2 * g.Templating.length) 0 0 0 [] [] = some out ∧
      GrafanaToSigNoz env u ids g rules0 = some {
        Title := nonEmpty g.Title "Migrated Grafana Dashboard".toList,
        UUID := [],
        Version := "v4".toList,
        Tags := ["migrated".toList, "grafana".toList],
        Layout := out.2,
        Widgets := out.1,
        Variables := buildVariables u ids g,
        PanelMap := [],
        UploadedGrafana := false,
        Description := "Converted from Grafana dashboard JSON".toList } := by
  obtain ⟨out, ho, -, -⟩ := widgetLoop_fields env u ids (rules0.getD DefaultRules)
    (sortStable panelLess g.Panels) (2 * g.Templating.length) 0 0 0 [] []
  refine ⟨out, ho, ?_⟩
  cases rules0 with
  | none =>
    have ho' : widgetLoop env u ids DefaultRules (sortStable panelLess g.Panels)
        (2 * g.Templating.length) 0 0 0 [] [] = some out := ho
    simp only [GrafanaToSigNoz, ho', Option.bind_eq_bind, Option.some_bind]
  | some r =>
    have ho' : widgetLoop env u ids r (sortStable panelLess g.Panels)
        (2 * g.Templating.length) 0 0 0 [] [] = some out := ho
    simp only [GrafanaToSigNoz, ho', Option.bind_eq_bind, Option.some_bind]

/-! ## Captures and the shape of the parsed record -/

theorem run_cap_source {R : Re} {i : Nat} {cs : List Str} {s : Str} {r : MatchRes}
    (h : r ∈ R.run cs s) :
    r.caps[i]? = cs[i]? ∨
      ∃ B ∈ R.groupBodies i, ∃ (cs' : List Str) (s' : Str) (r' : MatchRes),
        r' ∈ B.run cs' s' ∧ r.caps[i]? = some r'.matched := by
  induction R generalizing cs s r with
  | lit w => exact Or.inl (@run_caps_of_not_hasGroup (Re.lit w) i _ _ _ rfl h)
  | cls p => exact Or.inl (@run_caps_of_not_hasGroup (Re.cls p) i _ _ _ rfl h)
  | star p => exact Or.inl (@run_caps_of_not_hasGroup (Re.star p) i _ _ _ rfl h)
  | plus p => exact Or.inl (@run_caps_of_not_hasGroup (Re.plus p) i _ _ _ rfl h)
  | eot => exact Or.inl (@run_caps_of_not_hasGroup (Re.eot) i _ _ _ rfl h)
  | seq a b iha ihb =>
    obtain ⟨r1, h1, r2, h2, rfl⟩ := mem_run_seq.mp h
    simp only [Re.groupBodies, List.mem_append]
    rcases ihb h2 with e2 | ⟨B, hB, x⟩
    · rcases iha h1 with e1 | ⟨B, hB, x⟩
      · exact Or.inl (e2.trans e1)
      · obtain ⟨cs', s', r', hr', e⟩ := x
        exact Or.inr ⟨B, Or.inl hB, cs', s', r', hr', e2.trans e⟩
    · exact Or.inr ⟨B, Or.inr hB, x⟩
  | alt a b iha ihb =>
    simp only [run_alt, List.mem_append] at h
    simp only [Re.groupBodies, List.mem_append]
    rcases h with h | h
    · rcases iha h with e | ⟨B, hB, x⟩
      · exact Or.inl e
      · exact Or.inr ⟨B, Or.inl hB, x⟩
    · rcases ihb h with e | ⟨B, hB, x⟩
      · exact Or.inl e
      · exact Or.inr ⟨B, Or.inr hB, x⟩
  | opt a iha =>
    simp only [run_opt, List.mem_append, List.mem_singleton] at h
    rcases h with h | h
    · exact iha h
    · subst h; exact Or.inl rfl
  | group j a iha =>
    simp only [run_group, List.mem_map] at h
    obtain ⟨r0, h0, rfl⟩ := h
    simp only [Re.groupBodies, List.mem_append]
    by_cases hj : j = i
    · subst hj
      by_cases hlt : j < r0.caps.length
      · refine Or.inr ⟨a, Or.inl (by simp), cs, s, r0, h0, ?_⟩
        simp [List.getElem?_set_self, hlt]
      · left
        have hlen := run_caps_length h0
        simp only [not_lt] at hlt
        rw [List.getElem?_eq_none (by simpa using hlt), List.getElem?_eq_none (by omega)]
    · rw [List.getElem?_set_ne hj]
      rcases iha (r := r0) h0 with e | ⟨B, hB, x⟩
      · exact Or.inl e
      · exact Or.inr ⟨B, Or.inr hB, x⟩

theorem run_cap_must {R : Re} {i : Nat} {cs : List Str} {s : Str} {r : MatchRes}
    (h : r ∈ R.run cs s) (hm : R.mustGroup i = true) (hi : i < cs.length) :
    ∃ B ∈ R.groupBodies i, ∃ (cs' : List Str) (s' : Str) (r' : MatchRes),
      r' ∈ B.run cs' s' ∧ r.caps[i]? = some r'.matched := by
  induction R generalizing cs s r with
  | lit w => simp [Re.mustGroup] at hm
  | cls p => simp [Re.mustGroup] at hm
  | star p => simp [Re.mustGroup] at hm
  | plus p => simp [Re.mustGroup] at hm
  | eot => simp [Re.mustGroup] at hm
  | opt a _ => simp [Re.mustGroup] at hm
  | seq a b iha ihb =>
    obtain ⟨r1, h1, r2, h2, rfl⟩ := mem_run_seq.mp h
    simp only [Re.groupBodies, List.mem_append]
    have hlen1 := run_caps_length h1
    cases hb : b.mustGroup i with
    | true =>
      obtain ⟨B, hB, x⟩ := ihb h2 hb (by omega)
      exact ⟨B, Or.inr hB, x⟩
    | false =>
      have ha : a.mustGroup i = true := by simpa [Re.mustGroup, hb] using hm
      obtain ⟨B, hB, cs', s', r', hr', e⟩ := iha h1 ha hi
      rcases @run_cap_source _ i _ _ _ h2 with e2 | ⟨B2, hB2, x⟩
      · exact ⟨B, Or.inl hB, cs', s', r', hr', e2.trans e⟩
      · exact ⟨B2, Or.inr hB2, x⟩
  | alt a b iha ihb =>
    simp only [Re.mustGroup, Bool.and_eq_true] at hm
    simp only [run_alt, List.mem_append] at h
    simp only [Re.groupBodies, List.mem_append]
    rcases h with h | h
    · obtain ⟨B, hB, x⟩ := iha h hm.1 hi
      exact ⟨B, Or.inl hB, x⟩
    · obtain ⟨B, hB, x⟩ := ihb h hm.2 hi
      exact ⟨B, Or.inr hB, x⟩
  | group j a iha =>
    simp only [run_group, List.mem_map] at h
    obtain ⟨r0, h0, rfl⟩ := h
    simp only [Re.groupBodies, List.mem_append]
    have hlen := run_caps_length h0
    by_cases hj : j = i
    · subst hj
      refine ⟨a, Or.inl (by simp), cs, s, r0, h0, ?_⟩
      simp [List.getElem?_set_self, hlen, hi]
    · have ha : a.mustGroup i = true := by
        simpa [Re.mustGroup, hj] using hm
      obtain ⟨B, hB, cs', s', r', hr', e⟩ := iha (r := r0) h0 ha hi
      refine ⟨B, Or.inr hB, cs', s', r', hr', ?_⟩
      rw [List.getElem?_set_ne hj]
      exact e

theorem findStringSubmatch_cap_must (re : Regexp) (h : re.anchored = true) (i : Nat)
    (hi : 1 ≤ i) (hi2 : i ≤ re.groups) (hm : re.body.mustGroup i = true) (s : Str)
    (hne : re.findStringSubmatch s ≠ []) :
    ∃ B ∈ re.body.groupBodies i, ∃ (cs' : List Str) (s' : Str) (r' : MatchRes),
      r' ∈ B.run cs' s' ∧ (re.findStringSubmatch s)[i]? = some r'.matched := by
  rcases findStringSubmatch_cases re h s with h0 | ⟨r, hr, he⟩
  · exact absurd h0 hne
  · obtain ⟨B, hB, cs', s', r', hr', e⟩ := @run_cap_must _ i _ _ _ hr hm (by simp; omega)
    refine ⟨B, hB, cs', s', r', hr', ?_⟩
    rw [he, List.getElem?_set_ne (by omega)]
    exact e

theorem mem_run_alts {L : List Str} {cs : List Str} {s : Str} {r : MatchRes}
    (h : r ∈ (Re.alts L).run cs s) : r.matched ∈ L := by
  induction L with
  | nil =>
    cases s with
    | nil => simp [Re.alts] at h
    | cons x t => simp [Re.alts] at h
  | cons a l ih =>
    cases l with
    | nil =>
      simp only [Re.alts, run_lit] at h
      cases hw : stripLit a s with
      | none => simp [hw] at h
      | some t =>
        simp only [hw, List.mem_singleton] at h
        subst h
        simp
    | cons b l =>
      simp only [Re.alts, run_alt, List.mem_append, run_lit] at h
      rcases h with h | h
      · cases hw : stripLit a s with
        | none => simp [hw] at h
        | some t =>
          simp only [hw, List.mem_singleton] at h
          subst h
          simp
      · exact List.mem_cons_of_mem _ (ih h)

theorem cap_alts (re : Regexp) (h : re.anchored = true) (i : Nat) (hi : 1 ≤ i)
    (hi2 : i ≤ re.groups) (hm : re.body.mustGroup i = true) (L : List Str)
    (hb : re.body.groupBodies i = [Re.alts L]) (s x : Str)
    (hx : (re.findStringSubmatch s)[i]? = some x) : x ∈ L := by
  have hne : re.findStringSubmatch s ≠ [] := by
    intro e; rw [e] at hx; simp at hx
  obtain ⟨B, hB, cs', s', r', hr', e⟩ := findStringSubmatch_cap_must re h i hi hi2 hm s hne
  rw [hb, List.mem_singleton] at hB
  subst hB
  rw [hx] at e
  cases e
  exact mem_run_alts hr'

theorem cap_ne_nil (re : Regexp) (h : re.anchored = true) (i : Nat) (hi : 1 ≤ i)
    (hi2 : i ≤ re.groups) (hm : re.body.mustGroup i = true)
    (hb : (re.body.groupBodies i).all (fun B => decide (1 ≤ B.minLen)) = true) (s x : Str)
    (hx : (re.findStringSubmatch s)[i]? = some x) : x ≠ [] := by
  have hne : re.findStringSubmatch s ≠ [] := by
    intro e; rw [e] at hx; simp at hx
  obtain ⟨B, hB, cs', s', r', hr', e⟩ := findStringSubmatch_cap_must re h i hi hi2 hm s hne
  have h1 : 1 ≤ B.minLen := by
    have := List.all_eq_true.mp hb B hB
    simpa using this
  have h2 := run_minLen hr'
  rw [hx] at e
  cases e
  intro e0
  rw [e0] at h2
  simp at h2
  omega

theorem cap_metric (re : Regexp) (h : re.anchored = true) (i : Nat) (hi : 1 ≤ i)
    (hi2 : i ≤ re.groups) (hm : re.body.mustGroup i = true)
    (hb : re.body.groupBodies i = [.seq (.cls isMetricStart) (.star isMetricChar)]) (s x : Str)
    (hx : (re.findStringSubmatch s)[i]? = some x) :
    ∃ c t, x = c :: t ∧ isMetricStart c = true := by
  have hne : re.findStringSubmatch s ≠ [] := by
    intro e; rw [e] at hx; simp at hx
  obtain ⟨B, hB, cs', s', r', hr', e⟩ := findStringSubmatch_cap_must re h i hi hi2 hm s hne
  rw [hb, List.mem_singleton] at hB
  subst hB
  rw [hx] at e
  cases e
  obtain ⟨r1, h1, r2, h2, rfl⟩ := mem_run_seq.mp hr'
  cases s' with
  | nil => simp at h1
  | cons c t =>
    by_cases hc : isMetricStart c = true
    · rw [run_cls_pos _ _ _ _ hc] at h1
      simp only [List.mem_singleton] at h1
      subst h1
      exact ⟨c, r2.matched, rfl, hc⟩
    · rw [run_cls_neg _ _ _ _ (by simpa using hc)] at h1
      simp at h1

theorem findStringSubmatch_minLen (re : Regexp) (h : re.anchored = true) (s : Str)
    (hne : re.findStringSubmatch s ≠ []) : re.body.minLen ≤ s.length := by
  rcases findStringSubmatch_cases re h s with h0 | ⟨r, hr, -⟩
  · exact absurd h0 hne
  · have h1 := run_minLen hr
    have h2 := run_sound hr
    rw [h2, List.length_append]
    omega

theorem parseLabelParts_ops (ps : List Str) (out ls : List labelMatcher)
    (hout : ∀ l ∈ out, l.Op ∈ ["=~".toList, "!~".toList, "=".toList, "!=".toList])
    (h : parseLabelParts ps out = some ls) :
    ∀ l ∈ ls, l.Op ∈ ["=~".toList, "!~".toList, "=".toList, "!=".toList] := by
  induction ps generalizing out with
  | nil =>
    simp only [parseLabelParts, Option.some.injEq] at h
    subst h
    exact hout
  | cons p rest ih =>
    unfold parseLabelParts at h
    simp only at h
    split_ifs at h with h1 h2
    · exact ih out hout h
    · obtain ⟨w, k, o, v, hm⟩ := list_length_four _ h2
      have ho : o ∈ ["=~".toList, "!~".toList, "=".toList, "!=".toList] :=
        cap_alts reLabel rfl 2 (by decide) (by decide) rfl _ rfl (trimSpace p) o
          (by rw [hm]; rfl)
      rw [hm] at h
      simp only [List.getElem?_cons_succ, List.getElem?_cons_zero, Option.bind_eq_bind,
        Option.some_bind] at h
      apply ih _ _ h
      intro l hl
      rcases List.mem_append.mp hl with hl | hl
      · exact hout l hl
      · simp only [List.mem_singleton] at hl
        subst hl
        exact ho
    · exact ih out hout h

theorem parseLabelSet_ops (s : Str) (ls : List labelMatcher) (h : parseLabelSet s = some ls) :
    ∀ l ∈ ls, l.Op ∈ ["=~".toList, "!~".toList, "=".toList, "!=".toList] := by
  unfold parseLabelSet at h
  simp only at h
  split_ifs at h with h1 h2
  · simp only [Option.some.injEq] at h
    subst h
    simp
  · cases hs : slice? (trimSpace s) 1 ((trimSpace s).length - 1) with
    | none => simp [hs] at h
    | some s1 =>
      simp only [hs, Option.bind_eq_bind, Option.some_bind] at h
      exact parseLabelParts_ops _ [] ls (by simp) h
  · exact parseLabelParts_ops _ [] ls (by simp) h

theorem parseBody_cases (e : Str) :
    (¬ NoWrapper e ∧ ∃ (x : Str) (f : promQL → promQL), wrappedExpr e = some x ∧
      x.length < e.length ∧ Wrap f ∧
      ∀ rec, parseBody rec e = (rec x).bind fun p => some (f p)) ∨
    (NoWrapper e ∧ wrappedExpr e = none ∧ ∃ q, Leaf e q ∧ ∀ rec, parseBody rec e = some q) := by
  by_cases hc : (reCmp.findStringSubmatch e).length = 4
  · left
    obtain ⟨w, l, o, n, hm⟩ := list_length_four _ hc
    have hlt := findStringSubmatch_capture_lt reCmp rfl reCmp_bounds.1 1 (le_refl _)
      reCmp_bounds.2 e l (by rw [hm]; rfl)
    have := trimSpace_length_le l
    have ho := cap_alts reCmp rfl 2 (by decide) (by decide) rfl _ rfl e o (by rw [hm]; rfl)
    have hn := cap_ne_nil reCmp rfl 3 (by decide) (by decide) rfl rfl e n (by rw [hm]; rfl)
    have hwx : wrappedExpr e = some (trimSpace l) := by
      simp [wrappedExpr, hm]
    exact ⟨fun h => h.1 hc, trimSpace l, _, hwx, by omega, Wrap.cmp o n _ ho hn,
      fun rec => parseBody_cmp rec e w l o n hm⟩
  by_cases ho : 0 < lastIndex e " offset ".toList
  · left
    have hb := lastIndex_bound e " offset ".toList (le_of_lt ho)
    have hlen : " offset ".toList.length = 8 := rfl
    rw [hlen] at hb
    have := trimSpace_length_le (e.take (lastIndex e " offset ".toList).toNat)
    rw [List.length_take] at this
    have hwx : wrappedExpr e =
        some (trimSpace (e.take (lastIndex e " offset ".toList).toNat)) := by
      simp only [wrappedExpr, if_neg hc, if_pos ho]
      rw [slice_some _ 0 _ (Nat.zero_le _) (by omega)]
      simp
    exact ⟨fun h => h.2.1 ho, _, _, hwx, by omega, Wrap.offset _,
      fun rec => parseBody_offset rec e hc ho⟩
  by_cases hh : (reHist.findStringSubmatch e).length = 3
  · left
    obtain ⟨w, q, x, hm⟩ := list_length_three _ hh
    have hlt := findStringSubmatch_capture_lt reHist rfl reHist_bounds.1 2 (by decide)
      reHist_bounds.2 e x (by rw [hm]; rfl)
    have hq := cap_ne_nil reHist rfl 1 (by decide) (by decide) rfl rfl e q (by rw [hm]; rfl)
    have hwx : wrappedExpr e = some x := by
      simp only [wrappedExpr, if_neg hc, if_neg ho, if_pos hh]
      rw [hm]; rfl
    exact ⟨fun h => h.2.2.1 hh, x, _, hwx, hlt, Wrap.hist q hq,
      fun rec => parseBody_hist rec e w q x hc ho hm⟩
  by_cases ha : (reAggA.findStringSubmatch e).length = 4
  · left
    obtain ⟨w, agg, by1, x, hm⟩ := list_length_four _ ha
    have hlt := findStringSubmatch_capture_lt reAggA rfl reAggA_bounds.1 3 (by decide)
      reAggA_bounds.2 e x (by rw [hm]; rfl)
    have hag := cap_alts reAggA rfl 1 (by decide) (by decide) rfl _ rfl e agg (by rw [hm]; rfl)
    have hwx : wrappedExpr e = some x := by
      simp only [wrappedExpr, if_neg hc, if_neg ho, if_neg hh, if_pos ha]
      rw [hm]; rfl
    exact ⟨fun h => h.2.2.2.1 ha, x, _, hwx, hlt, Wrap.agg agg by1 hag,
      fun rec => parseBody_aggA rec e w agg by1 x hc ho hh hm⟩
  by_cases hb : (reAggB.findStringSubmatch e).length = 4
  · left
    obtain ⟨w, agg, x, by1, hm⟩ := list_length_four _ hb
    have hlt := findStringSubmatch_capture_lt reAggB rfl reAggB_bounds.1 2 (by decide)
      reAggB_bounds.2 e x (by rw [hm]; rfl)
    have hag := cap_alts reAggB rfl 1 (by decide) (by decide) rfl _ rfl e agg (by rw [hm]; rfl)
    have hwx : wrappedExpr e = some x := by
      simp only [wrappedExpr, if_neg hc, if_neg ho, if_neg hh, if_neg ha, if_pos hb]
      rw [hm]; rfl
    exact ⟨fun h => h.2.2.2.2 hb, x, _, hwx, hlt, Wrap.agg agg by1 hag,
      fun rec => parseBody_aggB rec e w agg x by1 hc ho hh ha hm⟩
  right
  have hwn : wrappedExpr e = none := by
    simp only [wrappedExpr, if_neg hc, if_neg ho, if_neg hh, if_neg ha, if_neg hb]
  refine ⟨⟨hc, ho, hh, ha, hb⟩, hwn, ?_⟩
  by_cases hf : (reFn.findStringSubmatch e).length = 5
  · obtain ⟨w, f, m, sel, rng, hm⟩ := list_length_five _ hf
    obtain ⟨ls, hl⟩ := parseLabelSet_total sel
    have hne : reFn.findStringSubmatch e ≠ [] := by rw [hm]; simp
    have hmin := findStringSubmatch_minLen reFn rfl e hne
    have he : e ≠ [] := by
      rintro rfl
      have h1 : 1 ≤ reFn.body.minLen := by decide
      simp only [List.length_nil] at hmin
      omega
    have hfn := cap_alts reFn rfl 1 (by decide) (by decide) rfl _ rfl e f (by rw [hm]; rfl)
    have hmm := cap_metric reFn rfl 2 (by decide) (by decide) rfl rfl e m (by rw [hm]; rfl)
    exact ⟨_, Leaf.fn e f m ls (trimSpace rng) he hfn hmm (parseLabelSet_ops sel ls hl),
      fun rec => parseBody_fn rec e w f m sel rng hc ho hh ha hb hm ls hl⟩
  by_cases hs : (reSimple.findStringSubmatch e).length ≥ 2
  · have h4 : (reSimple.findStringSubmatch e).length = 4 := by
      rcases findStringSubmatch_length reSimple rfl e with h0 | h1
      · rw [h0] at hs; simp at hs
      · exact h1
    obtain ⟨w, m, sel, rng, hm⟩ := list_length_four _ h4
    obtain ⟨ls, hl⟩ := parseLabelSet_total sel
    have hne : reSimple.findStringSubmatch e ≠ [] := by rw [hm]; simp
    have hmin := findStringSubmatch_minLen reSimple rfl e hne
    have he : e ≠ [] := by
      rintro rfl
      have h1 : 1 ≤ reSimple.body.minLen := by decide
      simp only [List.length_nil] at hmin
      omega
    have hmm := cap_metric reSimple rfl 1 (by decide) (by decide) rfl rfl e m (by rw [hm]; rfl)
    exact ⟨_, Leaf.simple e m ls (trimSpace rng) he hmm (parseLabelSet_ops sel ls hl),
      fun rec => parseBody_simple rec e w m sel rng hc ho hh ha hb hf hm ls hl⟩
  exact ⟨_, Leaf.fallback e, fun rec => parseBody_fallback rec e hc ho hh ha hb hf hs⟩

theorem parsePromQL_cases (expr : Str) :
    ∃ e p, (stripOuterParens (trimSpace expr)).bind stripArithmetic = some e ∧
      e.length ≤ expr.length ∧ parsePromQL expr = some p ∧
      ((¬ NoWrapper e ∧ ∃ (x : Str) (f : promQL → promQL) (pin : promQL),
          wrappedExpr e = some x ∧
          x.length < e.length ∧ Wrap f ∧ parsePromQL x = some pin ∧ p = f pin) ∨
        (NoWrapper e ∧ wrappedExpr e = none ∧ Leaf e p)) := by
  obtain ⟨e, he, hel⟩ := normalise_total expr
  have hu := parsePromQL_unfold expr e he hel
  refine ⟨e, ?_⟩
  rcases parseBody_cases e with ⟨hnw, x, f, hwx, hx, hf, hb⟩ | ⟨hnw, hwn, q, hq, hb⟩
  · obtain ⟨pin, hpin⟩ := parsePromQL_total x
    refine ⟨f pin, he, hel, ?_, Or.inl ⟨hnw, x, f, pin, hwx, hx, hf, hpin, rfl⟩⟩
    rw [hu, hb, hpin]
    rfl
  · exact ⟨q, he, hel, by rw [hu, hb], Or.inr ⟨hnw, hwn, hq⟩⟩

theorem parsePromQL_induction (P : promQL → Prop)
    (hleaf : ∀ e q, Leaf e q → P q)
    (hwrap : ∀ f p, Wrap f → P p → P (f p)) :
    ∀ (n : Nat) (expr : Str) (p : promQL), expr.length ≤ n → parsePromQL expr = some p → P p := by
  intro n
  induction n with
  | zero =>
    intro expr p hlen hp
    obtain ⟨e, p', -, hel, hp', hcase⟩ := parsePromQL_cases expr
    rw [hp] at hp'
    cases hp'
    rcases hcase with ⟨-, x, f, pin, -, hx, -⟩ | ⟨-, -, hl⟩
    · omega
    · exact hleaf e p hl
  | succ n ih =>
    intro expr p hlen hp
    obtain ⟨e, p', -, hel, hp', hcase⟩ := parsePromQL_cases expr
    rw [hp] at hp'
    cases hp'
    rcases hcase with ⟨-, x, f, pin, -, hx, hf, hpin, rfl⟩ | ⟨-, -, hl⟩
    · exact hwrap f pin hf (ih x pin (by omega) hpin)
    · exact hleaf e p hl

theorem trimSpace_ne_nil_of_head (c : Char) (t : Str) (h : isUnicodeSpace c = false) :
    trimSpace (c :: t) ≠ [] := by
  unfold trimSpace
  have h1 : (c :: t).dropWhile isUnicodeSpace = c :: t := by
    simp [List.dropWhile, h]
  rw [h1]
  intro e
  have e2 : (c :: t).reverse.dropWhile isUnicodeSpace = [] := by
    simpa using e
  rw [List.dropWhile_eq_nil_iff] at e2
  have := e2 c (by simp)
  rw [h] at this
  exact absurd this (by decide)

theorem nonEmpty_metric (m : Str) (hm : ∃ c t, m = c :: t ∧ isMetricStart c = true) :
    nonEmpty m [] = m ∧ m ≠ [] := by
  obtain ⟨c, t, rfl, hc⟩ := hm
  have hsp := isWordChar_not_unicodeSpace (isWordChar_of_isMetricChar
    (isMetricChar_of_isMetricStart hc))
  refine ⟨?_, by simp⟩
  unfold nonEmpty
  rw [if_neg (trimSpace_ne_nil_of_head c t hsp)]

theorem leaf_metric (e : Str) (q : promQL) (h : Leaf e q) : (q.Metric = [] ↔ e = []) := by
  cases h with
  | fn f m ls rng he hf hm hls =>
    obtain ⟨h1, h2⟩ := nonEmpty_metric m hm
    simp only [h1]
    exact ⟨fun h => absurd h h2, fun h => absurd h he⟩
  | simple m ls rng he hm hls =>
    obtain ⟨c, t, rfl, -⟩ := hm
    exact ⟨fun h => absurd h (by simp), fun h => absurd h he⟩
  | fallback => exact Iff.rfl

theorem wrap_metric (f : promQL → promQL) (p : promQL) (h : Wrap f) :
    (f p).Metric = p.Metric := by
  cases h with
  | cmp op n b hop hn => rfl
  | offset off => rfl
  | hist q hq =>
    simp only
    split_ifs <;> rfl
  | agg a by1 ha =>
    simp only
    split_ifs <;> rfl

/-! ## Label sets -/

theorem isReSpace_cases {c : Char} (h : isReSpace c = true) :
    c = '\t' ∨ c = '\n' ∨ c = '\x0c' ∨ c = '\r' ∨ c = ' ' := by
  simpa [isReSpace, or_assoc] using h

theorem isReSpace_props {c : Char} (h : isReSpace c = true) :
    isLabelChar c = false ∧ c ≠ '~' ∧ c ≠ '"' ∧ c ≠ ',' := by
  rcases isReSpace_cases h with rfl | rfl | rfl | rfl | rfl <;> decide

theorem reLabel_match (k0 : Char) (k' s1 op s2 v : Str) (hk0 : isLabelStart k0 = true)
    (hk : ∀ c ∈ k', isLabelChar c = true) (hs1 : ∀ c ∈ s1, isReSpace c = true)
    (hop : op ∈ ["=".toList, "!=".toList, "=~".toList, "!~".toList])
    (hs2 : ∀ c ∈ s2, isReSpace c = true)
    (hv : ∀ c ∈ v, c ≠ '"' ∧ c ≠ '\n') :
    reLabel.findStringSubmatch (k0 :: k' ++ s1 ++ op ++ s2 ++ ['"'] ++ v ++ ['"']) =
      [k0 :: k' ++ s1 ++ op ++ s2 ++ ['"'] ++ v ++ ['"'], k0 :: k', op, v] := by
  have hvd : ∀ c ∈ v, isDot c = true := by
    intro c hc
    simpa [isDot] using (hv c hc).2
  have hk0s : isReSpace k0 = false := by
    have : isWordChar k0 = true := by
      simp only [isLabelStart, isWordChar, Bool.or_eq_true] at hk0 ⊢
      tauto
    exact isWordChar_not_reSpace this
  -- the operator starts with a character that ends the key and the blanks
  obtain ⟨o0, ot, ho, ho1, ho2⟩ : ∃ o0 ot, op = o0 :: ot ∧ isLabelChar o0 = false ∧
      isReSpace o0 = false := by
    simp only [List.mem_cons, List.mem_singleton, List.not_mem_nil, or_false] at hop
    rcases hop with rfl | rfl | rfl | rfl <;> exact ⟨_, _, rfl, by decide, by decide⟩
  let T3 : Str := '"' :: (v ++ ['"'])
  let T2 : Str := op ++ (s2 ++ T3)
  let T : Str := s1 ++ T2
  have hT2 : T2 = o0 :: (ot ++ (s2 ++ T3)) := by
    show op ++ _ = _
    rw [ho]; rfl
  obtain ⟨t0, T', hT, ht0⟩ : ∃ t0 T', T = t0 :: T' ∧ isLabelChar t0 = false := by
    cases hs : s1 with
    | nil => exact ⟨o0, _, by show s1 ++ T2 = _; rw [hs, hT2]; rfl, ho1⟩
    | cons x s1' =>
      refine ⟨x, s1' ++ T2, by show s1 ++ T2 = _; rw [hs]; rfl, ?_⟩
      exact (isReSpace_props (hs1 x (by rw [hs]; exact List.mem_cons_self _ _))).1
  obtain ⟨r0, R', hR, hr0⟩ : ∃ r0 R', s2 ++ T3 = r0 :: R' ∧ r0 ≠ '~' := by
    cases hs : s2 with
    | nil => exact ⟨'"', _, rfl, by decide⟩
    | cons x s2' =>
      refine ⟨x, s2' ++ T3, rfl, ?_⟩
      exact (isReSpace_props (hs2 x (by rw [hs]; exact List.mem_cons_self _ _))).2.1
  have e0 : k0 :: k' ++ s1 ++ op ++ s2 ++ ['"'] ++ v ++ ['"'] = k0 :: (k' ++ T) := by
    show _ = k0 :: (k' ++ (s1 ++ (op ++ (s2 ++ '"' :: (v ++ ['"'])))))
    simp
  let K3 : Re := .seq (.lit ['"']) (.seq ws .eot)
  have hbody : reLabel.body =
      .seq ws (.seq (.group 1 (.seq (.cls isLabelStart) (.star isLabelChar)))
        (.seq ws (.seq (.group 2 (Re.alts ["=~".toList, "!~".toList, "=".toList, "!=".toList]))
          (.seq ws (.seq (.lit ['"']) (.seq (.group 3 (.star isDot)) K3)))))) := rfl
  have h1 : (ws.run [[], [], [], []] (k0 :: (k' ++ T))).head? =
      some ⟨[[], [], [], []], [], k0 :: (k' ++ T)⟩ := by
    simp only [ws, run_star, starRun_cons_neg _ _ _ hk0s]
    rfl
  have h2 : ((Re.group 1 (.seq (.cls isLabelStart) (.star isLabelChar))).run [[], [], [], []]
      (k0 :: (k' ++ T))).head? = some ⟨[[], k0 :: k', [], []], k0 :: k', T⟩ := by
    simp only [run_group, run_seq, run_cls_pos _ _ _ _ hk0, run_star, hT, List.flatMap_cons,
      List.flatMap_nil, List.append_nil, starRun_stop _ k' t0 _ hk ht0, List.map_cons,
      List.head?_cons]
    rfl
  have h3 : (ws.run [[], k0 :: k', [], []] T).head? =
      some ⟨[[], k0 :: k', [], []], s1, T2⟩ := by
    show (ws.run _ (s1 ++ T2)).head? = _
    simp only [ws, run_star, hT2, starRun_stop _ s1 o0 _ hs1 ho2, List.map_cons, List.head?_cons]
  have h4 : ((Re.group 2 (Re.alts ["=~".toList, "!~".toList, "=".toList, "!=".toList])).run
      [[], k0 :: k', [], []] T2).head? =
      some ⟨[[], k0 :: k', op, []], op, s2 ++ T3⟩ := by
    show ((Re.group 2 _).run _ (op ++ (s2 ++ T3))).head? = _
    rw [hR]
    simp only [List.mem_cons, List.mem_singleton, List.not_mem_nil, or_false] at hop
    have hr1 : ¬ '~' = r0 := fun h => hr0 h.symm
    rcases hop with rfl | rfl | rfl | rfl <;> simp [Re.alts, stripLit, hr1]
  have h5 : (ws.run [[], k0 :: k', op, []] (s2 ++ T3)).head? =
      some ⟨[[], k0 :: k', op, []], s2, T3⟩ := by
    show (ws.run _ (s2 ++ '"' :: (v ++ ['"']))).head? = _
    simp only [ws, run_star, starRun_stop _ s2 '"' _ hs2 (by decide), List.map_cons,
      List.head?_cons]
  have h6 : ((Re.lit ['"']).run [[], k0 :: k', op, []] T3).head? =
      some ⟨[[], k0 :: k', op, []], ['"'], v ++ ['"']⟩ := by
    simp [T3, stripLit]
  have h7 : ((Re.seq (.group 3 (.star isDot)) K3).run [[], k0 :: k', op, []] (v ++ ['"'])).head? =
      some ⟨[[], k0 :: k', op, v], v ++ ['"'], []⟩ := by
    have hK : (K3.run (([[], k0 :: k', op, []] : List Str).set 3 v) ['"']).head? =
        some ⟨[[], k0 :: k', op, v], ['"'], []⟩ := by
      simp [K3, ws, stripLit]
    have hfail : ∀ (a b : Str) (c' : List Str), a ≠ [] → ['"'] = a ++ b → K3.run c' b = [] := by
      intro a b c' ha e
      have hb : b = [] := by
        cases a with
        | nil => exact absurd rfl ha
        | cons x a' =>
          simp only [List.cons_append, List.cons.injEq] at e
          have := e.2
          simp only [List.nil_eq, List.append_eq_nil] at this
          exact this.2
      subst hb
      simp [K3, stripLit]
    exact run_star_group_seq_head isDot 3 K3 _ v ['"'] _ hvd hfail hK
  have h := head_seq h1 (head_seq h2 (head_seq h3 (head_seq h4 (head_seq h5 (head_seq h6 h7)))))
  rw [e0]
  have hf := findStringSubmatch_of_head reLabel rfl (k0 :: (k' ++ T)) _ (by rw [hbody]; exact h)
  rw [hf]
  simp [T, T2, T3]

theorem isLabelName_chars {k : Str} (h : isLabelName k = true) :
    ∃ k0 k', k = k0 :: k' ∧ isLabelStart k0 = true ∧ (∀ c ∈ k', isLabelChar c = true) ∧
      ∀ c ∈ k, isWordChar c = true := by
  cases k with
  | nil => simp [isLabelName] at h
  | cons k0 k' =>
    simp only [isLabelName, Bool.and_eq_true, List.all_eq_true] at h
    refine ⟨k0, k', rfl, h.1, h.2, ?_⟩
    intro c hc
    rcases List.mem_cons.mp hc with rfl | hc
    · have := h.1
      simp only [isLabelStart, isWordChar, Bool.or_eq_true] at this ⊢
      tauto
    · have := h.2 c hc
      simp only [isLabelChar, isWordChar, Bool.or_eq_true] at this ⊢
      tauto


theorem mem_run_star {p : Char → Bool} {c : List Str} {s : Str} {r : MatchRes}
    (h : r ∈ (Re.star p).run c s) : ∀ x ∈ r.matched, p x = true := by
  rw [run_star] at h
  obtain ⟨r0, h0, rfl⟩ := List.mem_map.mp h
  exact (mem_starRun h0).2

theorem mem_run_group {i : Nat} {a : Re} {c : List Str} {s : Str} {r : MatchRes}
    (h : r ∈ (Re.group i a).run c s) :
    ∃ r0 ∈ a.run c s, r.matched = r0.matched ∧ r.rest = r0.rest := by
  rw [run_group] at h
  obtain ⟨r0, h0, rfl⟩ := List.mem_map.mp h
  exact ⟨r0, h0, rfl, rfl⟩

theorem mem_run_cls {p : Char → Bool} {c : List Str} {s : Str} {r : MatchRes}
    (h : r ∈ (Re.cls p).run c s) : ∃ x, p x = true ∧ r.matched = [x] := by
  cases s with
  | nil => simp at h
  | cons x t =>
    by_cases hp : p x = true
    · rw [run_cls_pos _ _ _ _ hp] at h
      simp only [List.mem_singleton] at h
      subst h
      exact ⟨x, hp, rfl⟩
    · rw [run_cls_neg _ _ _ _ (by simpa using hp)] at h
      simp at h

theorem mem_run_lit {w : Str} {c : List Str} {s : Str} {r : MatchRes}
    (h : r ∈ (Re.lit w).run c s) : r.matched = w := by
  rw [run_lit] at h
  cases hw : stripLit w s with
  | none => simp [hw] at h
  | some t =>
    simp only [hw, List.mem_singleton] at h
    subst h
    rfl

theorem mem_run_eot {c : List Str} {s : Str} {r : MatchRes}
    (h : r ∈ Re.eot.run c s) : r.matched = [] ∧ r.rest = [] := by
  cases s with
  | nil =>
    simp only [run_eot_nil, List.mem_singleton] at h
    subst h
    exact ⟨rfl, rfl⟩
  | cons x t => simp at h

theorem reLabel_form (s : Str) (h : reLabel.findStringSubmatch s ≠ []) : EntryForm s := by
  rcases findStringSubmatch_cases reLabel rfl s with h0 | ⟨r, hr, -⟩
  · exact absurd h0 h
  have hbody : reLabel.body =
      .seq ws (.seq (.group 1 (.seq (.cls isLabelStart) (.star isLabelChar)))
        (.seq ws (.seq (.group 2 (Re.alts ["=~".toList, "!~".toList, "=".toList, "!=".toList]))
          (.seq ws (.seq (.lit ['"']) (.seq (.group 3 (.star isDot))
            (.seq (.lit ['"']) (.seq ws .eot)))))))) := rfl
  rw [hbody] at hr
  obtain ⟨a1, ha1, b1, hb1, -⟩ := mem_run_seq.mp hr
  obtain ⟨a2, ha2, b2, hb2, -⟩ := mem_run_seq.mp hb1
  obtain ⟨a3, ha3, b3, hb3, -⟩ := mem_run_seq.mp hb2
  obtain ⟨a4, ha4, b4, hb4, -⟩ := mem_run_seq.mp hb3
  obtain ⟨a5, ha5, b5, hb5, -⟩ := mem_run_seq.mp hb4
  obtain ⟨a6, ha6, b6, hb6, -⟩ := mem_run_seq.mp hb5
  obtain ⟨a7, ha7, b7, hb7, -⟩ := mem_run_seq.mp hb6
  obtain ⟨a8, ha8, b8, hb8, -⟩ := mem_run_seq.mp hb7
  obtain ⟨a9, ha9, b9, hb9, -⟩ := mem_run_seq.mp hb8
  have s1 := run_sound ha1
  have s2 := run_sound ha2
  have s3 := run_sound ha3
  have s4 := run_sound ha4
  have s5 := run_sound ha5
  have s6 := run_sound ha6
  have s7 := run_sound ha7
  have s8 := run_sound ha8
  have s9 := run_sound ha9
  have s10 := run_sound hb9
  obtain ⟨e1, e2⟩ := mem_run_eot hb9
  rw [e1, e2] at s10
  rw [s10] at s9
  have m6 := mem_run_lit ha6
  have m8 := mem_run_lit ha8
  -- the key
  have hkey : isLabelName a2.matched = true := by
    obtain ⟨g, hg, hgm, -⟩ := mem_run_group ha2
    obtain ⟨x1, hx1, x2, hx2, rfl⟩ := mem_run_seq.mp hg
    obtain ⟨x, hx, hxm⟩ := mem_run_cls hx1
    have hstar := mem_run_star hx2
    rw [hgm]
    simp only [hxm, List.singleton_append, isLabelName, hx, Bool.true_and, List.all_eq_true]
    exact hstar
  have hop : a4.matched ∈ ["=".toList, "!=".toList, "=~".toList, "!~".toList] := by
    obtain ⟨g, hg, hgm, -⟩ := mem_run_group ha4
    have := mem_run_alts hg
    rw [hgm]
    simp only [List.mem_cons, List.mem_singleton, List.not_mem_nil, or_false] at this ⊢
    tauto
  have hval : ∀ x ∈ a7.matched, x ≠ '\n' := by
    obtain ⟨g, hg, hgm, -⟩ := mem_run_group ha7
    intro x hx
    rw [hgm] at hx
    have := mem_run_star hg x hx
    simpa [isDot] using this
  refine ⟨a1.matched, a2.matched, a3.matched, a4.matched, a5.matched, a7.matched, a9.matched,
    ?_, mem_run_star ha1, hkey, mem_run_star ha3, hop, mem_run_star ha5, hval,
    mem_run_star ha9⟩
  rw [s1, s2, s3, s4, s5, s6, s7, s8, s9, m6, m8]
  simp

theorem mem_starRun_of (p : Char → Bool) (a b : Str) (h : ∀ x ∈ a, p x = true) :
    (a, b) ∈ starRun p (a ++ b) := by
  induction a with
  | nil =>
    cases b with
    | nil => simp [starRun]
    | cons y t =>
      simp only [List.nil_append, starRun]
      split_ifs <;> simp
  | cons x a ih =>
    have hx := h x (List.mem_cons_self _ _)
    rw [List.cons_append, starRun, if_pos hx]
    apply List.mem_append_left
    exact List.mem_map.mpr ⟨(a, b), ih (fun y hy => h y (List.mem_cons_of_mem _ hy)), rfl⟩

theorem run_star_mem (p : Char → Bool) (c : List Str) (a b : Str) (h : ∀ x ∈ a, p x = true) :
    (⟨c, a, b⟩ : MatchRes) ∈ (Re.star p).run c (a ++ b) := by
  rw [run_star]
  exact List.mem_map.mpr ⟨(a, b), mem_starRun_of p a b h, rfl⟩

theorem run_alts_mem (L : List Str) (c : List Str) (op t : Str) (h : op ∈ L) :
    (⟨c, op, t⟩ : MatchRes) ∈ (Re.alts L).run c (op ++ t) := by
  induction L with
  | nil => simp at h
  | cons a l ih =>
    have hlit : (⟨c, a, t⟩ : MatchRes) ∈ (Re.lit a).run c (a ++ t) := by
      rw [run_lit, stripLit_eq_some.mpr rfl]
      simp
    cases l with
    | nil =>
      simp only [List.mem_singleton] at h
      subst h
      exact hlit
    | cons b l' =>
      simp only [Re.alts, run_alt]
      rcases List.mem_cons.mp h with rfl | h
      · exact List.mem_append_left _ hlit
      · exact List.mem_append_right _ (ih h)

theorem run_seq_mem {a b : Re} {c : List Str} {s : Str} (r1 r2 : MatchRes)
    (h1 : r1 ∈ a.run c s) (h2 : r2 ∈ b.run r1.caps r1.rest) :
    (⟨r2.caps, r1.matched ++ r2.matched, r2.rest⟩ : MatchRes) ∈ (Re.seq a b).run c s :=
  mem_run_seq.mpr ⟨r1, h1, r2, h2, rfl⟩

theorem run_group_mem {i : Nat} {a : Re} {c : List Str} {s : Str} (r : MatchRes)
    (h : r ∈ a.run c s) :
    (⟨r.caps.set i r.matched, r.matched, r.rest⟩ : MatchRes) ∈ (Re.group i a).run c s := by
  rw [run_group]
  exact List.mem_map.mpr ⟨r, h, rfl⟩

theorem run_ne_nil_of_mem {α : Type} {l : List α} {x : α} (h : x ∈ l) : l ≠ [] := by
  rintro rfl
  simp at h

theorem findStringSubmatch_ne_nil (re : Regexp) (ha : re.anchored = true) (s : Str)
    (r : MatchRes) (hr : r ∈ re.body.run (List.replicate (re.groups + 1) []) s) :
    re.findStringSubmatch s ≠ [] := by
  cases hl : re.body.run (List.replicate (re.groups + 1) []) s with
  | nil => rw [hl] at hr; simp at hr
  | cons r0 l =>
    rw [findStringSubmatch_of_head re ha s r0 (by rw [hl]; rfl)]
    intro h
    have hlen := congrArg List.length h
    rw [List.length_set, run_caps_length (by rw [hl]; exact List.mem_cons_self _ _ :
      r0 ∈ re.body.run (List.replicate (re.groups + 1) []) s)] at hlen
    simp at hlen

theorem reLabel_of_form (s : Str) (h : EntryForm s) : reLabel.findStringSubmatch s ≠ [] := by
  obtain ⟨w0, k, w1, op, w2, v, w3, rfl, h0, hk, h1, hop, h2, hv, h3⟩ := h
  obtain ⟨k0, k', rfl, hk0, hk', -⟩ := isLabelName_chars hk
  have hop' : op ∈ ["=~".toList, "!~".toList, "=".toList, "!=".toList] := by
    simp only [List.mem_cons, List.mem_singleton, List.not_mem_nil, or_false] at hop ⊢
    tauto
  have hvd : ∀ x ∈ v, isDot x = true := by
    intro x hx
    simpa [isDot] using hv x hx
  have hbody : reLabel.body =
      .seq ws (.seq (.group 1 (.seq (.cls isLabelStart) (.star isLabelChar)))
        (.seq ws (.seq (.group 2 (Re.alts ["=~".toList, "!~".toList, "=".toList, "!=".toList]))
          (.seq ws (.seq (.lit ['"']) (.seq (.group 3 (.star isDot))
            (.seq (.lit ['"']) (.seq ws .eot)))))))) := rfl
  have e : w0 ++ (k0 :: k') ++ w1 ++ op ++ w2 ++ ['"'] ++ v ++ ['"'] ++ w3 =
      w0 ++ (k0 :: (k' ++ (w1 ++ (op ++ (w2 ++ ('"' :: (v ++ ('"' :: (w3 ++ []))))))))) := by
    simp
  rw [e]
  have m8 : ∀ c : List Str, ∃ r : MatchRes, r ∈ (Re.seq (.lit ['"']) (.seq ws .eot)).run c
      ('"' :: (w3 ++ [])) := by
    intro c
    have hl : (⟨c, ['"'], w3 ++ []⟩ : MatchRes) ∈ (Re.lit ['"']).run c ('"' :: (w3 ++ [])) := by
      simp [stripLit]
    exact ⟨_, run_seq_mem _ _ hl (run_seq_mem _ _ (run_star_mem isReSpace _ w3 [] h3)
      (by rw [run_eot_nil]; exact List.mem_singleton.mpr rfl))⟩
  have m7 : ∀ c : List Str, ∃ r : MatchRes, r ∈ (Re.seq (.group 3 (.star isDot))
      (.seq (.lit ['"']) (.seq ws .eot))).run c (v ++ ('"' :: (w3 ++ []))) := by
    intro c
    obtain ⟨r, hr⟩ := m8 (c.set 3 v)
    exact ⟨_, run_seq_mem _ _ (run_group_mem _ (run_star_mem isDot c v _ hvd)) hr⟩
  have m6 : ∀ c : List Str, ∃ r : MatchRes, r ∈ (Re.seq (.lit ['"']) (.seq (.group 3 (.star isDot))
      (.seq (.lit ['"']) (.seq ws .eot)))).run c ('"' :: (v ++ ('"' :: (w3 ++ [])))) := by
    intro c
    obtain ⟨r, hr⟩ := m7 c
    have hl : (⟨c, ['"'], v ++ ('"' :: (w3 ++ []))⟩ : MatchRes) ∈
        (Re.lit ['"']).run c ('"' :: (v ++ ('"' :: (w3 ++ [])))) := by
      simp [stripLit]
    exact ⟨_, run_seq_mem _ _ hl hr⟩
  have m5 : ∀ c : List Str, ∃ r : MatchRes, r ∈ (Re.seq ws (.seq (.lit ['"'])
      (.seq (.group 3 (.star isDot)) (.seq (.lit ['"']) (.seq ws .eot))))).run c
      (w2 ++ ('"' :: (v ++ ('"' :: (w3 ++ []))))) := by
    intro c
    obtain ⟨r, hr⟩ := m6 c
    exact ⟨_, run_seq_mem _ _ (run_star_mem isReSpace c w2 _ h2) hr⟩
  have m4 : ∀ c : List Str, ∃ r : MatchRes, r ∈ (Re.seq (.group 2 (Re.alts ["=~".toList,
      "!~".toList, "=".toList, "!=".toList])) (.seq ws (.seq (.lit ['"'])
      (.seq (.group 3 (.star isDot)) (.seq (.lit ['"']) (.seq ws .eot)))))).run c
      (op ++ (w2 ++ ('"' :: (v ++ ('"' :: (w3 ++ [])))))) := by
    intro c
    obtain ⟨r, hr⟩ := m5 (c.set 2 op)
    exact ⟨_, run_seq_mem _ _ (run_group_mem _ (run_alts_mem _ c op _ hop')) hr⟩
  have m3 : ∀ c : List Str, ∃ r : MatchRes, r ∈ (Re.seq ws (.seq (.group 2 (Re.alts
      ["=~".toList, "!~".toList, "=".toList, "!=".toList])) (.seq ws (.seq (.lit ['"'])
      (.seq (.group 3 (.star isDot)) (.seq (.lit ['"']) (.seq ws .eot))))))).run c
      (w1 ++ (op ++ (w2 ++ ('"' :: (v ++ ('"' :: (w3 ++ []))))))) := by
    intro c
    obtain ⟨r, hr⟩ := m4 c
    exact ⟨_, run_seq_mem _ _ (run_star_mem isReSpace c w1 _ h1) hr⟩
  have hkey : ∀ (c : List Str) (t : Str), (⟨c, k0 :: k', t⟩ : MatchRes) ∈
      (Re.seq (.cls isLabelStart) (.star isLabelChar)).run c (k0 :: (k' ++ t)) := by
    intro c t
    have h1 : (⟨c, [k0], k' ++ t⟩ : MatchRes) ∈ (Re.cls isLabelStart).run c (k0 :: (k' ++ t)) := by
      rw [run_cls_pos _ _ _ _ hk0]; exact List.mem_singleton.mpr rfl
    exact run_seq_mem _ _ h1 (run_star_mem isLabelChar c k' t hk')
  obtain ⟨r3, hr3⟩ := m3 ((List.replicate (reLabel.groups + 1) ([] : Str)).set 1 (k0 :: k'))
  have hg := @run_group_mem 1 _ _ _ _
    (hkey (List.replicate (reLabel.groups + 1) ([] : Str))
      (w1 ++ (op ++ (w2 ++ '"' :: (v ++ '"' :: (w3 ++ []))))))
  have m2 := run_seq_mem _ _ hg hr3
  have m1 := run_seq_mem _ _
    (run_star_mem isReSpace (List.replicate (reLabel.groups + 1) ([] : Str)) w0 _ h0) m2
  exact findStringSubmatch_ne_nil reLabel rfl _ _ (by rw [hbody]; exact m1)

theorem entryForm_iff (s : Str) : EntryForm s ↔ reLabel.findStringSubmatch s ≠ [] :=
  ⟨reLabel_of_form s, reLabel_form s⟩

theorem splitCSVLoop_plain (seg : Str) (h : ∀ c ∈ seg, c ≠ '"' ∧ c ≠ ',') (rest : Str)
    (out : List Str) (q : Bool) :
    ∀ cur, splitCSVLoop (seg ++ rest) out cur q = splitCSVLoop rest out (cur ++ seg) q := by
  induction seg with
  | nil => intro cur; simp
  | cons x t ih =>
    intro cur
    obtain ⟨h1, h2⟩ := h x (List.mem_cons_self _ _)
    rw [List.cons_append, splitCSVLoop, if_neg h1, if_neg (by simp [h2]),
      ih (fun c hc => h c (List.mem_cons_of_mem _ hc))]
    simp

theorem splitCSVLoop_quoted (seg : Str) (h : ∀ c ∈ seg, c ≠ '"') (rest : Str)
    (out : List Str) :
    ∀ cur, splitCSVLoop (seg ++ rest) out cur true = splitCSVLoop rest out (cur ++ seg) true := by
  induction seg with
  | nil => intro cur; simp
  | cons x t ih =>
    intro cur
    have h1 := h x (List.mem_cons_self _ _)
    rw [List.cons_append, splitCSVLoop, if_neg h1, if_neg (by simp),
      ih (fun c hc => h c (List.mem_cons_of_mem _ hc))]
    simp

theorem splitCSVLoop_quote (rest : Str) (out : List Str) (cur : Str) (q : Bool) :
    splitCSVLoop ('"' :: rest) out cur q = splitCSVLoop rest out (cur ++ ['"']) (!q) := by
  rw [splitCSVLoop, if_pos rfl]

theorem splitCSVLoop_neutral (e : Str) (rest : Str) (out : List Str) :
    ∀ (q q' : Bool) (cur : Str), quoteState e q = some q' →
      splitCSVLoop (e ++ rest) out cur q = splitCSVLoop rest out (cur ++ e) q' := by
  induction e with
  | nil =>
    intro q q' cur h
    simp only [quoteState, Option.some.injEq] at h
    subst h
    simp
  | cons x t ih =>
    intro q q' cur h
    rw [quoteState] at h
    rw [List.cons_append, splitCSVLoop]
    by_cases h1 : x = '"'
    · rw [if_pos h1] at h ⊢
      rw [ih _ _ _ h]
      simp
    · rw [if_neg h1] at h ⊢
      by_cases h2 : x = ',' ∧ (!q) = true
      · rw [if_pos h2] at h
        exact absurd h (by simp)
      · rw [if_neg h2] at h ⊢
        rw [ih _ _ _ h]
        simp

theorem trimSpace_idem (s : Str) : trimSpace (trimSpace s) = trimSpace s := by
  apply trimSpace_eq_self
  · intro c hc
    unfold trimSpace at hc
    rw [List.head?_reverse] at hc
    have hne : (s.dropWhile isUnicodeSpace).reverse.dropWhile isUnicodeSpace ≠ [] := by
      intro h
      rw [h] at hc
      simp at hc
    obtain ⟨t, ht⟩ := List.dropWhile_suffix (l := (s.dropWhile isUnicodeSpace).reverse)
      isUnicodeSpace
    have h1 := List.getLast?_append_of_ne_nil t hne
    rw [ht, List.getLast?_reverse] at h1
    have h2 := List.head?_dropWhile_not isUnicodeSpace s
    rw [h1, hc] at h2
    exact h2
  · intro c hc
    unfold trimSpace at hc
    rw [List.getLast?_reverse] at hc
    have h2 := List.head?_dropWhile_not isUnicodeSpace (s.dropWhile isUnicodeSpace).reverse
    rw [hc] at h2
    exact h2

theorem labelItem_neutral (it : LabelItem) (hok : it.ok) (rest : Str) (out : List Str)
    (cur : Str) :
    splitCSVLoop (it.text ++ rest) out cur false = splitCSVLoop rest out (cur ++ it.text) false := by
  cases it with
  | bad e => exact splitCSVLoop_neutral e rest out false false cur hok.1
  | good k s1 op s2 v =>
    obtain ⟨hk, hs1, hop, hs2, hv⟩ := hok
    obtain ⟨_, _, _, _, _, hkw⟩ := isLabelName_chars hk
    have hko : ∀ c ∈ k ++ s1 ++ op ++ s2, c ≠ '"' ∧ c ≠ ',' := by
      intro c hc
      simp only [List.mem_append] at hc
      rcases hc with ((hc | hc) | hc) | hc
      · exact ⟨isWordChar_ne (hkw c hc) _ (by decide), isWordChar_ne (hkw c hc) _ (by decide)⟩
      · exact (isReSpace_props (hs1 c hc)).2.2
      · simp only [List.mem_cons, List.mem_singleton, List.not_mem_nil, or_false] at hop
        rcases hop with rfl | rfl | rfl | rfl <;>
          (simp only [String.toList, List.mem_cons, List.mem_singleton, List.not_mem_nil,
            or_false] at hc
           rcases hc with rfl | rfl <;> exact ⟨by decide, by decide⟩)
      · exact (isReSpace_props (hs2 c hc)).2.2
    have e : (LabelItem.good k s1 op s2 v).text ++ rest =
        (k ++ s1 ++ op ++ s2) ++ ('"' :: (v ++ ('"' :: rest))) := by
      simp [LabelItem.text]
    rw [e, splitCSVLoop_plain _ hko, splitCSVLoop_quote, Bool.not_false,
      splitCSVLoop_quoted v (fun c hc => (hv c hc).1), splitCSVLoop_quote, Bool.not_true]
    simp [LabelItem.text]

theorem splitCSVLoop_items (items : List LabelItem) (hok : ∀ it ∈ items, it.ok)
    (out : List Str) :
    splitCSVLoop (joinComma (items.map LabelItem.text)) out [] false =
      out ++ csvParts (items.map LabelItem.text) := by
  induction items generalizing out with
  | nil => simp [joinComma, csvParts, splitCSVLoop]
  | cons it rest ih =>
    have h1 := hok it (List.mem_cons_self _ _)
    cases rest with
    | nil =>
      have := labelItem_neutral it h1 [] out []
      simp only [List.append_nil, List.nil_append] at this
      simp only [List.map_cons, List.map_nil, joinComma, csvParts, this, splitCSVLoop]
      split_ifs <;> simp
    | cons b l =>
      have hrest := ih (fun x hx => hok x (List.mem_cons_of_mem _ hx))
      have := labelItem_neutral it h1 (',' :: joinComma ((b :: l).map LabelItem.text)) out []
      simp only [List.nil_append] at this
      simp only [List.map_cons, joinComma, csvParts, List.append_assoc, List.singleton_append]
      simp only [List.map_cons] at this hrest
      rw [this, splitCSVLoop, if_neg (by decide), if_pos (by simp), hrest]
      simp

theorem labelOf_item (it : LabelItem) (hok : it.ok) :
    labelOf (trimSpace it.text) = it.matcher := by
  cases it with
  | bad e =>
    have hfs : reLabel.findStringSubmatch (trimSpace (trimSpace e)) = [] := by
      by_contra hne
      have := reLabel_form _ hne
      rw [trimSpace_idem] at this
      exact hok.2 this
    unfold labelOf
    simp only [LabelItem.matcher]
    split_ifs with h0 h
    · rfl
    · exact absurd h (by simp [LabelItem.text, hfs])
    · rfl
  | good k s1 op s2 v =>
    obtain ⟨hk, hs1, hop, hs2, hv⟩ := hok
    obtain ⟨k0, k', rfl, hk0, hk', hkw⟩ := isLabelName_chars hk
    have hm := reLabel_match k0 k' s1 op s2 v hk0 hk' hs1 hop hs2 hv
    have ht : trimSpace (k0 :: k' ++ s1 ++ op ++ s2 ++ ['"'] ++ v ++ ['"']) =
        k0 :: k' ++ s1 ++ op ++ s2 ++ ['"'] ++ v ++ ['"'] := by
      apply trimSpace_eq_self
      · intro c hc
        simp only [List.cons_append, List.head?_cons, Option.some.injEq] at hc
        subst hc
        exact isWordChar_not_unicodeSpace (hkw _ (List.mem_cons_self _ _))
      · intro c hc
        rw [List.getLast?_append] at hc
        simp only [List.getLast?_singleton, Option.or_some, Option.some.injEq] at hc
        subst hc
        decide
    unfold labelOf
    simp only [LabelItem.text, ht, hm, LabelItem.matcher]
    rw [if_neg (by simp), if_pos (by simp)]
    rfl

theorem filterMap_csvParts (items : List LabelItem) (hok : ∀ it ∈ items, it.ok) :
    (csvParts (items.map LabelItem.text)).filterMap labelOf =
      items.filterMap LabelItem.matcher := by
  induction items with
  | nil => rfl
  | cons it rest ih =>
    have h1 := labelOf_item it (hok it (List.mem_cons_self _ _))
    cases rest with
    | nil =>
      simp only [List.map_cons, List.map_nil, csvParts]
      split_ifs with hl
      · simp [List.filterMap_cons, h1]
      · have hnil : it.text = [] := List.length_eq_zero.mp (by omega)
        rw [hnil] at h1
        have : labelOf (trimSpace []) = none := by decide
        rw [this] at h1
        simp [List.filterMap_cons, ← h1]
    | cons b l =>
      have hrest := ih (fun x hx => hok x (List.mem_cons_of_mem _ hx))
      simp only [List.map_cons, csvParts, List.filterMap_cons, h1] at hrest ⊢
      rw [hrest]

theorem parseLabelParts_eq (ps : List Str) (out : List labelMatcher) :
    parseLabelParts ps out = some (out ++ ps.filterMap labelOf) := by
  induction ps generalizing out with
  | nil => simp [parseLabelParts]
  | cons p rest ih =>
    rw [parseLabelParts, List.filterMap_cons]
    simp only
    by_cases h1 : trimSpace p = []
    · have hl : labelOf p = none := by
        unfold labelOf
        simp only
        rw [if_pos h1]
      rw [if_pos h1, hl]
      exact ih out
    · rw [if_neg h1]
      by_cases h2 : (reLabel.findStringSubmatch (trimSpace p)).length = 4
      · obtain ⟨w, k, o, v, hm⟩ := list_length_four _ h2
        have hl : labelOf p = some ⟨k, o, v⟩ := by
          unfold labelOf
          simp only
          rw [if_neg h1, if_pos h2, hm]
          rfl
        rw [if_pos h2, hl, hm]
        simp only [List.getElem?_cons_succ, List.getElem?_cons_zero, Option.bind_eq_bind,
          Option.some_bind, ih]
        simp
      · have hl : labelOf p = none := by
          unfold labelOf
          simp only
          rw [if_neg h1, if_neg h2]
        rw [if_neg h2, hl]
        exact ih out

theorem parseLabelSet_braces (inner : Str) :
    parseLabelSet ('{' :: (inner ++ ['}'])) = parseLabelParts (splitCSV inner) [] := by
  have ht : trimSpace ('{' :: (inner ++ ['}'])) = '{' :: (inner ++ ['}']) := by
    apply trimSpace_eq_self
    · intro c hc
      simp only [List.head?_cons, Option.some.injEq] at hc
      subst hc
      decide
    · intro c hc
      rw [← List.cons_append, List.getLast?_append] at hc
      simp only [List.getLast?_singleton, Option.or_some, Option.some.injEq] at hc
      subst hc
      decide
  unfold parseLabelSet
  simp only [ht]
  rw [if_neg (by simp), if_pos (by simp [hasPrefix, hasSuffix]), slice_inner]
  rfl

/-! ## The claims -/

/-- C1: for every plain metric name `m` matching `[a-zA-Z_:][a-zA-Z0-9_:]*`,
`parsePromQL m` returns the record whose `Metric` is `m` and whose other fields
all have their zero value. -/
theorem parsePromQL_plain_metric (m : Str) (h : isMetricName m = true) :
    parsePromQL m =
      some { Metric := m, Labels := [], Func := [], InnerFunc := [], Range := [], Agg := [],
             By := [], Quantile := [], Offset := [], CmpOp := [], CmpRight := [],
             CmpIsBool := false } :=
  parse_metricName m.length m h

/-- Witness of C1 at the metric name `nodejs_eventloop_lag_seconds`. -/
theorem parsePromQL_plain_metric_witness :
    isMetricName "nodejs_eventloop_lag_seconds".toList = true ∧
    parsePromQL "nodejs_eventloop_lag_seconds".toList =
      some { Metric := "nodejs_eventloop_lag_seconds".toList, Labels := [], Func := [],
             InnerFunc := [], Range := [], Agg := [], By := [], Quantile := [], Offset := [],
             CmpOp := [], CmpRight := [], CmpIsBool := false } :=
  ⟨by decide, parsePromQL_plain_metric _ (by decide)⟩

/-- C3: for every aggregation operator `agg`, every non-empty list `L` of label
names, every `f` in `rate`, `irate`, `increase`, every metric name `m` and every
alphanumeric duration `d`, parsing `agg by (L) (f(m{service=~"$s"}[d]))`, the
names of `L` separated by commas, yields `Agg = agg`, `By = L` in source order,
`Func = f`, `Metric = m`, `Range = [d]` and the single label matcher
`service =~ $s`. -/
theorem parsePromQL_agg_by_rate (agg : Str) (L : List Str) (f m d : Str)
    (hagg : isAggName agg = true) (hL : L ≠ []) (hLn : ∀ x ∈ L, isLabelName x = true)
    (hf : isRateFn f = true) (hm : isMetricName m = true) (hd : isDuration d = true) :
    parsePromQL (agg ++ " by (".toList ++ joinComma L ++ ") (".toList ++
        (f ++ "(".toList ++ m ++ "\x7bservice=~\"$s\"\x7d".toList ++ "[".toList ++ d ++
          "])".toList) ++ ")".toList) =
      some { Metric := m, Labels := [⟨"service".toList, "=~".toList, "$s".toList⟩], Func := f,
             InnerFunc := [], Range := "[".toList ++ d ++ "]".toList, Agg := agg, By := L,
             Quantile := [], Offset := [], CmpOp := [], CmpRight := [], CmpIsBool := false } := by
  refine parsePromQL_of_fuel 2 _ _ (by simp; omega) fun n => ?_
  exact parse_aggBy_leaf n agg L f m "\x7bservice=~\"$s\"\x7d".toList d _ hagg hL hLn hf hm
    (by decide) hd parseLabelSet_service

/-- Witness of C3 at
`sum by (method,status) (rate(http_requests_total{service=~"$s"}[5m]))`. -/
theorem parsePromQL_agg_by_rate_witness :
    (isAggName "sum".toList = true ∧ ["method".toList, "status".toList] ≠ [] ∧
      (∀ x ∈ ["method".toList, "status".toList], isLabelName x = true) ∧
      isRateFn "rate".toList = true ∧ isMetricName "http_requests_total".toList = true ∧
      isDuration "5m".toList = true) ∧
    parsePromQL ("sum".toList ++ " by (".toList ++
        joinComma ["method".toList, "status".toList] ++ ") (".toList ++
        ("rate".toList ++ "(".toList ++ "http_requests_total".toList ++
          "\x7bservice=~\"$s\"\x7d".toList ++ "[".toList ++ "5m".toList ++ "])".toList) ++
        ")".toList) =
      some { Metric := "http_requests_total".toList,
             Labels := [⟨"service".toList, "=~".toList, "$s".toList⟩], Func := "rate".toList,
             InnerFunc := [], Range := "[".toList ++ "5m".toList ++ "]".toList,
             Agg := "sum".toList, By := ["method".toList, "status".toList],
             Quantile := [], Offset := [], CmpOp := [], CmpRight := [], CmpIsBool := false } :=
  ⟨⟨by decide, by decide, by decide, by decide, by decide, by decide⟩,
   parsePromQL_agg_by_rate _ _ _ _ _ (by decide) (by decide) (by decide) (by decide) (by decide)
     (by decide)⟩

theorem parseLabelSet_code200 :
    parseLabelSet "\x7bcode=\"200\"\x7d".toList = some [⟨"code".toList, "=".toList, "200".toList⟩] := by
  decide!

/-- C4: for every `f` in `rate`, `irate`, `increase`, every metric name `m` and
every alphanumeric duration `d`, parsing `f(m{code="200"}[d])` yields `Func = f`,
`Metric = m`, `Range = [d]`, the single label matcher `code = 200`, and leaves
`Agg`, `By`, `InnerFunc`, `Quantile`, `Offset` and the comparison fields empty. -/
theorem parsePromQL_rate_selector (f m d : Str) (hf : isRateFn f = true)
    (hm : isMetricName m = true) (hd : isDuration d = true) :
    parsePromQL (f ++ "(".toList ++ m ++ "\x7bcode=\"200\"\x7d".toList ++ "[".toList ++ d ++
        "])".toList) =
      some { Metric := m, Labels := [⟨"code".toList, "=".toList, "200".toList⟩], Func := f,
             InnerFunc := [], Range := "[".toList ++ d ++ "]".toList, Agg := [], By := [],
             Quantile := [], Offset := [], CmpOp := [], CmpRight := [], CmpIsBool := false } :=
  parse_leaf _ f m "\x7bcode=\"200\"\x7d".toList d _ hf hm (by decide) hd parseLabelSet_code200

/-- Witness of C4 at `rate(http_requests_total{code="200"}[5m])`. -/
theorem parsePromQL_rate_selector_witness :
    isRateFn "rate".toList = true ∧ isMetricName "http_requests_total".toList = true ∧
    isDuration "5m".toList = true ∧
    parsePromQL ("rate".toList ++ "(".toList ++ "http_requests_total".toList ++
        "\x7bcode=\"200\"\x7d".toList ++ "[".toList ++ "5m".toList ++ "])".toList) =
      some { Metric := "http_requests_total".toList,
             Labels := [⟨"code".toList, "=".toList, "200".toList⟩], Func := "rate".toList,
             InnerFunc := [], Range := "[".toList ++ "5m".toList ++ "]".toList, Agg := [],
             By := [], Quantile := [], Offset := [], CmpOp := [], CmpRight := [],
             CmpIsBool := false } :=
  ⟨by decide, by decide, by decide,
   parsePromQL_rate_selector _ _ _ (by decide) (by decide) (by decide)⟩

/-- C5: for every quantile literal `q`, metric name `m` and alphanumeric duration
`d`, parsing `histogram_quantile(q, sum by (le) (rate(m[d])))` yields
`Func = histogram_quantile`, `Quantile = q`, `InnerFunc = rate`, `Metric = m`,
`Agg = sum`, `Range = [d]` and `By = [le]`, the label `le` exactly once. -/
theorem parsePromQL_histogram_quantile (q m d : Str) (hq : isQuantileLit q = true)
    (hm : isMetricName m = true) (hd : isDuration d = true) :
    parsePromQL ("histogram_quantile(".toList ++ q ++ ", sum by (le) (rate(".toList ++ m ++
        "[".toList ++ d ++ "])))".toList) =
      some { Metric := m, Labels := [], Func := "histogram_quantile".toList,
             InnerFunc := "rate".toList, Range := "[".toList ++ d ++ "]".toList,
             Agg := "sum".toList, By := ["le".toList], Quantile := q, Offset := [],
             CmpOp := [], CmpRight := [], CmpIsBool := false } := by
  have he : "histogram_quantile(".toList ++ q ++ ", sum by (le) (rate(".toList ++ m ++
        "[".toList ++ d ++ "])))".toList =
      histExpr q (aggByExpr "sum".toList "le".toList (leafExpr "rate".toList m [] d)) := by
    simp [histExpr, aggByExpr, leafExpr]
  rw [he]
  refine parsePromQL_of_fuel 3 _ _ (by simp [histExpr]) fun n => ?_
  exact parse_hist_sum_le_rate n q m d hq hm hd

/-- Witness of C5 at
`histogram_quantile(0.95, sum by (le) (rate(http_server_duration_seconds_bucket[5m])))`. -/
theorem parsePromQL_histogram_quantile_witness :
    (isQuantileLit "0.95".toList = true ∧
      isMetricName "http_server_duration_seconds_bucket".toList = true ∧
      isDuration "5m".toList = true) ∧
    parsePromQL ("histogram_quantile(".toList ++ "0.95".toList ++
        ", sum by (le) (rate(".toList ++ "http_server_duration_seconds_bucket".toList ++
        "[".toList ++ "5m".toList ++ "])))".toList) =
      some { Metric := "http_server_duration_seconds_bucket".toList, Labels := [],
             Func := "histogram_quantile".toList, InnerFunc := "rate".toList,
             Range := "[".toList ++ "5m".toList ++ "]".toList, Agg := "sum".toList,
             By := ["le".toList], Quantile := "0.95".toList, Offset := [], CmpOp := [],
             CmpRight := [], CmpIsBool := false } :=
  ⟨⟨by decide, by decide, by decide⟩,
   parsePromQL_histogram_quantile _ _ _ (by decide) (by decide) (by decide)⟩

/-- C6, as stated, fails for the alphanumeric duration `bool`: the expression
`rate(foo_total[5m]) offset bool > 0` has no `bool` modifier after its operator, yet
`CmpIsBool` is true, because the code sets it when ` bool ` occurs anywhere in the
expression. -/
theorem parsePromQL_offset_bool_duration :
    isDuration "bool".toList = true ∧
    parsePromQL "rate(foo_total[5m]) offset bool > 0".toList =
      some { Metric := "foo_total".toList, Func := "rate".toList, Range := "[5m]".toList,
             Offset := "bool".toList, CmpOp := ">".toList, CmpRight := "0".toList,
             CmpIsBool := true } := by
  decide!

/-- C6, amended: for every metric name `m`, alphanumeric durations `r` and `d`, comparison
operator `op` among `>=`, `<=`, `==`, `!=`, `>`, `<` and unsigned decimal literal
`n`, parsing `rate(m[r]) offset d op bool n` yields `Func = rate`, `Metric = m`,
`Range = [r]`, `Offset = d`, `CmpOp = op` (a two-character operator whole),
`CmpRight = n` and `CmpIsBool = true`; and parsing `rate(m[r]) offset d op n`, without
the word `bool`, yields the same fields with `CmpIsBool = false` when the duration `d`
is not the word `bool` itself. -/
theorem parsePromQL_offset_cmp (m r d op n : Str) (hm : isMetricName m = true)
    (hr : isDuration r = true) (hd : isDuration d = true) (hop : isCmpOp op = true)
    (hn : isDecimalLit n = true) :
    parsePromQL ("rate(".toList ++ m ++ "[".toList ++ r ++ "]) offset ".toList ++ d ++
        " ".toList ++ op ++ " bool ".toList ++ n) =
      some { Metric := m, Labels := [], Func := "rate".toList, InnerFunc := [],
             Range := "[".toList ++ r ++ "]".toList, Agg := [], By := [], Quantile := [],
             Offset := d, CmpOp := op, CmpRight := n, CmpIsBool := true } ∧
    (d ≠ "bool".toList →
      parsePromQL ("rate(".toList ++ m ++ "[".toList ++ r ++ "]) offset ".toList ++ d ++
          " ".toList ++ op ++ " ".toList ++ n) =
        some { Metric := m, Labels := [], Func := "rate".toList, InnerFunc := [],
               Range := "[".toList ++ r ++ "]".toList, Agg := [], By := [], Quantile := [],
               Offset := d, CmpOp := op, CmpRight := n, CmpIsBool := false }) := by
  have e1 : "rate(".toList ++ m ++ "[".toList ++ r ++ "]) offset ".toList ++ d ++
        " ".toList ++ op ++ " bool ".toList ++ n =
      cmpExpr (offsetExpr (leafExpr "rate".toList m [] r) d) op true n := by
    simp [cmpExpr, cmpSep, offsetExpr, leafExpr]
  have e2 : "rate(".toList ++ m ++ "[".toList ++ r ++ "]) offset ".toList ++ d ++
        " ".toList ++ op ++ " ".toList ++ n =
      cmpExpr (offsetExpr (leafExpr "rate".toList m [] r) d) op false n := by
    simp [cmpExpr, cmpSep, offsetExpr, leafExpr]
  constructor
  · rw [e1]
    refine parsePromQL_of_fuel 3 _ _ (by simp [cmpExpr, offsetExpr, leafExpr]) fun k => ?_
    rw [parse_cmp_offsetLeaf k _ m r d op true n (by decide) hm hr hd hop hn,
      cmp_contains_bool_true]
  · intro hdb
    rw [e2]
    refine parsePromQL_of_fuel 3 _ _ (by simp [cmpExpr, offsetExpr, leafExpr]) fun k => ?_
    rw [parse_cmp_offsetLeaf k _ m r d op false n (by decide) hm hr hd hop hn,
      cmp_contains_bool_false _ m r d op n (by decide) hm hr hd hdb hop hn]

/-- Witness of C6, amended, at `rate(foo_total[5m]) offset 1m > bool 0` and
`rate(foo_total[5m]) offset 1m > 0`. -/
theorem parsePromQL_offset_cmp_witness :
    (isMetricName "foo_total".toList = true ∧ isDuration "5m".toList = true ∧
      isDuration "1m".toList = true ∧ isCmpOp ">".toList = true ∧
      isDecimalLit "0".toList = true ∧ "1m".toList ≠ "bool".toList) ∧
    parsePromQL ("rate(".toList ++ "foo_total".toList ++ "[".toList ++ "5m".toList ++
        "]) offset ".toList ++ "1m".toList ++ " ".toList ++ ">".toList ++ " bool ".toList ++
        "0".toList) =
      some { Metric := "foo_total".toList, Labels := [], Func := "rate".toList,
             InnerFunc := [], Range := "[".toList ++ "5m".toList ++ "]".toList, Agg := [],
             By := [], Quantile := [], Offset := "1m".toList, CmpOp := ">".toList,
             CmpRight := "0".toList, CmpIsBool := true } ∧
    parsePromQL ("rate(".toList ++ "foo_total".toList ++ "[".toList ++ "5m".toList ++
        "]) offset ".toList ++ "1m".toList ++ " ".toList ++ ">".toList ++ " ".toList ++
        "0".toList) =
      some { Metric := "foo_total".toList, Labels := [], Func := "rate".toList,
             InnerFunc := [], Range := "[".toList ++ "5m".toList ++ "]".toList, Agg := [],
             By := [], Quantile := [], Offset := "1m".toList, CmpOp := ">".toList,
             CmpRight := "0".toList, CmpIsBool := false } :=
  ⟨⟨by decide, by decide, by decide, by decide, by decide, by decide⟩,
   (parsePromQL_offset_cmp _ _ _ _ _ (by decide) (by decide) (by decide) (by decide)
      (by decide)).1,
   (parsePromQL_offset_cmp _ _ _ _ _ (by decide) (by decide) (by decide) (by decide)
      (by decide)).2 (by decide)⟩

/-- C7: stripping outer parentheses and scalar arithmetic does not change the
parse: for every metric name `x`, every numeric literal `n` (a non-empty string of
digits and points) and every operator `o` among `*`, `/`, `+`, `-`, the
expressions `((x))`, `x o n` and `n o x` parse as `x` does. -/
theorem parsePromQL_strip_invariant (x n : Str) (o : Char) (hx : isMetricName x = true)
    (hn : isNumber n = true) (ho : isArithOp o = true) :
    parsePromQL ("((".toList ++ x ++ "))".toList) = parsePromQL x ∧
    parsePromQL (x ++ " ".toList ++ [o] ++ " ".toList ++ n) = parsePromQL x ∧
    parsePromQL (n ++ " ".toList ++ [o] ++ " ".toList ++ x) = parsePromQL x := by
  have hxw := isMetricName_word hx
  obtain ⟨hn0, hnw⟩ := isNumber_word hn
  have hx0 : x ≠ [] := by
    rintro rfl
    simp [isMetricName] at hx
  have hxc := clean_of_word hxw
  have hpx : parsePromQL x = some { Metric := x } := parse_metricName _ x hx
  refine ⟨?_, ?_, ?_⟩
  · rw [hpx]
    have e : "((".toList ++ x ++ "))".toList = '(' :: '(' :: (x ++ [')', ')']) := by simp
    rw [e]
    apply parse_via_normalise _ x x hx _ hxc.2.2
    have ht : trimSpace ('(' :: '(' :: (x ++ [')', ')'])) = '(' :: '(' :: (x ++ [')', ')']) := by
      apply trimSpace_eq_self
      · simp; decide
      · have e2 : '(' :: '(' :: (x ++ [')', ')']) = ('(' :: '(' :: (x ++ [')'])) ++ [')'] := by
          simp
        rw [e2, List.getLast?_append]
        intro c hc
        simp only [List.getLast?_singleton, Option.or_some, Option.some.injEq] at hc
        subst hc
        decide
    rw [ht]
    exact stripOuterParens_double hx
  · rw [hpx]
    have e : x ++ " ".toList ++ [o] ++ " ".toList ++ n = x ++ ' ' :: o :: ' ' :: n := by simp
    rw [e]
    apply parse_via_normalise _ _ x hx (binop_clean_front x n o hx0 hxw hn0 hnw)
    rw [stripArithmetic_op x n o hxw hnw ho, if_pos hn]
    exact hxc.2.1
  · rw [hpx]
    have e : n ++ " ".toList ++ [o] ++ " ".toList ++ x = n ++ ' ' :: o :: ' ' :: x := by simp
    rw [e]
    apply parse_via_normalise _ _ x hx (binop_clean_front n x o hn0 hnw hx0 hxw)
    rw [stripArithmetic_op n x o hnw hxw ho, if_neg (by rw [isNumber_metricName hx]; simp),
      if_pos hn]
    exact hxc.2.1

/-- Witness of C7 at `((x))`, `x * 100` and `100 * x`. -/
theorem parsePromQL_strip_invariant_witness :
    (isMetricName "x".toList = true ∧ isNumber "100".toList = true ∧ isArithOp '*' = true) ∧
    parsePromQL ("((".toList ++ "x".toList ++ "))".toList) = parsePromQL "x".toList ∧
    parsePromQL ("x".toList ++ " ".toList ++ ['*'] ++ " ".toList ++ "100".toList) =
      parsePromQL "x".toList ∧
    parsePromQL ("100".toList ++ " ".toList ++ ['*'] ++ " ".toList ++ "x".toList) =
      parsePromQL "x".toList :=
  ⟨⟨by decide, by decide, by decide⟩,
   parsePromQL_strip_invariant _ _ _ (by decide) (by decide) (by decide)⟩

/-- C2 at its own witness `sum(rate(http_requests_total[5m])) by (method)`: the first
aggregation pattern matches the whole expression with the text between the first
`(` and the last `)` as its argument, so the `by` clause after the argument is not
recognised: `Metric` is `rate(http_requests_total[5m])) by (method`, `By` is
empty and `Func` is empty, while the other order `sum by (method) (rate(...))`
yields `Metric = http_requests_total`, `Func = rate`, `By = [method]`. -/
theorem parsePromQL_by_after_argument :
    parsePromQL "sum(rate(http_requests_total[5m])) by (method)".toList =
      some { Metric := "rate(http_requests_total[5m])) by (method".toList, Labels := [],
             Func := [], InnerFunc := [], Range := [], Agg := "sum".toList, By := [],
             Quantile := [], Offset := [], CmpOp := [], CmpRight := [], CmpIsBool := false } ∧
    parsePromQL "sum by (method) (rate(http_requests_total[5m]))".toList =
      some { Metric := "http_requests_total".toList, Labels := [], Func := "rate".toList,
             InnerFunc := [], Range := "[5m]".toList, Agg := "sum".toList,
             By := ["method".toList], Quantile := [], Offset := [], CmpOp := [], CmpRight := [],
             CmpIsBool := false } ∧
    reAggB.findStringSubmatch "sum(rate(http_requests_total[5m])) by (method)".toList =
      ["sum(rate(http_requests_total[5m])) by (method)".toList, "sum".toList,
       "rate(http_requests_total[5m])".toList, "method".toList] := by
  decide!

/-- C8: `parsePromQL` never fails.  For every input the normalisation steps
(`TrimSpace`, `stripOuterParens`, `stripArithmetic`) return a string `e` no longer than
the input, and a record `p` is returned, the same for every amount of fuel above the
length of the input, so the recursion terminates and no slice is out of range.  One
level of the recursion is `parseBody` applied to `e`, and it calls itself only on
strings strictly shorter than `e`: two functions that agree on those give the same
result.  When no shape matches, `p` is the fallback record whose `Metric` is `e` and
whose other fields are empty. -/
theorem parsePromQL_never_fails (expr : Str) :
    ∃ e p,
      (stripOuterParens (trimSpace expr)).bind stripArithmetic = some e ∧
      e.length ≤ expr.length ∧
      parsePromQL expr = some p ∧
      (∀ k, expr.length < k → parsePromQLFuel k expr = some p) ∧
      (∀ k, parsePromQLFuel (k + 1) expr = parseBody (parsePromQLFuel k) e) ∧
      parseBody parsePromQL e = some p ∧
      (∀ rec1 rec2 : Str → Option promQL,
        (∀ x, x.length < e.length → rec1 x = rec2 x) → parseBody rec1 e = parseBody rec2 e) ∧
      ((reCmp.findStringSubmatch e).length ≠ 4 →
        ¬ 0 < lastIndex e " offset ".toList →
        (reHist.findStringSubmatch e).length ≠ 3 →
        (reAggA.findStringSubmatch e).length ≠ 4 →
        (reAggB.findStringSubmatch e).length ≠ 4 →
        (reFn.findStringSubmatch e).length ≠ 5 →
        ¬ (reSimple.findStringSubmatch e).length ≥ 2 →
        p = { Metric := e, Labels := [], Func := [], InnerFunc := [], Range := [], Agg := [],
              By := [], Quantile := [], Offset := [], CmpOp := [], CmpRight := [],
              CmpIsBool := false }) := by
  obtain ⟨e, he, hel⟩ := normalise_total expr
  obtain ⟨p, hp⟩ := parsePromQL_total expr
  have hu := parsePromQL_unfold expr e he hel
  refine ⟨e, p, he, hel, hp, ?_, ?_, ?_, parseBody_congr e, ?_⟩
  · intro k hk
    rw [parsePromQLFuel_eq expr k hk, hp]
  · intro k
    rw [parsePromQLFuel_succ, ← Option.bind_assoc, he]
    rfl
  · rw [← hu, hp]
  · intro hc ho hh ha hb hf hs
    have := parseBody_fallback parsePromQL e hc ho hh ha hb hf hs
    rw [← hu, hp] at this
    exact Option.some.inj this

/-- C8 at the input `" ?? "`: the normalised string is `??`, no shape matches, and the
record returned is the fallback with `Metric` equal to `??`. -/
theorem parsePromQL_never_fails_witness :
    parsePromQL " ?? ".toList = some { Metric := "??".toList } := by
  obtain ⟨e, p, he, -, hp, -, -, -, -, hfb⟩ := parsePromQL_never_fails " ?? ".toList
  have h0 : (stripOuterParens (trimSpace " ?? ".toList)).bind stripArithmetic =
      some "??".toList := by decide!
  rw [h0] at he
  cases he
  rw [hp, hfb (by decide!) (by decide!) (by decide!) (by decide!) (by decide!) (by decide!)
    (by decide!)]

/-- C9, as stated, fails at the one target whose expression is a single space: the
expression is not empty, yet no `queryData` item and no `promql` entry is built for
it. -/
theorem makeSigNozQueryFromTargets_space_target :
    " ".toList ≠ [] ∧
    makeSigNozQueryFromTargets plainEnv [{ RefID := "A".toList, Expr := " ".toList }]
        DefaultRules =
      some { queryType := "builder".toList, queryData := [], queryFormulas := [], promql := [],
             clickhouse_sql :=
               [{ disabled := false, legend := [], name := "A".toList, query := [] }],
             id := plainEnv.uuid, grafanaExprs := [" ".toList] } := by
  decide!

/-- C9, amended: for every list of targets `makeSigNozQueryFromTargets` returns a query
whose `queryData` holds exactly one item per target whose expression is non-empty
after trimming white space, in the order of those targets, with `queryName` and
`expression` equal to the `RefID` (`A` when the `RefID` is blank); `promql` holds one
entry per such target, with that name and the trimmed expression; and a target
whose expression is the empty string, put anywhere in a list, leaves the whole result,
`queryData`, `promql` and `_grafanaExprs`, as it is without that target. -/
theorem makeSigNozQueryFromTargets_items (env : Env) (ts : List GrafanaTarget) (rules : Rules) :
    (∃ q, makeSigNozQueryFromTargets env ts rules = some q ∧
      q.queryData.map (fun i => (i.queryName, i.expression)) =
        (ts.filter fun t => decide (trimSpace t.Expr ≠ [])).map
          (fun t => (nonEmpty t.RefID "A".toList, nonEmpty t.RefID "A".toList)) ∧
      q.promql.map (fun r => (r.name, r.query)) =
        (ts.filter fun t => decide (trimSpace t.Expr ≠ [])).map
          (fun t => (nonEmpty t.RefID "A".toList, trimSpace t.Expr))) ∧
    (∀ (ts2 : List GrafanaTarget) (r l : Str),
      makeSigNozQueryFromTargets env (ts ++ { RefID := r, Expr := [], LegendFormat := l } :: ts2)
          rules =
        makeSigNozQueryFromTargets env (ts ++ ts2) rules) := by
  constructor
  · obtain ⟨out, ho, h1, h2⟩ := makeQueryLoop_total env ts
    simp only [makeSigNozQueryFromTargets, ho, Option.bind_eq_bind, Option.some_bind]
    exact ⟨_, rfl, h1, h2⟩
  · intro ts2 r l
    have hc : ∀ reps, collectExprs env (ts ++ { RefID := r, Expr := [], LegendFormat := l } :: ts2)
        reps = collectExprs env (ts ++ ts2) reps := by
      intro reps
      rw [collectExprs_eq_filter, collectExprs_eq_filter, List.filter_append, List.filter_append,
        List.filter_cons_of_neg (by simp)]
    simp only [makeSigNozQueryFromTargets, hc,
      makeQueryLoop_remove env ts ts2 { RefID := r, Expr := [], LegendFormat := l } rfl]

/-- C10: the round-trip scenario.  From the two targets `[empty expression,
up\x7bjob="api"\x7d]` and the default rules the query holds exactly one `queryData` item:
its `aggregateAttribute` has key `up` and type `Gauge`, its filter list is the one
entry with key `job`, op `=` and value `api`, its `aggregateOperator` and
`timeAggregation` are `avg`, its `groupBy`, `functions` and `having` are empty; and
`_grafanaExprs` is the one entry `up\x7bjob="api"\x7d`.  The two `RefID`s are arbitrary;
the range over the empty key set of `buildGroupBy` yields no key. -/
theorem roundtrip_empty_and_selector (env : Env) (hmap : env.mapOrder [] = []) (r1 r2 : Str) :
    ∃ q item,
      makeSigNozQueryFromTargets env
        [{ RefID := r1, Expr := [] }, { RefID := r2, Expr := "up\x7bjob=\"api\"\x7d".toList }]
        DefaultRules = some q ∧
      q.queryData = [item] ∧
      item.aggregateAttribute.key = "up".toList ∧
      item.aggregateAttribute.type = "Gauge".toList ∧
      item.filters.items =
        [{ id := "f_job".toList, key := tagKey "job".toList, op := "=".toList,
           value := "api".toList }] ∧
      (item.filters.items.map fun f => (f.key.key, f.op, f.value)) =
        [("job".toList, "=".toList, "api".toList)] ∧
      item.aggregateOperator = "avg".toList ∧
      item.timeAggregation = "avg".toList ∧
      item.groupBy = [] ∧ item.functions = [] ∧ item.having = [] ∧
      q.promql.map (fun r => r.query) = ["up\x7bjob=\"api\"\x7d".toList] ∧
      q.grafanaExprs = ["up\x7bjob=\"api\"\x7d".toList] := by
  have ht : trimSpace "up\x7bjob=\"api\"\x7d".toList = "up\x7bjob=\"api\"\x7d".toList := by decide
  have hp := parsePromQL_up_job
  have hf := buildFilterItems_job
  have hg : groupByLabels
      { Metric := "up".toList, Labels := [⟨"job".toList, "=".toList, "api".toList⟩] } [] = [] := by
    decide!
  have h0 : trimSpace ([] : Str) = [] := rfl
  simp only [String.toList] at ht hp hf hg
  simp [makeSigNozQueryFromTargets, makeQueryLoop, makeQueryItem, h0, ht, hp, hf, hg,
    pickTimeAggregation_eq, pickAggOperator, guessMetricType, buildFunctions, buildGroupBy,
    hmap, collectExprs, applyReplacements, DefaultRules, tagKey]

/-- C10 in the environment `plainEnv` with the `RefID`s `A` and `B`. -/
theorem roundtrip_empty_and_selector_witness :
    plainEnv.mapOrder [] = [] ∧
    ∃ q item,
      makeSigNozQueryFromTargets plainEnv
        [{ RefID := "A".toList, Expr := [] },
         { RefID := "B".toList, Expr := "up\x7bjob=\"api\"\x7d".toList }]
        DefaultRules = some q ∧
      q.queryData = [item] ∧
      item.aggregateAttribute.key = "up".toList ∧
      item.aggregateAttribute.type = "Gauge".toList ∧
      item.filters.items =
        [{ id := "f_job".toList, key := tagKey "job".toList, op := "=".toList,
           value := "api".toList }] ∧
      (item.filters.items.map fun f => (f.key.key, f.op, f.value)) =
        [("job".toList, "=".toList, "api".toList)] ∧
      item.aggregateOperator = "avg".toList ∧
      item.timeAggregation = "avg".toList ∧
      item.groupBy = [] ∧ item.functions = [] ∧ item.having = [] ∧
      q.promql.map (fun r => r.query) = ["up\x7bjob=\"api\"\x7d".toList] ∧
      q.grafanaExprs = ["up\x7bjob=\"api\"\x7d".toList] :=
  ⟨rfl, roundtrip_empty_and_selector plainEnv rfl "A".toList "B".toList⟩
/-- C11 at its own witness, `By = [a]` with the legend `{{b}}`: the key set built by
`buildGroupBy` is `a` and `b`, the legend placeholder is added to the `by` label;
whatever the order `mapOrder` a Go map is ranged over, the result is the tag keys
of an enumeration of these two keys. -/
theorem buildGroupBy_by_and_legend (mapOrder : List Str → List Str) :
    legendPlaceholders "\x7b\x7bb\x7d\x7d".toList = ["b".toList] ∧
    groupByLabels { By := ["a".toList] } "\x7b\x7bb\x7d\x7d".toList = ["a".toList, "b".toList] ∧
    buildGroupBy mapOrder { By := ["a".toList] } "\x7b\x7bb\x7d\x7d".toList =
      (mapOrder ["a".toList, "b".toList]).map tagKey ∧
    buildGroupBy plainEnv.mapOrder { By := ["a".toList] } "\x7b\x7bb\x7d\x7d".toList =
      [tagKey "a".toList, tagKey "b".toList] := by
  have h : groupByLabels { By := ["a".toList] } "\x7b\x7bb\x7d\x7d".toList =
      ["a".toList, "b".toList] := by decide!
  refine ⟨by decide!, h, ?_, ?_⟩
  · rw [buildGroupBy, h]
  · rw [buildGroupBy, h]
    rfl

/-- C13, as stated, fails at `histogram_quantile` over a bare metric: the record
parsed from `histogram_quantile(0.9, foo_bucket)` has `Func = histogram_quantile`
and an empty `InnerFunc`, and its time aggregation is `rate`, not `avg`. -/
theorem pickTimeAggregation_hist_bare :
    parsePromQL "histogram_quantile(0.9, foo_bucket)".toList =
      some { Metric := "foo_bucket".toList, Func := "histogram_quantile".toList,
             InnerFunc := [], By := ["le".toList], Quantile := "0.9".toList } ∧
    pickTimeAggregation
      { Metric := "foo_bucket".toList, Func := "histogram_quantile".toList,
        InnerFunc := [], By := ["le".toList], Quantile := "0.9".toList } =
      some "rate".toList ∧
    pickTimeAggregation
      { Metric := "foo_bucket".toList, Func := "histogram_quantile".toList,
        InnerFunc := [], By := ["le".toList], Quantile := "0.9".toList } ≠
      some "avg".toList := by
  decide!

/-- C13, amended: for every record `p`, `pickTimeAggregation p` returns, and it is
`rate` exactly when `p.Func` is one of `rate`, `irate`, `increase` or
`histogram_quantile` (whatever `p.InnerFunc` is); in every other case it is `avg`. -/
theorem pickTimeAggregation_rate_iff (p : promQL) :
    (pickTimeAggregation p = some "rate".toList ∨ pickTimeAggregation p = some "avg".toList) ∧
    (pickTimeAggregation p = some "rate".toList ↔
      (p.Func = "rate".toList ∨ p.Func = "irate".toList ∨ p.Func = "increase".toList ∨
        p.Func = "histogram_quantile".toList)) ∧
    (pickTimeAggregation p = some "avg".toList ↔
      ¬ (p.Func = "rate".toList ∨ p.Func = "irate".toList ∨ p.Func = "increase".toList ∨
        p.Func = "histogram_quantile".toList)) := by
  rw [pickTimeAggregation_eq]
  by_cases h : p.Func = "rate".toList ∨ p.Func = "irate".toList ∨ p.Func = "increase".toList ∨
      p.Func = "histogram_quantile".toList
  · rw [if_pos h]
    exact ⟨Or.inl rfl, ⟨fun _ => h, fun _ => rfl⟩,
      ⟨fun e => absurd (Option.some.inj e) (by decide), fun n => absurd h n⟩⟩
  · rw [if_neg h]
    exact ⟨Or.inr rfl, ⟨fun e => absurd (Option.some.inj e) (by decide), fun h1 => absurd h1 h⟩,
      ⟨fun _ => h, fun _ => rfl⟩⟩

/-- C14: for every record `p`, `guessMetricType p` is `Counter` exactly when
`p.Func` is one of `rate`, `irate`, `increase`, or `p.Func` is `histogram_quantile`
and `p.InnerFunc` is one of `rate`, `irate`, `increase`; otherwise it is `Gauge`. -/
theorem guessMetricType_counter_iff (p : promQL) :
    (guessMetricType p = "Counter".toList ↔
      ((p.Func = "rate".toList ∨ p.Func = "irate".toList ∨ p.Func = "increase".toList) ∨
        (p.Func = "histogram_quantile".toList ∧
          (p.InnerFunc = "rate".toList ∨ p.InnerFunc = "irate".toList ∨
            p.InnerFunc = "increase".toList)))) ∧
    (guessMetricType p = "Gauge".toList ↔
      ¬ ((p.Func = "rate".toList ∨ p.Func = "irate".toList ∨ p.Func = "increase".toList) ∨
        (p.Func = "histogram_quantile".toList ∧
          (p.InnerFunc = "rate".toList ∨ p.InnerFunc = "irate".toList ∨
            p.InnerFunc = "increase".toList)))) := by
  unfold guessMetricType
  by_cases h1 : p.Func = "rate".toList ∨ p.Func = "irate".toList ∨ p.Func = "increase".toList
  · rw [if_pos h1]
    exact ⟨⟨fun _ => Or.inl h1, fun _ => rfl⟩,
      ⟨fun e => absurd e (by decide), fun n => absurd (Or.inl h1) n⟩⟩
  · rw [if_neg h1]
    by_cases h2 : p.Func = "histogram_quantile".toList ∧
        (p.InnerFunc = "rate".toList ∨ p.InnerFunc = "irate".toList ∨
          p.InnerFunc = "increase".toList)
    · rw [if_pos h2]
      exact ⟨⟨fun _ => Or.inr h2, fun _ => rfl⟩,
        ⟨fun e => absurd e (by decide), fun n => absurd (Or.inr h2) n⟩⟩
    · rw [if_neg h2]
      exact ⟨⟨fun e => absurd e (by decide), fun h => (h.elim (absurd · h1) (absurd · h2))⟩,
        ⟨fun _ h => h.elim h1 h2, fun _ => rfl⟩⟩

/-- C15: for every list `ms` of label matchers, `buildFilterItems ms` has the length
of `ms`, and its `i`-th entry has the key of `ms[i]`, the value
`toSigNozTmpl ms[i].Value`, and the op `regex` when `ms[i].Op` is `=~`, `nregex`
when it is `!~`, and `ms[i].Op` itself otherwise; so order and duplicate keys are
kept. -/
theorem buildFilterItems_entries (ms : List labelMatcher) :
    (buildFilterItems ms).length = ms.length ∧
    (buildFilterItems ms).map (fun f => f.key.key) = ms.map (fun m => m.Key) ∧
    ∀ (i : Nat) (m : labelMatcher), ms[i]? = some m →
      ∃ f, (buildFilterItems ms)[i]? = some f ∧
        f.id = "f_".toList ++ m.Key ∧
        f.key = tagKey m.Key ∧
        f.key.key = m.Key ∧
        f.value = toSigNozTmpl m.Value ∧
        (m.Op = "=~".toList → f.op = "regex".toList) ∧
        (m.Op = "!~".toList → f.op = "nregex".toList) ∧
        (m.Op ≠ "=~".toList → m.Op ≠ "!~".toList → f.op = m.Op) := by
  refine ⟨by simp [buildFilterItems], by simp [buildFilterItems, tagKey], ?_⟩
  intro i m hm
  simp only [buildFilterItems, List.getElem?_map, hm, Option.map_some']
  refine ⟨_, rfl, rfl, rfl, rfl, rfl, ?_, ?_, ?_⟩
  · intro h
    simp only [h, if_true]
  · intro h
    have hne : m.Op ≠ "=~".toList := by rw [h]; decide
    simp only [h, if_neg hne, if_true]
    simp
  · intro h1 h2
    simp only [if_neg h1, if_neg h2]

/-- C16: for every record `p`, `buildFunctions p` is the `histogram_quantile` entry
(with the arguments `q = p.Quantile` and `leLabel = le`) when `p.Func` is
`histogram_quantile`, followed by the `offset` entry (with the argument
`duration = p.Offset`) when `p.Offset` is not empty, and nothing else. -/
theorem buildFunctions_entries (p : promQL) :
    buildFunctions p =
      (if p.Func = "histogram_quantile".toList then
        [{ name := "histogram_quantile".toList,
           args := [("q".toList, p.Quantile), ("leLabel".toList, "le".toList)] }]
      else []) ++
      (if p.Offset ≠ [] then
        [{ name := "offset".toList, args := [("duration".toList, p.Offset)] }]
      else []) := by
  unfold buildFunctions
  by_cases h1 : p.Func = "histogram_quantile".toList <;> by_cases h2 : p.Offset = [] <;>
    simp [h1, h2]

/-- C20 at its own example `(a) + (b)`: the string starts with `(`, ends with `)`,
its depth never goes below zero and ends at zero, so `stripOuterParens` strips the
first and the last character although they do not match each other, and returns
`a) + (b`. -/
theorem stripOuterParens_two_groups :
    parenScan "(a) + (b)".toList 0 true = (0, true) ∧
    stripOuterParens "(a) + (b)".toList = some "a) + (b".toList := by
  decide!

/-- C12: for every non-empty name over `[a-zA-Z0-9_]`, `toSigNozTmpl` turns both
`$name` and `${name}` into `{{.name}}`; and every value that holds no `$` is
returned as it is. -/
theorem toSigNozTmpl_rewrite (name : Str) (hne : name ≠ [])
    (hn : ∀ c ∈ name, isNameChar c = true) :
    toSigNozTmpl ("$".toList ++ name) = "\x7b\x7b.".toList ++ name ++ "\x7d\x7d".toList ∧
    toSigNozTmpl ("$\x7b".toList ++ name ++ "\x7d".toList) =
      "\x7b\x7b.".toList ++ name ++ "\x7d\x7d".toList ∧
    ∀ v : Str, (∀ c ∈ v, c ≠ '$') → toSigNozTmpl v = v := by
  obtain ⟨x, t, rfl⟩ := List.exists_cons_of_ne_nil hne
  have hx := hn x (List.mem_cons_self _ _)
  have ht : ∀ c ∈ t, isNameChar c = true := fun c hc => hn c (List.mem_cons_of_mem _ hc)
  refine ⟨?_, ?_, toSigNozTmpl_no_dollar⟩
  · exact toSigNozTmpl_of_whole '$' (x :: t) (x :: t) (reTmpl_plain x t hx ht)
  · exact toSigNozTmpl_of_whole '$' ('{' :: (x :: t ++ ['}'])) (x :: t) (reTmpl_braced x t hx ht)

/-- Witness of C12: `$instance` and `${instance}` become `{{.instance}}`, and
`prod` is unchanged. -/
theorem toSigNozTmpl_rewrite_witness :
    ("instance".toList ≠ [] ∧ ∀ c ∈ "instance".toList, isNameChar c = true) ∧
    toSigNozTmpl "$instance".toList = "\x7b\x7b.instance\x7d\x7d".toList ∧
    toSigNozTmpl "$\x7binstance\x7d".toList = "\x7b\x7b.instance\x7d\x7d".toList ∧
    toSigNozTmpl "prod".toList = "prod".toList :=
  ⟨⟨by decide, by decide⟩,
   (toSigNozTmpl_rewrite "instance".toList (by decide) (by decide)).1,
   (toSigNozTmpl_rewrite "instance".toList (by decide) (by decide)).2.1,
   (toSigNozTmpl_rewrite "instance".toList (by decide) (by decide)).2.2 "prod".toList
     (by decide)⟩

/-- C17: for every target and every expression `expr`, `parsePromQL expr` returns a
record `p` and the item built for the target has exactly the one `having` entry with
`columnName = #SIGNOZ_VALUE`, `op = p.CmpOp` and `value = p.CmpRight` when `p.CmpOp`
and `p.CmpRight` are both non-empty, and an empty `having` list otherwise; and for a
metric name `m`, a comparison operator `op` and an unsigned decimal literal `n`, the
item built from the expression `m op n` has exactly the one `having` entry with that
`op` and `n`. -/
theorem makeQueryItem_having_entry (env : Env) (t : GrafanaTarget) :
    (∀ expr : Str, ∃ p item, parsePromQL expr = some p ∧
      makeQueryItem env t expr = some item ∧
      item.1.having =
        if p.CmpOp ≠ [] ∧ p.CmpRight ≠ [] then
          [{ columnName := "#SIGNOZ_VALUE".toList, op := p.CmpOp, value := p.CmpRight }]
        else []) ∧
    (∀ m op n : Str, isMetricName m = true → isCmpOp op = true → isDecimalLit n = true →
      ∃ item, makeQueryItem env t (m ++ " ".toList ++ op ++ " ".toList ++ n) = some item ∧
        item.1.aggregateAttribute.key = m ∧
        item.1.having =
          [{ columnName := "#SIGNOZ_VALUE".toList, op := op, value := n }]) := by
  constructor
  · intro expr
    obtain ⟨p, hp⟩ := parsePromQL_total expr
    obtain ⟨item, hi, hh⟩ := makeQueryItem_having env t expr p hp
    exact ⟨p, item, hp, hi, hh⟩
  · intro m op n hm hop hn
    have e : m ++ " ".toList ++ op ++ " ".toList ++ n = cmpExpr m op false n := by
      simp [cmpExpr, cmpSep]
    rw [e]
    have hp : parsePromQL (cmpExpr m op false n) = some _ :=
      parsePromQL_of_fuel 2 _ _ (by simp [cmpExpr]; omega) fun k =>
        parse_cmp_metric k m op n hm hop hn
    have hne : op ≠ [] ∧ n ≠ [] := ⟨isCmpOp_ne_nil hop, (isDecimalLit_word hn).1⟩
    simp only [makeQueryItem, hp, pickTimeAggregation_eq, Option.bind_eq_bind, Option.some_bind]
    rw [if_pos hne]
    exact ⟨_, rfl, rfl, rfl⟩

/-- C17 at the target `A` with the expression `up > 0`, in the environment
`plainEnv`. -/
theorem makeQueryItem_having_entry_witness :
    (isMetricName "up".toList = true ∧ isCmpOp ">".toList = true ∧
      isDecimalLit "0".toList = true) ∧
    ∃ item, makeQueryItem plainEnv { RefID := "A".toList, Expr := "up > 0".toList }
        "up > 0".toList = some item ∧
      item.1.aggregateAttribute.key = "up".toList ∧
      item.1.having =
        [{ columnName := "#SIGNOZ_VALUE".toList, op := ">".toList, value := "0".toList }] :=
  ⟨⟨by decide, by decide, by decide⟩,
   (makeQueryItem_having_entry plainEnv { RefID := "A".toList, Expr := "up > 0".toList }).2
     "up".toList ">".toList "0".toList (by decide) (by decide) (by decide)⟩

/-- C18: `ValidateSigNozDashboard` returns the empty error list if and only if the
title is non-empty, there is at least one widget, every widget has a non-empty id,
a non-empty title, a panel type among `graph`, `timeseries`, `bar`, `histogram`,
`pie`, `table`, `value`, `list`, `row` and a non-empty time preference, no two
widgets share an id, and every layout entry has a non-empty `I` that is the id of
some widget, with `W > 0` and `H > 0`. -/
theorem ValidateSigNozDashboard_nil_iff (d : SigNozDashboard) :
    ValidateSigNozDashboard d = [] ↔
      d.Title ≠ [] ∧ d.Widgets ≠ [] ∧
      (∀ w ∈ d.Widgets, w.ID ≠ [] ∧ w.Title ≠ [] ∧
        w.PanelType ∈ ["graph".toList, "timeseries".toList, "bar".toList, "histogram".toList,
          "pie".toList, "table".toList, "value".toList, "list".toList, "row".toList] ∧
        w.TimePreference ≠ []) ∧
      (d.Widgets.map fun w => w.ID).Nodup ∧
      ∀ l ∈ d.Layout, l.I ≠ [] ∧ (∃ w ∈ d.Widgets, w.ID = l.I) ∧ 0 < l.W ∧ 0 < l.H := by
  unfold ValidateSigNozDashboard
  by_cases ht : d.Title = [] <;> by_cases hw : d.Widgets = [] <;>
  · simp only [validateLayout_nil_iff, validateWidgets_nil_iff, validateWidgets_ids,
      ite_append_eq_nil, List.append_eq_nil, List.length_eq_zero, List.not_mem_nil, false_or,
      not_false_eq_true, implies_true, and_true, true_and, isSupportedPanel_iff, List.mem_map,
      List.nil_append, ne_eq, ht, hw, if_true, if_false, List.cons_ne_nil, false_and, not_true_eq_false]
    try tauto

/-- C19: for every Grafana dashboard `g` and rule set (nil rules stand for the
default rules), `GrafanaToSigNoz` returns a dashboard with `Version = v4` and a
non-empty `Title`, with exactly one widget and one layout entry per input panel:
along the panels in sorted order, a permutation of `g.Panels`, the `k`-th widget has
the `ID` `w_<id>` and the `k`-th layout entry the `I` `w_<id>` of the `k`-th panel,
and the widget's `PanelType` is the entry of the rule map for the lower-cased panel
type, or the default panel type when that entry is missing or empty. -/
theorem GrafanaToSigNoz_widgets (env : Env) (u : Unicode) (ids : Nat → Str)
    (g : GrafanaDashboard) (rules0 : Option Rules) :
    ∃ d ps, GrafanaToSigNoz env u ids g rules0 = some d ∧
      d.Version = "v4".toList ∧ d.Title ≠ [] ∧
      d.Widgets.length = g.Panels.length ∧ d.Layout.length = g.Panels.length ∧
      ps = sortStable panelLess g.Panels ∧ ps.Perm g.Panels ∧
      d.Widgets.map (fun w => w.ID) = ps.map (fun p => "w_".toList ++ formatInt p.ID) ∧
      d.Layout.map (fun l => l.I) = ps.map (fun p => "w_".toList ++ formatInt p.ID) ∧
      d.Widgets.map (fun w => w.PanelType) =
        ps.map (fun p =>
          match (rules0.getD DefaultRules).PanelTypeMap.lookup (toLower u p.Typ) with
          | some mapped => if mapped = [] then (rules0.getD DefaultRules).DefaultPanel else mapped
          | none => (rules0.getD DefaultRules).DefaultPanel) := by
  have hr : (match rules0 with | some r => r | none => DefaultRules) =
      rules0.getD DefaultRules := by
    cases rules0 <;> rfl
  obtain ⟨out, ho, h1, h2⟩ := widgetLoop_total env u ids (rules0.getD DefaultRules)
    (sortStable panelLess g.Panels) (2 * g.Templating.length) 0 0 0 [] []
  have hperm := sortStable_perm panelLess g.Panels
  simp only [List.map_nil, List.nil_append] at h1 h2
  have hid : out.1.map (fun w => w.ID) =
      (sortStable panelLess g.Panels).map (fun p => "w_".toList ++ formatInt p.ID) := by
    have := congrArg (List.map Prod.fst) h1
    simpa [List.map_map, Function.comp_def] using this
  have hpt : out.1.map (fun w => w.PanelType) =
      (sortStable panelLess g.Panels).map (fun p => mapPanelType u (rules0.getD DefaultRules) p) := by
    have := congrArg (List.map Prod.snd) h1
    simpa [List.map_map, Function.comp_def] using this
  have hg : GrafanaToSigNoz env u ids g rules0 = some {
      Title := nonEmpty g.Title "Migrated Grafana Dashboard".toList,
      UUID := [],
      Version := "v4".toList,
      Tags := ["migrated".toList, "grafana".toList],
      Layout := out.2,
      Widgets := out.1,
      Variables := buildVariables u ids g,
      PanelMap := [],
      UploadedGrafana := false,
      Description := "Converted from Grafana dashboard JSON".toList } := by
    simp only [GrafanaToSigNoz, hr, ho, Option.bind_eq_bind, Option.some_bind]
  refine ⟨_, sortStable panelLess g.Panels, hg, rfl, nonEmpty_ne_nil _ _ (by decide), ?_, ?_,
    rfl, hperm, hid, h2, hpt⟩
  · have := congrArg List.length hid
    simpa [hperm.length_eq] using this
  · have := congrArg List.length h2
    simpa [hperm.length_eq] using this

/-- C19 on a dashboard with the two panels `7` of type `Stat` and `3` of the
unknown type `foo`, under nil rules and ASCII-only case tables: the widgets are
`w_3` of type `graph` and `w_7` of type `value`. -/
theorem GrafanaToSigNoz_widgets_witness :
    ∃ d, GrafanaToSigNoz plainEnv ⟨id, id, id, fun _ => false, fun _ => false, fun _ => false⟩
        (fun _ => []) { Panels := [{ ID := 7, Typ := "Stat".toList },
                                   { ID := 3, Typ := "foo".toList }] } none = some d ∧
      d.Version = "v4".toList ∧
      d.Widgets.map (fun w => w.ID) = ["w_3".toList, "w_7".toList] ∧
      d.Layout.map (fun l => l.I) = ["w_3".toList, "w_7".toList] ∧
      d.Widgets.map (fun w => w.PanelType) = ["graph".toList, "value".toList] := by
  obtain ⟨d, ps, hd, hv, -, -, -, hps, -, hid, hl, hpt⟩ := GrafanaToSigNoz_widgets plainEnv
    ⟨id, id, id, fun _ => false, fun _ => false, fun _ => false⟩ (fun _ => [])
    { Panels := [{ ID := 7, Typ := "Stat".toList }, { ID := 3, Typ := "foo".toList }] } none
  have e : ps = [{ ID := 3, Typ := "foo".toList }, { ID := 7, Typ := "Stat".toList }] := by
    rw [hps]
    decide!
  subst e
  exact ⟨d, hd, hv, hid.trans (by decide!), hl.trans (by decide!), hpt.trans (by decide!)⟩

/-- C21, as stated, fails at its own example `a + b * 100`: the first operator at
depth 0 is the `+` at index 2, with no numeric literal on either side, yet the
string is not returned unchanged; the scan goes on to the `*` at index 6, whose
right side `100` is numeric, and returns the left side `a + b`. -/
theorem stripArithmetic_second_operator :
    topLevelOp "a + b * 100".toList 2 = true ∧
    (∀ j, j < 2 → topLevelOp "a + b * 100".toList j = false) ∧
    isNumber (trimSpace ("a + b * 100".toList.drop 3)) = false ∧
    isNumber (trimSpace ("a + b * 100".toList.take 2)) = false ∧
    stripArithmetic "a + b * 100".toList = some "a + b".toList ∧
    stripArithmetic "a + b * 100".toList ≠ some "a + b * 100".toList := by
  decide

/-- C21, amended: for every string `s`, `stripArithmetic` is governed by the first
index that holds one of `* / + -` at parenthesis depth 0 with a numeric literal on
one of its sides: if the text to its right is a numeric literal the result is the
paren-stripped left side, else the paren-stripped right side; operators at depth 0
before it, with no numeric side, are passed over.  When no index governs, in
particular when there is no operator at depth 0, `s` is returned unchanged. -/
theorem stripArithmetic_governed (s : Str) :
    ((∀ i, i < s.length → governs s i = false) → stripArithmetic s = some s) ∧
    ((∀ i, i < s.length → topLevelOp s i = false) → stripArithmetic s = some s) ∧
    (∀ i, governs s i = true → (∀ j, j < i → governs s j = false) →
      ∃ r, stripArithmetic s = some r ∧
        (if isNumber (trimSpace (s.drop (i + 1))) = true then
          stripOuterParens (trimSpace (s.take i))
        else stripOuterParens (trimSpace (s.drop (i + 1)))) = some r) := by
  obtain ⟨hA, hB⟩ := stripArithLoop_spec s s [] rfl
  have hall : (∀ i, i < s.length → governs s i = false) → stripArithmetic s = some s := by
    intro h
    apply hA
    intro j _
    by_cases hj : j < s.length
    · exact h j hj
    · exact governs_of_length_le s j (by omega)
  refine ⟨hall, ?_, ?_⟩
  · intro h
    apply hall
    intro i hi
    have := h i hi
    unfold topLevelOp at this
    unfold governs
    cases hc : s[i]? with
    | none => rfl
    | some o =>
      rw [hc] at this
      have h2 : (isArithOp o && depthAfter (List.take i s) == 0) = false := this
      simp only [h2, Bool.false_and]
  · intro i hg hfirst
    obtain ⟨r, hr, -⟩ := stripArithmetic_total s
    exact ⟨r, hr, (hB i (Nat.zero_le _) hg (fun j _ hji => hfirst j hji)).symm.trans hr⟩

/-- C21, amended, at `a + b * 100` (the `*` at index 6 governs, the result is
`a + b`) and at `a + b`, where no index governs. -/
theorem stripArithmetic_governed_witness :
    (governs "a + b * 100".toList 6 = true ∧
      (∀ j, j < 6 → governs "a + b * 100".toList j = false) ∧
      (∀ i, i < "a + b".toList.length → governs "a + b".toList i = false)) ∧
    (∃ r, stripArithmetic "a + b * 100".toList = some r ∧
      (if isNumber (trimSpace ("a + b * 100".toList.drop (6 + 1))) = true then
        stripOuterParens (trimSpace ("a + b * 100".toList.take 6))
      else stripOuterParens (trimSpace ("a + b * 100".toList.drop (6 + 1)))) = some r) ∧
    stripArithmetic "a + b".toList = some "a + b".toList :=
  ⟨⟨by decide, by decide, by decide⟩,
   (stripArithmetic_governed "a + b * 100".toList).2.2 6 (by decide) (by decide),
   (stripArithmetic_governed "a + b".toList).1 (by decide)⟩

/-- C22, as stated, fails twice.  A value with a newline and no double quote is not
returned: the entry `a="x<newline>y"` is dropped.  And an entry that is not of the form
`key op "value"` can affect its neighbour: the entry `a="x`, with one double quote, is not
dropped and swallows the entry `b="y"` after it. -/
theorem parseLabelSet_newline_value :
    parseLabelSet ('{' :: ("a=".toList ++ ['"'] ++ ['x', '\n', 'y'] ++ ['"']) ++ ['}']) = some [] ∧
    parseLabelSet ('{' :: joinComma ["a=".toList ++ ['"', 'x'],
        "b=".toList ++ ['"', 'y', '"']] ++ ['}']) =
      some [⟨"a".toList, "=".toList, "x,b=".toList ++ ['"', 'y']⟩] := by
  decide!

/-- C22, amended: for every list of entries, each either `k s1 op s2 "v"` with `k` a label
name, `op` one of `=`, `!=`, `=~`, `!~`, `s1` and `s2` blanks (possibly none) and `v` a value
without double quote and without newline (commas allowed), or a text whose double quotes
are paired with no comma outside them and which, trimmed, is not of the form
`key op "value"`, `parseLabelSet` applied to the entries joined by commas between braces
returns exactly the matchers `(k, op, v)` of the entries of the first kind, in source order,
duplicate keys kept and the operator whole; the entries of the second kind are dropped
and leave the others as they are. -/
theorem parseLabelSet_entries (items : List LabelItem) (hok : ∀ it ∈ items, it.ok) :
    parseLabelSet ('{' :: (joinComma (items.map LabelItem.text) ++ ['}'])) =
      some (items.filterMap LabelItem.matcher) := by
  rw [parseLabelSet_braces, parseLabelParts_eq, splitCSV, splitCSVLoop_items items hok,
    List.nil_append, List.nil_append, filterMap_csvParts items hok]

/-- C22, amended, at `job=~"a,b|c",a=b,1b="y",job != "x y",c=="z",le=""`: the entries
`a=b`, `1b="y"` and `c=="z"` are not of the form `key op "value"` and are dropped, the
other three give their matchers, the key `job` twice. -/
theorem parseLabelSet_entries_witness :
    (∀ it ∈ [LabelItem.good "job".toList [] "=~".toList [] "a,b|c".toList,
        LabelItem.bad "a=b".toList,
        LabelItem.bad ("1b=".toList ++ ['"', 'y', '"']),
        LabelItem.good "job".toList [' '] "!=".toList [' '] "x y".toList,
        LabelItem.bad ("c==".toList ++ ['"', 'z', '"']),
        LabelItem.good "le".toList [] "=".toList [] []], it.ok) ∧
    parseLabelSet ('{' :: ("job=~".toList ++ ['"'] ++ "a,b|c".toList ++ ['"'] ++
        ",a=b,1b=".toList ++ ['"', 'y', '"'] ++ ",job != ".toList
        ++ ['"'] ++ "x y".toList ++ ['"'] ++ ",c==".toList ++ ['"', 'z', '"'] ++
        ",le=".toList ++ ['"', '"']) ++ ['}']) =
      some [⟨"job".toList, "=~".toList, "a,b|c".toList⟩, ⟨"job".toList, "!=".toList, "x y".toList⟩,
        ⟨"le".toList, "=".toList, []⟩] := by
  have hok : ∀ it ∈ [LabelItem.good "job".toList [] "=~".toList [] "a,b|c".toList,
        LabelItem.bad "a=b".toList,
        LabelItem.bad ("1b=".toList ++ ['"', 'y', '"']),
        LabelItem.good "job".toList [' '] "!=".toList [' '] "x y".toList,
        LabelItem.bad ("c==".toList ++ ['"', 'z', '"']),
        LabelItem.good "le".toList [] "=".toList [] []], it.ok := by
    intro it hit
    simp only [List.mem_cons, List.mem_singleton, List.not_mem_nil, or_false] at hit
    rcases hit with rfl | rfl | rfl | rfl | rfl | rfl
    · simp only [LabelItem.ok]; decide
    · exact ⟨by decide, fun h => absurd (by decide!) ((entryForm_iff _).mp h)⟩
    · exact ⟨by decide, fun h => absurd (by decide!) ((entryForm_iff _).mp h)⟩
    · simp only [LabelItem.ok]; decide
    · exact ⟨by decide, fun h => absurd (by decide!) ((entryForm_iff _).mp h)⟩
    · simp only [LabelItem.ok]; decide
  exact ⟨hok, parseLabelSet_entries _ hok⟩

/-- C23, as stated, fails at `()`: the input holds characters that are not white
space, `stripOuterParens` leaves the empty string, and the record returned is the
fallback with an empty `Metric`. -/
theorem parsePromQL_empty_metric :
    (∃ c ∈ "()".toList, isUnicodeSpace c = false) ∧
    stripOuterParens (trimSpace "()".toList) = some [] ∧
    parsePromQL "()".toList = some { Metric := [] } := by
  decide!

/-- C23, amended: for every input, with `e` the expression after trimming and the
stripping of outer parentheses and of scalar arithmetic, `parsePromQL` returns a
record `p`.  When `e` has none of the wrapper shapes (comparison, offset,
`histogram_quantile`, aggregation), `p.Metric` is empty exactly when `e` is empty;
when `e` has a wrapper shape, `p.Metric` is the `Metric` of the record parsed from
the wrapped expression `wrappedExpr e`, the strictly shorter string that the code hands
to its recursive call. -/
theorem parsePromQL_metric (expr : Str) :
    ∃ e p, (stripOuterParens (trimSpace expr)).bind stripArithmetic = some e ∧
      parsePromQL expr = some p ∧
      (wrappedExpr e = none → (p.Metric = [] ↔ e = [])) ∧
      (∀ x, wrappedExpr e = some x →
        x.length < e.length ∧ ∃ pin, parsePromQL x = some pin ∧ p.Metric = pin.Metric) := by
  obtain ⟨e, p, he, -, hp, hcase⟩ := parsePromQL_cases expr
  refine ⟨e, p, he, hp, ?_, ?_⟩
  · intro hnw
    rcases hcase with ⟨-, x, f, pin, hwx, -⟩ | ⟨-, -, hl⟩
    · rw [hwx] at hnw
      exact absurd hnw (by simp)
    · exact leaf_metric e p hl
  · intro y hy
    rcases hcase with ⟨-, x, f, pin, hwx, hx, hf, hpin, rfl⟩ | ⟨-, hwn, -⟩
    · rw [hwx] at hy
      cases hy
      exact ⟨hx, pin, hpin, wrap_metric f pin hf⟩
    · rw [hwn] at hy
      exact absurd hy (by simp)

/-- C23, amended, at `up` (no wrapper shape, `Metric = up`), at `up > 1` (a comparison
that wraps `up`, `Metric = up`) and at `() > 1` (a comparison that wraps `()`, whose
`Metric` is empty). -/
theorem parsePromQL_metric_witness :
    (∃ p, parsePromQL "up".toList = some p ∧ p.Metric ≠ []) ∧
    (wrappedExpr "up".toList = none ∧ wrappedExpr "up > 1".toList = some "up".toList ∧
      wrappedExpr "() > 1".toList = some "()".toList) ∧
    parsePromQL "up > 1".toList =
      some { Metric := "up".toList, CmpOp := ">".toList, CmpRight := "1".toList } ∧
    parsePromQL "() > 1".toList =
      some { Metric := [], CmpOp := ">".toList, CmpRight := "1".toList } := by
  refine ⟨?_, by decide!, by decide!, by decide!⟩
  obtain ⟨e, p, he, hp, h1, -⟩ := parsePromQL_metric "up".toList
  have h0 : (stripOuterParens (trimSpace "up".toList)).bind stripArithmetic =
      some "up".toList := by decide!
  rw [h0] at he
  cases he
  refine ⟨p, hp, ?_⟩
  intro hm
  exact absurd ((h1 (by decide!)).mp hm) (by decide)

/-- C27: for every input, the record that `parsePromQL` returns has `Func` among the
empty string, `rate`, `irate`, `increase` and `histogram_quantile`; `Agg` among the
empty string, `sum`, `avg`, `min`, `max` and `count`; the `Op` of every label matcher
among `=`, `!=`, `=~` and `!~`; `CmpOp` among the empty string and the six comparison
operators, empty exactly when `CmpRight` is empty; `CmpIsBool` set only when `CmpOp`
is not empty; `Quantile` not empty exactly when `Func` is `histogram_quantile`; and
`InnerFunc` not empty only when `Func` is `histogram_quantile`. -/
theorem parsePromQL_well_formed (expr : Str) :
    ∃ p, parsePromQL expr = some p ∧
      p.Func ∈ [[], "rate".toList, "irate".toList, "increase".toList,
        "histogram_quantile".toList] ∧
      p.Agg ∈ [[], "sum".toList, "avg".toList, "min".toList, "max".toList, "count".toList] ∧
      (∀ l ∈ p.Labels, l.Op ∈ ["=".toList, "!=".toList, "=~".toList, "!~".toList]) ∧
      p.CmpOp ∈ [[], ">=".toList, "<=".toList, "==".toList, "!=".toList, ">".toList,
        "<".toList] ∧
      (p.CmpOp = [] ↔ p.CmpRight = []) ∧
      (p.CmpIsBool = true → p.CmpOp ≠ []) ∧
      (p.Quantile ≠ [] ↔ p.Func = "histogram_quantile".toList) ∧
      (p.InnerFunc ≠ [] → p.Func = "histogram_quantile".toList) := by
  obtain ⟨p, hp⟩ := parsePromQL_total expr
  refine ⟨p, hp, ?_⟩
  refine parsePromQL_induction
    (fun p =>
      p.Func ∈ [[], "rate".toList, "irate".toList, "increase".toList,
        "histogram_quantile".toList] ∧
      p.Agg ∈ [[], "sum".toList, "avg".toList, "min".toList, "max".toList, "count".toList] ∧
      (∀ l ∈ p.Labels, l.Op ∈ ["=".toList, "!=".toList, "=~".toList, "!~".toList]) ∧
      p.CmpOp ∈ [[], ">=".toList, "<=".toList, "==".toList, "!=".toList, ">".toList,
        "<".toList] ∧
      (p.CmpOp = [] ↔ p.CmpRight = []) ∧
      (p.CmpIsBool = true → p.CmpOp ≠ []) ∧
      (p.Quantile ≠ [] ↔ p.Func = "histogram_quantile".toList) ∧
      (p.InnerFunc ≠ [] → p.Func = "histogram_quantile".toList))
    ?_ ?_ expr.length expr p (le_refl _) hp
  · intro e q hl
    cases hl with
    | fn f m ls rng he hf hm hls =>
      have hfm : f ∈ [[], "rate".toList, "irate".toList, "increase".toList,
          "histogram_quantile".toList] := by
        simp only [List.mem_cons, List.mem_singleton, List.not_mem_nil, or_false] at hf ⊢
        tauto
      refine ⟨hfm, by simp, ?_, by simp, by simp, by simp, ?_, by simp⟩
      · intro l hl
        have := hls l hl
        simp only [List.mem_cons, List.mem_singleton, List.not_mem_nil, or_false] at this ⊢
        tauto
      · have hne : f ≠ "histogram_quantile".toList := by
          rintro rfl
          exact absurd hf (by decide)
        exact ⟨fun h => absurd rfl h, fun h => absurd h hne⟩
    | simple m ls rng he hm hls =>
      refine ⟨by simp, by simp, ?_, by simp, by simp, by simp, by simp, by simp⟩
      intro l hl
      have := hls l hl
      simp only [List.mem_cons, List.mem_singleton, List.not_mem_nil, or_false] at this ⊢
      tauto
    | fallback => simp
  · intro f p hf ⟨h1, h2, h3, h4, h5, h6, h7, h8⟩
    cases hf with
    | cmp op n b hop hn =>
      have hne : op ≠ [] := by
        rintro rfl
        exact absurd hop (by decide)
      exact ⟨h1, h2, h3, List.mem_cons_of_mem _ hop,
        ⟨fun h => absurd h hne, fun h => absurd h hn⟩, fun _ => hne, h7, h8⟩
    | offset off => exact ⟨h1, h2, h3, h4, h5, h6, h7, h8⟩
    | hist q hq =>
      simp only
      split_ifs <;>
        exact ⟨by simp, h2, h3, h4, h5, h6, ⟨fun _ => rfl, fun _ => hq⟩, fun _ => rfl⟩
    | agg a by1 ha =>
      simp only
      split_ifs <;> exact ⟨h1, List.mem_cons_of_mem _ ha, h3, h4, h5, h6, h7, h8⟩

/-- C24 at a `histogram_quantile` call wrapped in an aggregation with its own `by`
clause: `sum by (job) (histogram_quantile(0.9, rate(x_bucket[5m])))` parses to a
record with `Func = histogram_quantile` whose `By` is `[job]`, without `le`; the
`by` clause of the outer aggregation replaces the list that the inner call had
completed with `le`, as the parse of the inner call shows. -/
theorem parsePromQL_hist_in_agg_by :
    parsePromQL "histogram_quantile(0.9, rate(x_bucket[5m]))".toList =
      some { Metric := "x_bucket".toList, Func := "histogram_quantile".toList,
             InnerFunc := "rate".toList, Range := "[5m]".toList, By := ["le".toList],
             Quantile := "0.9".toList } ∧
    parsePromQL "sum by (job) (histogram_quantile(0.9, rate(x_bucket[5m])))".toList =
      some { Metric := "x_bucket".toList, Func := "histogram_quantile".toList,
             InnerFunc := "rate".toList, Range := "[5m]".toList, Agg := "sum".toList,
             By := ["job".toList], Quantile := "0.9".toList } ∧
    contains ["job".toList] "le".toList = false := by
  decide!

/-- C28 at the two targets with the expressions ` ` (one space) and `up`: the query
has one `queryData` item and one `promql` entry, both for the second target, but two
`_grafanaExprs` entries, the first of them the white-space expression. -/
theorem makeSigNozQueryFromTargets_lengths_differ :
    ∃ q, makeSigNozQueryFromTargets plainEnv
        [{ RefID := "A".toList, Expr := " ".toList }, { RefID := "B".toList, Expr := "up".toList }]
        DefaultRules = some q ∧
      q.queryData.length = 1 ∧ q.promql.length = 1 ∧ q.grafanaExprs.length = 2 ∧
      q.queryData.map (fun i => i.queryName) = ["B".toList] ∧
      q.promql.map (fun r => r.query) = ["up".toList] ∧
      q.grafanaExprs = [" ".toList, "up".toList] := by
  have h : (makeSigNozQueryFromTargets plainEnv
        [{ RefID := "A".toList, Expr := " ".toList }, { RefID := "B".toList, Expr := "up".toList }]
        DefaultRules).isSome = true := by decide!
  obtain ⟨q, hq⟩ := Option.isSome_iff_exists.mp h
  refine ⟨q, hq, ?_⟩
  have e : ∀ g : SigNozQuery → Bool,
      (makeSigNozQueryFromTargets plainEnv
        [{ RefID := "A".toList, Expr := " ".toList }, { RefID := "B".toList, Expr := "up".toList }]
        DefaultRules).all g = true → g q = true := by
    intro g hg
    rw [hq] at hg
    exact hg
  have := e (fun q => decide (q.queryData.length = 1 ∧ q.promql.length = 1 ∧
      q.grafanaExprs.length = 2 ∧ q.queryData.map (fun i => i.queryName) = ["B".toList] ∧
      q.promql.map (fun r => r.query) = ["up".toList] ∧
      q.grafanaExprs = [" ".toList, "up".toList])) (by decide!)
  exact of_decide_eq_true this

/-- C25: for every record `p` and legend, whatever the order in which the keys of
the map are ranged over (each key once), the keys returned by `buildGroupBy` are,
each exactly once: the `By` labels of `p` and the names of the `{{name}}`
placeholders of the legend when there is at least one of them, and otherwise the
keys of the label matchers of `p` whose value contains `$` or `{{`; so no key of a
label matcher is added when `By` or the legend contributes a label. -/
theorem buildGroupBy_key_set (mapOrder : List Str → List Str)
    (hperm : ∀ ks, (mapOrder ks).Perm ks) (p : promQL) (legend : Str) :
    ((buildGroupBy mapOrder p legend).map fun t => t.key).Nodup ∧
    (buildGroupBy mapOrder p legend) =
      ((buildGroupBy mapOrder p legend).map fun t => t.key).map tagKey ∧
    (p.By ≠ [] ∨ legendPlaceholders legend ≠ [] →
      ∀ k, k ∈ ((buildGroupBy mapOrder p legend).map fun t => t.key) ↔
        k ∈ p.By ∨ k ∈ legendPlaceholders legend) ∧
    (p.By = [] → legendPlaceholders legend = [] →
      ∀ k, k ∈ ((buildGroupBy mapOrder p legend).map fun t => t.key) ↔
        ∃ m ∈ p.Labels,
          (containsStr m.Value "$".toList = true ∨
            containsStr m.Value "\x7b\x7b".toList = true) ∧ m.Key = k) := by
  rw [buildGroupBy_keys]
  refine ⟨(hperm _).nodup_iff.mpr (groupByLabels_nodup p legend), rfl, ?_, ?_⟩
  · intro h k
    rw [(hperm _).mem_iff, mem_groupByLabels, if_pos h]
  · intro h1 h2 k
    rw [(hperm _).mem_iff, mem_groupByLabels, if_neg (by simp [h1, h2])]
    simp [looksLikeTemplate]

/-- C25 in the order of insertion, on the record with `By = [a, a]` and a matcher
`job=~"$j"`: with the legend `{{b}} {{a}}` the keys are `a`, `b`; with an empty `By`
and an empty legend the key is `job`. -/
theorem buildGroupBy_key_set_witness :
    (∀ ks : List Str, (plainEnv.mapOrder ks).Perm ks) ∧
    (buildGroupBy plainEnv.mapOrder
        { By := ["a".toList, "a".toList],
          Labels := [⟨"job".toList, "=~".toList, "$j".toList⟩] }
        "\x7b\x7bb\x7d\x7d \x7b\x7ba\x7d\x7d".toList).map (fun t => t.key) =
      ["a".toList, "b".toList] ∧
    (buildGroupBy plainEnv.mapOrder
        { Labels := [⟨"job".toList, "=~".toList, "$j".toList⟩] } []).map (fun t => t.key) =
      ["job".toList] ∧
    ((buildGroupBy plainEnv.mapOrder
        { By := ["a".toList, "a".toList],
          Labels := [⟨"job".toList, "=~".toList, "$j".toList⟩] }
        "\x7b\x7bb\x7d\x7d \x7b\x7ba\x7d\x7d".toList).map fun t => t.key).Nodup :=
  ⟨fun ks => List.Perm.refl ks, by decide!, by decide!,
   (buildGroupBy_key_set plainEnv.mapOrder (fun ks => List.Perm.refl ks)
      { By := ["a".toList, "a".toList], Labels := [⟨"job".toList, "=~".toList, "$j".toList⟩] }
      "\x7b\x7bb\x7d\x7d \x7b\x7ba\x7d\x7d".toList).1⟩

/-- C26, as stated, fails: the keys are ranged over as a Go map yields them, and for
`By = [a, b]` the enumeration in reverse order, which yields each key once, gives the
sequence `b`, `a`, not the sequence `a`, `b` of first insertion that the enumeration in
order of insertion gives. -/
theorem buildGroupBy_order_differs :
    (∀ ks : List Str, (List.reverse ks).Perm ks) ∧
    groupByLabels { By := ["a".toList, "b".toList] } [] = ["a".toList, "b".toList] ∧
    (buildGroupBy List.reverse { By := ["a".toList, "b".toList] } []).map (fun t => t.key) =
      ["b".toList, "a".toList] ∧
    (buildGroupBy (fun ks => ks) { By := ["a".toList, "b".toList] } []).map (fun t => t.key) =
      ["a".toList, "b".toList] ∧
    buildGroupBy List.reverse { By := ["a".toList, "b".toList] } [] ≠
      buildGroupBy (fun ks => ks) { By := ["a".toList, "b".toList] } [] :=
  ⟨fun ks => List.reverse_perm ks, by decide!, by decide!, by decide!, by decide!⟩

/-- C26, amended: for the same record and legend `buildGroupBy` returns the same keys,
each once, in an order that the code does not fix.  Whatever the order in which the
keys of the map are ranged over, the sequence of keys is a permutation of the
ordered-unique sequence of first insertion (the `by` labels in source order, then
the legend placeholders not already present, when there is one of them), and two
runs return permutations of each other. -/
theorem buildGroupBy_perm (order1 order2 : List Str → List Str)
    (h1 : ∀ ks, (order1 ks).Perm ks) (h2 : ∀ ks, (order2 ks).Perm ks)
    (p : promQL) (legend : Str) :
    ((buildGroupBy order1 p legend).map fun t => t.key).Perm (groupByLabels p legend) ∧
    (groupByLabels p legend).Nodup ∧
    (p.By ≠ [] ∨ legendPlaceholders legend ≠ [] →
      groupByLabels p legend = (p.By ++ legendPlaceholders legend).foldl mapInsert []) ∧
    (buildGroupBy order1 p legend).Perm (buildGroupBy order2 p legend) ∧
    (order1 (groupByLabels p legend) = order2 (groupByLabels p legend) →
      buildGroupBy order1 p legend = buildGroupBy order2 p legend) := by
  refine ⟨by rw [buildGroupBy_keys]; exact h1 _, groupByLabels_nodup p legend,
    groupByLabels_of_ne p legend, ?_, ?_⟩
  · unfold buildGroupBy
    exact List.Perm.map _ ((h1 _).trans (h2 _).symm)
  · intro h
    unfold buildGroupBy
    rw [h]

/-- C26, amended, for the enumerations in order of insertion and in reverse order on
`By = [a, b]` with the legend `{{c}} {{a}}`. -/
theorem buildGroupBy_perm_witness :
    ((∀ ks : List Str, (ks).Perm ks) ∧ (∀ ks : List Str, (List.reverse ks).Perm ks)) ∧
    groupByLabels { By := ["a".toList, "b".toList] } "\x7b\x7bc\x7d\x7d \x7b\x7ba\x7d\x7d".toList =
      ["a".toList, "b".toList, "c".toList] ∧
    (buildGroupBy (fun ks => ks) { By := ["a".toList, "b".toList] }
        "\x7b\x7bc\x7d\x7d \x7b\x7ba\x7d\x7d".toList).Perm
      (buildGroupBy List.reverse { By := ["a".toList, "b".toList] }
        "\x7b\x7bc\x7d\x7d \x7b\x7ba\x7d\x7d".toList) :=
  ⟨⟨fun ks => List.Perm.refl ks, fun ks => List.reverse_perm ks⟩, by decide!,
   (buildGroupBy_perm (fun ks => ks) List.reverse (fun ks => List.Perm.refl ks)
      (fun ks => List.reverse_perm ks) { By := ["a".toList, "b".toList] }
      "\x7b\x7bc\x7d\x7d \x7b\x7ba\x7d\x7d".toList).2.2.2.1⟩

/-- C29: for every Grafana dashboard with at least one panel and pairwise distinct
panel ids, under the default rules or nil rules, `GrafanaToSigNoz` returns a dashboard
on which `ValidateSigNozDashboard` returns no error. -/
theorem GrafanaToSigNoz_valid (env : Env) (u : Unicode) (ids : Nat → Str)
    (g : GrafanaDashboard) (rules0 : Option Rules)
    (hr : rules0 = none ∨ rules0 = some DefaultRules) (hne : g.Panels ≠ [])
    (hd : (g.Panels.map fun p => p.ID).Nodup) :
    ∃ d, GrafanaToSigNoz env u ids g rules0 = some d ∧ ValidateSigNozDashboard d = [] := by
  have hrules : rules0.getD DefaultRules = DefaultRules := by
    rcases hr with rfl | rfl <;> rfl
  obtain ⟨out, ho, hg⟩ := GrafanaToSigNoz_eq env u ids g rules0
  obtain ⟨out', ho', h1, h2⟩ := widgetLoop_fields env u ids (rules0.getD DefaultRules)
    (sortStable panelLess g.Panels) (2 * g.Templating.length) 0 0 0 [] []
  rw [ho] at ho'
  cases ho'
  rw [hrules] at h1 h2
  simp only [List.map_nil, List.nil_append] at h1 h2
  have hperm := sortStable_perm panelLess g.Panels
  have hlen : out.1.length = g.Panels.length := by
    have := congrArg List.length h1
    simpa [hperm.length_eq] using this
  have hids : out.1.map (fun w => w.ID) =
      (sortStable panelLess g.Panels).map (fun p => "w_".toList ++ formatInt p.ID) := by
    have := congrArg (List.map fun x => x.1) h1
    simpa [List.map_map, Function.comp_def] using this
  refine ⟨_, hg, validate_accepts _ (nonEmpty_ne_nil _ _ (by decide)) ?_ ?_ ?_ ?_⟩
  · intro e
    simp only at e
    rw [e] at hlen
    exact hne (List.length_eq_zero.mp hlen.symm)
  · intro w hw
    have hmem : (w.ID, w.Title, w.PanelType, w.TimePreference) ∈
        out.1.map (fun w => (w.ID, w.Title, w.PanelType, w.TimePreference)) :=
      List.mem_map_of_mem _ hw
    rw [h1] at hmem
    obtain ⟨p, -, hp⟩ := List.mem_map.mp hmem
    simp only [Prod.mk.injEq] at hp
    obtain ⟨e1, e2, e3, e4⟩ := hp
    obtain ⟨hs, hn⟩ := mapPanelType_default u p
    refine ⟨?_, ?_, ?_, ?_⟩
    · rw [← e1]; simp
    · rw [← e2]; exact nonEmpty_title_ne_nil u _ _ hn
    · rw [← e3]; exact hs
    · rw [← e4]; decide
  · show (out.1.map fun w => w.ID).Nodup
    rw [hids]
    have hnd : ((sortStable panelLess g.Panels).map fun p => p.ID).Nodup :=
      (hperm.map _).nodup_iff.mpr hd
    have : (sortStable panelLess g.Panels).map (fun p => "w_".toList ++ formatInt p.ID) =
        ((sortStable panelLess g.Panels).map fun p => p.ID).map
          (fun i => "w_".toList ++ formatInt i) := by
      rw [List.map_map]; rfl
    rw [this]
    apply List.Nodup.map _ hnd
    intro a b hab
    exact formatInt_injective (List.append_cancel_left hab)
  · intro l hl
    have hmem : (l.I, l.W, l.H) ∈ out.2.map (fun l => (l.I, l.W, l.H)) :=
      List.mem_map_of_mem _ hl
    rw [h2] at hmem
    obtain ⟨p, hp0, hp⟩ := List.mem_map.mp hmem
    simp only [Prod.mk.injEq] at hp
    obtain ⟨e1, e2, e3⟩ := hp
    obtain ⟨hpw, hph⟩ := panelSize_pos DefaultRules p (by decide) (by decide)
    refine ⟨?_, ?_, ?_, ?_⟩
    · rw [← e1]; simp
    · show l.I ∈ out.1.map fun w => w.ID
      rw [hids, ← e1]
      exact List.mem_map_of_mem _ hp0
    · rw [← e2]; exact hpw
    · rw [← e3]; exact hph

/-- C29 on a dashboard with the two panels `7` of type `Stat` and `3` of the
unknown type `foo`, under nil rules and ASCII-only case tables. -/
theorem GrafanaToSigNoz_valid_witness :
    ((none : Option Rules) = none ∨ (none : Option Rules) = some DefaultRules) ∧
    ([{ ID := 7, Typ := "Stat".toList }, { ID := 3, Typ := "foo".toList }] :
      List GrafanaPanel) ≠ [] ∧
    (([{ ID := 7, Typ := "Stat".toList }, { ID := 3, Typ := "foo".toList }] :
      List GrafanaPanel).map fun p => p.ID).Nodup ∧
    ∃ d, GrafanaToSigNoz plainEnv ⟨id, id, id, fun _ => false, fun _ => false, fun _ => false⟩
        (fun _ => []) { Panels := [{ ID := 7, Typ := "Stat".toList },
                                   { ID := 3, Typ := "foo".toList }] } none = some d ∧
      ValidateSigNozDashboard d = [] :=
  ⟨Or.inl rfl, by simp, by decide,
   GrafanaToSigNoz_valid plainEnv ⟨id, id, id, fun _ => false, fun _ => false, fun _ => false⟩
     (fun _ => []) { Panels := [{ ID := 7, Typ := "Stat".toList },
                                { ID := 3, Typ := "foo".toList }] } none
     (Or.inl rfl) (by simp) (by decide)⟩

/-- C30, as stated, fails when a width is so large that a sum of the packing cursor
leaves the range of Go `int`: with the three panels of widths `2^63 - 1`, `6`, `6` in one
grid row and the default rules (positive default width and height), `curX + w` wraps
around at the second panel and the third entry is placed at the negative
`X = -9223372036854775803`. -/
theorem GrafanaToSigNoz_packing_overflow :
    (0 < DefaultRules.DefaultWidth ∧ 0 < DefaultRules.DefaultHeight) ∧
    ∃ d, GrafanaToSigNoz plainEnv ⟨id, id, id, fun _ => false, fun _ => false, fun _ => false⟩
        (fun _ => [])
        { Panels := [
            { ID := 1, GridPos := some { H := 1, W := 9223372036854775807, X := 0, Y := 0 } },
            { ID := 2, GridPos := some { H := 1, W := 6, X := 1, Y := 0 } },
            { ID := 3, GridPos := some { H := 1, W := 6, X := 2, Y := 0 } }] }
        (some DefaultRules) = some d ∧
      d.Layout.map (fun l => (l.X, l.Y, l.W, l.H)) =
        [(0, 0, 9223372036854775807, 1), (9223372036854775807, 0, 6, 1),
         (-9223372036854775803, 0, 6, 1)] ∧
      ¬ (∀ l ∈ d.Layout, 0 ≤ l.X) := by
  refine ⟨⟨by decide, by decide⟩, ?_⟩
  have h : (GrafanaToSigNoz plainEnv
        ⟨id, id, id, fun _ => false, fun _ => false, fun _ => false⟩ (fun _ => [])
        { Panels := [
            { ID := 1, GridPos := some { H := 1, W := 9223372036854775807, X := 0, Y := 0 } },
            { ID := 2, GridPos := some { H := 1, W := 6, X := 1, Y := 0 } },
            { ID := 3, GridPos := some { H := 1, W := 6, X := 2, Y := 0 } }] }
        (some DefaultRules)).isSome = true := by decide!
  obtain ⟨d, hd⟩ := Option.isSome_iff_exists.mp h
  have e : ∀ f : SigNozDashboard → Bool,
      (GrafanaToSigNoz plainEnv ⟨id, id, id, fun _ => false, fun _ => false, fun _ => false⟩
        (fun _ => [])
        { Panels := [
            { ID := 1, GridPos := some { H := 1, W := 9223372036854775807, X := 0, Y := 0 } },
            { ID := 2, GridPos := some { H := 1, W := 6, X := 1, Y := 0 } },
            { ID := 3, GridPos := some { H := 1, W := 6, X := 2, Y := 0 } }] }
        (some DefaultRules)).all f = true → f d = true := by
    intro f hf
    rw [hd] at hf
    exact hf
  have hl := of_decide_eq_true (e (fun d => decide (d.Layout.map (fun l => (l.X, l.Y, l.W, l.H)) =
    [(0, 0, 9223372036854775807, 1), (9223372036854775807, 0, 6, 1),
     (-9223372036854775803, 0, 6, 1)])) (by decide!))
  refine ⟨d, hd, hl, ?_⟩
  intro hall
  have hx : ∀ x ∈ d.Layout.map (fun l => (l.X, l.Y, l.W, l.H)), 0 ≤ x.1 := by
    intro x hx
    obtain ⟨l, hl1, rfl⟩ := List.mem_map.mp hx
    exact hall l hl1
  rw [hl] at hx
  exact absurd (hx (-9223372036854775803, 0, 6, 1) (by simp)) (by decide)

/-- C30, amended: for every dashboard and every rule set with positive default width and
height such that the widths and heights of the layout entries of all panels add up to less
than `2^63` (so that no sum of the packing cursor leaves the range of Go `int`), the layout
produced by `GrafanaToSigNoz` has `X ≥ 0` and `Y ≥ 0` for every entry, `X + W ≤ 24` for
every entry whose width is at most 24, and no two of its rectangles
`[X, X+W) x [Y, Y+H)` have a point in common. -/
theorem GrafanaToSigNoz_packing (env : Env) (u : Unicode) (ids : Nat → Str)
    (g : GrafanaDashboard) (rules : Rules)
    (hw : 0 < rules.DefaultWidth) (hh : 0 < rules.DefaultHeight)
    (hb : sizeSum rules g.Panels < 9223372036854775808) :
    ∃ d, GrafanaToSigNoz env u ids g (some rules) = some d ∧
      (∀ l ∈ d.Layout, 0 ≤ l.X ∧ 0 ≤ l.Y ∧ 0 < l.W ∧ 0 < l.H ∧ (l.W ≤ 24 → l.X + l.W ≤ 24)) ∧
      d.Layout.Pairwise (fun a b =>
        ∀ x y : Int, ¬ ((a.X ≤ x ∧ x < a.X + a.W ∧ a.Y ≤ y ∧ y < a.Y + a.H) ∧
          (b.X ≤ x ∧ x < b.X + b.W ∧ b.Y ≤ y ∧ y < b.Y + b.H))) := by
  obtain ⟨out, ho, hg⟩ := GrafanaToSigNoz_eq env u ids g (some rules)
  have h0 : Packed [] 0 0 0 := ⟨le_refl _, le_refl _, le_refl _, by simp⟩
  have hb0 : (0 : Int) + 0 + 0 + sizeSum rules (sortStable panelLess g.Panels) <
      9223372036854775808 := by
    rw [sizeSum_perm rules (sortStable_perm panelLess g.Panels)]
    omega
  obtain ⟨⟨x, y, r, hp⟩, hd⟩ := widgetLoop_packed env u ids rules hw hh _ _ _ _ _ _ _ h0
    List.Pairwise.nil hb0 out ho
  refine ⟨_, hg, ?_, hd⟩
  intro l hl
  obtain ⟨a1, a2, a3, a4, a5, -⟩ := hp.2.2.2 l hl
  exact ⟨a1, a2, a3, a4, a5⟩

/-- C30, amended, on six panels without grid position under the default sizes 6 x 6, in
the environment `plainEnv`: four entries fill the first row, the last two start the
second. -/
theorem GrafanaToSigNoz_packing_witness :
    (0 < DefaultRules.DefaultWidth ∧ 0 < DefaultRules.DefaultHeight ∧
      sizeSum DefaultRules [{ ID := 1 }, { ID := 2 }, { ID := 3 }, { ID := 4 }, { ID := 5 },
                     { ID := 6 }] < 9223372036854775808) ∧
    ∃ d, GrafanaToSigNoz plainEnv ⟨id, id, id, fun _ => false, fun _ => false, fun _ => false⟩
        (fun _ => [])
        { Panels := [{ ID := 1 }, { ID := 2 }, { ID := 3 }, { ID := 4 }, { ID := 5 },
                     { ID := 6 }] } (some DefaultRules) = some d ∧
      d.Layout.map (fun l => (l.X, l.Y, l.W, l.H)) =
        [(0, 0, 6, 6), (6, 0, 6, 6), (12, 0, 6, 6), (18, 0, 6, 6), (0, 6, 6, 6), (6, 6, 6, 6)] ∧
      d.Layout.Pairwise (fun a b =>
        ∀ x y : Int, ¬ ((a.X ≤ x ∧ x < a.X + a.W ∧ a.Y ≤ y ∧ y < a.Y + a.H) ∧
          (b.X ≤ x ∧ x < b.X + b.W ∧ b.Y ≤ y ∧ y < b.Y + b.H))) := by
  refine ⟨⟨by decide, by decide, by decide⟩, ?_⟩
  obtain ⟨d, hd, -, hp⟩ := GrafanaToSigNoz_packing plainEnv
    ⟨id, id, id, fun _ => false, fun _ => false, fun _ => false⟩ (fun _ => [])
    { Panels := [{ ID := 1 }, { ID := 2 }, { ID := 3 }, { ID := 4 }, { ID := 5 }, { ID := 6 }] }
    DefaultRules (by decide) (by decide) (by decide)
  refine ⟨d, hd, ?_, hp⟩
  have e : ∀ f : SigNozDashboard → Bool,
      (GrafanaToSigNoz plainEnv ⟨id, id, id, fun _ => false, fun _ => false, fun _ => false⟩
        (fun _ => [])
        { Panels := [{ ID := 1 }, { ID := 2 }, { ID := 3 }, { ID := 4 }, { ID := 5 },
                     { ID := 6 }] } (some DefaultRules)).all f = true → f d = true := by
    intro f hf
    rw [hd] at hf
    exact hf
  exact of_decide_eq_true (e (fun d => decide (d.Layout.map (fun l => (l.X, l.Y, l.W, l.H)) =
    [(0, 0, 6, 6), (6, 0, 6, 6), (12, 0, 6, 6), (18, 0, 6, 6), (0, 6, 6, 6), (6, 6, 6, 6)]))
    (by decide!))

end Grafana2Signoz
